import Mathlib

/-!
# Beam node (`node/node.cpp`): task scheduler and peer sessions

A shallow embedding of the orchestration layer of `Node`:

* objects that the C++ code links into intrusive containers (`Task`, `Peer`,
  `PeerInfoPlus`) live in heaps (`taskAt`, `peerAt`, `infoAt`); the containers
  hold their addresses.  A `Task` is addressed by its `m_Key`, which is what
  `m_setTasks.find` locates it by.
* code that can throw returns a `Res`: `ok` (normal return), `exc` (an
  exception propagates; the state is what the code had written so far) or
  `out` (the recursion budget of the embedding is exhausted).
* collaborators that are not part of `node.cpp` (hashing, the socket layer,
  the chain processor, the peer manager's rating arithmetic) are parameters,
  collected in `Env` or passed as arguments.
-/

namespace Beam

/-! ## Data model -/

abbrev PeerID := Nat
abbrev PeerRef := Nat
abbrev InfoRef := Nat
abbrev Channel := Nat

/-- The type `Block::SystemState::ID`. -/
structure StateID where
  m_Height : Nat
  m_Hash : Nat
deriving DecidableEq, Repr

/-- The key `Task::m_Key`, a `std::pair`: the state id, and `second`, true for
a block request. -/
structure TaskKey where
  first : StateID
  second : Bool
deriving DecidableEq, Repr

/-- A `Bbs::Subscription`: the channel it is keyed by in both indexes, and the
subscriber. -/
structure Subscription where
  m_Channel : Channel
  m_pPeer : PeerRef
deriving DecidableEq, Repr

/-- The type `Block::SystemState::Full`, as far as the node looks into it. -/
structure Full where
  m_Height : Nat
  m_ChainWork : Nat
  m_Rest : Nat
deriving DecidableEq, Repr

/-- The result of `ZeroObject` on a state description. -/
def Full.zero : Full := ⟨0, 0, 0⟩

/-- The fields of `Node::Task` besides the key. -/
structure Task where
  m_bRelevant : Bool
  m_bPack : Bool
  m_pOwner : Option PeerRef
deriving DecidableEq, Repr

/-- The bits of `Peer::Flags`, one field per bit. -/
structure Flags where
  Connected : Bool
  PiRcvd : Bool
  Owner : Bool
  ProvenWorkReq : Bool
  ProvenWork : Bool
  SyncPending : Bool
  DontSync : Bool
deriving DecidableEq, Repr

/-- The value `m_Flags = 0`. -/
def Flags.zero : Flags := ⟨false, false, false, false, false, false, false⟩

/-- The capabilities of `proto::Config` that the node reads. -/
structure PeerConfig where
  m_SpreadingTransactions : Bool
  m_Bbs : Bool
  m_SendPeers : Bool
deriving DecidableEq, Repr

/-- The type `Node::Peer`. -/
structure Peer where
  m_Tip : Full
  m_Flags : Flags
  m_Port : Nat
  m_RemoteAddr : Nat
  m_Config : PeerConfig
  m_pInfo : Option InfoRef
  m_lstTasks : List TaskKey
  m_setRejected : List TaskKey
  m_Subscriptions : List Channel
  m_Timer : Option Nat
deriving DecidableEq, Repr

/-- The type `PeerMan::PeerInfoPlus`. -/
structure PeerInfoPlus where
  m_ID : PeerID
  m_Addr : Nat
  m_RawRating : Nat
  m_Active : Bool
  m_pLive : Option PeerRef
deriving DecidableEq, Repr

/-- The type `Node::FirstTimeSync`. -/
structure FirstTimeSync where
  m_bDetecting : Bool
  m_RequestsPending : Nat
  m_Trg : StateID
  m_Best : Nat
  m_iData : Nat
  m_pTimer : Bool
deriving DecidableEq, Repr

/-- The codes of `ByeReason`; the argument `nByeReason = 0` is `none`. -/
inductive ByeReason where
  | Stopping | Ban | Loopback | Duplicate | Timeout | Other
deriving DecidableEq, Repr

/-- The type `Transaction`, as far as the node looks into it: the commitments
of the inputs and outputs, and the IDs (`TxKernel::get_ID`) of the kernels. -/
structure Transaction where
  m_vInputs : List Nat
  m_vOutputs : List Nat
  m_vKernelsOutput : List Nat
deriving DecidableEq, Repr

/-- The messages the embedded code sends. -/
inductive Msg where
  | Bye (reason : ByeReason)
  | GetBody (id : StateID)
  | GetHdr (id : StateID)
  | GetHdrPack (top : StateID) (count : Nat)
  | MacroblockGet (id : StateID) (data : Nat) (offset : Nat)
  | GetProofChainWork
  | BbsMsg (channel : Channel) (timePosted : Nat) (message : Nat)
  | BbsHaveMsg (key : Nat)
  | BbsGetMsg (key : Nat)
  | HaveTransaction (id : Nat)
  | GetTransaction (id : Nat)
  | NewTransaction (tx : Transaction) (fluff : Bool)
  | PeerInfo (id : PeerID) (lastAddr : Nat)
deriving DecidableEq, Repr

/-- The verdicts of `NodeProcessor::DataStatus`. -/
inductive DataStatus where
  | Accepted | Rejected | Invalid | Unreachable
deriving DecidableEq, Repr

/-- Calls that leave `node.cpp`, recorded in the order they are made. -/
inductive Event where
  | sent (p : PeerRef) (m : Msg)
  | onActive (i : InfoRef) (b : Bool)
  | onRemoteError (i : InfoRef) (ban : Bool)
  | onSeen (i : InfoRef)
  | modifyRating (i : InfoRef) (delta : Nat) (up : Bool)
  | onState (d : Full) (src : PeerID)
  | onBlock (id : StateID) (src : PeerID)
deriving DecidableEq, Repr

/-- The members of `Node` the embedded functions read or write. -/
structure Node where
  taskAt : TaskKey → Task
  m_setTasks : List TaskKey
  m_lstTasksUnassigned : List TaskKey
  m_nTasksPackHdr : Nat
  m_nTasksPackBody : Nat
  peerAt : PeerRef → Peer
  m_lstPeers : List PeerRef
  infoAt : InfoRef → PeerInfoPlus
  m_Infos : List InfoRef
  m_Subscribed : List Subscription
  m_pSync : Option FirstTimeSync
  m_CursorHeight : Nat
  m_MyPublicID : PeerID
  m_MyOwnerID : PeerID
  trace : List Event

/-- What the embedded code takes from outside `node.cpp`. -/
structure Env where
  get_Hash : Full → Nat
  sendOk : PeerRef → Msg → Bool
  g_HdrPackMaxSize : Nat
  m_GetState_ms : Nat
  m_GetBlock_ms : Nat
  macroblockOffset : Nat → Nat → Nat
  penalty : Nat → Nat
  modifyRating : Nat → Nat → Bool → Nat
  ratingInitial : Nat
  withPort : Nat → Nat → Nat
  RewardHeader : Nat
  RewardBlock : Nat
  PenaltyTimeout : Nat
  m_SrcPeers : Nat
  RW_count : Nat

/-- What ends a call before its return: `ThrowUnexpected` (a protocol
violation), a failed send, the `std::runtime_error` of a failed macroblock
import; and `freed`, which is no exception: the next statement of the call
would run on a peer object that `delete this` has already destroyed.  What the
program does from there is not defined, the call is stopped at that point. -/
inductive Exc where
  | unexpected | io | runtime | freed
deriving DecidableEq, Repr

/-- Outcome of a call that may throw. -/
inductive Res where
  | ok (s : Node)
  | exc (e : Exc) (s : Node)
  | out

/-- Sequencing: continue after a normal return only. -/
def Res.bind (r : Res) (f : Node → Res) : Res :=
  match r with
  | .ok s => f s
  | .exc e s => .exc e s
  | .out => .out

/-- Write through a `Peer&`. -/
def Node.setPeer (s : Node) (p : PeerRef) (f : Peer → Peer) : Node :=
  { s with peerAt := Function.update s.peerAt p (f (s.peerAt p)) }

/-- Write through a `Task&`. -/
def Node.setTask (s : Node) (t : TaskKey) (f : Task → Task) : Node :=
  { s with taskAt := Function.update s.taskAt t (f (s.taskAt t)) }

/-- Write through a `PeerInfoPlus&`. -/
def Node.setInfo (s : Node) (i : InfoRef) (f : PeerInfoPlus → PeerInfoPlus) : Node :=
  { s with infoAt := Function.update s.infoAt i (f (s.infoAt i)) }

/-- Append to the record of outgoing calls. -/
def Node.log (s : Node) (e : Event) : Node :=
  { s with trace := s.trace ++ [e] }

/-- The wrap-around decrement of a `uint32_t`. -/
def dec32 (n : Nat) : Nat := (n + (2 ^ 32 - 1)) % 2 ^ 32

/-- The wrap-around increment of a `uint32_t`. -/
def inc32 (n : Nat) : Nat := (n + 1) % 2 ^ 32

/-! ## Collaborators outside `node.cpp` -/

/-- Modelled from the spec: `NodeConnection::Send` is not in `node.cpp`; per the
spec a send either goes out or throws ("transient send failure"). -/
def Send (E : Env) (s : Node) (p : PeerRef) (m : Msg) : Res :=
  if E.sendOk p m then .ok (s.log (.sent p m)) else .exc .io s

/-- Modelled from the spec: `PeerManager::Find` with `bCreate = false` is not in
`node.cpp`; the peer manager offers "a lookup by ID". -/
def Find (s : Node) (id : PeerID) : Option InfoRef :=
  s.m_Infos.find? (fun i => (s.infoAt i).m_ID == id)

/-- Modelled from the spec: `PeerManager::OnActive` is not in `node.cpp`; it
records whether the entry is active. -/
def OnActive (s : Node) (i : InfoRef) (b : Bool) : Node :=
  (s.setInfo i (fun x => { x with m_Active := b })).log (.onActive i b)

/-- Modelled from the spec: `PeerManager::OnRemoteError` is not in `node.cpp`;
a ban stores rating 0, any other error applies the `RemoteError` penalty. -/
def OnRemoteError (E : Env) (s : Node) (i : InfoRef) (ban : Bool) : Node :=
  (s.setInfo i (fun x =>
    { x with m_RawRating := if ban then 0 else E.penalty x.m_RawRating })).log (.onRemoteError i ban)

/-! ## Task scheduler -/

/-- The function `Node::DeleteUnassignedTask`. -/
def DeleteUnassignedTask (s : Node) (t : TaskKey) : Node :=
  { s with
    m_lstTasksUnassigned := s.m_lstTasksUnassigned.erase t
    m_setTasks := s.m_setTasks.erase t }

/-- The function `Node::Peer::SetTimerWrtFirstTask`. -/
def SetTimerWrtFirstTask (E : Env) (s : Node) (p : PeerRef) : Node :=
  match (s.peerAt p).m_lstTasks with
  | [] => s.setPeer p (fun x => { x with m_Timer := none })
  | t :: _ =>
    s.setPeer p (fun x =>
      { x with m_Timer := some (if t.second then E.m_GetBlock_ms else E.m_GetState_ms) })

/-- The function `Node::ShouldAssignTask`. -/
def ShouldAssignTask (E : Env) (s : Node) (t : TaskKey) (p : PeerRef) : Bool :=
  let x := s.peerAt p
  if x.m_Tip.m_Height < t.first.m_Height then false
  else if x.m_Tip.m_Height = t.first.m_Height ∧ E.get_Hash x.m_Tip ≠ t.first.m_Hash then false
  else if !(x.m_Flags.PiRcvd && x.m_pInfo.isSome) then false
  else if x.m_lstTasks.any (fun k => k.second) then false
  else !(x.m_setRejected.contains t)

/-- The local `nPackSize` of `Node::AssignTask`. -/
def packSize (E : Env) (s : Node) (t : TaskKey) : Nat :=
  if t.first.m_Height > s.m_CursorHeight then
    let dh := t.first.m_Height - s.m_CursorHeight
    if dh ≥ 5 then (if E.g_HdrPackMaxSize > dh then dh else E.g_HdrPackMaxSize) else 0
  else 0

/-- The request part of `Node::AssignTask`: one message, and the pack mark. -/
def sendRequest (E : Env) (s : Node) (t : TaskKey) (p : PeerRef) : Res :=
  if t.second then Send E s p (.GetBody t.first)
  else if s.m_nTasksPackHdr = 0 ∧ packSize E s t ≠ 0 then
    (Send E s p (.GetHdrPack t.first (packSize E s t))).bind fun s1 =>
      .ok { s1.setTask t (fun x => { x with m_bPack := true }) with
            m_nTasksPackHdr := inc32 s1.m_nTasksPackHdr }
  else Send E s p (.GetHdr t.first)

/-- The list part of `Node::AssignTask`: owner, queue, peer list, timer. -/
def moveToPeer (E : Env) (s : Node) (t : TaskKey) (p : PeerRef) : Node :=
  let bEmpty := (s.peerAt p).m_lstTasks.isEmpty
  let s1 := s.setTask t (fun x => { x with m_pOwner := some p })
  let s2 := { s1 with m_lstTasksUnassigned := s1.m_lstTasksUnassigned.erase t }
  let s3 := s2.setPeer p (fun x => { x with m_lstTasks := x.m_lstTasks ++ [t] })
  if bEmpty then SetTimerWrtFirstTask E s3 p else s3

/-- The function `Node::AssignTask`. -/
def AssignTask (E : Env) (s : Node) (t : TaskKey) (p : PeerRef) : Res :=
  (sendRequest E s t p).bind fun s1 => .ok (moveToPeer E s1 t p)

/-- The preferred-peer lookup at the head of the loop of `Node::TryAssignTask`. -/
def preferredPeer (s : Node) (pPeerID : Option PeerID) : Option PeerRef :=
  match pPeerID with
  | none => none
  | some id =>
    match Find s id with
    | none => none
    | some i =>
      match (s.infoAt i).m_pLive with
      | none => none
      | some p => if (s.peerAt p).m_Flags.PiRcvd then some p else none

/-- The peer `pSel` of `Node::TryAssignTask`. -/
def selectPeer (E : Env) (s : Node) (t : TaskKey) (pPeerID : Option PeerID) : Option PeerRef :=
  match preferredPeer s pPeerID with
  | some p => some p
  | none => s.m_lstPeers.find? (fun p => ShouldAssignTask E s t p)

/-- The first half of `Node::Peer::ReleaseTask`: clear the owner, give back the
pack slot, move the task to the unassigned queue. -/
def releaseToQueue (s : Node) (p : PeerRef) (t : TaskKey) : Node :=
  let s1 := s.setTask t (fun x => { x with m_pOwner := none })
  let s2 :=
    if (s1.taskAt t).m_bPack then
      let s' := s1.setTask t (fun x => { x with m_bPack := false })
      if t.second then { s' with m_nTasksPackBody := dec32 s'.m_nTasksPackBody }
      else { s' with m_nTasksPackHdr := dec32 s'.m_nTasksPackHdr }
    else s1
  let s3 := s2.setPeer p (fun x => { x with m_lstTasks := x.m_lstTasks.erase t })
  { s3 with m_lstTasksUnassigned := s3.m_lstTasksUnassigned ++ [t] }

/-- One subscription removed: `Node::Peer::Unsubscribe(Bbs::Subscription&)`. -/
def UnsubscribeOne (s : Node) (p : PeerRef) (c : Channel) : Node :=
  let s1 := { s with m_Subscribed := s.m_Subscribed.erase (Subscription.mk c p) }
  s1.setPeer p (fun x => { x with m_Subscriptions := x.m_Subscriptions.erase c })

/-- The loop of `Node::Peer::Unsubscribe()` over the peer's subscriptions,
front first. -/
def unsubscribeLoop (p : PeerRef) : List Channel → Node → Node
  | [], s => s
  | c :: rest, s => unsubscribeLoop p rest (UnsubscribeOne s p c)

/-- The function `Node::Peer::Unsubscribe()`. -/
def Unsubscribe (s : Node) (p : PeerRef) : Node :=
  unsubscribeLoop p (s.peerAt p).m_Subscriptions s

/-- The function `bool Node::SyncCycle(Peer&)`; the flag is the return value. -/
def SyncCyclePeer (E : Env) (s : Node) (p : PeerRef) : Res × Bool :=
  match s.m_pSync with
  | none => (.ok s, false)
  | some y =>
    if y.m_bDetecting || y.m_RequestsPending != 0 then (.ok s, false)
    else if (s.peerAt p).m_Flags.DontSync then (.ok s, false)
    else if (s.peerAt p).m_Tip.m_Height < y.m_Trg.m_Height then (.ok s, false)
    else
      match Send E s p (.MacroblockGet y.m_Trg y.m_iData
          (E.macroblockOffset y.m_Trg.m_Height y.m_iData)) with
      | .ok s1 =>
        let s2 := s1.setPeer p (fun x => { x with m_Flags := { x.m_Flags with SyncPending := true } })
        (.ok { s2 with m_pSync := some { y with m_RequestsPending := inc32 y.m_RequestsPending } }, true)
      | r => (r, false)

/-- The loop of `void Node::SyncCycle()` over the peer list. -/
def syncCycleLoop (E : Env) : List PeerRef → Node → Res
  | [], s => .ok s
  | p :: ps, s =>
    match SyncCyclePeer E s p with
    | (.ok s1, true) => .ok s1
    | (.ok s1, false) => syncCycleLoop E ps s1
    | (r, _) => r

/-- The function `void Node::SyncCycle()`. -/
def SyncCycle (E : Env) (s : Node) : Res :=
  match s.m_pSync with
  | none => .ok s
  | some y =>
    if y.m_bDetecting || y.m_RequestsPending != 0 then .ok s
    else syncCycleLoop E s.m_lstPeers s

/-- The detach block of `Node::Peer::DeleteSelf`. -/
def detachInfo (E : Env) (s : Node) (p : PeerRef) (bIsError : Bool)
    (nByeReason : Option ByeReason) : Node :=
  match (s.peerAt p).m_pInfo with
  | none => s
  | some i =>
    let s1 := s.setInfo i (fun x => { x with m_pLive := none })
    let s2 := OnActive s1 i false
    if bIsError then OnRemoteError E s2 i (nByeReason == some .Ban) else s2

/-- The sync block of `Node::Peer::DeleteSelf`. -/
def releaseSyncSlot (E : Env) (s : Node) (p : PeerRef) : Res :=
  match s.m_pSync with
  | none => .ok s
  | some y =>
    if (s.peerAt p).m_Flags.SyncPending then
      let s1 := s.setPeer p (fun x =>
        { x with m_Flags := { x.m_Flags with SyncPending := false, DontSync := true } })
      SyncCycle E { s1 with m_pSync := some { y with m_RequestsPending := dec32 y.m_RequestsPending } }
    else .ok s

/-- The tail of `Node::Peer::DeleteSelf` after `ReleaseTasks`. -/
def finishDelete (E : Env) (s : Node) (p : PeerRef) (bIsError : Bool)
    (nByeReason : Option ByeReason) : Res :=
  (releaseSyncSlot E (detachInfo E (Unsubscribe s p) p bIsError nByeReason) p).bind fun s1 =>
    .ok { s1 with m_lstPeers := s1.m_lstPeers.erase p }

/-- The head of `Node::Peer::DeleteSelf`: the `Bye` and the zeroed tip. -/
def startDelete (E : Env) (s : Node) (p : PeerRef) (nByeReason : Option ByeReason) : Res :=
  let r :=
    match nByeReason with
    | some reason => if (s.peerAt p).m_Flags.Connected then Send E s p (.Bye reason) else .ok s
    | none => .ok s
  r.bind fun s1 => .ok (s1.setPeer p (fun x => { x with m_Tip := Full.zero }))

mutual

/-- The function `Node::TryAssignTask`.  A throwing `AssignTask` is reported to
the peer; modelled from the spec: `NodeConnection::OnExc` is not in `node.cpp`,
"a per-peer try-around converts them to `DeleteSelf(error=true)`", which is
what `OnDisconnect` does for `ProcessingExc`. -/
def TryAssignTask (E : Env) : Nat → Node → TaskKey → Option PeerID → Res
  | 0, _, _, _ => .out
  | n + 1, s, t, pPeerID =>
    match selectPeer E s t pPeerID with
    | none => .ok s
    | some p =>
      match AssignTask E s t p with
      | .ok s1 => .ok s1
      | .exc _ s1 =>
        (DeleteSelf E n s1 p true (some .Ban)).bind fun s2 => TryAssignTask E n s2 t pPeerID
      | .out => .out

/-- The function `Node::Peer::ReleaseTask`. -/
def ReleaseTask (E : Env) : Nat → Node → PeerRef → TaskKey → Res
  | 0, _, _, _ => .out
  | n + 1, s, p, t =>
    let s1 := releaseToQueue s p t
    if (s1.taskAt t).m_bRelevant then TryAssignTask E n s1 t none
    else .ok (DeleteUnassignedTask s1 t)

/-- The function `Node::Peer::ReleaseTasks`. -/
def ReleaseTasks (E : Env) : Nat → Node → PeerRef → Res
  | 0, _, _ => .out
  | n + 1, s, p =>
    match (s.peerAt p).m_lstTasks with
    | [] => .ok s
    | t :: _ => (ReleaseTask E n s p t).bind fun s1 => ReleaseTasks E n s1 p

/-- The function `Node::Peer::DeleteSelf`. -/
def DeleteSelf (E : Env) : Nat → Node → PeerRef → Bool → Option ByeReason → Res
  | 0, _, _, _, _ => .out
  | n + 1, s, p, bIsError, nByeReason =>
    (startDelete E s p nByeReason).bind fun s1 =>
      (ReleaseTasks E n s1 p).bind fun s2 => finishDelete E s2 p bIsError nByeReason

end

/-- The function `Node::Peer::TakeTasks`, over the queue as it stands on entry;
`AssignTask` unlinks only the task it is given. -/
def takeLoop (E : Env) (p : PeerRef) : List TaskKey → Node → Res
  | [], s => .ok s
  | t :: ts, s =>
    if ShouldAssignTask E s t p then (AssignTask E s t p).bind fun s1 => takeLoop E p ts s1
    else takeLoop E p ts s

/-- The function `Node::Peer::TakeTasks`. -/
def TakeTasks (E : Env) (s : Node) (p : PeerRef) : Res :=
  takeLoop E p s.m_lstTasksUnassigned s

/-- The function `Node::Processor::RequestData` (without the progress report). -/
def RequestData (E : Env) (fuel : Nat) (s : Node) (id : StateID) (bBlock : Bool)
    (pPreferredPeer : Option PeerID) : Res :=
  if ⟨id, bBlock⟩ ∈ s.m_setTasks then
    .ok (s.setTask ⟨id, bBlock⟩ (fun x => { x with m_bRelevant := true }))
  else
    let s1 := s.setTask ⟨id, bBlock⟩ (fun _ => ⟨true, false, none⟩)
    TryAssignTask E fuel
      { s1 with
        m_setTasks := s1.m_setTasks ++ [⟨id, bBlock⟩]
        m_lstTasksUnassigned := s1.m_lstTasksUnassigned ++ [⟨id, bBlock⟩] }
      ⟨id, bBlock⟩ pPreferredPeer

/-- Modelled from the spec: `PeerManager::Ban` is not in `node.cpp`; "rating 0
is reserved for banned". -/
def Ban (s : Node) (i : InfoRef) : Node :=
  s.setInfo i (fun x => { x with m_RawRating := 0 })

/-- The function `Node::Processor::OnPeerInsane`. -/
def OnPeerInsane (E : Env) (fuel : Nat) (s : Node) (peerID : PeerID) : Res :=
  match Find s peerID with
  | none => .ok s
  | some i =>
    match (s.infoAt i).m_pLive with
    | some p => DeleteSelf E fuel s p true (some .Ban)
    | none => .ok (Ban s i)

/-- What the chain processor calls back while it walks the congestions. -/
inductive ProcCall where
  | RequestData (id : StateID) (bBlock : Bool) (pPreferredPeer : Option PeerID)
  | OnPeerInsane (peerID : PeerID)
deriving DecidableEq, Repr

/-- The call `m_Processor.EnumCongestions()`: the processor is not part of
`node.cpp`; its walk is given as the list of callbacks it makes. -/
def EnumCongestions (E : Env) (fuel : Nat) : List ProcCall → Node → Res
  | [], s => .ok s
  | .RequestData id b pref :: cs, s =>
    (RequestData E fuel s id b pref).bind fun s1 => EnumCongestions E fuel cs s1
  | .OnPeerInsane id :: cs, s =>
    (OnPeerInsane E fuel s id).bind fun s1 => EnumCongestions E fuel cs s1

/-- The last loop of `Node::RefreshCongestions`, over the queue as it stands
when the loop starts. -/
def deleteIrrelevant : List TaskKey → Node → Node
  | [], s => s
  | t :: ts, s =>
    deleteIrrelevant ts (if (s.taskAt t).m_bRelevant then s else DeleteUnassignedTask s t)

/-- The first loop of `Node::RefreshCongestions`. -/
def clearRelevant (s : Node) : Node :=
  { s with taskAt := fun k =>
      if k ∈ s.m_setTasks then { s.taskAt k with m_bRelevant := false } else s.taskAt k }

/-- The function `Node::RefreshCongestions`. -/
def RefreshCongestions (E : Env) (fuel : Nat) (s : Node) (walk : List ProcCall) : Res :=
  if s.m_pSync.isSome then .ok s
  else
    (EnumCongestions E fuel walk (clearRelevant s)).bind fun s1 =>
      .ok (deleteIrrelevant s1.m_lstTasksUnassigned s1)

/-- The function `void Node::Peer::OnFirstTaskDone()`, with `get_FirstTask`.
`ReleaseTask` offers the task to the peers again, `TryAssignTask` answers a
failed send with `OnExc`, that is `DeleteSelf`, on the peer it chose, and the
tasks that peer gives back are offered in turn: the peer `p` itself can be
deleted before `ReleaseTask` returns.  `SetTimerWrtFirstTask` is a member call
on `p`; when `p` is gone the call ends as `freed`. -/
def OnFirstTaskDone (E : Env) (fuel : Nat) (s : Node) (p : PeerRef) : Res :=
  match (s.peerAt p).m_lstTasks with
  | [] => .exc .unexpected s
  | t :: _ =>
    (ReleaseTask E fuel s p t).bind fun s1 =>
      if p ∈ s1.m_lstPeers then .ok (SetTimerWrtFirstTask E s1 p) else .exc .freed s1

/-- The handler `Node::Peer::OnMsg(proto::DataMissing&&)`. -/
def OnMsg_DataMissing (E : Env) (fuel : Nat) (s : Node) (p : PeerRef) : Res :=
  match (s.peerAt p).m_lstTasks with
  | [] => .exc .unexpected s
  | t :: _ =>
    OnFirstTaskDone E fuel
      (s.setPeer p (fun x =>
        { x with m_setRejected := if t ∈ x.m_setRejected then x.m_setRejected
                                  else x.m_setRejected ++ [t] })) p

/-! ## Peer manager glue -/

/-- Modelled from the spec: `PeerManager::ModifyRating` is not in `node.cpp`;
the arithmetic on the raw rating is the parameter `Env.modifyRating`. -/
def ModifyRating (E : Env) (s : Node) (i : InfoRef) (delta : Nat) (up : Bool) : Node :=
  (s.setInfo i (fun x =>
    { x with m_RawRating := E.modifyRating x.m_RawRating delta up })).log (.modifyRating i delta up)

/-- Modelled from the spec: `PeerManager::OnSeen` is not in `node.cpp`; it
updates `last_seen`, which the embedding only records as a call. -/
def OnSeen (s : Node) (i : InfoRef) : Node := s.log (.onSeen i)

/-- Modelled from the spec: `PeerManager::Delete` is not in `node.cpp`; the
entry leaves the peer database. -/
def PeerManDelete (s : Node) (i : InfoRef) : Node :=
  { s with m_Infos := s.m_Infos.erase i }

/-- Modelled from the spec: `PeerManager::RemoveAddr` is not in `node.cpp`; the
entry's address is cleared. -/
def RemoveAddr (s : Node) (i : InfoRef) : Node :=
  s.setInfo i (fun x => { x with m_Addr := 0 })

/-- A `PeerInfoPlus` address not in use: `new PeerInfoPlus`. -/
def freshInfo (s : Node) : InfoRef := s.m_Infos.foldr max 0 + 1

/-- Modelled from the spec: `PeerManager::OnPeer` is not in `node.cpp`;
"merge-or-create.  If an existing entry with the same ID has a different address
and `addr_valid`, update its address; if the address is already associated with
a different ID, the old entry's address is cleared."  A created entry comes from
`PeerMan::AllocPeer`, with `m_pLive = NULL`. -/
def OnPeer (E : Env) (s : Node) (id : PeerID) (addr : Nat) (bAddrValid : Bool) : Node × InfoRef :=
  let clearOthers := fun (s : Node) (i : InfoRef) =>
    { s with infoAt := fun j =>
        if j ≠ i ∧ (s.infoAt j).m_Addr = addr then { s.infoAt j with m_Addr := 0 } else s.infoAt j }
  match Find s id with
  | some i =>
    if bAddrValid ∧ (s.infoAt i).m_Addr ≠ addr then
      ((clearOthers s i).setInfo i (fun x => { x with m_Addr := addr }), i)
    else (s, i)
  | none =>
    let i := freshInfo s
    let s1 := if bAddrValid then clearOthers s i else s
    ({ s1 with
       infoAt := Function.update s1.infoAt i
         ⟨id, if bAddrValid then addr else 0, E.ratingInitial, false, none⟩
       m_Infos := s1.m_Infos ++ [i] }, i)

/-- A `Peer` address not in use: `new Peer`. -/
def freshPeer (s : Node) : PeerRef := s.m_lstPeers.foldr max 0 + 1

/-- The function `Node::AllocPeer`. -/
def AllocPeer (s : Node) (addr : Nat) : Node × PeerRef :=
  let p := freshPeer s
  ({ s with
     peerAt := Function.update s.peerAt p
       ⟨Full.zero, Flags.zero, 0, addr, ⟨false, false, false⟩, none, [], [], [], none⟩
     m_lstPeers := s.m_lstPeers ++ [p] }, p)

/-- The function `Node::PeerMan::ActivatePeer`; `port` is the port of the
entry's address. -/
def ActivatePeer (s : Node) (i : InfoRef) (port : Nat) : Node :=
  match (s.infoAt i).m_pLive with
  | some _ => s
  | none =>
    let (s1, p) := AllocPeer s (s.infoAt i).m_Addr
    let s2 := s1.setPeer p (fun x => { x with m_pInfo := some i })
    let s3 := s2.setInfo i (fun x => { x with m_pLive := some p })
    s3.setPeer p (fun x => { x with m_Port := port })

/-- The function `Node::PeerMan::DeactivatePeer`. -/
def DeactivatePeer (E : Env) (fuel : Nat) (s : Node) (i : InfoRef) : Res :=
  match (s.infoAt i).m_pLive with
  | none => .ok s
  | some p => DeleteSelf E fuel s p false (some .Other)

/-- The flag set by `Node::Peer::OnConnectedSecure` (its sends are left out). -/
def OnConnectedSecure (s : Node) (p : PeerRef) : Node :=
  s.setPeer p (fun x => { x with m_Flags := { x.m_Flags with Connected := true } })

/-- The function `Node::Peer::OnDisconnect`, by the kind of `DisconnectReason`. -/
inductive DisconnectType where
  | Io | Bye | ProcessingExc | Protocol
deriving DecidableEq, Repr

/-- The function `Node::Peer::OnDisconnect`. -/
def OnDisconnect (E : Env) (fuel : Nat) (s : Node) (p : PeerRef) (dr : DisconnectType) : Res :=
  match dr with
  | .Io => DeleteSelf E fuel s p true none
  | .Bye => DeleteSelf E fuel s p false none
  | .ProcessingExc => DeleteSelf E fuel s p true (some .Ban)
  | .Protocol => DeleteSelf E fuel s p true (some .Ban)

/-- The function `Node::Peer::OnTimer`. -/
def OnTimer (E : Env) (fuel : Nat) (s : Node) (p : PeerRef) : Res :=
  if (s.peerAt p).m_Flags.Connected then
    let s1 :=
      match (s.peerAt p).m_pInfo with
      | some i => ModifyRating E s i E.PenaltyTimeout false
      | none => s
    DeleteSelf E fuel s1 p false (some .Timeout)
  else DeleteSelf E fuel s p true none

/-! ## Authentication -/

/-- The codes of `proto::IDType`. -/
inductive IDType where
  | Node | Owner | Viewer
deriving DecidableEq, Repr

/-- The end of `OnMsg(proto::Authentication&&)`: the ban check and the attach. -/
def authAttach (E : Env) (fuel : Nat) (s : Node) (p : PeerRef) (i : InfoRef) : Res :=
  if (s.infoAt i).m_RawRating = 0 then DeleteSelf E fuel s p false (some .Ban)
  else
    let s1 := s.setInfo i (fun x => { x with m_pLive := some p })
    let s2 := s1.setPeer p (fun x => { x with m_pInfo := some i })
    .ok (OnSeen (OnActive s2 i true) i)

/-- The middle of `OnMsg(proto::Authentication&&)`: loopback, `OnPeer`, and the
choice between two sessions of one peer. -/
def authResolve (E : Env) (fuel : Nat) (s : Node) (p : PeerRef) (id : PeerID) : Res :=
  if id = s.m_MyPublicID then DeleteSelf E fuel s p false (some .Loopback)
  else
    let bAddrValid := decide ((s.peerAt p).m_Port > 0)
    let addr := if bAddrValid then E.withPort (s.peerAt p).m_RemoteAddr (s.peerAt p).m_Port else 0
    let (s1, i) := OnPeer E s id addr bAddrValid
    match (s1.infoAt i).m_pLive with
    | some old =>
      if s1.m_MyPublicID > id then
        (DeleteSelf E fuel s1 old false (some .Duplicate)).bind fun s2 => authAttach E fuel s2 p i
      else DeleteSelf E fuel s1 p false (some .Duplicate)
    | none => authAttach E fuel s1 p i

/-- The detach block of `OnMsg(proto::Authentication&&)`: the session leaves the
entry `i` it was opened for, whose ID turned out to be another. -/
def authDetach (s : Node) (p : PeerRef) (i : InfoRef) : Node :=
  let s1 := s.setInfo i (fun x => { x with m_pLive := none })
  let s2 := if (s1.infoAt i).m_ID = 0 then PeerManDelete s1 i
            else RemoveAddr (OnActive s1 i false) i
  s2.setPeer p (fun x => { x with m_pInfo := none })

/-- The part of `OnMsg(proto::Authentication&&)` for `IDType::Node`. -/
def authNode (E : Env) (fuel : Nat) (s : Node) (p : PeerRef) (id : PeerID) : Res :=
  if (s.peerAt p).m_Flags.PiRcvd ∨ id = 0 then .exc .unexpected s
  else
    let s1 := s.setPeer p (fun x => { x with m_Flags := { x.m_Flags with PiRcvd := true } })
    match (s1.peerAt p).m_pInfo with
    | none => authResolve E fuel s1 p id
    | some i =>
      if (s1.infoAt i).m_ID = id then .ok (OnSeen s1 i)
      else authResolve E fuel (authDetach s1 p i) p id

/-- The handler `Node::Peer::OnMsg(proto::Authentication&&)`, after the base
class has accepted the signature. -/
def OnMsg_Authentication (E : Env) (fuel : Nat) (s : Node) (p : PeerRef) (id : PeerID)
    (idType : IDType) : Res :=
  let s1 :=
    if idType = .Owner ∧ id = s.m_MyOwnerID then
      s.setPeer p (fun x => { x with m_Flags := { x.m_Flags with Owner := true } })
    else s
  if idType ≠ .Node then .ok s1 else authNode E fuel s1 p id

/-! ## Chain responses -/

/-- The function `OnFirstTaskDone(NodeProcessor::DataStatus::Enum)`; `walk` is
what the processor asks for if the congestions are refreshed.  The refresh is
reached only when `OnFirstTaskDone()` returned, the peer still being there. -/
def OnFirstTaskDoneStatus (E : Env) (fuel : Nat) (s : Node) (p : PeerRef) (eStatus : DataStatus)
    (walk : List ProcCall) : Res :=
  if eStatus = .Invalid then .exc .unexpected s
  else
    match (s.peerAt p).m_lstTasks with
    | [] => .exc .unexpected s
    | t :: _ =>
      (OnFirstTaskDone E fuel (s.setTask t (fun x => { x with m_bRelevant := false })) p).bind
        fun s1 => if eStatus = .Accepted then RefreshCongestions E fuel s1 walk else .ok s1

/-- The identity `m_pInfo->m_ID.m_Key` handed to the processor. -/
def peerKey (s : Node) (p : PeerRef) : PeerID :=
  match (s.peerAt p).m_pInfo with
  | some i => (s.infoAt i).m_ID
  | none => 0

/-- The call `ModifyRating(*m_pInfo, delta, true)` of the response handlers. -/
def rewardPeer (E : Env) (s : Node) (p : PeerRef) (delta : Nat) : Node :=
  match (s.peerAt p).m_pInfo with
  | some i => ModifyRating E s i delta true
  | none => s

/-- The function `Block::SystemState::Full::get_ID`. -/
def get_ID (E : Env) (d : Full) : StateID := ⟨d.m_Height, E.get_Hash d⟩

/-- The handler `Node::Peer::OnMsg(proto::Hdr&&)`; `eStatus` is the verdict the
processor returns for the header. -/
def OnMsg_Hdr (E : Env) (fuel : Nat) (s : Node) (p : PeerRef) (d : Full) (eStatus : DataStatus)
    (walk : List ProcCall) : Res :=
  match (s.peerAt p).m_lstTasks with
  | [] => .exc .unexpected s
  | t :: _ =>
    if t.second ∨ (s.taskAt t).m_bPack then .exc .unexpected s
    else if get_ID E d ≠ t.first then .exc .unexpected s
    else
      let s1 := rewardPeer E s p E.RewardHeader
      OnFirstTaskDoneStatus E fuel (s1.log (.onState d (peerKey s1 p))) p eStatus walk

/-- The handler `Node::Peer::OnMsg(proto::Body&&)`; `eStatus` is the verdict the
processor returns for the block. -/
def OnMsg_Body (E : Env) (fuel : Nat) (s : Node) (p : PeerRef) (eStatus : DataStatus)
    (walk : List ProcCall) : Res :=
  match (s.peerAt p).m_lstTasks with
  | [] => .exc .unexpected s
  | t :: _ =>
    if !t.second ∨ (s.taskAt t).m_bPack then .exc .unexpected s
    else
      let s1 := rewardPeer E s p E.RewardBlock
      OnFirstTaskDoneStatus E fuel (s1.log (.onBlock t.first (peerKey s1 p))) p eStatus walk

/-- The calls `m_Processor.OnState` of the loop of `OnMsg(proto::HdrPack&&)`. -/
def logStates (src : PeerID) : List (Full × DataStatus) → Node → Node
  | [], s => s
  | (d, _) :: rest, s => logStates src rest (s.log (.onState d src))

/-- The handler `Node::Peer::OnMsg(proto::HdrPack&&)`.  The header arithmetic
(`NextPrefix`, `Difficulty::Inc`) is outside `node.cpp`: the message is given
as the states the loop computes from it, in the order it hands them to the
processor, each with the processor's verdict.  The statements after
`OnFirstTaskDone()`, which read `m_pInfo` of the peer, are reached only when
that call returned, the peer still being there. -/
def OnMsg_HdrPack (E : Env) (fuel : Nat) (s : Node) (p : PeerRef)
    (pack : List (Full × DataStatus)) (walk : List ProcCall) : Res :=
  match (s.peerAt p).m_lstTasks with
  | [] => .exc .unexpected s
  | t :: _ =>
    if t.second ∨ !(s.taskAt t).m_bPack then .exc .unexpected s
    else
      match pack.getLast? with
      | none => .exc .unexpected s
      | some last =>
        if pack.length > E.g_HdrPackMaxSize then .exc .unexpected s
        else
          let nAccepted := (pack.filter (fun x => x.2 = .Accepted)).length % 2 ^ 32
          let bInvalid := pack.any (fun x => x.2 = .Invalid) || decide (get_ID E last.1 ≠ t.first)
          (OnFirstTaskDone E fuel (logStates (peerKey s p) pack s) p).bind fun s1 =>
            if nAccepted ≠ 0 then
              RefreshCongestions E fuel
                (rewardPeer E s1 p ((E.RewardHeader * nAccepted) % 2 ^ 32)) walk
            else if bInvalid then .exc .unexpected s1
            else .ok s1

/-! ## Tip announcements and subscriptions -/

/-- The end of `OnMsg(proto::NewTip&&)`, from `if (!bSyncMode)` on. -/
def newTipTail (E : Env) (s : Node) (p : PeerRef) (bSyncMode : Bool) : Res :=
  if !bSyncMode then TakeTasks E s p
  else
    let nProvenWork := (s.peerAt p).m_Flags.ProvenWorkReq
    let r :=
      if !nProvenWork then
        Send E (s.setPeer p (fun x => { x with m_Flags := { x.m_Flags with ProvenWorkReq := true } }))
          p .GetProofChainWork
      else .ok s
    r.bind fun s1 =>
      match s1.m_pSync with
      | none => .ok s1
      | some y =>
        if y.m_bDetecting then
          if !nProvenWork then
            Send E (s1.setPeer p (fun x => { x with m_Flags := { x.m_Flags with DontSync := true } }))
              p (.MacroblockGet ⟨0, 0⟩ 0 0)
          else .ok s1
        else (SyncCyclePeer E s1 p).1

/-- The handler `Node::Peer::OnMsg(proto::NewTip&&)`.  The processor is outside
`node.cpp`: `bNeeded` is the answer of `IsRemoteTipNeeded`, `eStatus` the
verdict of `OnState`, `walk` what a refresh would ask for. -/
def OnMsg_NewTip (E : Env) (fuel : Nat) (s : Node) (p : PeerRef) (d : Full) (bNeeded : Bool)
    (eStatus : DataStatus) (walk : List ProcCall) : Res :=
  if d.m_ChainWork < (s.peerAt p).m_Tip.m_ChainWork then .exc .unexpected s
  else
    let s1 := s.setPeer p (fun x => { x with m_Tip := d, m_setRejected := [] })
    match (s1.peerAt p).m_pInfo with
    | none => .ok s1
    | some i =>
      let bSyncMode := s1.m_pSync.isSome
      if bNeeded then
        let s2 := s1.log (.onState d (s1.infoAt i).m_ID)
        match eStatus with
        | .Invalid => .exc .unexpected s2
        | .Accepted =>
          let s3 := ModifyRating E s2 i E.RewardHeader true
          if bSyncMode then newTipTail E s3 p bSyncMode else RefreshCongestions E fuel s3 walk
        | _ => newTipTail E s2 p bSyncMode
      else newTipTail E s1 p bSyncMode

/-- The backfill loop of `OnMsg(proto::BbsSubscribe&&)`: one `BbsMsg` per stored
message. -/
def sendAll (E : Env) (p : PeerRef) : List Msg → Node → Res
  | [], s => .ok s
  | m :: ms, s => (Send E s p m).bind fun s1 => sendAll E p ms s1

/-- The two inserts of `OnMsg(proto::BbsSubscribe&&)`: a new `Bbs::Subscription`
enters the node's index and the peer's set. -/
def SubscribeOne (s : Node) (p : PeerRef) (c : Channel) : Node :=
  let s1 := { s with m_Subscribed := s.m_Subscribed ++ [Subscription.mk c p] }
  s1.setPeer p (fun x =>
    { x with m_Subscriptions := List.orderedInsert (fun a b => a ≤ b) c x.m_Subscriptions })

/-- The handler `Node::Peer::OnMsg(proto::BbsSubscribe&&)`; `stored` are the
messages of the channel that `EnumBbs` finds in the database, each with the time
it was posted. -/
def OnMsg_BbsSubscribe (E : Env) (s : Node) (p : PeerRef) (channel : Channel) (bOn : Bool)
    (stored : List (Nat × Nat)) : Res :=
  if decide (channel ∉ (s.peerAt p).m_Subscriptions) ≠ bOn then .ok s
  else if bOn then
    sendAll E p (stored.map (fun b => Msg.BbsMsg channel b.1 b.2)) (SubscribeOne s p channel)
  else .ok (UnsubscribeOne s p channel)

/-! ## First-time sync -/

/-- The function `Node::OnSyncTimer`. -/
def OnSyncTimer (E : Env) (fuel : Nat) (s : Node) (walk : List ProcCall) : Res :=
  match s.m_pSync with
  | none => .ok s
  | some y =>
    if y.m_Trg.m_Height ≠ 0 then
      let y1 := { y with m_pTimer := false, m_bDetecting := false, m_RequestsPending := 0 }
      SyncCycle E { s with m_pSync := some y1 }
    else RefreshCongestions E fuel { s with m_pSync := none } walk

/-- The function `void Node::SyncCycle(Peer&, const ByteBuffer&)`.  The file
system and the import are outside `node.cpp`: `bImportOk` is the result of
`ImportMacroBlock` and `hCursor` the cursor height after it. -/
def SyncCyclePortion (E : Env) (fuel : Nat) (s : Node) (p : PeerRef) (bufEmpty : Bool)
    (bImportOk : Bool) (hCursor : Nat) (walk : List ProcCall) : Res :=
  match s.m_pSync with
  | none => .ok s
  | some y =>
    if bufEmpty then
      if y.m_iData + 1 = E.RW_count then
        if bImportOk then
          RefreshCongestions E fuel { s with m_pSync := none, m_CursorHeight := hCursor } walk
        else .exc .runtime { s with m_pSync := none }
      else (SyncCyclePeer E { s with m_pSync := some { y with m_iData := y.m_iData + 1 } } p).1
    else (SyncCyclePeer E s p).1

/-- The handler `Node::Peer::OnMsg(proto::Macroblock&&)`. -/
def OnMsg_Macroblock (E : Env) (fuel : Nat) (s : Node) (p : PeerRef) (msgID : StateID)
    (bufEmpty : Bool) (bImportOk : Bool) (hCursor : Nat) (walk : List ProcCall) : Res :=
  match s.m_pSync with
  | none => .ok s
  | some y =>
    if !(s.peerAt p).m_Flags.ProvenWork then .exc .unexpected s
    else if (s.peerAt p).m_Flags.SyncPending then
      let s1 := s.setPeer p (fun x => { x with m_Flags := { x.m_Flags with SyncPending := false } })
      let s2 := { s1 with m_pSync := some { y with m_RequestsPending := dec32 y.m_RequestsPending } }
      if msgID = y.m_Trg then SyncCyclePortion E fuel s2 p bufEmpty bImportOk hCursor walk
      else
        SyncCycle E
          (s2.setPeer p (fun x => { x with m_Flags := { x.m_Flags with DontSync := true } }))
    else
      let s1 := s.setPeer p (fun x => { x with m_Flags := { x.m_Flags with DontSync := false } })
      if !y.m_bDetecting then .ok s1
      else
        let cw := (s.peerAt p).m_Tip.m_ChainWork
        let y1 :=
          if y.m_Best < cw ∨ (y.m_Best = cw ∧ y.m_Trg.m_Height < msgID.m_Height) then
            { y with m_Trg := msgID, m_Best := cw, m_pTimer := true }
          else y
        let y2 := { y1 with m_RequestsPending := inc32 y1.m_RequestsPending }
        let s2 := { s1 with m_pSync := some y2 }
        if y2.m_RequestsPending ≥ E.m_SrcPeers then OnSyncTimer E fuel s2 walk else .ok s2

/-- The handler `Node::Peer::OnMsg(proto::ProofChainWork&&)`; `bValid` is the
result of `m_Proof.IsValid` and `cw` the chainwork it asserts. -/
def OnMsg_ProofChainWork (E : Env) (s : Node) (p : PeerRef) (bValid : Bool) (cw : Nat) : Res :=
  if !bValid then .exc .unexpected s
  else if cw ≠ (s.peerAt p).m_Tip.m_ChainWork then .exc .unexpected s
  else
    let s1 := s.setPeer p (fun x => { x with m_Flags := { x.m_Flags with ProvenWork := true } })
    if s1.m_pSync.isSome then SyncCycle E s1 else .ok s1

/-! ## The node as a transition system -/

/-- What can happen to a node: a connection is accepted or opened, a message of
a peer is handled, a connection ends, the processor calls back. -/
inductive Op where
  | accept (addr : Nat)
  | activatePeer (i : InfoRef) (port : Nat)
  | deactivatePeer (i : InfoRef)
  | connectedSecure (p : PeerRef)
  | authentication (p : PeerRef) (id : PeerID) (idType : IDType)
  | newTip (p : PeerRef) (d : Full) (bNeeded : Bool) (eStatus : DataStatus) (walk : List ProcCall)
  | hdr (p : PeerRef) (d : Full) (eStatus : DataStatus) (walk : List ProcCall)
  | hdrPack (p : PeerRef) (pack : List (Full × DataStatus)) (walk : List ProcCall)
  | body (p : PeerRef) (eStatus : DataStatus) (walk : List ProcCall)
  | dataMissing (p : PeerRef)
  | bbsSubscribe (p : PeerRef) (channel : Channel) (bOn : Bool) (stored : List (Nat × Nat))
  | takeTasks (p : PeerRef)
  | disconnect (p : PeerRef) (dr : DisconnectType)
  | timer (p : PeerRef)
  | deleteSelf (p : PeerRef) (bIsError : Bool) (nByeReason : Option ByeReason)
  | requestData (id : StateID) (bBlock : Bool) (pPreferredPeer : Option PeerID)
  | peerInsane (peerID : PeerID)
  | refreshCongestions (walk : List ProcCall)
  | newCursor (h : Nat)
  | macroblock (p : PeerRef) (msgID : StateID) (bufEmpty : Bool) (bImportOk : Bool)
      (hCursor : Nat) (walk : List ProcCall)
  | proofChainWork (p : PeerRef) (bValid : Bool) (cw : Nat)
  | syncTimer (walk : List ProcCall)

/-- The peer object an operation runs on, if it is a member function of one. -/
def Op.peer? : Op → Option PeerRef
  | .connectedSecure p => some p
  | .authentication p _ _ => some p
  | .newTip p _ _ _ _ => some p
  | .hdr p _ _ _ => some p
  | .hdrPack p _ _ => some p
  | .body p _ _ => some p
  | .dataMissing p => some p
  | .bbsSubscribe p _ _ _ => some p
  | .takeTasks p => some p
  | .disconnect p _ => some p
  | .timer p => some p
  | .deleteSelf p _ _ => some p
  | .macroblock p _ _ _ _ _ => some p
  | .proofChainWork p _ _ => some p
  | _ => none

/-- Run one operation. -/
def exec (E : Env) (fuel : Nat) (s : Node) : Op → Res
  | .accept addr => .ok (AllocPeer s addr).1
  | .activatePeer i port => .ok (ActivatePeer s i port)
  | .deactivatePeer i => DeactivatePeer E fuel s i
  | .connectedSecure p => .ok (OnConnectedSecure s p)
  | .authentication p id idType => OnMsg_Authentication E fuel s p id idType
  | .newTip p d bNeeded eStatus walk => OnMsg_NewTip E fuel s p d bNeeded eStatus walk
  | .hdr p d eStatus walk => OnMsg_Hdr E fuel s p d eStatus walk
  | .hdrPack p pack walk => OnMsg_HdrPack E fuel s p pack walk
  | .body p eStatus walk => OnMsg_Body E fuel s p eStatus walk
  | .dataMissing p => OnMsg_DataMissing E fuel s p
  | .bbsSubscribe p channel bOn stored => OnMsg_BbsSubscribe E s p channel bOn stored
  | .takeTasks p => TakeTasks E s p
  | .disconnect p dr => OnDisconnect E fuel s p dr
  | .timer p => OnTimer E fuel s p
  | .deleteSelf p bIsError nByeReason => DeleteSelf E fuel s p bIsError nByeReason
  | .requestData id bBlock pref => RequestData E fuel s id bBlock pref
  | .peerInsane peerID => OnPeerInsane E fuel s peerID
  | .refreshCongestions walk => RefreshCongestions E fuel s walk
  | .newCursor h => .ok { s with m_CursorHeight := h }
  | .macroblock p msgID bufEmpty bImportOk hCursor walk =>
    OnMsg_Macroblock E fuel s p msgID bufEmpty bImportOk hCursor walk
  | .proofChainWork p bValid cw => OnMsg_ProofChainWork E s p bValid cw
  | .syncTimer walk => OnSyncTimer E fuel s walk

/-- The state a call leaves behind, whether it returned or threw. -/
def Res.node? : Res → Option Node
  | .ok s => some s
  | .exc _ s => some s
  | .out => none

/-- A node before any connection: no peers, no tasks; `y` is the first-time
sync set up by `InitMode`, if any. -/
def Node.init (myPublicID myOwnerID : PeerID) (y : Option FirstTimeSync) : Node :=
  { taskAt := fun _ => ⟨false, false, none⟩
    m_setTasks := []
    m_lstTasksUnassigned := []
    m_nTasksPackHdr := 0
    m_nTasksPackBody := 0
    peerAt := fun _ =>
      ⟨Full.zero, Flags.zero, 0, 0, ⟨false, false, false⟩, none, [], [], [], none⟩
    m_lstPeers := []
    infoAt := fun _ => ⟨0, 0, 0, false, none⟩
    m_Infos := []
    m_Subscribed := []
    m_pSync := y
    m_CursorHeight := 0
    m_MyPublicID := myPublicID
    m_MyOwnerID := myOwnerID
    trace := [] }

/-- The states a node can be in: it starts with no peers and no tasks, with or
without a first-time sync, and then runs operations; an operation of a peer
runs only while the peer is in `m_lstPeers`.  What a throwing call leaves
behind is a state as well. -/
inductive Reachable (E : Env) : Node → Prop where
  | init (myPublicID myOwnerID : PeerID) (y : Option FirstTimeSync) :
      Reachable E (Node.init myPublicID myOwnerID y)
  | step {s s' : Node} (fuel : Nat) (op : Op) :
      Reachable E s → (∀ p, op.peer? = some p → p ∈ s.m_lstPeers) →
      (exec E fuel s op).node? = some s' → Reachable E s'

/-- Holds of the state a call leaves behind, whether it returned or threw. -/
def Res.Sat (P : Node → Prop) : Res → Prop
  | .ok s => P s
  | .exc _ s => P s
  | .out => True

/-- Number of places, among the unassigned queue and the task lists of the
peers in `m_lstPeers`, that hold task `k`. -/
def placedCount (s : Node) (k : TaskKey) : Nat :=
  s.m_lstTasksUnassigned.count k +
    (s.m_lstPeers.map (fun p => (s.peerAt p).m_lstTasks.count k)).sum

/-- The consistency of the scheduler, the peer list, the peer database and the
subscription index that every operation keeps. -/
structure Inv (s : Node) : Prop where
  setNodup : s.m_setTasks.Nodup
  placed : ∀ k, placedCount s k = s.m_setTasks.count k
  ownerNone : ∀ k ∈ s.m_lstTasksUnassigned, (s.taskAt k).m_pOwner = none
  ownerSome : ∀ p ∈ s.m_lstPeers, ∀ k ∈ (s.peerAt p).m_lstTasks, (s.taskAt k).m_pOwner = some p
  peersNodup : s.m_lstPeers.Nodup
  unlisted : ∀ p, p ∉ s.m_lstPeers →
    (s.peerAt p).m_lstTasks = [] ∧ (s.peerAt p).m_Subscriptions = []
  packQueue : ∀ k ∈ s.m_lstTasksUnassigned, (s.taskAt k).m_bPack = false
  packBlock : ∀ k ∈ s.m_setTasks, k.second = true → (s.taskAt k).m_bPack = false
  packHdr : s.m_nTasksPackHdr = (s.m_setTasks.filter (fun k => (s.taskAt k).m_bPack)).length
  packHdrLe : s.m_nTasksPackHdr ≤ 1
  packBody : s.m_nTasksPackBody = 0
  auth : ∀ p ∈ s.m_lstPeers, (s.peerAt p).m_Flags.PiRcvd = false → (s.peerAt p).m_lstTasks = []
  live : ∀ i ∈ s.m_Infos, ∀ p, (s.infoAt i).m_pLive = some p →
    p ∈ s.m_lstPeers ∧ (s.peerAt p).m_pInfo = some i
  subsNodup : s.m_Subscribed.Nodup
  subsPeer : ∀ c p, (⟨c, p⟩ : Subscription) ∈ s.m_Subscribed →
    p ∈ s.m_lstPeers ∧ c ∈ (s.peerAt p).m_Subscriptions

/-- What a returning `AssignTask(t, p)` has changed. -/
structure AssignEff (E : Env) (s s' : Node) (t : TaskKey) (p : PeerRef) : Prop where
  set : s'.m_setTasks = s.m_setTasks
  un : s'.m_lstTasksUnassigned = s.m_lstTasksUnassigned.erase t
  peers : s'.m_lstPeers = s.m_lstPeers
  other : ∀ q, q ≠ p → s'.peerAt q = s.peerAt q
  peer : ∃ tm, s'.peerAt p =
    { s.peerAt p with m_lstTasks := (s.peerAt p).m_lstTasks ++ [t], m_Timer := tm }
  tasks : ∀ k, k ≠ t → s'.taskAt k = s.taskAt k
  owner : (s'.taskAt t).m_pOwner = some p
  rel : (s'.taskAt t).m_bRelevant = (s.taskAt t).m_bRelevant
  pack : ((s'.taskAt t).m_bPack = (s.taskAt t).m_bPack ∧ s'.m_nTasksPackHdr = s.m_nTasksPackHdr) ∨
    (t.second = false ∧ s.m_nTasksPackHdr = 0 ∧ (s'.taskAt t).m_bPack = true ∧ s'.m_nTasksPackHdr = 1)
  body : s'.m_nTasksPackBody = s.m_nTasksPackBody
  infoAt : s'.infoAt = s.infoAt
  infos : s'.m_Infos = s.m_Infos
  subs : s'.m_Subscribed = s.m_Subscribed
  sync : s'.m_pSync = s.m_pSync
  cursor : s'.m_CursorHeight = s.m_CursorHeight
  myID : s'.m_MyPublicID = s.m_MyPublicID
  ownerID : s'.m_MyOwnerID = s.m_MyOwnerID
  trace : ∃ m, E.sendOk p m = true ∧ s'.trace = s.trace ++ [Event.sent p m]

/-- What the first half of `ReleaseTask(t)` on peer `p` has changed. -/
structure ReleaseEff (s s' : Node) (p : PeerRef) (t : TaskKey) : Prop where
  set : s'.m_setTasks = s.m_setTasks
  un : s'.m_lstTasksUnassigned = s.m_lstTasksUnassigned ++ [t]
  peers : s'.m_lstPeers = s.m_lstPeers
  other : ∀ q, q ≠ p → s'.peerAt q = s.peerAt q
  peer : s'.peerAt p = { s.peerAt p with m_lstTasks := (s.peerAt p).m_lstTasks.erase t }
  tasks : ∀ k, k ≠ t → s'.taskAt k = s.taskAt k
  task : s'.taskAt t = ⟨(s.taskAt t).m_bRelevant, false, none⟩
  hdr : s'.m_nTasksPackHdr =
    if (s.taskAt t).m_bPack = true ∧ t.second = false then dec32 s.m_nTasksPackHdr
    else s.m_nTasksPackHdr
  body : s'.m_nTasksPackBody =
    if (s.taskAt t).m_bPack = true ∧ t.second = true then dec32 s.m_nTasksPackBody
    else s.m_nTasksPackBody
  infoAt : s'.infoAt = s.infoAt
  infos : s'.m_Infos = s.m_Infos
  subs : s'.m_Subscribed = s.m_Subscribed
  sync : s'.m_pSync = s.m_pSync
  cursor : s'.m_CursorHeight = s.m_CursorHeight
  myID : s'.m_MyPublicID = s.m_MyPublicID
  ownerID : s'.m_MyOwnerID = s.m_MyOwnerID
  trace : s'.trace = s.trace

/-- A change the scheduler does not see: sends, the sync slot and the sync bits
of the peers' flags. -/
structure Neutral (s s' : Node) : Prop where
  taskAt : s'.taskAt = s.taskAt
  set : s'.m_setTasks = s.m_setTasks
  un : s'.m_lstTasksUnassigned = s.m_lstTasksUnassigned
  hdr : s'.m_nTasksPackHdr = s.m_nTasksPackHdr
  body : s'.m_nTasksPackBody = s.m_nTasksPackBody
  peers : s'.m_lstPeers = s.m_lstPeers
  peer : ∀ q, ∃ f : Flags, s'.peerAt q = { s.peerAt q with m_Flags := f } ∧
    f.PiRcvd = (s.peerAt q).m_Flags.PiRcvd ∧ f.Connected = (s.peerAt q).m_Flags.Connected
  infoAt : s'.infoAt = s.infoAt
  infos : s'.m_Infos = s.m_Infos
  subs : s'.m_Subscribed = s.m_Subscribed
  sync : s'.m_pSync.isSome = s.m_pSync.isSome
  cursor : s'.m_CursorHeight = s.m_CursorHeight
  myID : s'.m_MyPublicID = s.m_MyPublicID
  ownerID : s'.m_MyOwnerID = s.m_MyOwnerID
  trace : ∃ l, s'.trace = s.trace ++ l ∧ ∀ e ∈ l, ∃ p m, e = Event.sent p m

/-- Calls into the chain processor, as opposed to sends and rating updates. -/
def Event.isProcessor : Event → Bool
  | .onState _ _ => true
  | .onBlock _ _ => true
  | _ => false

/-- What no step of releasing, re-assigning or deleting changes: peers and tasks
are only removed, a tip is kept or zeroed, a `m_pLive` is kept or cleared, and
flags, rejected sets, relevance and the processor are left alone. -/
structure Frame (s s' : Node) : Prop where
  peers : s'.m_lstPeers.Sublist s.m_lstPeers
  set : s'.m_setTasks.Sublist s.m_setTasks
  peer : ∀ q, (s'.peerAt q).m_Flags.PiRcvd = (s.peerAt q).m_Flags.PiRcvd ∧
    (s'.peerAt q).m_Flags.Connected = (s.peerAt q).m_Flags.Connected ∧
    (s'.peerAt q).m_pInfo = (s.peerAt q).m_pInfo ∧
    (s'.peerAt q).m_setRejected = (s.peerAt q).m_setRejected ∧
    (s'.peerAt q).m_Config = (s.peerAt q).m_Config ∧
    ((s'.peerAt q).m_Tip = (s.peerAt q).m_Tip ∨ (s'.peerAt q).m_Tip = Full.zero)
  rel : ∀ k, (s'.taskAt k).m_bRelevant = (s.taskAt k).m_bRelevant
  infos : s'.m_Infos = s.m_Infos
  info : ∀ i, (s'.infoAt i).m_ID = (s.infoAt i).m_ID ∧
    ((s'.infoAt i).m_pLive = (s.infoAt i).m_pLive ∨ (s'.infoAt i).m_pLive = none)
  cursor : s'.m_CursorHeight = s.m_CursorHeight
  myID : s'.m_MyPublicID = s.m_MyPublicID
  ownerID : s'.m_MyOwnerID = s.m_MyOwnerID
  sync : s'.m_pSync.isSome = s.m_pSync.isSome
  trace : ∃ l, s'.trace = s.trace ++ l ∧ ∀ e ∈ l, e.isProcessor = false

/-- The joint guarantee of the release and re-assignment code: the invariant,
the frame, tasks already in the unassigned queue stay there (all but those in
`X`), and peers without a `PeerInfo` stay in `m_lstPeers` (all but those in `Y`). -/
structure Post (X : TaskKey → Prop) (Y : PeerRef → Prop) (s s' : Node) : Prop where
  inv : Inv s'
  frame : Frame s s'
  queue : ∀ k, ¬ X k → k ∈ s.m_lstTasksUnassigned → k ∈ s'.m_lstTasksUnassigned
  keep : ∀ q, ¬ Y q → q ∈ s.m_lstPeers → (s.peerAt q).m_pInfo = none → q ∈ s'.m_lstPeers

/-! ## Concrete runs -/

/-- An environment in which every send goes out. -/
def Env.demo : Env :=
  { get_Hash := fun d => d.m_Rest
    sendOk := fun _ _ => true
    g_HdrPackMaxSize := 128
    m_GetState_ms := 5000
    m_GetBlock_ms := 30000
    macroblockOffset := fun _ _ => 0
    penalty := fun r => r / 2
    modifyRating := fun r d up => if up then r + d else r - d
    ratingInitial := 1024
    withPort := fun a p => a + p
    RewardHeader := 64
    RewardBlock := 512
    PenaltyTimeout := 256
    m_SrcPeers := 5
    RW_count := 6 }

/-- Run operations one after the other, as `Reachable` steps them: an operation
of a peer that is not in `m_lstPeers`, or one that exhausts the budget, stops
the run. -/
def runOps (E : Env) (fuel : Nat) : Node → List Op → Option Node
  | s, [] => some s
  | s, op :: ops =>
    if (match op.peer? with
        | some p => decide (p ∈ s.m_lstPeers)
        | none => true) then
      match (exec E fuel s op).node? with
      | some s1 => runOps E fuel s1 ops
      | none => none
    else none

/-- A peer connects, announces a tip of height 10 and authenticates as node 5. -/
def demoConnect : List Op :=
  [.accept 7, .connectedSecure 1, .newTip 1 ⟨10, 5, 0⟩ false .Rejected [],
   .authentication 1 5 .Node]

/-- The state after `demoConnect`. -/
def demoPeer : Node :=
  (runOps Env.demo 4 (Node.init 100 200 none) demoConnect).getD (Node.init 100 200 none)

/-- The processor asks twice for a block, each time preferring peer 5. -/
def demoBlocks : List Op :=
  [.requestData ⟨3, 33⟩ true (some 5), .requestData ⟨4, 44⟩ true (some 5)]

/-- The state after `demoConnect` and `demoBlocks`. -/
def demoTwoBlocks : Node :=
  (runOps Env.demo 4 demoPeer demoBlocks).getD demoPeer

/-- The state after a connection is accepted: one peer, not authenticated. -/
def demoFresh : Node :=
  (runOps Env.demo 4 (Node.init 100 200 none) [.accept 7]).getD (Node.init 100 200 none)

/-- The state after `demoConnect` and a request for the header of height 10,
which goes out as a pack. -/
def demoPack : Node :=
  (runOps Env.demo 4 demoPeer [.requestData ⟨10, 0⟩ false none]).getD demoPeer

/-- An environment in which a `Bye` cannot be sent; every other send goes out. -/
def Env.noBye : Env :=
  { Env.demo with
    sendOk := fun _ m =>
      match m with
      | .Bye _ => false
      | _ => true }

/-- A peer connects, announces a tip of height 10 and authenticates with the
node's own public ID. -/
def demoLoopback : List Op :=
  [.accept 7, .connectedSecure 1, .newTip 1 ⟨10, 5, 0⟩ false .Rejected [],
   .authentication 1 100 .Node]

/-- The state after `demoLoopback` where the `Bye` fails. -/
def demoHalfAuth : Node :=
  (runOps Env.noBye 4 (Node.init 100 200 none) demoLoopback).getD (Node.init 100 200 none)

/-- A change that moves no task: the lists of the peers, the global set, the
queue and the task records are the same. -/
structure SameTasks (s s' : Node) : Prop where
  lists : ∀ q, (s'.peerAt q).m_lstTasks = (s.peerAt q).m_lstTasks
  set : s'.m_setTasks = s.m_setTasks
  un : s'.m_lstTasksUnassigned = s.m_lstTasksUnassigned
  taskAt : s'.taskAt = s.taskAt

/-- A relevant task stays relevant and in the global set, and no task becomes
relevant. -/
def KeepRel (s s' : Node) : Prop :=
  ∀ k, (s'.taskAt k).m_bRelevant = (s.taskAt k).m_bRelevant ∧
    ((s.taskAt k).m_bRelevant = true → k ∈ s.m_setTasks → k ∈ s'.m_setTasks)

/-- No peer becomes eligible for a task of height at least 1. -/
def Shrink (E : Env) (s s' : Node) : Prop :=
  ∀ k q, 1 ≤ k.first.m_Height → ShouldAssignTask E s k q = false →
    ShouldAssignTask E s' k q = false

/-- A peer whose tip is at height 0 keeps such a tip and gets no task. -/
def ZKeep (s s' : Node) : Prop :=
  ∀ q, (s.peerAt q).m_Tip.m_Height = 0 →
    (s'.peerAt q).m_Tip.m_Height = 0 ∧
      (s'.peerAt q).m_lstTasks.length ≤ (s.peerAt q).m_lstTasks.length

/-- Every task of the global set is for a height of at least 1. -/
def HeightsPos (s : Node) : Prop := ∀ k ∈ s.m_setTasks, 1 ≤ k.first.m_Height

/-- The number of peers in `m_lstPeers` whose tip is above height 0. -/
def liveCount (s : Node) : Nat :=
  s.m_lstPeers.countP (fun q => decide ((s.peerAt q).m_Tip.m_Height ≠ 0))

/-- No peer of `m_lstPeers` is eligible for task `k`. -/
def NoElig (E : Env) (s : Node) (k : TaskKey) : Prop :=
  ∀ q ∈ s.m_lstPeers, ShouldAssignTask E s k q = false

/-- Peer `a` comes before peer `b` in the list. -/
def Before (a b : PeerRef) (l : List PeerRef) : Prop :=
  ∃ l1 l2, l = l1 ++ b :: l2 ∧ a ∈ l1

/-- What releasing and re-assigning does to the tasks it moves: a task that is
new in a peer's list went to a peer that was eligible for it, the first such in
`m_lstPeers`; a task that is not relevant goes to no list and does not stay in
the queue. -/
structure Handover (E : Env) (s s' : Node) : Prop where
  shrink : Shrink E s s'
  peers : s'.m_lstPeers.Sublist s.m_lstPeers
  fresh : ∀ k q, 1 ≤ k.first.m_Height → k ∈ (s'.peerAt q).m_lstTasks →
    k ∈ (s.peerAt q).m_lstTasks ∨
      (ShouldAssignTask E s k q = true ∧
        ∀ q', Before q' q s'.m_lstPeers → ShouldAssignTask E s' k q' = false)
  irr : ∀ k q, (s.taskAt k).m_bRelevant = false → k ∈ (s'.peerAt q).m_lstTasks →
    k ∈ (s.peerAt q).m_lstTasks
  queueIrr : ∀ k, k ∈ s'.m_lstTasksUnassigned →
    k ∈ s.m_lstTasksUnassigned ∨ (s.taskAt k).m_bRelevant = true

/-- A task of height at least 1 that is new in the queue, or is in `X`, is in
the queue because no peer is eligible for it. -/
def QuietNew (E : Env) (X : TaskKey → Prop) (s s' : Node) : Prop :=
  ∀ k, 1 ≤ k.first.m_Height → k ∈ s'.m_lstTasksUnassigned →
    (k ∉ s.m_lstTasksUnassigned ∨ X k) → NoElig E s' k

/-- The calls into the chain processor a state has recorded. -/
def procCalls (s : Node) : List Event := s.trace.filter Event.isProcessor

/-- Two peers connect, announce a tip of height 10 and authenticate as nodes 5
and 6; the processor asks for the block of height 3, which goes to peer 1. -/
def demoTwoPeersOps : List Op :=
  [.accept 7, .accept 8, .connectedSecure 1, .connectedSecure 2,
   .newTip 1 ⟨10, 5, 0⟩ false .Rejected [], .newTip 2 ⟨10, 5, 0⟩ false .Rejected [],
   .authentication 1 5 .Node, .authentication 2 6 .Node, .requestData ⟨3, 33⟩ true none]

/-- The state after `demoTwoPeersOps`. -/
def demoTwoPeers : Node :=
  (runOps Env.demo 4 (Node.init 100 200 none) demoTwoPeersOps).getD (Node.init 100 200 none)

/-- The state after peer 1 of `demoTwoPeers` is deleted. -/
def demoHandover : Node :=
  match DeleteSelf Env.demo 6 demoTwoPeers 1 false none with
  | .ok s' => s'
  | _ => demoTwoPeers

/-- The event is a call `OnRemoteError` for the entry `j`. -/
def Event.isErrorOf (j : InfoRef) : Event → Bool
  | .onRemoteError i _ => i == j
  | _ => false

/-- The calls `OnRemoteError` a state has recorded for the entry `j`. -/
def errorsOf (j : InfoRef) (s : Node) : List Event := s.trace.filter (Event.isErrorOf j)

/-- The entry `j` has the same rating and no new `OnRemoteError`. -/
def Untouched (s s' : Node) (j : InfoRef) : Prop :=
  (s'.infoAt j).m_RawRating = (s.infoAt j).m_RawRating ∧ errorsOf j s' = errorsOf j s

/-- An entry is penalised only when a session that points to it, with a tip
above 0, has been deleted in between (its tip is zeroed). -/
def InfoRel (s s' : Node) : Prop :=
  ∀ j, Untouched s s' j ∨
    ∃ q ∈ s.m_lstPeers, (s.peerAt q).m_pInfo = some j ∧ (s.peerAt q).m_Tip.m_Height ≠ 0 ∧
      (s'.peerAt q).m_Tip.m_Height = 0

/-- The state in which `OnMsg(proto::Authentication&&)` reaches the loopback
test, if it does: the flag `PiRcvd` is set and an entry of another ID is
detached. -/
def authBegin (s : Node) (p : PeerRef) (id : PeerID) : Option Node :=
  if (s.peerAt p).m_Flags.PiRcvd ∨ id = 0 then none
  else
    let s1 := s.setPeer p (fun x => { x with m_Flags := { x.m_Flags with PiRcvd := true } })
    match (s1.peerAt p).m_pInfo with
    | none => some s1
    | some i => if (s1.infoAt i).m_ID = id then none else some (authDetach s1 p i)

/-- The call `pm.OnPeer(msg.m_ID, addr, bAddrValid)` of
`OnMsg(proto::Authentication&&)`. -/
def authOnPeer (E : Env) (s : Node) (p : PeerRef) (id : PeerID) : Node × InfoRef :=
  let bAddrValid := decide ((s.peerAt p).m_Port > 0)
  let addr := if bAddrValid then E.withPort (s.peerAt p).m_RemoteAddr (s.peerAt p).m_Port else 0
  OnPeer E s id addr bAddrValid

/-- Node 5 is connected as peer 1; a second connection, peer 2, is accepted. -/
def demoDupOps : List Op :=
  [.accept 7, .connectedSecure 1, .authentication 1 5 .Node, .accept 8, .connectedSecure 2]

/-- The state after `demoDupOps`. -/
def demoDup : Node :=
  (runOps Env.demo 4 (Node.init 100 200 none) demoDupOps).getD (Node.init 100 200 none)

/-- The state `demoDup` at the loopback test of the authentication of peer 2 as
node 5. -/
def demoDupA : Node := (authBegin demoDup 2 5).getD demoDup

/-- The state `demoDupA` after the call of `OnPeer`. -/
def demoDup2 : Node := (authOnPeer Env.demo demoDupA 2 5).1

/-- The state after peer 2 of `demoDup` has authenticated as node 5. -/
def demoDupDone : Node :=
  match OnMsg_Authentication Env.demo 6 demoDup 2 5 .Node with
  | .ok s' => s'
  | _ => demoDup

/-- Node 5 connects and is banned; the peer manager activates its entry, which
gives session 1; a second connection, peer 2, is accepted. -/
def demoBannedOps : List Op :=
  [.accept 7, .authentication 1 5 .Node, .peerInsane 5, .activatePeer 1 9, .accept 8]

/-- The state after `demoBannedOps`. -/
def demoBanned : Node :=
  (runOps Env.demo 4 (Node.init 100 200 none) demoBannedOps).getD (Node.init 100 200 none)

/-- The state `demoBanned` at the loopback test of the authentication of peer 2
as node 5. -/
def demoBannedA : Node := (authBegin demoBanned 2 5).getD demoBanned

/-- The call returned and left entry 1 without a live session and
`m_lstPeers` empty. -/
def noSessionLeft (r : Res) : Bool :=
  match r with
  | .ok s' => decide ((s'.infoAt 1).m_pLive = none) && decide (s'.m_lstPeers = [])
  | _ => false

/-! ## The registry of requested items (`Node::Wanted`) -/

/-- The type `Node::Wanted::Item`. -/
structure WantedItem where
  m_Key : Nat
  m_Advertised_ms : Nat
deriving DecidableEq, Repr

/-- The type `Node::Wanted`: the items are linked into the list `m_lst` and into
the set `m_set`, which is searched by key.  `m_pTimer` is `none` for a null
pointer, `some none` for a timer that is not running and `some (some ms)` for
one started with delay `ms`.
`expired` records the calls of the virtual `OnExpired`, and `reads` counts the
calls of `GetTime_ms`. -/
structure Wanted where
  m_lst : List WantedItem
  m_set : List WantedItem
  m_pTimer : Option (Option Nat)
  expired : List Nat
  reads : Nat
deriving DecidableEq, Repr

/-- The difference `a - b` of two `uint32_t`. -/
def sub32 (a b : Nat) : Nat := (a % 2 ^ 32 + (2 ^ 32 - b % 2 ^ 32)) % 2 ^ 32

/-- The function `Node::Wanted::SetTimer`; `clk k` is what the `k`-th call of
`GetTime_ms` returns, `timeout_ms` the value of `get_Timeout_ms`. -/
def Wanted.SetTimer (clk : Nat → Nat) (timeout_ms : Nat) (w : Wanted) : Wanted :=
  match w.m_lst with
  | [] =>
    match w.m_pTimer with
    | none => w
    | some _ => { w with m_pTimer := some none }
  | n :: _ =>
    let dt := sub32 (clk w.reads) n.m_Advertised_ms
    { w with
      m_pTimer := some (some (if timeout_ms > dt then timeout_ms - dt else 0))
      reads := w.reads + 1 }

/-- The function `Node::Wanted::DeleteInternal`. -/
def Wanted.DeleteInternal (w : Wanted) (n : WantedItem) : Wanted :=
  { w with m_lst := w.m_lst.erase n, m_set := w.m_set.erase n }

/-- The function `void Node::Wanted::Delete(Item&)`. -/
def Wanted.Delete (clk : Nat → Nat) (timeout_ms : Nat) (w : Wanted) (n : WantedItem) : Wanted :=
  let bFront := decide (w.m_lst.head? = some n)
  let w1 := w.DeleteInternal n
  if bFront then w1.SetTimer clk timeout_ms else w1

/-- The function `bool Node::Wanted::Delete(const KeyType&)`. -/
def Wanted.DeleteKey (clk : Nat → Nat) (timeout_ms : Nat) (w : Wanted) (key : Nat) :
    Bool × Wanted :=
  match w.m_set.find? (fun n => n.m_Key == key) with
  | none => (false, w)
  | some n => (true, w.Delete clk timeout_ms n)

/-- The function `Node::Wanted::Add`. -/
def Wanted.Add (clk : Nat → Nat) (timeout_ms : Nat) (w : Wanted) (key : Nat) : Bool × Wanted :=
  match w.m_set.find? (fun n => n.m_Key == key) with
  | some _ => (false, w)
  | none =>
    let bEmpty := w.m_lst.isEmpty
    let p : WantedItem := ⟨key, clk w.reads % 2 ^ 32⟩
    let w1 : Wanted :=
      { w with m_lst := w.m_lst ++ [p], m_set := w.m_set ++ [p], reads := w.reads + 1 }
    (true, if bEmpty then w1.SetTimer clk timeout_ms else w1)

/-- Outcome of `Node::Wanted::OnTimer`: it returned, or it was left by an
exception of the virtual `OnExpired`; `w` is the registry it leaves. -/
inductive WantedRes where
  | ok (w : Wanted)
  | exc (w : Wanted)
deriving DecidableEq, Repr

/-- The registry a call leaves, whether it returned or threw. -/
def WantedRes.state : WantedRes → Wanted
  | .ok w => w
  | .exc w => w

/-- The loop of `Node::Wanted::OnTimer`; each round unlinks the front item, so
the length of the list bounds the rounds.  `OnExpired` is virtual, and both
overrides (`WantedTx`, `Bbs::WantedMsg`) send to peers with no `try` around the
send: `okExpired k` tells whether call number `k` of `OnExpired` returns (the
calls are counted by `expired`).  When it throws, the loop is left before
`Delete(n)`. -/
def Wanted.expireLoop (clk : Nat → Nat) (okExpired : Nat → Bool) (timeout_ms t_ms : Nat) :
    Nat → Wanted → WantedRes
  | 0, w => .ok w
  | fuel + 1, w =>
    match w.m_lst with
    | [] => .ok w
    | n :: _ =>
      if sub32 t_ms n.m_Advertised_ms < timeout_ms then .ok w
      else if okExpired w.expired.length then
        Wanted.expireLoop clk okExpired timeout_ms t_ms fuel
          (Wanted.Delete clk timeout_ms { w with expired := w.expired ++ [n.m_Key] } n)
      else .exc { w with expired := w.expired ++ [n.m_Key] }

/-- The function `Node::Wanted::OnTimer`. -/
def Wanted.OnTimer (clk : Nat → Nat) (okExpired : Nat → Bool) (timeout_ms : Nat) (w : Wanted) :
    WantedRes :=
  Wanted.expireLoop clk okExpired timeout_ms (clk w.reads) w.m_lst.length
    { w with reads := w.reads + 1 }

/-- The delay `SetTimer` starts the timer with at time `now` for an item
advertised at `adv`. -/
def wantedDelay (timeout_ms now adv : Nat) : Nat :=
  if timeout_ms > sub32 now adv then timeout_ms - sub32 now adv else 0

/-- A registry with one item, advertised at 100, whose timer has just gone off. -/
def demoWanted : Wanted :=
  { m_lst := [⟨1, 100⟩], m_set := [⟨1, 100⟩], m_pTimer := some none, expired := [], reads := 0 }

/-- A registry with three items advertised at 100, 150 and 250. -/
def demoWanted3 : Wanted :=
  { m_lst := [⟨1, 100⟩, ⟨2, 150⟩, ⟨3, 250⟩], m_set := [⟨1, 100⟩, ⟨2, 150⟩, ⟨3, 250⟩],
    m_pTimer := some none, expired := [], reads := 0 }

/-! ## Bulletin board -/

/-- A row of the BBS table: `NodeDB::WalkerBbs::Data`. -/
structure BbsData where
  m_Key : Nat
  m_Channel : Channel
  m_TimePosted : Nat
  m_Message : Nat
deriving DecidableEq, Repr

/-- The type `Node::Bbs` (the subscriptions are in `Node.m_Subscribed`) with the
BBS table of the database.  `nTimestamp` and `nTime_ms` count the calls of
`getTimestamp` and of `GetTime_ms`. -/
structure Bbs where
  table : List BbsData
  m_W : Wanted
  m_LastCleanup_ms : Nat
  m_RecommendedChannel : Channel
  nTimestamp : Nat
  nTime_ms : Nat
deriving DecidableEq, Repr

/-- What the bulletin board takes from outside `node.cpp`: the hash of
`CalcMsgKey`, the two clocks (`getTimestamp k` is what the `k`-th call returns,
in seconds), the walker's data before the first row, and the configuration. -/
structure BbsEnv where
  CalcMsgKey : Nat → Channel → Nat
  getTimestamp : Nat → Nat
  GetTime_ms : Nat → Nat
  wlkChannel : Channel
  m_BbsMessageTimeout_s : Nat
  m_BbsMessageMaxAhead_s : Nat
  m_BbsCleanupPeriod_ms : Nat
  m_BbsIdealChannelPopulation : Nat
  m_GetBbsMsg_ms : Nat

/-- The difference `a - b` of two `uint64_t`. -/
def sub64 (a b : Nat) : Nat := (a % 2 ^ 64 + (2 ^ 64 - b % 2 ^ 64)) % 2 ^ 64

/-- Modelled from the spec: `NodeDB::BbsFind` is not in `node.cpp`; the table is
"keyed by message hash". -/
def BbsFind (b : Bbs) (key : Nat) : Bool := b.table.any (fun d => d.m_Key == key)

/-- Modelled from the spec: `NodeDB::BbsIns` is not in `node.cpp`; the row
enters the table. -/
def BbsIns (b : Bbs) (d : BbsData) : Bbs := { b with table := b.table ++ [d] }

/-- Modelled from the spec: `NodeDB::BbsDelOld` is not in `node.cpp`; it deletes
the "entries older than" the given time. -/
def BbsDelOld (b : Bbs) (t : Nat) : Bbs :=
  { b with table := b.table.filter (fun d => decide (t ≤ d.m_TimePosted)) }

/-- Modelled from the spec: `NodeDB::EnumAllBbs` is not in `node.cpp`; the rows
come in the order of their channels. -/
def EnumAllBbs (b : Bbs) : List BbsData :=
  b.table.insertionSort (fun x y => x.m_Channel ≤ y.m_Channel)

/-- The locals of `Node::Bbs::FindRecommendedChannel`, with the channel it has
chosen. -/
structure ChannelScan where
  nChannel : Channel
  nCount : Nat
  nCountFound : Nat
  bFound : Bool
  m_RecommendedChannel : Channel
deriving DecidableEq, Repr

/-- The `else` branch of the loop of `FindRecommendedChannel`, up to the test of
`bMoved`; `cur` is the channel in the walker's data. -/
def ChannelScan.close (ideal : Nat) (cur : Channel) (st : ChannelScan) : ChannelScan :=
  let st1 :=
    if st.nCount ≤ ideal ∧ (st.bFound = false ∨ st.nCountFound < st.nCount) then
      { st with bFound := true, nCountFound := st.nCount, m_RecommendedChannel := st.nChannel }
    else st
  if st1.bFound = false ∧ (st1.nChannel + 1) % 2 ^ 32 ≠ cur then
    { st1 with bFound := true, nCountFound := 0,
               m_RecommendedChannel := (st1.nChannel + 1) % 2 ^ 32 }
  else st1

/-- The loop of `FindRecommendedChannel` over the rows still to come; `cur` is
the channel in the walker's data, which a failed `MoveNext` leaves alone. -/
def channelLoop (ideal : Nat) : List BbsData → Channel → ChannelScan → ChannelScan
  | [], cur, st => st.close ideal cur
  | d :: rest, _, st =>
    if d.m_Channel = st.nChannel then
      channelLoop ideal rest d.m_Channel { st with nCount := (st.nCount + 1) % 2 ^ 32 }
    else
      channelLoop ideal rest d.m_Channel
        { st.close ideal d.m_Channel with nChannel := d.m_Channel, nCount := 1 }

/-- The function `Node::Bbs::FindRecommendedChannel`. -/
def FindRecommendedChannel (B : BbsEnv) (b : Bbs) : Bbs :=
  { b with m_RecommendedChannel :=
      (channelLoop B.m_BbsIdealChannelPopulation (EnumAllBbs b) B.wlkChannel
        ⟨0, 0, 0, false, b.m_RecommendedChannel⟩).m_RecommendedChannel }

/-- The function `Node::Bbs::Cleanup`. -/
def Cleanup (B : BbsEnv) (b : Bbs) : Bbs :=
  let b1 := BbsDelOld { b with nTimestamp := b.nTimestamp + 1 }
    (sub64 (B.getTimestamp b.nTimestamp) B.m_BbsMessageTimeout_s)
  FindRecommendedChannel B
    { b1 with m_LastCleanup_ms := B.GetTime_ms b1.nTime_ms % 2 ^ 32, nTime_ms := b1.nTime_ms + 1 }

/-- The function `Node::Bbs::MaybeCleanup`. -/
def MaybeCleanup (B : BbsEnv) (b : Bbs) : Bbs :=
  let b1 := { b with nTime_ms := b.nTime_ms + 1 }
  if sub32 (B.GetTime_ms b.nTime_ms) b.m_LastCleanup_ms ≥ B.m_BbsCleanupPeriod_ms then
    Cleanup B b1
  else b1

/-- The first loop of `OnMsg(proto::BbsMsg&&)`: `BbsHaveMsg` to the other peers
that relay the bulletin board. -/
def sendHaveMsg (E : Env) (p : PeerRef) (key : Nat) : List PeerRef → Node → Res
  | [], s => .ok s
  | q :: qs, s =>
    if q = p then sendHaveMsg E p key qs s
    else if !(s.peerAt q).m_Config.m_Bbs then sendHaveMsg E p key qs s
    else (Send E s q (.BbsHaveMsg key)).bind fun s1 => sendHaveMsg E p key qs s1

/-- The second loop of `OnMsg(proto::BbsMsg&&)`: the message to the other
subscribers of the channel. -/
def sendSubscribed (E : Env) (p : PeerRef) (d : BbsData) : List Subscription → Node → Res
  | [], s => .ok s
  | x :: xs, s =>
    if x.m_pPeer = p then sendSubscribed E p d xs s
    else
      (Send E s x.m_pPeer (.BbsMsg d.m_Channel d.m_TimePosted d.m_Message)).bind fun s1 =>
        sendSubscribed E p d xs s1

/-- The handler `Node::Peer::OnMsg(proto::BbsMsg&&)`; the result is what the
sends leave of the node, and the bulletin board. -/
def OnMsg_BbsMsg (E : Env) (B : BbsEnv) (s : Node) (b : Bbs) (p : PeerRef)
    (channel : Channel) (timePosted message : Nat) : Res × Bbs :=
  let t := B.getTimestamp b.nTimestamp % 2 ^ 64
  let b0 := { b with nTimestamp := b.nTimestamp + 1 }
  let t0 := sub64 t B.m_BbsMessageTimeout_s
  let t1 := (t + B.m_BbsMessageMaxAhead_s) % 2 ^ 64
  if timePosted ≤ t0 ∨ timePosted > t1 then (.ok s, b0)
  else
    let d : BbsData := ⟨B.CalcMsgKey message channel, channel, timePosted, message⟩
    if BbsFind b0 d.m_Key then (.ok s, b0)
    else
      let b1 := BbsIns (MaybeCleanup B b0) d
      let b2 := { b1 with m_W := (b1.m_W.DeleteKey B.GetTime_ms B.m_GetBbsMsg_ms d.m_Key).2 }
      ((sendHaveMsg E p d.m_Key s.m_lstPeers s).bind fun s1 =>
          sendSubscribed E p d (s1.m_Subscribed.filter (fun x => x.m_Channel == channel)) s1,
        b2)

/-- A bulletin board with nothing stored. -/
def Bbs.empty : Bbs :=
  { table := [], m_W := ⟨[], [], none, [], 0⟩, m_LastCleanup_ms := 0,
    m_RecommendedChannel := 0, nTimestamp := 0, nTime_ms := 0 }

/-- A clock at 1000 s, a message timeout of 100 s and 50 s allowed ahead. -/
def BbsEnv.demo : BbsEnv :=
  { CalcMsgKey := fun m c => m + c
    getTimestamp := fun _ => 1000
    GetTime_ms := fun _ => 0
    wlkChannel := 0
    m_BbsMessageTimeout_s := 100
    m_BbsMessageMaxAhead_s := 50
    m_BbsCleanupPeriod_ms := 60000
    m_BbsIdealChannelPopulation := 100
    m_GetBbsMsg_ms := 10000 }

/-- Two peers are connected; the second has announced that it relays the
bulletin board. -/
def demoBbsNode : Node :=
  let s := (runOps Env.demo 4 (Node.init 100 200 none) [.accept 7, .accept 8]).getD
    (Node.init 100 200 none)
  s.setPeer 2 (fun x => { x with m_Config := { x.m_Config with m_Bbs := true } })

/-! ## Transaction pools -/

/-- The type `TxPool::Fluff::Element`: the transaction with its key and the
fee and size of its profit. -/
structure FluffElement where
  m_Key : Nat
  m_pValue : Transaction
  m_Fee : Nat
  m_nSize : Nat
deriving DecidableEq, Repr

/-- The type `TxPool::Stem::Element`; `m_Time` is the delay its timer was set
with, if it was. -/
structure StemElement where
  m_pValue : Transaction
  m_bAggregating : Bool
  m_Fee : Nat
  m_nSize : Nat
  m_Time : Option Nat
deriving DecidableEq, Repr

abbrev StemRef := Nat

/-- The members of `Node` that the transaction pipeline works on, next to those
of `Node`: the fluff pool `m_TxPool.m_setTxs`, the stem pool, the transactions
asked for, the miner's restart timer (`m_Miner.m_pTimer`, as in `Wanted`) and
the number of nonces drawn so far. -/
structure TxNode where
  node : Node
  m_TxPool : List FluffElement
  stemAt : StemRef → StemElement
  m_Dandelion : List StemRef
  m_Wtx : Wanted
  m_MinerTimer : Option (Option Nat)
  m_bTimerPending : Bool
  nNonce : Nat

/-- What the transaction pipeline takes from outside `node.cpp`: the key and the
validation of a transaction, the fee and size the validation context and the
profit record for it, the nonces (`NextNonce k` is the `k`-th, as bytes), the
value `random k` that `RandomUInt32` works out of the `k`-th nonce, the clock,
and the configuration (`m_FluffProbability` as the bytes of `uintBigFrom`). -/
structure TxEnv where
  get_Key : Transaction → Nat
  ValidateTx : Transaction → Bool
  txFee : Transaction → Nat
  txSize : Transaction → Nat
  NextNonce : Nat → List Nat
  random : Nat → Nat
  GetTime_ms : Nat → Nat
  m_FluffProbability : List Nat
  m_TimeoutMin_ms : Nat
  m_TimeoutMax_ms : Nat
  m_MaxPoolTransactions : Nat
  m_MiningSoftRestart_ms : Nat
  m_GetTx_ms : Nat

/-- Outcome of a call of the transaction pipeline: a return value, an exception,
or a loop that has run past the end of its list. -/
inductive TxRes (α : Type) where
  | ok (a : α) (s : TxNode)
  | exc (e : Exc) (s : TxNode)
  | lost

/-- The test `memcmp(a, b, n) < 0` for `n` the length of `a`. -/
def memcmpLt : List Nat → List Nat → Bool
  | x :: xs, y :: ys =>
    if x % 256 < y % 256 then true
    else if y % 256 < x % 256 then false
    else memcmpLt xs ys
  | _, _ => false

/-- The function `Node::RandomUInt32`.  The rejection loop of
`uintBig::Threshold` is not in `node.cpp`: the value it accepts is below the
threshold, and the nonces it takes count as one. -/
def RandomUInt32 (T : TxEnv) (s : TxNode) (threshold : Nat) : Nat × TxNode :=
  if threshold ≠ 0 then (T.random s.nNonce % threshold, { s with nNonce := s.nNonce + 1 })
  else (threshold, s)

/-- Modelled from the spec: `TxPool::Stem::Delete` is not in `node.cpp`; the
element leaves the stem pool and its indexes. -/
def DandelionDelete (s : TxNode) (x : StemRef) : TxNode :=
  { s with m_Dandelion := s.m_Dandelion.erase x }

/-- Modelled from the spec: the index `m_setKrns` is filled outside `node.cpp`;
the stem pool is "indexed by kernel ID": the element that holds the kernel. -/
def findKrn (s : TxNode) (k : Nat) : Option StemRef :=
  s.m_Dandelion.find? (fun x => decide (k ∈ (s.stemAt x).m_pValue.m_vKernelsOutput))

/-- Modelled from the spec: `TxPool::Stem::SetTimer` is not in `node.cpp`; the
timer of the element is set anew. -/
def DandelionSetTimer (s : TxNode) (nTimeout_ms : Nat) (x : StemRef) : TxNode :=
  { s with stemAt := Function.update s.stemAt x { s.stemAt x with m_Time := some nTimeout_ms } }

/-- Modelled from the spec: `TxPool::Fluff::AddValidTx` is not in `node.cpp`;
the entry of the fluff pool holds "`tx`, `context` (fees, size), `key`". -/
def AddValidTx (s : TxNode) (tx : Transaction) (fee size key : Nat) : TxNode :=
  { s with m_TxPool := s.m_TxPool ++ [⟨key, tx, fee, size⟩] }

/-- Modelled from the spec: the entry that `ShrinkUpTo` drops next, one of lowest
fee per size. -/
def worstFluff : List FluffElement → Option FluffElement
  | [] => none
  | a :: l =>
    match worstFluff l with
    | none => some a
    | some b => if b.m_Fee * a.m_nSize < a.m_Fee * b.m_nSize then some b else some a

/-- Modelled from the spec: the loop of `TxPool::Fluff::ShrinkUpTo`, which is
not in `node.cpp`; each round drops one entry. -/
def shrinkLoop (nCount : Nat) : Nat → List FluffElement → List FluffElement
  | 0, l => l
  | fuel + 1, l =>
    if l.length ≤ nCount then l
    else
      match worstFluff l with
      | none => l
      | some w => shrinkLoop nCount fuel (l.erase w)

/-- Modelled from the spec: `TxPool::Fluff::ShrinkUpTo` is not in `node.cpp`;
"shrink to `MaxPoolTransactions` by lowest fee/size". -/
def ShrinkUpTo (s : TxNode) (nCount : Nat) : TxNode :=
  { s with m_TxPool := shrinkLoop nCount s.m_TxPool.length s.m_TxPool }

/-- The function `Node::Miner::SetTimer`. -/
def MinerSetTimer (s : TxNode) (timeout_ms : Nat) (bHard : Bool) : TxNode :=
  match s.m_MinerTimer with
  | some _ =>
    if s.m_bTimerPending && !bHard then s
    else { s with m_MinerTimer := some (some timeout_ms), m_bTimerPending := true }
  | none => { s with m_MinerTimer := some (some timeout_ms), m_bTimerPending := true }

/-- The broadcast loop of `Node::OnTransactionFluff`: `HaveTransaction` to the
peers that spread transactions, but for the one the transaction came from. -/
def sendHaveTx (E : Env) (pPeer : Option PeerRef) (key : Nat) : List PeerRef → Node → Res
  | [], s => .ok s
  | q :: qs, s =>
    if some q = pPeer then sendHaveTx E pPeer key qs s
    else if !(s.peerAt q).m_Config.m_SpreadingTransactions then sendHaveTx E pPeer key qs s
    else (Send E s q (.HaveTransaction key)).bind fun s1 => sendHaveTx E pPeer key qs s1

/-- The head of `Node::OnTransactionFluff`: the stem elements that the
transaction overlaps leave the stem pool. -/
def dropStem (s : TxNode) (ptx : Transaction) (pElem : Option StemRef) : TxNode :=
  match pElem with
  | some x => DandelionDelete s x
  | none =>
    ptx.m_vKernelsOutput.foldl
      (fun acc k =>
        match findKrn acc k with
        | some x => DandelionDelete acc x
        | none => acc) s

/-- The function `Node::OnTransactionFluff` (without the log line). -/
def OnTransactionFluff (E : Env) (T : TxEnv) (s : TxNode) (ptx : Transaction)
    (pPeer : Option PeerRef) (pElem : Option StemRef) : TxRes Bool :=
  let fee :=
    match pElem with
    | some x => (s.stemAt x).m_Fee
    | none => T.txFee ptx
  let s1 := dropStem s ptx pElem
  let key := T.get_Key ptx
  if s1.m_TxPool.any (fun e => e.m_Key == key) then .ok true s1
  else
    let s2 := { s1 with m_Wtx := (s1.m_Wtx.DeleteKey T.GetTime_ms T.m_GetTx_ms key).2 }
    let bValid := pElem.isSome || T.ValidateTx ptx
    if !bValid then .ok false s2
    else
      match sendHaveTx E pPeer key s2.node.m_lstPeers s2.node with
      | .ok n1 =>
        let s3 := AddValidTx { s2 with node := n1 } ptx fee (T.txSize ptx) key
        .ok true (MinerSetTimer (ShrinkUpTo s3 T.m_MaxPoolTransactions) T.m_MiningSoftRestart_ms false)
      | .exc e n1 => .exc e { s2 with node := n1 }
      | .out => .lost

/-- The selection loop of `Node::OnTransactionAggregated`: the peer at which
`m_SpreadingTransactions && !nStemPeers--` holds; the loop has no test for the
end of the list. -/
def selectStem (s : Node) : List PeerRef → Nat → Option PeerRef
  | [], _ => none
  | q :: qs, n =>
    if (s.peerAt q).m_Config.m_SpreadingTransactions then
      if n = 0 then some q else selectStem s qs (n - 1)
    else selectStem s qs n

/-- A call whose return value is dropped. -/
def TxRes.void : TxRes Bool → TxRes Unit
  | .ok _ s => .ok () s
  | .exc e s => .exc e s
  | .lost => .lost

/-- The state a call leaves behind, whether it returned or threw. -/
def TxRes.state? {α : Type} : TxRes α → Option TxNode
  | .ok _ s => some s
  | .exc _ s => some s
  | .lost => none

/-- The function `Node::OnTransactionAggregated`. -/
def OnTransactionAggregated (E : Env) (T : TxEnv) (s : TxNode) (x : StemRef) : TxRes Unit :=
  let nStemPeers :=
    (s.node.m_lstPeers.countP (fun q => (s.node.peerAt q).m_Config.m_SpreadingTransactions)) %
      2 ^ 32
  if nStemPeers ≠ 0 then
    let s1 := { s with nNonce := s.nNonce + 1 }
    if memcmpLt T.m_FluffProbability (T.NextNonce s.nNonce) then
      let (k, s2) := RandomUInt32 T s1 nStemPeers
      match selectStem s2.node s2.node.m_lstPeers k with
      | none => .lost
      | some q =>
        match Send E s2.node q (.NewTransaction (s2.stemAt x).m_pValue false) with
        | .ok n1 =>
          let (r, s3) := RandomUInt32 T { s2 with node := n1 }
            (sub32 T.m_TimeoutMax_ms T.m_TimeoutMin_ms)
          .ok () (DandelionSetTimer s3 ((T.m_TimeoutMin_ms + r) % 2 ^ 32) x)
        | .exc e n1 => .exc e { s2 with node := n1 }
        | .out => .lost
    else (OnTransactionFluff E T s1 (s1.stemAt x).m_pValue none (some x)).void
  else (OnTransactionFluff E T s (s.stemAt x).m_pValue none (some x)).void

/-- A pipeline configuration: every transaction is valid, fee and size are the
numbers of inputs and outputs, the fluff pool holds one transaction, the fluff
probability is 0 and every nonce is 32 zero bytes. -/
def TxEnv.demo : TxEnv :=
  { get_Key := fun tx => tx.m_vKernelsOutput.sum
    ValidateTx := fun _ => true
    txFee := fun tx => tx.m_vInputs.length
    txSize := fun tx => tx.m_vOutputs.length
    NextNonce := fun _ => List.replicate 32 0
    random := fun _ => 0
    GetTime_ms := fun _ => 0
    m_FluffProbability := [0, 0]
    m_TimeoutMin_ms := 20000
    m_TimeoutMax_ms := 50000
    m_MaxPoolTransactions := 1
    m_MiningSoftRestart_ms := 100
    m_GetTx_ms := 5000 }

/-- One peer is connected and has announced that it spreads transactions. -/
def demoSpreadNode : Node :=
  let s := (runOps Env.demo 4 (Node.init 100 200 none) [.accept 7]).getD (Node.init 100 200 none)
  s.setPeer 1 (fun x => { x with m_Config := { x.m_Config with m_SpreadingTransactions := true } })

/-- The fluff pool holds one transaction, of key 50, fee 3 and size 1; the stem
pool holds element 1, a transaction with kernel 60. -/
def demoTxNode : TxNode :=
  { node := demoSpreadNode
    m_TxPool := [⟨50, ⟨[1, 2, 3], [4], [50]⟩, 3, 1⟩]
    stemAt := fun _ => ⟨⟨[5], [6], [60]⟩, false, 1, 1, none⟩
    m_Dandelion := [1]
    m_Wtx := ⟨[], [], none, [], 0⟩
    m_MinerTimer := none
    m_bTimerPending := false
    nNonce := 0 }

/-- The state a returning call leaves, or `s` for any other outcome. -/
def TxRes.getD {α : Type} (r : TxRes α) (s : TxNode) : TxNode :=
  match r with
  | .ok _ s1 => s1
  | _ => s

/-- The state after the transaction with kernel 60 was submitted once. -/
def demoTxOnce : TxNode :=
  (OnTransactionFluff Env.demo TxEnv.demo demoTxNode ⟨[5], [6], [60]⟩ none none).getD demoTxNode

/-- The state after the transaction with kernel 60 was submitted twice. -/
def demoTxTwice : TxNode :=
  (OnTransactionFluff Env.demo TxEnv.demo demoTxOnce ⟨[5], [6], [60]⟩ none none).getD demoTxOnce

/-- The configuration `TxEnv.demo` with room for 100 transactions in the fluff
pool and nonces that start with the bytes 0 and 1. -/
def TxEnv.room : TxEnv :=
  { TxEnv.demo with m_MaxPoolTransactions := 100, NextNonce := fun _ => [0, 1, 2, 3] }

/-- The configuration `TxEnv.room` with the greatest fluff probability. -/
def TxEnv.always : TxEnv :=
  { TxEnv.room with m_FluffProbability := [255, 255] }

/-! ## Miner -/

abbrev StopRef := Nat
abbrev MinerTaskRef := Nat

/-- The type `Node::Miner::Task`; `m_pStop` is the address of the flag that
tasks share. -/
structure MinerTask where
  m_Hdr : Full
  m_Body : Nat
  m_Fees : Nat
  m_pStop : StopRef
deriving DecidableEq, Repr

/-- The state of `Node::Miner` that `m_Mutex` guards: the tasks made so far
(`taskAt`, `nTasks` of them), the flags made so far (`stopAt`, `nStop` of them),
`m_pTask`, the number of mining threads, the `pTask` that each thread holds
between the two locked sections of `OnRefresh`, and the number of times
`m_pEvtMined` was posted. -/
structure Miner where
  taskAt : MinerTaskRef → MinerTask
  nTasks : Nat
  stopAt : StopRef → Bool
  nStop : Nat
  m_pTask : Option MinerTaskRef
  m_vThreads : Nat
  pTask : Nat → Option MinerTaskRef
  nPosted : Nat

/-- The function `Node::Miner::Restart`.  `bSubsidyOpen`, `dh` and `nTreasury`
are the processor's flag, the height above genesis and the size of `m_vTreasury`;
`gen` is the header, body and fees of the block if `GenerateNewBlock` succeeds. -/
def Miner.Restart (m : Miner) (bSubsidyOpen : Bool) (dh nTreasury : Nat)
    (gen : Option (Full × Nat × Nat)) : Bool × Miner :=
  if m.m_vThreads = 0 then (false, m)
  else if bSubsidyOpen ∧ dh ≥ nTreasury then (false, m)
  else
    match gen with
    | none => (false, m)
    | some (hdr, body, fees) =>
      match m.m_pTask with
      | some cur =>
        if m.stopAt (m.taskAt cur).m_pStop then (true, m)
        else
          (true,
            { m with
              taskAt := Function.update m.taskAt m.nTasks ⟨hdr, body, fees, (m.taskAt cur).m_pStop⟩
              nTasks := m.nTasks + 1
              m_pTask := some m.nTasks })
      | none =>
        (true,
          { m with
            taskAt := Function.update m.taskAt m.nTasks ⟨hdr, body, fees, m.nStop⟩
            nTasks := m.nTasks + 1
            stopAt := Function.update m.stopAt m.nStop false
            nStop := m.nStop + 1
            m_pTask := some m.nTasks })

/-- The first locked section of `Node::Miner::OnRefresh` in thread `iIdx`: the
thread takes the current task, or leaves the loop. -/
def Miner.takeTask (m : Miner) (iIdx : Nat) : Miner :=
  match m.m_pTask with
  | none => { m with pTask := Function.update m.pTask iIdx none }
  | some cur =>
    if m.stopAt (m.taskAt cur).m_pStop then { m with pTask := Function.update m.pTask iIdx none }
    else { m with pTask := Function.update m.pTask iIdx (some cur) }

/-- The second locked section of `Node::Miner::OnRefresh` in thread `iIdx`, which
has solved its task with the header `s`. -/
def Miner.storeSolution (m : Miner) (iIdx : Nat) (s : Full) : Miner :=
  match m.pTask iIdx with
  | none => m
  | some t =>
    if m.stopAt (m.taskAt t).m_pStop then { m with pTask := Function.update m.pTask iIdx none }
    else
      { m with
        taskAt := Function.update m.taskAt t { m.taskAt t with m_Hdr := s }
        stopAt := Function.update m.stopAt (m.taskAt t).m_pStop true
        m_pTask := some t
        nPosted := m.nPosted + 1
        pTask := Function.update m.pTask iIdx none }

/-- The function `Node::Miner::HardAbortSafe`. -/
def Miner.HardAbortSafe (m : Miner) : Miner :=
  match m.m_pTask with
  | none => m
  | some cur =>
    { m with stopAt := Function.update m.stopAt (m.taskAt cur).m_pStop true, m_pTask := none }

/-- The locked section of `Node::Miner::OnMined`: the task that was mined, if
there is one, is taken out of `m_pTask`. -/
def Miner.OnMined (m : Miner) : Option MinerTaskRef × Miner :=
  match m.m_pTask with
  | none => (none, m)
  | some cur =>
    if m.stopAt (m.taskAt cur).m_pStop then (some cur, { m with m_pTask := none })
    else (none, m)

/-- The steps of the miner: each is one section under `m_Mutex`. -/
inductive MinerOp where
  | restart (bSubsidyOpen : Bool) (dh nTreasury : Nat) (gen : Option (Full × Nat × Nat))
  | takeTask (iIdx : Nat)
  | storeSolution (iIdx : Nat) (s : Full)
  | hardAbortSafe
  | onMined

/-- Run one step of the miner. -/
def Miner.step (m : Miner) : MinerOp → Miner
  | .restart b dh n gen => (m.Restart b dh n gen).2
  | .takeTask i => m.takeTask i
  | .storeSolution i s => m.storeSolution i s
  | .hardAbortSafe => m.HardAbortSafe
  | .onMined => m.OnMined.2

/-- A miner with `n` threads before its first task. -/
def Miner.init (n : Nat) : Miner :=
  { taskAt := fun _ => ⟨Full.zero, 0, 0, 0⟩
    nTasks := 0
    stopAt := fun _ => false
    nStop := 0
    m_pTask := none
    m_vThreads := n
    pTask := fun _ => none
    nPosted := 0 }

/-! ## Budget of the scheduler -/

/-- The measure of the termination argument: the invariant, tasks at height at
least 1, at most `N` tasks and at most `φ` peers with a tip above height 0. -/
structure Bounded (N φ : Nat) (s : Node) : Prop where
  inv : Inv s
  pos : HeightsPos s
  len : s.m_setTasks.length ≤ N
  live : liveCount s ≤ φ

/-! ## First-time sync: the request counter -/

/-- The function `Node::InitMode`, run on the node before any connection;
`bTreasury` is whether `m_vTreasury` has entries and `trg` the `SyncTarget`
parameter of the database, zero if there is none.  Modelled from the spec: the
constructor of `FirstTimeSync` is not in `node.cpp`; the shard index starts
"from 0", and so does the counter. -/
def InitMode (E : Env) (s : Node) (bTreasury : Bool) (trg : StateID) : Node :=
  if s.m_CursorHeight ≠ 0 then s
  else if bTreasury then s
  else if E.m_SrcPeers = 0 then s
  else
    let y : FirstTimeSync :=
      { m_bDetecting := decide (trg.m_Height = 0)
        m_RequestsPending := 0
        m_Trg := trg
        m_Best := 0
        m_iData := 0
        m_pTimer := false }
    { s with m_pSync := some y }

/-- The callback of the sync timer runs only while the timer exists; every
other operation can run at any time. -/
def Op.enabled (s : Node) : Op → Prop
  | .syncTimer _ => ∃ y, s.m_pSync = some y ∧ y.m_pTimer = true
  | _ => True

/-- The states of a node that `InitMode` has set up, under operations that run
when they are enabled. -/
inductive SyncReachable (E : Env) : Node → Prop where
  | init (myPublicID myOwnerID : PeerID) (bTreasury : Bool) (trg : StateID) :
      SyncReachable E (InitMode E (Node.init myPublicID myOwnerID none) bTreasury trg)
  | step {s s' : Node} (fuel : Nat) (op : Op) :
      SyncReachable E s → (∀ p, op.peer? = some p → p ∈ s.m_lstPeers) → op.enabled s →
      (exec E fuel s op).node? = some s' → SyncReachable E s'

/-- The number of peers in `m_lstPeers` that carry `SyncPending`. -/
def pendingCount (s : Node) : Nat :=
  s.m_lstPeers.countP (fun p => (s.peerAt p).m_Flags.SyncPending)

/-- The consistency of the sync controller with the peers: a peer is in
`m_lstPeers` once; while there is a controller, a peer with `SyncPending` is in
`m_lstPeers`; while it detects, no peer has `SyncPending`; after that the
timer is gone, and `m_RequestsPending` is the number of peers with
`SyncPending`, at most 1. -/
structure SyncInv (s : Node) : Prop where
  nodup : s.m_lstPeers.Nodup
  listed : ∀ y, s.m_pSync = some y → ∀ p, (s.peerAt p).m_Flags.SyncPending = true →
    p ∈ s.m_lstPeers
  detecting : ∀ y, s.m_pSync = some y → y.m_bDetecting = true →
    ∀ p, (s.peerAt p).m_Flags.SyncPending = false
  download : ∀ y, s.m_pSync = some y → y.m_bDetecting = false →
    y.m_RequestsPending = pendingCount s ∧ y.m_RequestsPending ≤ 1 ∧ y.m_pTimer = false

/-- A change that the request counter does not see: the controller, the peer
list and the `SyncPending` bit of every peer are the same. -/
structure SyncSame (s s' : Node) : Prop where
  sync : s'.m_pSync = s.m_pSync
  peers : s'.m_lstPeers = s.m_lstPeers
  flags : ∀ p, (s'.peerAt p).m_Flags.SyncPending = (s.peerAt p).m_Flags.SyncPending

/-- What a sync cycle changes: it may give `SyncPending` to a peer that has not
`DontSync`, and count the request; the peer list, the `DontSync` bits and the
rest of the controller are the same. -/
structure SyncStep (s s' : Node) : Prop where
  peers : s'.m_lstPeers = s.m_lstPeers
  dont : ∀ q, (s'.peerAt q).m_Flags.DontSync = (s.peerAt q).m_Flags.DontSync
  pend : ∀ q, (s'.peerAt q).m_Flags.SyncPending = true →
    (s.peerAt q).m_Flags.SyncPending = true ∨ (s.peerAt q).m_Flags.DontSync = false
  none : s.m_pSync = none → s'.m_pSync = none
  some : ∀ y, s.m_pSync = some y → ∃ y', s'.m_pSync = some y' ∧
    y'.m_bDetecting = y.m_bDetecting ∧ y'.m_Trg = y.m_Trg ∧ y'.m_Best = y.m_Best ∧
    y'.m_pTimer = y.m_pTimer ∧ y'.m_iData = y.m_iData

/-- Whether `Op.enabled` holds, as a test. -/
def Op.enabledB (s : Node) : Op → Bool
  | .syncTimer _ =>
    match s.m_pSync with
    | some y => y.m_pTimer
    | none => false
  | _ => true

/-- Run operations one after the other, as `SyncReachable` steps them. -/
def syncRunOps (E : Env) (fuel : Nat) : Node → List Op → Option Node
  | s, [] => some s
  | s, op :: ops =>
    if (match op.peer? with
        | some p => decide (p ∈ s.m_lstPeers)
        | none => true) && op.enabledB s then
      match (exec E fuel s op).node? with
      | some s1 => syncRunOps E fuel s1 ops
      | none => none
    else none

/-- A node that resumes a first-time sync up to the stored target of height 5. -/
def demoResume : Node := InitMode Env.demo (Node.init 100 200 none) false ⟨5, 55⟩

/-- A peer connects, authenticates as node 5 and announces a tip of height 10. -/
def demoSyncOps : List Op :=
  [.accept 7, .connectedSecure 1, .authentication 1 5 .Node,
   .newTip 1 ⟨10, 5, 0⟩ false .Rejected []]

/-- The state after `demoSyncOps`: the macroblock request to peer 1 is pending. -/
def demoSync : Node := (syncRunOps Env.demo 4 demoResume demoSyncOps).getD demoResume

/-- A `proto::Macroblock` message as its handler takes it: the peer it comes
from, `m_ID`, whether `m_Portion` is empty, and what the import and the
processor would answer. -/
structure MacroblockIn where
  p : PeerRef
  m_ID : StateID
  bufEmpty : Bool
  bImportOk : Bool
  hCursor : Nat
  walk : List ProcCall
deriving DecidableEq, Repr

/-- Macroblock messages handled one after the other; a throw ends the run. -/
def handleMacroblocks (E : Env) (fuel : Nat) : List MacroblockIn → Node → Res
  | [], s => .ok s
  | m :: ms, s =>
    (OnMsg_Macroblock E fuel s m.p m.m_ID m.bufEmpty m.bImportOk m.hCursor m.walk).bind
      fun s1 => handleMacroblocks E fuel ms s1

/-- The pair by which probe responses are ranked: the chainwork first, then the
height of the proposed target. -/
def probeKey (cw : Nat) (id : StateID) : Lex (Nat × Nat) := toLex (cw, id.m_Height)

/-- A node that starts a first-time sync with no stored target. -/
def demoDetect0 : Node := InitMode Env.demo (Node.init 100 200 none) false ⟨0, 0⟩

/-- Two peers connect, announce a tip of chainwork 9 and prove the work. -/
def demoDetectOps : List Op :=
  [.accept 7, .accept 8, .newTip 1 ⟨10, 9, 0⟩ false .Rejected [],
   .newTip 2 ⟨10, 9, 0⟩ false .Rejected [], .proofChainWork 1 true 9, .proofChainWork 2 true 9]

/-- The state after `demoDetectOps`: detecting, both peers with `ProvenWork`. -/
def demoDetect : Node := (syncRunOps Env.demo 4 demoDetect0 demoDetectOps).getD demoDetect0

/-- Both peers answer the probe with a target of height 8. -/
def demoReplies : List MacroblockIn :=
  [⟨1, ⟨8, 81⟩, true, false, 0, []⟩, ⟨2, ⟨8, 82⟩, true, false, 0, []⟩]

/-! ## Requests, responses and gossip -/

/-- The request as the specification words it: a block is asked for alone; a
header that is at least 5 above the local tip, while no header pack is
outstanding, is asked for as a pack of `min(g_HdrPackMaxSize, dh)`; any other
header is asked for alone. -/
def chosenRequest (g cursor nTasksPackHdr : Nat) (t : TaskKey) : Msg :=
  if t.second then .GetBody t.first
  else if cursor + 5 ≤ t.first.m_Height ∧ nTasksPackHdr = 0 then
    .GetHdrPack t.first (min g (t.first.m_Height - cursor))
  else .GetHdr t.first

/-- A call that throws nothing but the exception of a failed send. -/
def Res.IoOnly (r : Res) : Prop := ∀ e s', r = .exc e s' → e = .io

/-- The state after `demoConnect` and a request for the header of height 3,
which goes out alone. -/
def demoHdrOne : Node :=
  (runOps Env.demo 4 demoPeer [.requestData ⟨3, 33⟩ false none]).getD demoPeer

/-- The loop of `Node::Peer::OnResendPeers` over the rating set `rs`, highest
rating first; `nRemaining` is the local of that name. -/
def resendLoop (E : Env) (p : PeerRef) (nRemaining : Nat) : List InfoRef → Node → Res
  | [], s => .ok s
  | i :: rest, s =>
    if nRemaining = 0 then .ok s
    else if (s.peerAt p).m_Flags.PiRcvd ∧ (s.peerAt p).m_pInfo = some i then
      resendLoop E p nRemaining rest s
    else
      (Send E s p (.PeerInfo (s.infoAt i).m_ID (s.infoAt i).m_Addr)).bind fun s1 =>
        resendLoop E p nRemaining rest s1

/-- The function `Node::Peer::OnResendPeers`.  The peer manager is outside
`node.cpp`: `rs` is what `get_Ratings` enumerates and `nDesiredHighest` the
value of `m_Cfg.m_DesiredHighest`. -/
def OnResendPeers (E : Env) (s : Node) (p : PeerRef) (nDesiredHighest : Nat)
    (rs : List InfoRef) : Res :=
  resendLoop E p (nDesiredHighest % 2 ^ 32) rs s

/-- The `PeerInfo` messages to peer `p` in a trace. -/
def peerInfosSent (p : PeerRef) (tr : List Event) : List Event :=
  tr.filter fun e =>
    match e with
    | .sent q (.PeerInfo _ _) => q == p
    | _ => false

/-- The state after an outgoing connection to entry 1 of `demoTwoPeers` is
accepted as peer 3, which has not authenticated. -/
def demoGossip : Node :=
  (runOps Env.demo 4 demoTwoPeers [.accept 9]).getD demoTwoPeers

/-! ## Verification threads -/

/-- The value a `uint32_t` has as an `int`. -/
def toInt32 (v : Nat) : Int :=
  if v % 2 ^ 32 < 2 ^ 31 then (v % 2 ^ 32 : Nat) else ((v % 2 ^ 32 : Nat) : Int) - 2 ^ 32

/-- The assignment to `m_Cfg.m_VerificationThreads` in `Node::Initialize`;
`numCores` is what `std::thread::hardware_concurrency` returns. -/
def Initialize_VerificationThreads (m_VerificationThreads : Int)
    (m_MiningThreads numCores : Nat) : Int :=
  if m_VerificationThreads < 0 then
    toInt32 (if numCores % 2 ^ 32 > (m_MiningThreads + 1) % 2 ^ 32 then
      sub32 numCores m_MiningThreads else 0)
  else m_VerificationThreads

/-! ## The registry of requested items, continued -/

/-- The loop of `Node::Wanted::Clear`; each round unlinks the last item. -/
def Wanted.clearLoop : Nat → Wanted → Wanted
  | 0, w => w
  | fuel + 1, w =>
    match w.m_lst.getLast? with
    | none => w
    | some n => Wanted.clearLoop fuel (w.DeleteInternal n)

/-- The function `Node::Wanted::Clear`. -/
def Wanted.Clear (w : Wanted) : Wanted := Wanted.clearLoop w.m_lst.length w

/-- The calls a registry takes. -/
inductive WantedOp where
  | add (key : Nat)
  | delete (key : Nat)
  | onTimer
  | clear
deriving DecidableEq, Repr

/-- Run one call; the flag is what `Add` and `Delete` return, and for `OnTimer`
whether it returned.  The registry is the one the call leaves, also when
`OnTimer` is left by an exception of `OnExpired`. -/
def Wanted.step (clk : Nat → Nat) (okExpired : Nat → Bool) (timeout_ms : Nat) (w : Wanted) :
    WantedOp → Bool × Wanted
  | .add key => w.Add clk timeout_ms key
  | .delete key => w.DeleteKey clk timeout_ms key
  | .onTimer =>
    match w.OnTimer clk okExpired timeout_ms with
    | .ok w1 => (true, w1)
    | .exc w1 => (false, w1)
  | .clear => (true, w.Clear)

/-- Run calls one after the other. -/
def Wanted.run (clk : Nat → Nat) (okExpired : Nat → Bool) (timeout_ms : Nat) :
    Wanted → List WantedOp → Wanted
  | w, [] => w
  | w, op :: ops =>
    Wanted.run clk okExpired timeout_ms (w.step clk okExpired timeout_ms op).2 ops

/-- A registry as it is constructed: nothing in it, no timer. -/
def Wanted.empty : Wanted := ⟨[], [], none, [], 0⟩

/-! ## A deletion that throws -/

/-- An environment in which nothing can be sent to peer 2. -/
def Env.deaf2 : Env :=
  { Env.demo with sendOk := fun p _ => p != 2 }

/-- Node 5 connects as peer 1, authenticates and announces a tip of height 10,
so that the macroblock request goes to it; a second peer connects and announces
the same tip; then peer 1 is deleted. -/
def demoHalfDeletedOps : List Op :=
  [.accept 7, .connectedSecure 1, .authentication 1 5 .Node,
   .newTip 1 ⟨10, 5, 0⟩ false .Rejected [], .accept 8, .newTip 2 ⟨10, 5, 0⟩ false .Rejected [],
   .deleteSelf 1 false none]

/-- The state after `demoHalfDeletedOps` where nothing reaches peer 2. -/
def demoHalfDeleted : Node :=
  (syncRunOps Env.deaf2 4 demoResume demoHalfDeletedOps).getD demoResume

/-- The state `demoHalfDeleted` after node 5 has connected again, as peer 3, and
authenticated. -/
def demoTwoAttached : Node :=
  (syncRunOps Env.deaf2 4 demoHalfDeleted
    [.accept 9, .connectedSecure 3, .authentication 3 5 .Node]).getD demoHalfDeleted

/-- A peer connects to the node of `demoResume` and announces a tip of height
10, without authenticating or proving its work. -/
def demoTipOnly : Node :=
  (syncRunOps Env.demo 4 demoResume
    [.accept 7, .newTip 1 ⟨10, 5, 0⟩ false .Rejected []]).getD demoResume

/-! ## Stem peers -/

/-- Two peers are connected; the second has announced that it spreads
transactions. -/
def demoSpreadTwo : Node :=
  let s := (runOps Env.demo 4 (Node.init 100 200 none) [.accept 7, .accept 8]).getD
    (Node.init 100 200 none)
  s.setPeer 2 (fun x => { x with m_Config := { x.m_Config with m_SpreadingTransactions := true } })

/-- The pipeline of `demoTxNode` on the node `demoSpreadTwo`. -/
def demoTxTwo : TxNode := { demoTxNode with node := demoSpreadTwo }

/-! ## A peer deleted while its message is handled -/

/-- After `demoConnect` the processor asks for the block of height 3 and then,
with node 5 preferred, for the header of height 4: peer 1 holds both.  A second
peer connects, announces a tip of height 10 and authenticates as node 6. -/
def demoMixedOps : List Op :=
  [.requestData ⟨3, 33⟩ true none, .requestData ⟨4, 44⟩ false (some 5),
   .accept 8, .connectedSecure 2, .newTip 2 ⟨10, 5, 0⟩ false .Rejected [],
   .authentication 2 6 .Node]

/-- The state after `demoConnect` and `demoMixedOps`. -/
def demoMixed : Node := (runOps Env.demo 4 demoPeer demoMixedOps).getD demoPeer

/-! ## The registry and the channel scan: what is proved of them -/

/-- The set and the list of a registry hold the same items, and no key occurs
twice. -/
def Wanted.Consistent (w : Wanted) : Prop :=
  w.m_set = w.m_lst ∧ (w.m_lst.map fun n => n.m_Key).Nodup

/-- The number of rows of channel `c` in a list of rows. -/
def channelCount (l : List BbsData) (c : Channel) : Nat :=
  l.countP fun d => decide (d.m_Channel = c)

/-- The population of channel `c`: the number of stored messages of it. -/
def Bbs.population (b : Bbs) (c : Channel) : Nat := channelCount b.table c

/-- The channels `FindRecommendedChannel` compares the populations of: channel 0
and the channels that hold a message. -/
def Bbs.scanned (b : Bbs) (c : Channel) : Prop := c = 0 ∨ 1 ≤ b.population c

/-- What the loop of `FindRecommendedChannel` has established of the channels
below `m` when the rows `pre` have gone by. -/
def ScanInv (ideal : Nat) (pre : List BbsData) (m : Nat) (st : ChannelScan) : Prop :=
  (st.bFound = false → ∀ c, c < m → ideal < channelCount pre c) ∧
  (st.bFound = true →
    (st.m_RecommendedChannel < m ∧
      (st.m_RecommendedChannel = 0 ∨ 1 ≤ channelCount pre st.m_RecommendedChannel) ∧
      channelCount pre st.m_RecommendedChannel = st.nCountFound ∧ st.nCountFound ≤ ideal ∧
      ∀ c, c < m → (c = 0 ∨ 1 ≤ channelCount pre c) → channelCount pre c ≤ ideal →
        channelCount pre c < st.nCountFound ∨
          (channelCount pre c = st.nCountFound ∧ st.m_RecommendedChannel ≤ c)) ∨
    (st.nCountFound = 0 ∧ st.m_RecommendedChannel < m ∧
      channelCount pre st.m_RecommendedChannel = 0 ∧
      (∀ c, c < st.m_RecommendedChannel → ideal < channelCount pre c) ∧
      ∀ c, c < m → (c = 0 ∨ 1 ≤ channelCount pre c) → ideal < channelCount pre c))

/-- A board with one message in channel 0 and two in channel 1. -/
def demoBoard3 : Bbs :=
  { Bbs.empty with table := [⟨11, 0, 0, 0⟩, ⟨12, 1, 0, 0⟩, ⟨13, 1, 0, 0⟩] }

/-- A board with two messages in channel 0 and one in channel 2. -/
def demoBoardGap : Bbs :=
  { Bbs.empty with table := [⟨11, 0, 0, 0⟩, ⟨12, 0, 0, 0⟩, ⟨13, 2, 0, 0⟩] }

/-- The demo configuration with an ideal channel population of 1. -/
def BbsEnv.tight : BbsEnv := { BbsEnv.demo with m_BbsIdealChannelPopulation := 1 }

/-! ## Theorems -/

theorem sum_map_update {α : Type} [DecidableEq α] (l : List α) (g : α → Nat) (a : α) (v : Nat)
    (hnd : l.Nodup) (ha : a ∈ l) :
    (l.map (Function.update g a v)).sum + g a = (l.map g).sum + v := by
  induction l with
  | nil => cases ha
  | cons b l ih =>
    rw [List.nodup_cons] at hnd
    by_cases hb : b = a
    · subst hb
      have : l.map (Function.update g b v) = l.map g := by
        apply List.map_congr_left
        intro x hx
        have : x ≠ b := fun h => hnd.1 (h ▸ hx)
        simp [Function.update, this]
      simp [this]; omega
    · have ha' : a ∈ l := by
        rcases List.mem_cons.mp ha with h | h
        · exact absurd h.symm hb
        · exact h
      have := ih hnd.2 ha'
      simp [Function.update, hb] at this ⊢
      omega

theorem sum_map_update_not_mem {α : Type} [DecidableEq α] (l : List α) (g : α → Nat) (a : α)
    (v : Nat) (ha : a ∉ l) :
    (l.map (Function.update g a v)).sum = (l.map g).sum := by
  congr 1
  apply List.map_congr_left
  intro x hx
  have : x ≠ a := fun h => ha (h ▸ hx)
  simp [Function.update, this]

theorem Inv.congr {s s' : Node} (h : Inv s)
    (hset : s'.m_setTasks = s.m_setTasks)
    (hun : s'.m_lstTasksUnassigned = s.m_lstTasksUnassigned)
    (hT : ∀ k, (s'.taskAt k).m_pOwner = (s.taskAt k).m_pOwner ∧
      (s'.taskAt k).m_bPack = (s.taskAt k).m_bPack)
    (hph : s'.m_nTasksPackHdr = s.m_nTasksPackHdr)
    (hpb : s'.m_nTasksPackBody = s.m_nTasksPackBody)
    (hpeers : s'.m_lstPeers = s.m_lstPeers)
    (hP : ∀ q, (s'.peerAt q).m_lstTasks = (s.peerAt q).m_lstTasks ∧
      (s'.peerAt q).m_Subscriptions = (s.peerAt q).m_Subscriptions ∧
      (s'.peerAt q).m_pInfo = (s.peerAt q).m_pInfo ∧
      ((s'.peerAt q).m_Flags.PiRcvd = false → (s.peerAt q).m_Flags.PiRcvd = false))
    (hI : ∀ i ∈ s'.m_Infos, ∀ p, (s'.infoAt i).m_pLive = some p →
      i ∈ s.m_Infos ∧ (s.infoAt i).m_pLive = some p)
    (hsub : s'.m_Subscribed = s.m_Subscribed) : Inv s' := by
  have hpc : ∀ k, placedCount s' k = placedCount s k := by
    intro k
    unfold placedCount
    rw [hun, hpeers]
    congr 2
    apply List.map_congr_left
    intro q _
    rw [(hP q).1]
  refine
    { setNodup := hset ▸ h.setNodup
      placed := fun k => by rw [hpc, hset]; exact h.placed k
      ownerNone := fun k hk => by rw [(hT k).1]; exact h.ownerNone k (hun ▸ hk)
      ownerSome := fun p hp k hk => by
        rw [(hT k).1]; exact h.ownerSome p (hpeers ▸ hp) k ((hP p).1 ▸ hk)
      peersNodup := hpeers ▸ h.peersNodup
      unlisted := fun p hp => by
        rw [(hP p).1, (hP p).2.1]; exact h.unlisted p (hpeers ▸ hp)
      packQueue := fun k hk => by rw [(hT k).2]; exact h.packQueue k (hun ▸ hk)
      packBlock := fun k hk hb => by rw [(hT k).2]; exact h.packBlock k (hset ▸ hk) hb
      packHdr := by
        rw [hph, hset, h.packHdr]
        congr 1
        apply List.filter_congr
        intro k _
        rw [(hT k).2]
      packHdrLe := hph ▸ h.packHdrLe
      packBody := hpb ▸ h.packBody
      auth := fun p hp hf => by
        rw [(hP p).1]; exact h.auth p (hpeers ▸ hp) ((hP p).2.2.2 hf)
      live := fun i hi p hl => by
        obtain ⟨hi', hl'⟩ := hI i hi p hl
        obtain ⟨h1, h2⟩ := h.live i hi' p hl'
        exact ⟨hpeers ▸ h1, by rw [(hP p).2.2.1]; exact h2⟩
      subsNodup := hsub ▸ h.subsNodup
      subsPeer := fun c p hc => by
        obtain ⟨h1, h2⟩ := h.subsPeer c p (hsub ▸ hc)
        exact ⟨hpeers ▸ h1, by rw [(hP p).2.1]; exact h2⟩ }

theorem any_block_false {l : List TaskKey} :
    l.any (fun k => k.second) = false ↔ ∀ k ∈ l, k.second = false := by
  induction l with
  | nil => simp
  | cons a l ih => simp [List.any_cons, ih]

theorem ShouldAssignTask_iff (E : Env) (s : Node) (t : TaskKey) (p : PeerRef) :
    ShouldAssignTask E s t p = true ↔
      (((s.peerAt p).m_Tip.m_Height > t.first.m_Height ∨
          ((s.peerAt p).m_Tip.m_Height = t.first.m_Height ∧
            E.get_Hash (s.peerAt p).m_Tip = t.first.m_Hash)) ∧
        (s.peerAt p).m_Flags.PiRcvd = true ∧
        (s.peerAt p).m_pInfo ≠ none ∧
        (∀ k ∈ (s.peerAt p).m_lstTasks, k.second = false) ∧
        t ∉ (s.peerAt p).m_setRejected) := by
  unfold ShouldAssignTask
  simp only []
  rw [← any_block_false]
  generalize (s.peerAt p).m_Tip.m_Height = a
  generalize t.first.m_Height = b
  generalize E.get_Hash (s.peerAt p).m_Tip = h
  generalize t.first.m_Hash = h'
  generalize (s.peerAt p).m_Flags.PiRcvd = f
  generalize (s.peerAt p).m_pInfo = i
  generalize (List.any (s.peerAt p).m_lstTasks fun k => k.second) = l
  generalize (s.peerAt p).m_setRejected = r
  by_cases h1 : a < b
  · rw [if_pos h1]
    constructor
    · intro h; cases h
    · rintro ⟨h | h, -⟩ <;> omega
  · rw [if_neg h1]
    by_cases h2 : a = b ∧ h ≠ h'
    · rw [if_pos h2]
      constructor
      · intro h; cases h
      · rintro ⟨h3 | h3, -⟩
        · omega
        · exact absurd h3.2 h2.2
    · rw [if_neg h2]
      have hA : (a > b ∨ (a = b ∧ h = h')) := by
        by_cases h3 : a = b
        · right; refine ⟨h3, ?_⟩; by_contra h4; exact h2 ⟨h3, h4⟩
        · left; omega
      cases f <;> cases i <;> cases l <;> simp [hA]

theorem Send_ok {E : Env} {s s1 : Node} {p : PeerRef} {m : Msg} (h : Send E s p m = .ok s1) :
    E.sendOk p m = true ∧ s1 = s.log (.sent p m) := by
  unfold Send at h
  split at h
  · rename_i h1; cases h; exact ⟨h1, rfl⟩
  · cases h

theorem Send_exc {E : Env} {s s1 : Node} {p : PeerRef} {m : Msg} {e : Exc}
    (h : Send E s p m = .exc e s1) : s1 = s ∧ e = .io := by
  unfold Send at h
  split at h
  · cases h
  · cases h; exact ⟨rfl, rfl⟩

theorem Send_ne_out {E : Env} {s : Node} {p : PeerRef} {m : Msg} : Send E s p m ≠ .out := by
  unfold Send; split <;> simp

theorem sendRequest_exc {E : Env} {s s1 : Node} {t : TaskKey} {p : PeerRef} {e : Exc}
    (h : sendRequest E s t p = .exc e s1) : s1 = s := by
  unfold sendRequest at h
  split at h
  · exact (Send_exc h).1
  · split at h
    · cases hs : Send E s p (.GetHdrPack t.first (packSize E s t)) with
      | ok s0 => rw [hs] at h; simp [Res.bind] at h
      | exc e0 s0 => rw [hs] at h; simp [Res.bind] at h; rw [← h.2]; exact (Send_exc hs).1
      | out => exact absurd hs Send_ne_out
    · exact (Send_exc h).1

theorem AssignTask_exc {E : Env} {s s1 : Node} {t : TaskKey} {p : PeerRef} {e : Exc}
    (h : AssignTask E s t p = .exc e s1) : s1 = s := by
  unfold AssignTask at h
  cases hs : sendRequest E s t p with
  | ok s0 => rw [hs] at h; simp [Res.bind] at h
  | exc e0 s0 => rw [hs] at h; simp [Res.bind] at h; rw [← h.2]; exact sendRequest_exc hs
  | out => rw [hs] at h; simp [Res.bind] at h

theorem sendRequest_ne_out {E : Env} {s : Node} {t : TaskKey} {p : PeerRef} :
    sendRequest E s t p ≠ .out := by
  unfold sendRequest
  split
  · exact Send_ne_out
  · split
    · cases hs : Send E s p (.GetHdrPack t.first (packSize E s t)) with
      | ok s0 => simp [Res.bind]
      | exc e0 s0 => simp [Res.bind]
      | out => exact absurd hs Send_ne_out
    · exact Send_ne_out

theorem AssignTask_ne_out {E : Env} {s : Node} {t : TaskKey} {p : PeerRef} :
    AssignTask E s t p ≠ .out := by
  unfold AssignTask
  cases hs : sendRequest E s t p with
  | ok s0 => simp [Res.bind]
  | exc e0 s0 => simp [Res.bind]
  | out => exact absurd hs sendRequest_ne_out

theorem moveToPeer_eff (E : Env) (s0 s : Node) (t : TaskKey) (p : PeerRef) (m : Msg)
    (hm : E.sendOk p m = true)
    (h0 : s0 = s.log (.sent p m) ∨
      (t.second = false ∧ s.m_nTasksPackHdr = 0 ∧
        s0 = { (s.log (.sent p m)).setTask t (fun x => { x with m_bPack := true }) with
               m_nTasksPackHdr := inc32 s.m_nTasksPackHdr })) :
    AssignEff E s (moveToPeer E s0 t p) t p := by
  have key : ∀ s0 : Node, ∃ tm, (moveToPeer E s0 t p) =
      { s0 with
        taskAt := Function.update s0.taskAt t { s0.taskAt t with m_pOwner := some p }
        m_lstTasksUnassigned := s0.m_lstTasksUnassigned.erase t
        peerAt := Function.update s0.peerAt p
          { s0.peerAt p with m_lstTasks := (s0.peerAt p).m_lstTasks ++ [t], m_Timer := tm } } := by
    intro s0
    unfold moveToPeer
    simp only []
    split
    · unfold SetTimerWrtFirstTask
      simp only [Node.setPeer, Node.setTask, Function.update_same]
      split
      · exact ⟨none, by simp⟩
      · rename_i t0 _ _
        exact ⟨some (if t0.2 = true then E.m_GetBlock_ms else E.m_GetState_ms), by simp⟩
    · exact ⟨(s0.peerAt p).m_Timer, by simp [Node.setPeer, Node.setTask]⟩
  obtain ⟨tm, hk⟩ := key s0
  rw [hk]
  rcases h0 with h0 | ⟨hb, hc, h0⟩
  · subst h0
    refine
      { set := rfl, un := rfl, peers := rfl
        other := fun q hq => by simp [Node.log, Function.update, hq]
        peer := ⟨tm, by simp [Node.log]⟩
        tasks := fun k hk => by simp [Node.log, Function.update, hk]
        owner := by simp [Node.log]
        rel := by simp [Node.log]
        pack := Or.inl ⟨by simp [Node.log], rfl⟩
        body := rfl, infoAt := rfl, infos := rfl, subs := rfl, sync := rfl, cursor := rfl
        myID := rfl, ownerID := rfl
        trace := ⟨m, hm, rfl⟩ }
  · subst h0
    refine
      { set := rfl, un := rfl, peers := rfl
        other := fun q hq => by simp [Node.log, Node.setTask, Function.update, hq]
        peer := ⟨tm, by simp [Node.log, Node.setTask]⟩
        tasks := fun k hk => by simp [Node.log, Node.setTask, Function.update, hk]
        owner := by simp [Node.log, Node.setTask]
        rel := by simp [Node.log, Node.setTask]
        pack := Or.inr ⟨hb, hc, by simp [Node.log, Node.setTask], by simp [hc, inc32]⟩
        body := rfl, infoAt := rfl, infos := rfl, subs := rfl, sync := rfl, cursor := rfl
        myID := rfl, ownerID := rfl
        trace := ⟨m, hm, rfl⟩ }

theorem AssignTask_ok {E : Env} {s s1 : Node} {t : TaskKey} {p : PeerRef}
    (h : AssignTask E s t p = .ok s1) : AssignEff E s s1 t p := by
  unfold AssignTask at h
  cases hs : sendRequest E s t p with
  | exc e0 s0 => rw [hs] at h; simp [Res.bind] at h
  | out => rw [hs] at h; simp [Res.bind] at h
  | ok s0 =>
    rw [hs] at h; simp only [Res.bind] at h
    cases h
    unfold sendRequest at hs
    split at hs
    · obtain ⟨hm, rfl⟩ := Send_ok hs
      exact moveToPeer_eff E _ s t p _ hm (Or.inl rfl)
    · split at hs
      · rename_i hb hc
        cases hq : Send E s p (.GetHdrPack t.first (packSize E s t)) with
        | exc e0 s0 => rw [hq] at hs; simp [Res.bind] at hs
        | out => rw [hq] at hs; simp [Res.bind] at hs
        | ok s2 =>
          rw [hq] at hs; simp only [Res.bind] at hs
          obtain ⟨hm, rfl⟩ := Send_ok hq
          cases hs
          refine moveToPeer_eff E _ s t p _ hm (Or.inr ⟨by simpa using hb, hc.1, rfl⟩)
      · obtain ⟨hm, rfl⟩ := Send_ok hs
        exact moveToPeer_eff E _ s t p _ hm (Or.inl rfl)

theorem peerSum_change (s s' : Node) (p : PeerRef) (hnd : s.m_lstPeers.Nodup)
    (hp : p ∈ s.m_lstPeers) (hpeers : s'.m_lstPeers = s.m_lstPeers)
    (hother : ∀ q, q ≠ p → (s'.peerAt q).m_lstTasks = (s.peerAt q).m_lstTasks) (k : TaskKey) :
    (s'.m_lstPeers.map (fun q => (s'.peerAt q).m_lstTasks.count k)).sum +
        (s.peerAt p).m_lstTasks.count k =
      (s.m_lstPeers.map (fun q => (s.peerAt q).m_lstTasks.count k)).sum +
        (s'.peerAt p).m_lstTasks.count k := by
  rw [hpeers]
  have : s.m_lstPeers.map (fun q => (s'.peerAt q).m_lstTasks.count k) =
      s.m_lstPeers.map (Function.update (fun q => (s.peerAt q).m_lstTasks.count k) p
        ((s'.peerAt p).m_lstTasks.count k)) := by
    apply List.map_congr_left
    intro q _
    by_cases hq : q = p
    · subst hq; simp
    · simp [Function.update, hq, hother q hq]
  rw [this]
  exact sum_map_update s.m_lstPeers _ p _ hnd hp

theorem peerSum_same (s s' : Node) (hpeers : s'.m_lstPeers = s.m_lstPeers)
    (hsame : ∀ q ∈ s.m_lstPeers, (s'.peerAt q).m_lstTasks = (s.peerAt q).m_lstTasks)
    (k : TaskKey) :
    (s'.m_lstPeers.map (fun q => (s'.peerAt q).m_lstTasks.count k)).sum =
      (s.m_lstPeers.map (fun q => (s.peerAt q).m_lstTasks.count k)).sum := by
  rw [hpeers]
  congr 1
  apply List.map_congr_left
  intro q hq
  rw [hsame q hq]

theorem count_le_sum {α : Type} (l : List α) (g : α → Nat) (a : α) (ha : a ∈ l) :
    g a ≤ (l.map g).sum := by
  induction l with
  | nil => cases ha
  | cons b l ih =>
    rcases List.mem_cons.mp ha with h | h
    · subst h; simp
    · have := ih h; simp; omega

theorem Inv.count_set_le {s : Node} (h : Inv s) (k : TaskKey) : s.m_setTasks.count k ≤ 1 :=
  List.nodup_iff_count_le_one.mp h.setNodup k

theorem Inv.of_mem_queue {s : Node} (h : Inv s) {k : TaskKey}
    (hk : k ∈ s.m_lstTasksUnassigned) :
    s.m_lstTasksUnassigned.count k = 1 ∧ k ∈ s.m_setTasks ∧
      ∀ q ∈ s.m_lstPeers, k ∉ (s.peerAt q).m_lstTasks := by
  have h1 := h.placed k
  have h2 := h.count_set_le k
  have h3 : 0 < s.m_lstTasksUnassigned.count k := List.count_pos_iff.mpr hk
  unfold placedCount at h1
  refine ⟨by omega, ?_, ?_⟩
  · apply List.count_pos_iff.mp; omega
  · intro q hq hmem
    have h4 : 0 < (s.peerAt q).m_lstTasks.count k := List.count_pos_iff.mpr hmem
    have h5 := count_le_sum s.m_lstPeers (fun q => (s.peerAt q).m_lstTasks.count k) q hq
    simp only [] at h5
    omega

theorem Inv.of_mem_peer {s : Node} (h : Inv s) {k : TaskKey} {p : PeerRef}
    (hp : p ∈ s.m_lstPeers) (hk : k ∈ (s.peerAt p).m_lstTasks) :
    (s.peerAt p).m_lstTasks.count k = 1 ∧ k ∈ s.m_setTasks ∧ k ∉ s.m_lstTasksUnassigned := by
  have h1 := h.placed k
  have h2 := h.count_set_le k
  have h4 : 0 < (s.peerAt p).m_lstTasks.count k := List.count_pos_iff.mpr hk
  have h5 := count_le_sum s.m_lstPeers (fun q => (s.peerAt q).m_lstTasks.count k) p hp
  simp only [] at h5
  unfold placedCount at h1
  refine ⟨by omega, ?_, ?_⟩
  · apply List.count_pos_iff.mp; omega
  · intro hmem
    have h3 : 0 < s.m_lstTasksUnassigned.count k := List.count_pos_iff.mpr hmem
    omega

theorem Inv.listed_of_mem {s : Node} (h : Inv s) {k : TaskKey} {p : PeerRef}
    (hk : k ∈ (s.peerAt p).m_lstTasks) : p ∈ s.m_lstPeers := by
  by_contra hp
  rw [(h.unlisted p hp).1] at hk
  cases hk

theorem Inv.assign {E : Env} {s s' : Node} {t : TaskKey} {p : PeerRef} (h : Inv s)
    (e : AssignEff E s s' t p) (ht : t ∈ s.m_lstTasksUnassigned) (hp : p ∈ s.m_lstPeers)
    (hpi : (s.peerAt p).m_Flags.PiRcvd = true) : Inv s' := by
  obtain ⟨hc1, htset, htno⟩ := h.of_mem_queue ht
  obtain ⟨tm, hpeer⟩ := e.peer
  have hlst : (s'.peerAt p).m_lstTasks = (s.peerAt p).m_lstTasks ++ [t] := by rw [hpeer]
  have hother : ∀ q, q ≠ p → (s'.peerAt q).m_lstTasks = (s.peerAt q).m_lstTasks :=
    fun q hq => by rw [e.other q hq]
  have htq : t ∉ s'.m_lstTasksUnassigned := by
    rw [e.un]
    intro hmem
    have := List.count_pos_iff.mpr hmem
    rw [List.count_erase_self] at this
    omega
  have hmemq : ∀ k, k ∈ s'.m_lstTasksUnassigned → k ∈ s.m_lstTasksUnassigned ∧ k ≠ t := by
    intro k hk
    refine ⟨?_, fun hkt => htq (hkt ▸ hk)⟩
    rw [e.un] at hk
    exact List.mem_of_mem_erase hk
  have hmemp : ∀ q ∈ s.m_lstPeers, ∀ k ∈ (s'.peerAt q).m_lstTasks,
      (k = t ∧ q = p) ∨ (k ≠ t ∧ k ∈ (s.peerAt q).m_lstTasks) := by
    intro q hq k hk
    by_cases hqp : q = p
    · subst hqp
      rw [hlst] at hk
      rcases List.mem_append.mp hk with hk | hk
      · right; exact ⟨fun hkt => htno q hq (hkt ▸ hk), hk⟩
      · left; exact ⟨by simpa using hk, rfl⟩
    · rw [hother q hqp] at hk
      right; exact ⟨fun hkt => htno q hq (hkt ▸ hk), hk⟩
  refine
    { setNodup := e.set ▸ h.setNodup
      placed := ?_
      ownerNone := fun k hk => by
        obtain ⟨hk1, hk2⟩ := hmemq k hk
        rw [e.tasks k hk2]; exact h.ownerNone k hk1
      ownerSome := fun q hq k hk => by
        rw [e.peers] at hq
        rcases hmemp q hq k hk with ⟨rfl, rfl⟩ | ⟨hk1, hk2⟩
        · exact e.owner
        · rw [e.tasks k hk1]; exact h.ownerSome q hq k hk2
      peersNodup := e.peers ▸ h.peersNodup
      unlisted := fun q hq => by
        rw [e.peers] at hq
        have hqp : q ≠ p := fun hqp => hq (hqp ▸ hp)
        rw [e.other q hqp]; exact h.unlisted q hq
      packQueue := fun k hk => by
        obtain ⟨hk1, hk2⟩ := hmemq k hk
        rw [e.tasks k hk2]; exact h.packQueue k hk1
      packBlock := fun k hk hb => by
        rw [e.set] at hk
        by_cases hkt : k = t
        · subst hkt
          rcases e.pack with ⟨h1, _⟩ | ⟨h1, _⟩
          · rw [h1]; exact h.packBlock k hk hb
          · rw [h1] at hb; cases hb
        · rw [e.tasks k hkt]; exact h.packBlock k hk hb
      packHdr := ?_
      packHdrLe := by
        rcases e.pack with ⟨_, h1⟩ | ⟨_, _, _, h1⟩
        · rw [h1]; exact h.packHdrLe
        · rw [h1]
      packBody := by rw [e.body]; exact h.packBody
      auth := fun q hq hf => by
        rw [e.peers] at hq
        by_cases hqp : q = p
        · subst hqp
          rw [hpeer] at hf
          simp only [] at hf
          rw [hpi] at hf; cases hf
        · rw [e.other q hqp] at hf ⊢
          exact h.auth q hq hf
      live := fun i hi q hl => by
        rw [e.infos] at hi
        rw [e.infoAt] at hl
        obtain ⟨h1, h2⟩ := h.live i hi q hl
        refine ⟨e.peers ▸ h1, ?_⟩
        by_cases hqp : q = p
        · subst hqp; rw [hpeer]; exact h2
        · rw [e.other q hqp]; exact h2
      subsNodup := e.subs ▸ h.subsNodup
      subsPeer := fun c q hc => by
        rw [e.subs] at hc
        obtain ⟨h1, h2⟩ := h.subsPeer c q hc
        refine ⟨e.peers ▸ h1, ?_⟩
        by_cases hqp : q = p
        · subst hqp; rw [hpeer]; exact h2
        · rw [e.other q hqp]; exact h2 }
  · intro k
    have h1 := h.placed k
    have h2 := peerSum_change s s' p h.peersNodup hp e.peers hother k
    unfold placedCount at h1 ⊢
    rw [e.set, e.un, hlst, List.count_append] at *
    by_cases hkt : k = t
    · subst hkt
      rw [List.count_erase_self]
      simp at h2 ⊢
      omega
    · rw [List.count_erase_of_ne hkt]
      have : List.count k [t] = 0 := by
        simp [List.count_cons, List.count_nil]; exact fun h => hkt h.symm
      rw [this] at h2
      omega
  · rw [e.set]
    rcases e.pack with ⟨h1, h2⟩ | ⟨hb, hz, h1, h2⟩
    · rw [h2, h.packHdr]
      congr 1
      apply List.filter_congr
      intro k _
      by_cases hkt : k = t
      · subst hkt; rw [h1]
      · rw [e.tasks k hkt]
    · rw [h2]
      have hnone : ∀ k ∈ s.m_setTasks, (s.taskAt k).m_bPack = false := by
        have := h.packHdr
        rw [hz] at this
        have h0 := List.length_eq_zero.mp this.symm
        intro k hk
        by_contra hne
        have : k ∈ s.m_setTasks.filter (fun k => (s.taskAt k).m_bPack) := by
          rw [List.mem_filter]; exact ⟨hk, by simpa using hne⟩
        rw [h0] at this; cases this
      have : s.m_setTasks.filter (fun k => (s'.taskAt k).m_bPack) =
          s.m_setTasks.filter (fun k => decide (k = t)) := by
        apply List.filter_congr
        intro k hk
        by_cases hkt : k = t
        · subst hkt; simp [h1]
        · rw [e.tasks k hkt, hnone k hk]; simp [hkt]
      rw [this]
      have hcnt := hc1
      have : (s.m_setTasks.filter (fun k => decide (k = t))).length = s.m_setTasks.count t := by
        rw [List.count_eq_countP, List.countP_eq_length_filter]
        congr 1
      rw [this]
      have := h.count_set_le t
      have := List.count_pos_iff.mpr htset
      omega

theorem Frame.frame_refl (s : Node) : Frame s s :=
  { peers := List.Sublist.refl _, set := List.Sublist.refl _
    peer := fun _ => ⟨rfl, rfl, rfl, rfl, rfl, Or.inl rfl⟩
    rel := fun _ => rfl, infos := rfl
    info := fun _ => ⟨rfl, Or.inl rfl⟩
    cursor := rfl, myID := rfl, ownerID := rfl, sync := rfl
    trace := ⟨[], by simp, by simp⟩ }

theorem Frame.frame_trans {a b c : Node} (h1 : Frame a b) (h2 : Frame b c) : Frame a c :=
  { peers := h2.peers.trans h1.peers
    set := h2.set.trans h1.set
    peer := fun q => by
      obtain ⟨a1, a2, a3, a4, a5, a6⟩ := h1.peer q
      obtain ⟨b1, b2, b3, b4, b5, b6⟩ := h2.peer q
      refine ⟨b1.trans a1, b2.trans a2, b3.trans a3, b4.trans a4, b5.trans a5, ?_⟩
      rcases b6 with b6 | b6
      · rw [b6]; exact a6
      · exact Or.inr b6
    rel := fun k => (h2.rel k).trans (h1.rel k)
    infos := h2.infos.trans h1.infos
    info := fun i => by
      obtain ⟨a1, a2⟩ := h1.info i
      obtain ⟨b1, b2⟩ := h2.info i
      refine ⟨b1.trans a1, ?_⟩
      rcases b2 with b2 | b2
      · rw [b2]; exact a2
      · exact Or.inr b2
    cursor := h2.cursor.trans h1.cursor
    myID := h2.myID.trans h1.myID
    ownerID := h2.ownerID.trans h1.ownerID
    sync := h2.sync.trans h1.sync
    trace := by
      obtain ⟨l1, e1, p1⟩ := h1.trace
      obtain ⟨l2, e2, p2⟩ := h2.trace
      refine ⟨l1 ++ l2, by rw [e2, e1, List.append_assoc], ?_⟩
      intro e he
      rcases List.mem_append.mp he with he | he
      · exact p1 e he
      · exact p2 e he }

theorem Frame.of_assign {E : Env} {s s' : Node} {t : TaskKey} {p : PeerRef}
    (e : AssignEff E s s' t p) : Frame s s' := by
  obtain ⟨tm, hpeer⟩ := e.peer
  refine
    { peers := by rw [e.peers], set := by rw [e.set]
      peer := fun q => by
        by_cases hq : q = p
        · subst hq; rw [hpeer]; exact ⟨rfl, rfl, rfl, rfl, rfl, Or.inl rfl⟩
        · rw [e.other q hq]; exact ⟨rfl, rfl, rfl, rfl, rfl, Or.inl rfl⟩
      rel := fun k => by
        by_cases hk : k = t
        · subst hk; exact e.rel
        · rw [e.tasks k hk]
      infos := e.infos
      info := fun i => by rw [e.infoAt]; exact ⟨rfl, Or.inl rfl⟩
      cursor := e.cursor, myID := e.myID, ownerID := e.ownerID
      sync := by rw [e.sync]
      trace := by
        obtain ⟨m, _, hm⟩ := e.trace
        exact ⟨[.sent p m], hm, by simp [Event.isProcessor]⟩ }

theorem Post.refl {s : Node} (h : Inv s) (X : TaskKey → Prop) (Y : PeerRef → Prop) :
    Post X Y s s :=
  { inv := h, frame := Frame.frame_refl s, queue := fun _ _ hk => hk, keep := fun _ _ hq _ => hq }

theorem Post.trans {X X' : TaskKey → Prop} {Y Y' : PeerRef → Prop} {a b c : Node}
    (h1 : Post X Y a b) (h2 : Post X' Y' b c) :
    Post (fun k => X k ∨ X' k) (fun q => Y q ∨ Y' q) a c :=
  { inv := h2.inv
    frame := h1.frame.frame_trans h2.frame
    queue := fun k hk hmem =>
      h2.queue k (fun h => hk (Or.inr h)) (h1.queue k (fun h => hk (Or.inl h)) hmem)
    keep := fun q hq hmem hinfo =>
      h2.keep q (fun h => hq (Or.inr h)) (h1.keep q (fun h => hq (Or.inl h)) hmem hinfo)
        (by rw [(h1.frame.peer q).2.2.1]; exact hinfo) }

theorem Post.post_mono {X X' : TaskKey → Prop} {Y Y' : PeerRef → Prop} {a b : Node}
    (h : Post X Y a b) (hX : ∀ k, X k → X' k) (hY : ∀ q, Y q → Y' q) : Post X' Y' a b :=
  { inv := h.inv, frame := h.frame
    queue := fun k hk => h.queue k (fun hx => hk (hX k hx))
    keep := fun q hq => h.keep q (fun hy => hq (hY q hy)) }

theorem Res.Sat.mono {P Q : Node → Prop} {r : Res} (h : r.Sat P) (hPQ : ∀ s, P s → Q s) :
    r.Sat Q := by
  cases r with
  | ok s => exact hPQ s h
  | exc e s => exact hPQ s h
  | out => trivial

theorem Res.Sat.bind {P Q : Node → Prop} {r : Res} {f : Node → Res} (h : r.Sat P)
    (hexc : ∀ s, P s → Q s) (hok : ∀ s, r = .ok s → P s → (f s).Sat Q) : (r.bind f).Sat Q := by
  cases r with
  | ok s => exact hok s rfl h
  | exc e s => exact hexc s h
  | out => trivial

theorem releaseToQueue_eff (s : Node) (p : PeerRef) (t : TaskKey) :
    ReleaseEff s (releaseToQueue s p t) p t := by
  unfold releaseToQueue
  simp only [Node.setTask, Node.setPeer, Function.update_same]
  cases hp : (s.taskAt t).m_bPack <;> cases hb : t.second
  all_goals
    refine
      { set := by simp, un := by simp, peers := by simp
        other := fun q hq => by simp [Function.update, hq]
        peer := by simp
        tasks := fun k hk => by simp [Function.update, hk]
        task := by simp [hp]
        hdr := by simp [hp, hb]
        body := by simp [hp, hb]
        infoAt := by simp, infos := by simp, subs := by simp, sync := by simp
        cursor := by simp, myID := by simp, ownerID := by simp, trace := by simp }

theorem Frame.of_release {s s' : Node} {p : PeerRef} {t : TaskKey} (e : ReleaseEff s s' p t) :
    Frame s s' :=
  { peers := by rw [e.peers], set := by rw [e.set]
    peer := fun q => by
      by_cases hq : q = p
      · subst hq; rw [e.peer]; exact ⟨rfl, rfl, rfl, rfl, rfl, Or.inl rfl⟩
      · rw [e.other q hq]; exact ⟨rfl, rfl, rfl, rfl, rfl, Or.inl rfl⟩
    rel := fun k => by
      by_cases hk : k = t
      · subst hk; rw [e.task]
      · rw [e.tasks k hk]
    infos := e.infos
    info := fun i => by rw [e.infoAt]; exact ⟨rfl, Or.inl rfl⟩
    cursor := e.cursor, myID := e.myID, ownerID := e.ownerID
    sync := by rw [e.sync]
    trace := ⟨[], by simp [e.trace], by simp⟩ }

theorem Inv.two_peers {s : Node} (h : Inv s) {k : TaskKey} {p q : PeerRef}
    (hp : p ∈ s.m_lstPeers) (hq : q ∈ s.m_lstPeers) (hkp : k ∈ (s.peerAt p).m_lstTasks)
    (hkq : k ∈ (s.peerAt q).m_lstTasks) : p = q := by
  by_contra hne
  have h1 := h.placed k
  have h2 := h.count_set_le k
  unfold placedCount at h1
  have h3 := List.sum_map_erase (fun q => (s.peerAt q).m_lstTasks.count k) hp
  have hq' : q ∈ s.m_lstPeers.erase p := (List.mem_erase_of_ne (Ne.symm hne)).mpr hq
  have h4 := count_le_sum (s.m_lstPeers.erase p) (fun q => (s.peerAt q).m_lstTasks.count k) q hq'
  have h5 : 0 < (s.peerAt p).m_lstTasks.count k := List.count_pos_iff.mpr hkp
  have h6 : 0 < (s.peerAt q).m_lstTasks.count k := List.count_pos_iff.mpr hkq
  simp only [] at h3 h4
  omega

theorem filter_pack_single {s : Node} (h : Inv s) {t : TaskKey} (ht : t ∈ s.m_setTasks)
    (hp : (s.taskAt t).m_bPack = true) :
    s.m_nTasksPackHdr = 1 ∧ ∀ k ∈ s.m_setTasks, (s.taskAt k).m_bPack = true → k = t := by
  have hmem : t ∈ s.m_setTasks.filter (fun k => (s.taskAt k).m_bPack) :=
    List.mem_filter.mpr ⟨ht, hp⟩
  have hlen := h.packHdr
  have hle := h.packHdrLe
  have hpos : 0 < (s.m_setTasks.filter (fun k => (s.taskAt k).m_bPack)).length :=
    List.length_pos_of_mem hmem
  refine ⟨by omega, ?_⟩
  intro k hk hkp
  have hmemk : k ∈ s.m_setTasks.filter (fun k => (s.taskAt k).m_bPack) :=
    List.mem_filter.mpr ⟨hk, hkp⟩
  have hl1 : (s.m_setTasks.filter (fun k => (s.taskAt k).m_bPack)).length = 1 := by omega
  obtain ⟨a, ha⟩ := List.length_eq_one.mp hl1
  rw [ha] at hmem hmemk
  simp at hmem hmemk
  rw [hmem, hmemk]

theorem Inv.release {s s' : Node} {p : PeerRef} {t : TaskKey} {rest : List TaskKey} (h : Inv s)
    (e : ReleaseEff s s' p t) (hl : (s.peerAt p).m_lstTasks = t :: rest) : Inv s' := by
  have htl : t ∈ (s.peerAt p).m_lstTasks := by rw [hl]; simp
  have hp : p ∈ s.m_lstPeers := h.listed_of_mem htl
  obtain ⟨hc1, htset, htq⟩ := h.of_mem_peer hp htl
  have hlst : (s'.peerAt p).m_lstTasks = rest := by
    rw [e.peer]; simp [hl]
  have htrest : t ∉ rest := by
    intro hmem
    have := List.count_pos_iff.mpr hmem
    rw [hl, List.count_cons_self] at hc1
    omega
  have hother : ∀ q, q ≠ p → (s'.peerAt q).m_lstTasks = (s.peerAt q).m_lstTasks :=
    fun q hq => by rw [e.other q hq]
  have hmemp : ∀ q ∈ s.m_lstPeers, ∀ k ∈ (s'.peerAt q).m_lstTasks,
      k ≠ t ∧ k ∈ (s.peerAt q).m_lstTasks := by
    intro q hq k hk
    by_cases hqp : q = p
    · subst hqp
      rw [hlst] at hk
      exact ⟨fun hkt => htrest (hkt ▸ hk), by rw [hl]; exact List.mem_cons_of_mem _ hk⟩
    · rw [hother q hqp] at hk
      refine ⟨fun hkt => hqp ?_, hk⟩
      exact h.two_peers hq hp (hkt ▸ hk) htl
  have hpack : (s.taskAt t).m_bPack = true → t.second = false := by
    intro hpk
    by_contra hb
    have := h.packBlock t htset (by simpa using hb)
    rw [this] at hpk; cases hpk
  refine
    { setNodup := e.set ▸ h.setNodup
      placed := ?_
      ownerNone := fun k hk => by
        rw [e.un] at hk
        rcases List.mem_append.mp hk with hk | hk
        · have hkt : k ≠ t := fun hkt => htq (hkt ▸ hk)
          rw [e.tasks k hkt]; exact h.ownerNone k hk
        · have : k = t := by simpa using hk
          subst this; rw [e.task]
      ownerSome := fun q hq k hk => by
        rw [e.peers] at hq
        obtain ⟨hk1, hk2⟩ := hmemp q hq k hk
        rw [e.tasks k hk1]; exact h.ownerSome q hq k hk2
      peersNodup := e.peers ▸ h.peersNodup
      unlisted := fun q hq => by
        rw [e.peers] at hq
        have hqp : q ≠ p := fun hqp => hq (hqp ▸ hp)
        rw [e.other q hqp]; exact h.unlisted q hq
      packQueue := fun k hk => by
        rw [e.un] at hk
        rcases List.mem_append.mp hk with hk | hk
        · have hkt : k ≠ t := fun hkt => htq (hkt ▸ hk)
          rw [e.tasks k hkt]; exact h.packQueue k hk
        · have : k = t := by simpa using hk
          subst this; rw [e.task]
      packBlock := fun k hk hb => by
        rw [e.set] at hk
        by_cases hkt : k = t
        · subst hkt; rw [e.task]
        · rw [e.tasks k hkt]; exact h.packBlock k hk hb
      packHdr := ?_
      packHdrLe := by
        rw [e.hdr]
        split
        · rename_i hc
          have := (filter_pack_single h htset hc.1).1
          rw [this]; decide
        · exact h.packHdrLe
      packBody := by
        rw [e.body]
        split
        · rename_i hc
          have := hpack hc.1
          rw [this] at hc; cases hc.2
        · exact h.packBody
      auth := fun q hq hf => by
        rw [e.peers] at hq
        by_cases hqp : q = p
        · subst hqp
          rw [e.peer] at hf
          have := h.auth q hq hf
          rw [hl] at this; cases this
        · rw [e.other q hqp] at hf ⊢
          exact h.auth q hq hf
      live := fun i hi q hlv => by
        rw [e.infos] at hi
        rw [e.infoAt] at hlv
        obtain ⟨h1, h2⟩ := h.live i hi q hlv
        refine ⟨e.peers ▸ h1, ?_⟩
        by_cases hqp : q = p
        · subst hqp; rw [e.peer]; exact h2
        · rw [e.other q hqp]; exact h2
      subsNodup := e.subs ▸ h.subsNodup
      subsPeer := fun c q hc => by
        rw [e.subs] at hc
        obtain ⟨h1, h2⟩ := h.subsPeer c q hc
        refine ⟨e.peers ▸ h1, ?_⟩
        by_cases hqp : q = p
        · subst hqp; rw [e.peer]; exact h2
        · rw [e.other q hqp]; exact h2 }
  · intro k
    have h1 := h.placed k
    have h2 := peerSum_change s s' p h.peersNodup hp e.peers hother k
    unfold placedCount at h1 ⊢
    rw [e.set, e.un, List.count_append]
    rw [hlst] at h2
    rw [hl] at h2
    by_cases hkt : k = t
    · subst hkt
      rw [List.count_cons_self] at h2
      simp
      omega
    · rw [List.count_cons_of_ne hkt] at h2
      have : List.count k [t] = 0 := by
        simp [List.count_cons, List.count_nil]; exact fun h => hkt h.symm
      rw [this]
      omega
  · rw [e.set, e.hdr]
    split
    · rename_i hc
      obtain ⟨h1, h2⟩ := filter_pack_single h htset hc.1
      rw [h1]
      have : s.m_setTasks.filter (fun k => (s'.taskAt k).m_bPack) = [] := by
        rw [List.filter_eq_nil_iff]
        intro k hk
        by_cases hkt : k = t
        · subst hkt; rw [e.task]; simp
        · rw [e.tasks k hkt]
          intro hpk
          exact hkt (h2 k hk hpk)
      rw [this]; rfl
    · rename_i hc
      have hnp : (s.taskAt t).m_bPack = false := by
        cases hpk : (s.taskAt t).m_bPack
        · rfl
        · exact absurd ⟨hpk, hpack hpk⟩ hc
      rw [h.packHdr]
      congr 1
      apply List.filter_congr
      intro k _
      by_cases hkt : k = t
      · subst hkt; rw [e.task, hnp]
      · rw [e.tasks k hkt]

/-! ### Neutral changes -/

theorem Neutral.neutral_refl (s : Node) : Neutral s s :=
  { taskAt := rfl, set := rfl, un := rfl, hdr := rfl, body := rfl, peers := rfl
    peer := fun q => ⟨(s.peerAt q).m_Flags, rfl, rfl, rfl⟩
    infoAt := rfl, infos := rfl, subs := rfl, sync := rfl, cursor := rfl, myID := rfl
    ownerID := rfl, trace := ⟨[], by simp, by simp⟩ }

theorem Neutral.neutral_trans {a b c : Node} (h1 : Neutral a b) (h2 : Neutral b c) : Neutral a c :=
  { taskAt := h2.taskAt.trans h1.taskAt, set := h2.set.trans h1.set, un := h2.un.trans h1.un
    hdr := h2.hdr.trans h1.hdr, body := h2.body.trans h1.body, peers := h2.peers.trans h1.peers
    peer := fun q => by
      obtain ⟨f1, e1, a1, b1⟩ := h1.peer q
      obtain ⟨f2, e2, a2, b2⟩ := h2.peer q
      refine ⟨f2, ?_, ?_, ?_⟩
      · rw [e2, e1]
      · rw [a2, e1]; exact a1
      · rw [b2, e1]; exact b1
    infoAt := h2.infoAt.trans h1.infoAt, infos := h2.infos.trans h1.infos
    subs := h2.subs.trans h1.subs, sync := h2.sync.trans h1.sync
    cursor := h2.cursor.trans h1.cursor, myID := h2.myID.trans h1.myID
    ownerID := h2.ownerID.trans h1.ownerID
    trace := by
      obtain ⟨l1, e1, p1⟩ := h1.trace
      obtain ⟨l2, e2, p2⟩ := h2.trace
      refine ⟨l1 ++ l2, by rw [e2, e1, List.append_assoc], ?_⟩
      intro e he
      rcases List.mem_append.mp he with he | he
      · exact p1 e he
      · exact p2 e he }

theorem Neutral.inv {s s' : Node} (n : Neutral s s') (h : Inv s) : Inv s' := by
  refine h.congr n.set n.un (fun k => by rw [n.taskAt]; exact ⟨rfl, rfl⟩) n.hdr n.body n.peers
    (fun q => ?_) (fun i hi p hl => ?_) n.subs
  · obtain ⟨f, e, a, _⟩ := n.peer q
    rw [e]
    exact ⟨rfl, rfl, rfl, fun hf => by simpa [a] using hf⟩
  · rw [n.infos] at hi
    rw [n.infoAt] at hl
    exact ⟨hi, hl⟩

theorem Neutral.frame {s s' : Node} (n : Neutral s s') : Frame s s' :=
  { peers := by rw [n.peers], set := by rw [n.set]
    peer := fun q => by
      obtain ⟨f, e, a, b⟩ := n.peer q
      rw [e]
      exact ⟨a, b, rfl, rfl, rfl, Or.inl rfl⟩
    rel := fun k => by rw [n.taskAt]
    infos := n.infos
    info := fun i => by rw [n.infoAt]; exact ⟨rfl, Or.inl rfl⟩
    cursor := n.cursor, myID := n.myID, ownerID := n.ownerID, sync := n.sync
    trace := by
      obtain ⟨l, e, hl⟩ := n.trace
      refine ⟨l, e, fun x hx => ?_⟩
      obtain ⟨p, m, rfl⟩ := hl x hx
      rfl }

theorem Neutral.post {s s' : Node} (n : Neutral s s') (h : Inv s) (X : TaskKey → Prop)
    (Y : PeerRef → Prop) : Post X Y s s' :=
  { inv := n.inv h, frame := n.frame
    queue := fun _ _ hk => by rw [n.un]; exact hk
    keep := fun _ _ hq _ => by rw [n.peers]; exact hq }

theorem Neutral.log_sent (s : Node) (p : PeerRef) (m : Msg) : Neutral s (s.log (.sent p m)) :=
  { Neutral.neutral_refl s with trace := ⟨[.sent p m], rfl, by simp⟩ }

theorem Neutral.setFlags (s : Node) (p : PeerRef) (g : Flags → Flags)
    (h1 : ∀ f, (g f).PiRcvd = f.PiRcvd) (h2 : ∀ f, (g f).Connected = f.Connected) :
    Neutral s (s.setPeer p (fun x => { x with m_Flags := g x.m_Flags })) :=
  { Neutral.neutral_refl s with
    peer := fun q => by
      by_cases hq : q = p
      · subst hq
        exact ⟨g (s.peerAt q).m_Flags, by simp [Node.setPeer], h1 _, h2 _⟩
      · exact ⟨(s.peerAt q).m_Flags, by simp [Node.setPeer, Function.update, hq], rfl, rfl⟩ }

theorem Neutral.setSync (s : Node) (y y' : FirstTimeSync) (hy : s.m_pSync = some y) :
    Neutral s { s with m_pSync := some y' } :=
  { Neutral.neutral_refl s with sync := by simp [hy] }

theorem Neutral.of_Send {E : Env} {s : Node} {p : PeerRef} {m : Msg} :
    (Send E s p m).Sat (Neutral s) := by
  unfold Send
  split
  · exact Neutral.log_sent s p m
  · exact Neutral.neutral_refl s

theorem SyncCyclePeer_neutral (E : Env) (s : Node) (p : PeerRef) :
    (SyncCyclePeer E s p).1.Sat (Neutral s) ∧ (SyncCyclePeer E s p).1 ≠ .out := by
  unfold SyncCyclePeer
  split
  · exact ⟨Neutral.neutral_refl s, by simp⟩
  · rename_i y hy
    split
    · exact ⟨Neutral.neutral_refl s, by simp⟩
    · split
      · exact ⟨Neutral.neutral_refl s, by simp⟩
      · split
        · exact ⟨Neutral.neutral_refl s, by simp⟩
        · split
          · rename_i s1 hs
            obtain ⟨_, rfl⟩ := Send_ok hs
            refine ⟨?_, by simp⟩
            have n1 := Neutral.log_sent s p (.MacroblockGet y.m_Trg y.m_iData
                (E.macroblockOffset y.m_Trg.m_Height y.m_iData))
            have n2 := Neutral.setFlags (s.log (.sent p (.MacroblockGet y.m_Trg y.m_iData
                (E.macroblockOffset y.m_Trg.m_Height y.m_iData)))) p
              (fun f => { f with SyncPending := true }) (fun _ => rfl) (fun _ => rfl)
            have n3 := Neutral.setSync _ y { y with m_RequestsPending := inc32 y.m_RequestsPending }
              (show ((s.log (.sent p (.MacroblockGet y.m_Trg y.m_iData
                (E.macroblockOffset y.m_Trg.m_Height y.m_iData)))).setPeer p
                  (fun x => { x with m_Flags := { x.m_Flags with SyncPending := true } })).m_pSync
                    = some y from hy)
            exact n1.neutral_trans (n2.neutral_trans n3)
          · rename_i r hr
            cases hs : Send E s p (.MacroblockGet y.m_Trg y.m_iData
                (E.macroblockOffset y.m_Trg.m_Height y.m_iData)) with
            | ok s1 => exact absurd hs (hr s1)
            | exc e s1 =>
              obtain ⟨rfl, _⟩ := Send_exc hs
              exact ⟨Neutral.neutral_refl _, by simp⟩
            | out => exact absurd hs Send_ne_out

theorem syncCycleLoop_neutral (E : Env) (l : List PeerRef) (s : Node) :
    (syncCycleLoop E l s).Sat (Neutral s) ∧ syncCycleLoop E l s ≠ .out := by
  induction l generalizing s with
  | nil => exact ⟨Neutral.neutral_refl s, by simp [syncCycleLoop]⟩
  | cons p ps ih =>
    unfold syncCycleLoop
    have h := SyncCyclePeer_neutral E s p
    rcases hr : SyncCyclePeer E s p with ⟨r, b⟩
    rw [hr] at h
    cases r with
    | ok s1 =>
      cases b
      · simp only []
        obtain ⟨h1, h2⟩ := ih s1
        exact ⟨h1.mono (fun _ hx => Neutral.neutral_trans h.1 hx), h2⟩
      · exact ⟨h.1, by simp⟩
    | exc e s1 => exact ⟨h.1, by simp⟩
    | out => exact absurd rfl h.2

theorem SyncCycle_neutral (E : Env) (s : Node) :
    (SyncCycle E s).Sat (Neutral s) ∧ SyncCycle E s ≠ .out := by
  unfold SyncCycle
  split
  · exact ⟨Neutral.neutral_refl s, by simp⟩
  · split
    · exact ⟨Neutral.neutral_refl s, by simp⟩
    · exact syncCycleLoop_neutral E _ s

theorem releaseSyncSlot_neutral (E : Env) (s : Node) (p : PeerRef) :
    (releaseSyncSlot E s p).Sat (Neutral s) ∧ releaseSyncSlot E s p ≠ .out := by
  unfold releaseSyncSlot
  split
  · exact ⟨Neutral.neutral_refl s, by simp⟩
  · rename_i y hy
    split
    · have hn : Neutral s
          { s.setPeer p (fun x =>
              { x with m_Flags := { x.m_Flags with SyncPending := false, DontSync := true } }) with
            m_pSync := some { y with m_RequestsPending := dec32 y.m_RequestsPending } } := by
        have n2 := Neutral.setFlags s p (fun f => { f with SyncPending := false, DontSync := true })
          (fun _ => rfl) (fun _ => rfl)
        have n3 := Neutral.setSync _ y { y with m_RequestsPending := dec32 y.m_RequestsPending }
          (show (s.setPeer p (fun x => { x with m_Flags :=
              { x.m_Flags with SyncPending := false, DontSync := true } })).m_pSync = some y from hy)
        exact n2.neutral_trans n3
      obtain ⟨h1, h2⟩ := SyncCycle_neutral E
          { s.setPeer p (fun x =>
              { x with m_Flags := { x.m_Flags with SyncPending := false, DontSync := true } }) with
            m_pSync := some { y with m_RequestsPending := dec32 y.m_RequestsPending } }
      exact ⟨h1.mono (fun _ hx => hn.neutral_trans hx), h2⟩
    · exact ⟨Neutral.neutral_refl s, by simp⟩

/-! ### Deleting an unassigned task -/

theorem Inv.deleteUnassigned {s : Node} {t : TaskKey} (h : Inv s)
    (ht : t ∈ s.m_lstTasksUnassigned) : Inv (DeleteUnassignedTask s t) := by
  obtain ⟨hc1, htset, htno⟩ := h.of_mem_queue ht
  have hnp := h.packQueue t ht
  unfold DeleteUnassignedTask
  refine
    { setNodup := h.setNodup.erase t
      placed := fun k => ?_
      ownerNone := fun k hk => h.ownerNone k (List.mem_of_mem_erase hk)
      ownerSome := h.ownerSome
      peersNodup := h.peersNodup
      unlisted := h.unlisted
      packQueue := fun k hk => h.packQueue k (List.mem_of_mem_erase hk)
      packBlock := fun k hk => h.packBlock k (List.mem_of_mem_erase hk)
      packHdr := ?_
      packHdrLe := h.packHdrLe
      packBody := h.packBody
      auth := h.auth
      live := h.live
      subsNodup := h.subsNodup
      subsPeer := h.subsPeer }
  · have h1 := h.placed k
    unfold placedCount at h1 ⊢
    simp only []
    by_cases hkt : k = t
    · subst hkt
      rw [List.count_erase_self, List.count_erase_self]
      have := List.count_pos_iff.mpr htset
      omega
    · rw [List.count_erase_of_ne hkt, List.count_erase_of_ne hkt]
      exact h1
  · simp only []
    rw [h.packHdr, h.setNodup.erase_eq_filter, List.filter_filter]
    congr 1
    apply List.filter_congr
    intro k _
    by_cases hkt : k = t
    · subst hkt; simp [hnp]
    · simp [hkt]

theorem Frame.frame_deleteUnassigned (s : Node) (t : TaskKey) : Frame s (DeleteUnassignedTask s t) :=
  { Frame.frame_refl s with set := List.erase_sublist t s.m_setTasks }

theorem Post.post_deleteUnassigned {s : Node} {t : TaskKey} (h : Inv s)
    (ht : t ∈ s.m_lstTasksUnassigned) :
    Post (fun k => k = t) (fun _ => False) s (DeleteUnassignedTask s t) :=
  { inv := h.deleteUnassigned ht
    frame := Frame.frame_deleteUnassigned s t
    queue := fun k hk hmem => (List.mem_erase_of_ne hk).mpr hmem
    keep := fun _ _ hq _ => hq }

/-! ### Assigning and releasing -/

theorem Post.post_assign {E : Env} {s s' : Node} {t : TaskKey} {p : PeerRef} (h : Inv s)
    (e : AssignEff E s s' t p) (ht : t ∈ s.m_lstTasksUnassigned) (hp : p ∈ s.m_lstPeers)
    (hpi : (s.peerAt p).m_Flags.PiRcvd = true) :
    Post (fun k => k = t) (fun _ => False) s s' :=
  { inv := h.assign e ht hp hpi
    frame := Frame.of_assign e
    queue := fun k hk hmem => by rw [e.un]; exact (List.mem_erase_of_ne hk).mpr hmem
    keep := fun _ _ hq _ => by rw [e.peers]; exact hq }

theorem Post.post_release {s : Node} {p : PeerRef} {t : TaskKey} {rest : List TaskKey} (h : Inv s)
    (hl : (s.peerAt p).m_lstTasks = t :: rest) :
    Post (fun _ => False) (fun _ => False) s (releaseToQueue s p t) :=
  { inv := h.release (releaseToQueue_eff s p t) hl
    frame := Frame.of_release (releaseToQueue_eff s p t)
    queue := fun k _ hmem => by
      rw [(releaseToQueue_eff s p t).un]; exact List.mem_append_left _ hmem
    keep := fun _ _ hq _ => by rw [(releaseToQueue_eff s p t).peers]; exact hq }

/-! ### The head of `DeleteSelf` -/

theorem zeroTip_post {s : Node} (h : Inv s) (p : PeerRef) :
    Post (fun _ => False) (fun _ => False) s
      (s.setPeer p (fun x => { x with m_Tip := Full.zero })) := by
  have hpe : ∀ q, (Function.update s.peerAt p { s.peerAt p with m_Tip := Full.zero } q) =
      if q = p then { s.peerAt q with m_Tip := Full.zero } else s.peerAt q := by
    intro q
    by_cases hq : q = p
    · subst hq; simp
    · simp [Function.update, hq]
  refine
    { inv := h.congr rfl rfl (fun _ => ⟨rfl, rfl⟩) rfl rfl rfl (fun q => ?_)
        (fun i hi p hl => ⟨hi, hl⟩) rfl
      frame :=
        { Frame.frame_refl s with
          peer := fun q => ?_ }
      queue := fun _ _ hk => hk
      keep := fun _ _ hq _ => hq }
  · simp only [Node.setPeer, hpe]
    split <;> exact ⟨rfl, rfl, rfl, fun hf => hf⟩
  · simp only [Node.setPeer, hpe]
    split
    · exact ⟨rfl, rfl, rfl, rfl, rfl, Or.inr rfl⟩
    · exact ⟨rfl, rfl, rfl, rfl, rfl, Or.inl rfl⟩

theorem startDelete_post {E : Env} {s : Node} (h : Inv s) (p : PeerRef)
    (r : Option ByeReason) :
    (startDelete E s p r).Sat (Post (fun _ => False) (fun _ => False) s) ∧
      startDelete E s p r ≠ .out := by
  unfold startDelete
  have key : ∀ r0 : Res, r0.Sat (Neutral s) → r0 ≠ .out →
      (r0.bind fun s1 => .ok (s1.setPeer p (fun x => { x with m_Tip := Full.zero }))).Sat
          (Post (fun _ => False) (fun _ => False) s) ∧
        (r0.bind fun s1 => .ok (s1.setPeer p (fun x => { x with m_Tip := Full.zero }))) ≠ .out := by
    intro r0 hr0 hne
    cases r0 with
    | ok s1 =>
      refine ⟨?_, by simp [Res.bind]⟩
      have h1 : Post (fun _ => False) (fun _ => False) s s1 := Neutral.post hr0 h _ _
      exact (h1.trans (zeroTip_post h1.inv p)).post_mono (fun _ hx => hx.elim id id)
        (fun _ hx => hx.elim id id)
    | exc e s1 => exact ⟨Neutral.post hr0 h _ _, by simp [Res.bind]⟩
    | out => exact absurd rfl hne
  cases r with
  | none => exact key (.ok s) (Neutral.neutral_refl s) (by simp)
  | some reason =>
    simp only []
    split
    · exact key _ Neutral.of_Send Send_ne_out
    · exact key (.ok s) (Neutral.neutral_refl s) (by simp)

theorem startDelete_tip {E : Env} {s s1 : Node} {p : PeerRef} {r : Option ByeReason}
    (h : startDelete E s p r = .ok s1) :
    (s1.peerAt p).m_Tip = Full.zero ∧ ∀ q, (s1.peerAt q).m_lstTasks = (s.peerAt q).m_lstTasks := by
  unfold startDelete at h
  have key : ∀ r0 : Res, (∀ s0, r0 = .ok s0 → s0.peerAt = s.peerAt) →
      (r0.bind fun s1 => .ok (s1.setPeer p (fun x => { x with m_Tip := Full.zero }))) = .ok s1 →
      (s1.peerAt p).m_Tip = Full.zero ∧
        ∀ q, (s1.peerAt q).m_lstTasks = (s.peerAt q).m_lstTasks := by
    intro r0 hr0 hb
    cases r0 with
    | ok s0 =>
      simp only [Res.bind] at hb
      cases hb
      have := hr0 s0 rfl
      refine ⟨by simp [Node.setPeer], fun q => ?_⟩
      by_cases hq : q = p
      · subst hq; simp [Node.setPeer, this]
      · simp [Node.setPeer, Function.update, hq, this]
    | exc e s0 => simp [Res.bind] at hb
    | out => simp [Res.bind] at hb
  cases r with
  | none => exact key (.ok s) (fun s0 h0 => by cases h0; rfl) h
  | some reason =>
    simp only [] at h
    split at h
    · exact key _ (fun s0 h0 => by obtain ⟨_, rfl⟩ := Send_ok h0; rfl) h
    · exact key (.ok s) (fun s0 h0 => by cases h0; rfl) h

/-! ### The tail of `DeleteSelf` -/

theorem UnsubscribeOne_post {s : Node} (h : Inv s) (p : PeerRef) (c : Channel)
    (rest : List Channel) (hs : (s.peerAt p).m_Subscriptions = c :: rest) :
    Post (fun _ => False) (fun _ => False) s (UnsubscribeOne s p c) ∧
      ((UnsubscribeOne s p c).peerAt p).m_Subscriptions = rest ∧
      ∀ q, ((UnsubscribeOne s p c).peerAt q).m_lstTasks = (s.peerAt q).m_lstTasks := by
  have hpe : ∀ q, ((UnsubscribeOne s p c).peerAt q) =
      if q = p then { s.peerAt q with m_Subscriptions := rest } else s.peerAt q := by
    intro q
    by_cases hq : q = p
    · subst hq; simp [UnsubscribeOne, Node.setPeer, hs]
    · simp [UnsubscribeOne, Node.setPeer, Function.update, hq]
  have hp : p ∈ s.m_lstPeers := by
    by_contra hp
    rw [(h.unlisted p hp).2] at hs
    cases hs
  have hlists : ∀ q, ((UnsubscribeOne s p c).peerAt q).m_lstTasks = (s.peerAt q).m_lstTasks := by
    intro q; rw [hpe]; split <;> rfl
  have hinfo : ∀ q, ((UnsubscribeOne s p c).peerAt q).m_pInfo = (s.peerAt q).m_pInfo := by
    intro q; rw [hpe]; split <;> rfl
  have hflags : ∀ q, ((UnsubscribeOne s p c).peerAt q).m_Flags = (s.peerAt q).m_Flags := by
    intro q; rw [hpe]; split <;> rfl
  refine ⟨?_, by rw [hpe]; simp, hlists⟩
  refine
    { inv :=
        { setNodup := h.setNodup
          placed := fun k => by
            have := h.placed k
            unfold placedCount at this ⊢
            show List.count k s.m_lstTasksUnassigned +
              (List.map (fun q => List.count k ((UnsubscribeOne s p c).peerAt q).m_lstTasks)
                s.m_lstPeers).sum = List.count k s.m_setTasks
            rw [← this]
            congr 2
            apply List.map_congr_left
            intro q _
            rw [hlists]
          ownerNone := h.ownerNone
          ownerSome := fun q hq k hk => h.ownerSome q hq k (by rw [← hlists]; exact hk)
          peersNodup := h.peersNodup
          unlisted := fun q hq => by
            have hqp : q ≠ p := fun hqp => hq (hqp ▸ hp)
            rw [hpe, if_neg hqp]; exact h.unlisted q hq
          packQueue := h.packQueue
          packBlock := h.packBlock
          packHdr := h.packHdr
          packHdrLe := h.packHdrLe
          packBody := h.packBody
          auth := fun q hq hf => by
            rw [hlists]; rw [hflags] at hf; exact h.auth q hq hf
          live := fun i hi q hl => by
            obtain ⟨h1, h2⟩ := h.live i hi q hl
            exact ⟨h1, by rw [hinfo]; exact h2⟩
          subsNodup := h.subsNodup.erase _
          subsPeer := fun c' q hc => by
            have hmem : (⟨c', q⟩ : Subscription) ∈ s.m_Subscribed.erase ⟨c, p⟩ := hc
            rw [h.subsNodup.mem_erase_iff] at hmem
            obtain ⟨h1, h2⟩ := h.subsPeer c' q hmem.2
            refine ⟨h1, ?_⟩
            rw [hpe]
            split
            · rename_i hqp
              subst hqp
              rw [hs] at h2
              rcases List.mem_cons.mp h2 with h3 | h3
              · subst h3; exact absurd rfl hmem.1
              · exact h3
            · exact h2 }
      frame :=
        { Frame.frame_refl s with
          peer := fun q => by
            rw [hpe]; split <;> exact ⟨rfl, rfl, rfl, rfl, rfl, Or.inl rfl⟩ }
      queue := fun _ _ hk => hk
      keep := fun _ _ hq _ => hq }

theorem unsubscribeLoop_post (p : PeerRef) :
    ∀ (L : List Channel) (s : Node), Inv s → (s.peerAt p).m_Subscriptions = L →
      Post (fun _ => False) (fun _ => False) s (unsubscribeLoop p L s) ∧
        ((unsubscribeLoop p L s).peerAt p).m_Subscriptions = [] ∧
        ∀ q, ((unsubscribeLoop p L s).peerAt q).m_lstTasks = (s.peerAt q).m_lstTasks := by
  intro L
  induction L with
  | nil =>
    intro s h hs
    exact ⟨Post.refl h _ _, hs, fun _ => rfl⟩
  | cons c rest ih =>
    intro s h hs
    obtain ⟨h1, h2, h3⟩ := UnsubscribeOne_post h p c rest hs
    obtain ⟨h4, h5, h6⟩ := ih (UnsubscribeOne s p c) h1.inv h2
    refine ⟨(h1.trans h4).post_mono (fun _ hx => hx.elim id id) (fun _ hx => hx.elim id id), h5, ?_⟩
    intro q
    exact (h6 q).trans (h3 q)

theorem Unsubscribe_post {s : Node} (h : Inv s) (p : PeerRef) :
    Post (fun _ => False) (fun _ => False) s (Unsubscribe s p) ∧
      ((Unsubscribe s p).peerAt p).m_Subscriptions = [] ∧
      ∀ q, ((Unsubscribe s p).peerAt q).m_lstTasks = (s.peerAt q).m_lstTasks :=
  unsubscribeLoop_post p _ s h rfl

theorem setInfo_keeps (s : Node) (i : InfoRef) (g : PeerInfoPlus → PeerInfoPlus)
    (hg : ∀ x, (g x).m_ID = x.m_ID ∧ (g x).m_pLive = x.m_pLive) (j : InfoRef) :
    ((s.setInfo i g).infoAt j).m_ID = (s.infoAt j).m_ID ∧
      ((s.setInfo i g).infoAt j).m_pLive = (s.infoAt j).m_pLive := by
  by_cases hj : j = i
  · subst hj; simp [Node.setInfo, hg]
  · simp [Node.setInfo, Function.update, hj]

theorem OnActive_keeps (s : Node) (i : InfoRef) (b : Bool) (j : InfoRef) :
    ((OnActive s i b).infoAt j).m_ID = (s.infoAt j).m_ID ∧
      ((OnActive s i b).infoAt j).m_pLive = (s.infoAt j).m_pLive :=
  setInfo_keeps s i (fun x => { x with m_Active := b }) (fun _ => ⟨rfl, rfl⟩) j

theorem OnRemoteError_keeps (E : Env) (s : Node) (i : InfoRef) (b : Bool) (j : InfoRef) :
    ((OnRemoteError E s i b).infoAt j).m_ID = (s.infoAt j).m_ID ∧
      ((OnRemoteError E s i b).infoAt j).m_pLive = (s.infoAt j).m_pLive :=
  setInfo_keeps s i (fun x => { x with m_RawRating := if b then 0 else E.penalty x.m_RawRating })
    (fun _ => ⟨rfl, rfl⟩) j

theorem detachInfo_shape (E : Env) (s : Node) (p : PeerRef) (b : Bool) (r : Option ByeReason) :
    ∃ (F : InfoRef → PeerInfoPlus) (T : List Event),
      detachInfo E s p b r = { s with infoAt := F, trace := T } ∧
      (∀ j, (F j).m_ID = (s.infoAt j).m_ID ∧
        (F j).m_pLive = if some j = (s.peerAt p).m_pInfo then none else (s.infoAt j).m_pLive) ∧
      (∃ l, T = s.trace ++ l ∧ ∀ e ∈ l, e.isProcessor = false) := by
  unfold detachInfo
  cases hsome : (s.peerAt p).m_pInfo with
  | none => exact ⟨s.infoAt, s.trace, rfl, fun j => ⟨rfl, by simp⟩, [], by simp, by simp⟩
  | some i =>
    simp only []
    have h0 : ∀ j, ((s.setInfo i (fun x => { x with m_pLive := none })).infoAt j).m_ID =
          (s.infoAt j).m_ID ∧
        ((s.setInfo i (fun x => { x with m_pLive := none })).infoAt j).m_pLive =
          if some j = some i then none else (s.infoAt j).m_pLive := by
      intro j
      by_cases hj : j = i
      · subst hj; simp [Node.setInfo]
      · simp [Node.setInfo, Function.update, hj]
    split
    · refine ⟨_, _, rfl, fun j => ?_, [.onActive i false, .onRemoteError i (r == some .Ban)],
        by simp [OnRemoteError, OnActive, Node.setInfo, Node.log], by simp [Event.isProcessor]⟩
      have h1 := OnRemoteError_keeps E
        (OnActive (s.setInfo i (fun x => { x with m_pLive := none })) i false) i
        (r == some .Ban) j
      have h2 := OnActive_keeps (s.setInfo i (fun x => { x with m_pLive := none })) i false j
      exact ⟨h1.1.trans (h2.1.trans (h0 j).1), h1.2.trans (h2.2.trans (h0 j).2)⟩
    · refine ⟨_, _, rfl, fun j => ?_, [.onActive i false],
        by simp [OnActive, Node.setInfo, Node.log], by simp [Event.isProcessor]⟩
      have h2 := OnActive_keeps (s.setInfo i (fun x => { x with m_pLive := none })) i false j
      exact ⟨h2.1.trans (h0 j).1, h2.2.trans (h0 j).2⟩

theorem detachInfo_post {E : Env} {s : Node} (h : Inv s) (p : PeerRef) (b : Bool)
    (r : Option ByeReason) :
    Post (fun _ => False) (fun _ => False) s (detachInfo E s p b r) ∧
      (detachInfo E s p b r).peerAt = s.peerAt ∧
      (∀ i ∈ (detachInfo E s p b r).m_Infos, ((detachInfo E s p b r).infoAt i).m_pLive ≠ some p) ∧
      (detachInfo E s p b r).m_Subscribed = s.m_Subscribed := by
  obtain ⟨F, T, hs, hF, hT⟩ := detachInfo_shape E s p b r
  rw [hs]
  refine ⟨?_, rfl, ?_, rfl⟩
  · refine
      { inv := h.congr rfl rfl (fun k => ⟨rfl, rfl⟩) rfl rfl rfl
          (fun q => ⟨rfl, rfl, rfl, fun hf => hf⟩) ?_ rfl
        frame :=
          { Frame.frame_refl s with
            info := fun j => by
              refine ⟨(hF j).1, ?_⟩
              show (F j).m_pLive = _ ∨ (F j).m_pLive = none
              rw [(hF j).2]
              split
              · exact Or.inr rfl
              · exact Or.inl rfl
            trace := hT }
        queue := fun _ _ hk => hk
        keep := fun _ _ hq _ => hq }
    intro j hj q hl
    have hl' : (F j).m_pLive = some q := hl
    rw [(hF j).2] at hl'
    split at hl'
    · cases hl'
    · exact ⟨hj, hl'⟩
  · intro j hj hl
    have hl' : (F j).m_pLive = some p := hl
    rw [(hF j).2] at hl'
    split at hl'
    · cases hl'
    · rename_i hji
      exact hji (h.live j hj p hl').2.symm

theorem erasePeer_post {s : Node} (h : Inv s) (p : PeerRef)
    (hl : (s.peerAt p).m_lstTasks = []) (hs : (s.peerAt p).m_Subscriptions = [])
    (hlive : ∀ i ∈ s.m_Infos, (s.infoAt i).m_pLive ≠ some p) :
    Post (fun _ => False) (fun q => q = p) s { s with m_lstPeers := s.m_lstPeers.erase p } := by
  have hmem : ∀ q, q ∈ s.m_lstPeers.erase p ↔ q ≠ p ∧ q ∈ s.m_lstPeers :=
    fun q => h.peersNodup.mem_erase_iff
  refine
    { inv :=
        { setNodup := h.setNodup
          placed := fun k => ?_
          ownerNone := h.ownerNone
          ownerSome := fun q hq k hk => h.ownerSome q ((hmem q).mp hq).2 k hk
          peersNodup := h.peersNodup.erase p
          unlisted := fun q hq => by
            by_cases hqp : q = p
            · subst hqp; exact ⟨hl, hs⟩
            · exact h.unlisted q (fun hin => hq ((hmem q).mpr ⟨hqp, hin⟩))
          packQueue := h.packQueue
          packBlock := h.packBlock
          packHdr := h.packHdr
          packHdrLe := h.packHdrLe
          packBody := h.packBody
          auth := fun q hq hf => h.auth q ((hmem q).mp hq).2 hf
          live := fun i hi q hlv => by
            obtain ⟨h1, h2⟩ := h.live i hi q hlv
            refine ⟨(hmem q).mpr ⟨?_, h1⟩, h2⟩
            intro hqp
            subst hqp
            exact hlive i hi hlv
          subsNodup := h.subsNodup
          subsPeer := fun c q hc => by
            obtain ⟨h1, h2⟩ := h.subsPeer c q hc
            refine ⟨(hmem q).mpr ⟨?_, h1⟩, h2⟩
            intro hqp
            subst hqp
            rw [hs] at h2; cases h2 }
      frame := { Frame.frame_refl s with peers := List.erase_sublist p s.m_lstPeers }
      queue := fun _ _ hk => hk
      keep := fun q hq hin _ => (hmem q).mpr ⟨hq, hin⟩ }
  have h1 := h.placed k
  unfold placedCount at h1 ⊢
  simp only []
  by_cases hp : p ∈ s.m_lstPeers
  · have h3 := List.sum_map_erase (fun q => (s.peerAt q).m_lstTasks.count k) hp
    simp only [hl, List.count_nil] at h3
    omega
  · rw [List.erase_of_not_mem hp]; exact h1

theorem finishDelete_post {E : Env} {s : Node} (h : Inv s) (p : PeerRef) (b : Bool)
    (r : Option ByeReason) (hl : (s.peerAt p).m_lstTasks = []) :
    (finishDelete E s p b r).Sat (Post (fun _ => False) (fun q => q = p) s) ∧
      finishDelete E s p b r ≠ .out ∧
      ∀ s', finishDelete E s p b r = .ok s' → p ∉ s'.m_lstPeers := by
  unfold finishDelete
  obtain ⟨u1, u2, u3⟩ := Unsubscribe_post h p
  obtain ⟨d1, d2, d3, d4⟩ := detachInfo_post (E := E) u1.inv p b r
  obtain ⟨n1, n2⟩ := releaseSyncSlot_neutral E (detachInfo E (Unsubscribe s p) p b r) p
  have p12 : Post (fun _ => False) (fun _ => False) s (detachInfo E (Unsubscribe s p) p b r) :=
    (u1.trans d1).post_mono (fun _ hx => hx.elim id id) (fun _ hx => hx.elim id id)
  cases hr : releaseSyncSlot E (detachInfo E (Unsubscribe s p) p b r) p with
  | out => exact absurd hr n2
  | exc e s3 =>
    rw [hr] at n1
    refine ⟨?_, by simp [Res.bind], by simp [Res.bind]⟩
    simp only [Res.bind]
    exact (p12.trans (Neutral.post n1 p12.inv (fun _ => False) (fun _ => False))).post_mono
      (fun _ hx => hx.elim id id) (fun _ hx => hx.elim False.elim False.elim)
  | ok s3 =>
    rw [hr] at n1
    have n1' : Neutral (detachInfo E (Unsubscribe s p) p b r) s3 := n1
    have p3 := Neutral.post n1' p12.inv (fun _ => False) (fun _ => False)
    have hpeer3 : ∀ q, (s3.peerAt q).m_lstTasks = (s.peerAt q).m_lstTasks ∧
        (s3.peerAt q).m_Subscriptions = ((Unsubscribe s p).peerAt q).m_Subscriptions := by
      intro q
      obtain ⟨f, e, _, _⟩ := n1'.peer q
      rw [e, d2]
      exact ⟨u3 q, rfl⟩
    have p4 := erasePeer_post p3.inv p (by rw [(hpeer3 p).1]; exact hl)
      (by rw [(hpeer3 p).2]; exact u2)
      (by
        intro i hi
        rw [n1'.infos] at hi
        rw [n1'.infoAt]
        exact d3 i hi)
    refine ⟨?_, by simp [Res.bind], ?_⟩
    · simp only [Res.bind]
      exact ((p12.trans p3).trans p4).post_mono (fun _ hx => hx.elim (fun h => h.elim id id) id)
        (fun _ hx => hx.elim (fun h => h.elim False.elim False.elim) id)
    · intro s' hs'
      simp only [Res.bind] at hs'
      cases hs'
      simp only []
      exact fun hin => (p3.inv.peersNodup.mem_erase_iff.mp hin).1 rfl

theorem Post.dropX {X : TaskKey → Prop} {Y : PeerRef → Prop} {s s' : Node} (h : Post X Y s s')
    (hX : ∀ k, X k → k ∉ s.m_lstTasksUnassigned) : Post (fun _ => False) Y s s' :=
  { inv := h.inv, frame := h.frame
    queue := fun k _ hk => h.queue k (fun hx => hX k hx hk) hk
    keep := h.keep }

theorem Post.dropY {X : TaskKey → Prop} {Y : PeerRef → Prop} {s s' : Node} (h : Post X Y s s')
    (hY : ∀ q, Y q → (s.peerAt q).m_pInfo ≠ none) : Post X (fun _ => False) s s' :=
  { inv := h.inv, frame := h.frame
    queue := h.queue
    keep := fun q _ hq hi => h.keep q (fun hy => hY q hy hi) hq hi }

theorem Sat_bind_post {X X' : TaskKey → Prop} {Y Y' : PeerRef → Prop} {s : Node} {r : Res}
    {f : Node → Res} (h : r.Sat (Post X Y s))
    (hf : ∀ s1, r = .ok s1 → Post X Y s s1 → (f s1).Sat (Post X' Y' s1)) :
    (r.bind f).Sat (Post (fun k => X k ∨ X' k) (fun q => Y q ∨ Y' q) s) := by
  cases r with
  | ok s1 =>
    exact (hf s1 rfl h).mono (fun s2 h2 => Post.trans h h2)
  | exc e s1 =>
    exact Post.post_mono (a := s) (b := s1) h (fun _ hx => Or.inl hx) (fun _ hy => Or.inl hy)
  | out => trivial

theorem find?_mem {α : Type} {p : α → Bool} {l : List α} {a : α} (h : l.find? p = some a) :
    a ∈ l ∧ p a = true := by
  induction l with
  | nil => simp at h
  | cons b l ih =>
    rw [List.find?_cons] at h
    split at h
    · rename_i hb
      cases h
      exact ⟨List.mem_cons_self _ _, hb⟩
    · obtain ⟨h1, h2⟩ := ih h
      exact ⟨List.mem_cons_of_mem _ h1, h2⟩

theorem selectPeer_spec {E : Env} {s : Node} {t : TaskKey} {pref : Option PeerID} {p : PeerRef}
    (h : Inv s) (hs : selectPeer E s t pref = some p) :
    p ∈ s.m_lstPeers ∧ (s.peerAt p).m_Flags.PiRcvd = true ∧ (s.peerAt p).m_pInfo ≠ none := by
  unfold selectPeer at hs
  split at hs
  · rename_i q hq
    cases hs
    unfold preferredPeer at hq
    split at hq
    · cases hq
    · split at hq
      · cases hq
      · rename_i id i hfind
        split at hq
        · cases hq
        · rename_i q' hlive
          split at hq
          · rename_i hpi
            cases hq
            have hi : i ∈ s.m_Infos := (find?_mem hfind).1
            obtain ⟨h1, h2⟩ := h.live i hi _ hlive
            exact ⟨h1, hpi, by rw [h2]; simp⟩
          · cases hq
  · obtain ⟨h1, h2⟩ := find?_mem hs
    have := (ShouldAssignTask_iff E s t p).mp h2
    exact ⟨h1, this.2.1, this.2.2.1⟩

theorem sched_post (E : Env) : ∀ n : Nat,
    (∀ s t pref, Inv s → t ∈ s.m_lstTasksUnassigned →
      (TryAssignTask E n s t pref).Sat (Post (fun k => k = t) (fun _ => False) s)) ∧
    (∀ s p t rest, Inv s → (s.peerAt p).m_lstTasks = t :: rest →
      (ReleaseTask E n s p t).Sat (Post (fun _ => False) (fun _ => False) s)) ∧
    (∀ s p, Inv s →
      (ReleaseTasks E n s p).Sat (Post (fun _ => False) (fun _ => False) s) ∧
        ∀ s', ReleaseTasks E n s p = .ok s' → (s'.peerAt p).m_lstTasks = []) ∧
    (∀ s p b r, Inv s →
      (DeleteSelf E n s p b r).Sat (Post (fun _ => False) (fun q => q = p) s) ∧
        ∀ s', DeleteSelf E n s p b r = .ok s' → p ∉ s'.m_lstPeers) := by
  intro n
  induction n with
  | zero =>
    refine ⟨?_, ?_, ?_, ?_⟩
    · intro s t pref _ _; simp [TryAssignTask, Res.Sat]
    · intro s p t rest _ _; simp [ReleaseTask, Res.Sat]
    · intro s p _; simp [ReleaseTasks, Res.Sat]
    · intro s p b r _; simp [DeleteSelf, Res.Sat]
  | succ n ih =>
    obtain ⟨ihT, ihR, ihRs, ihD⟩ := ih
    refine ⟨?_, ?_, ?_, ?_⟩
    · intro s t pref h ht
      rw [TryAssignTask]
      cases hsel : selectPeer E s t pref with
      | none => exact Post.refl h _ _
      | some p =>
        simp only []
        obtain ⟨hp, hpi, hinfo⟩ := selectPeer_spec h hsel
        cases ha : AssignTask E s t p with
        | ok s1 => exact Post.post_assign h (AssignTask_ok ha) ht hp hpi
        | out => exact absurd ha AssignTask_ne_out
        | exc e s1 =>
          simp only []
          have := AssignTask_exc ha
          subst this
          have hd := (ihD s1 p true (some .Ban) h).1
          have hd' : (DeleteSelf E n s1 p true (some .Ban)).Sat
              (Post (fun _ => False) (fun _ => False) s1) :=
            hd.mono (fun s2 h2 => h2.dropY (fun q hq => by subst hq; exact hinfo))
          refine (Sat_bind_post hd' (fun s2 _ h2 => ihT s2 t pref h2.inv
            (h2.queue t (fun hf => hf) ht))).mono ?_
          intro s3 h3
          exact h3.post_mono (fun _ hx => hx.elim False.elim id) (fun _ hy => hy.elim id id)
    · intro s p t rest h hl
      rw [ReleaseTask]
      have htl : t ∈ (s.peerAt p).m_lstTasks := by rw [hl]; simp
      have hp : p ∈ s.m_lstPeers := h.listed_of_mem htl
      have htq : t ∉ s.m_lstTasksUnassigned := (h.of_mem_peer hp htl).2.2
      have h1 := Post.post_release h hl
      have ht1 : t ∈ (releaseToQueue s p t).m_lstTasksUnassigned := by
        rw [(releaseToQueue_eff s p t).un]; simp
      split
      · have h2 := ihT (releaseToQueue s p t) t none h1.inv ht1
        refine h2.mono (fun s2 hs2 => ?_)
        exact ((h1.trans hs2).dropX (fun k hk => by
          rcases hk with hk | hk
          · exact hk.elim
          · subst hk; exact htq)).post_mono (fun _ hx => hx) (fun _ hy => hy.elim id id)
      · have h2 := Post.post_deleteUnassigned h1.inv ht1
        exact ((h1.trans h2).dropX (fun k hk => by
          rcases hk with hk | hk
          · exact hk.elim
          · subst hk; exact htq)).post_mono (fun _ hx => hx) (fun _ hy => hy.elim id id)
    · intro s p h
      rw [ReleaseTasks]
      cases hl : (s.peerAt p).m_lstTasks with
      | nil =>
        simp only []
        exact ⟨Post.refl h _ _, fun s' hs' => by cases hs'; exact hl⟩
      | cons t rest =>
        simp only []
        have h1 := ihR s p t rest h hl
        refine ⟨?_, ?_⟩
        · refine (Sat_bind_post h1 (fun s1 _ hs1 => (ihRs s1 p hs1.inv).1)).mono ?_
          intro s3 h3
          exact h3.post_mono (fun _ hx => hx.elim id id) (fun _ hy => hy.elim id id)
        · intro s' hs'
          cases hr : ReleaseTask E n s p t with
          | ok s1 =>
            rw [hr] at hs' h1
            exact (ihRs s1 p (Post.inv h1)).2 s' hs'
          | exc e s1 => rw [hr] at hs'; simp [Res.bind] at hs'
          | out => rw [hr] at hs'; simp [Res.bind] at hs'
    · intro s p b r h
      rw [DeleteSelf]
      obtain ⟨h1, h1ne⟩ := startDelete_post (E := E) h p r
      cases hs1 : startDelete E s p r with
      | out => exact absurd hs1 h1ne
      | exc e s1 =>
        rw [hs1] at h1
        refine ⟨?_, by simp [Res.bind]⟩
        simp only [Res.bind]
        exact Post.post_mono (a := s) (b := s1) h1 (fun _ hx => hx) (fun _ hy => hy.elim)
      | ok s1 =>
        rw [hs1] at h1
        have h1' : Post (fun _ => False) (fun _ => False) s s1 := h1
        simp only [Res.bind]
        obtain ⟨h2, h2l⟩ := ihRs s1 p h1'.inv
        cases hs2 : ReleaseTasks E n s1 p with
        | out => simp [Res.Sat]
        | exc e s2 =>
          rw [hs2] at h2
          refine ⟨?_, by simp⟩
          exact (h1'.trans (show Post _ _ s1 s2 from h2)).post_mono (fun _ hx => hx.elim id id)
            (fun _ hy => hy.elim False.elim False.elim)
        | ok s2 =>
          rw [hs2] at h2
          have h2' : Post (fun _ => False) (fun _ => False) s1 s2 := h2
          obtain ⟨h3, _, h3l⟩ := finishDelete_post (E := E) h2'.inv p b r (h2l s2 hs2)
          simp only []
          refine ⟨?_, h3l⟩
          refine h3.mono (fun s3 hs3 => ?_)
          exact ((h1'.trans h2').trans hs3).post_mono (fun _ hx => hx.elim (fun h => h.elim id id) id)
            (fun _ hy => hy.elim (fun h => h.elim False.elim False.elim) id)

theorem Inv.queueNodup {s : Node} (h : Inv s) : s.m_lstTasksUnassigned.Nodup := by
  rw [List.nodup_iff_count_le_one]
  intro k
  have h1 := h.placed k
  have h2 := h.count_set_le k
  unfold placedCount at h1
  omega

theorem Inv.not_placed_of_not_mem {s : Node} (h : Inv s) {k : TaskKey} (hk : k ∉ s.m_setTasks) :
    k ∉ s.m_lstTasksUnassigned ∧ ∀ q ∈ s.m_lstPeers, k ∉ (s.peerAt q).m_lstTasks := by
  have h1 := h.placed k
  rw [List.count_eq_zero_of_not_mem hk] at h1
  unfold placedCount at h1
  refine ⟨fun hmem => ?_, fun q hq hmem => ?_⟩
  · have := List.count_pos_iff.mpr hmem
    omega
  · have h4 : 0 < (s.peerAt q).m_lstTasks.count k := List.count_pos_iff.mpr hmem
    have h5 := count_le_sum s.m_lstPeers (fun q => (s.peerAt q).m_lstTasks.count k) q hq
    simp only [] at h5
    omega

theorem Inv.newTask {s : Node} (h : Inv s) {k : TaskKey} (hk : k ∉ s.m_setTasks) :
    Inv { s.setTask k (fun _ => ⟨true, false, none⟩) with
          m_setTasks := (s.setTask k (fun _ => ⟨true, false, none⟩)).m_setTasks ++ [k]
          m_lstTasksUnassigned :=
            (s.setTask k (fun _ => ⟨true, false, none⟩)).m_lstTasksUnassigned ++ [k] } := by
  obtain ⟨hq, hps⟩ := h.not_placed_of_not_mem hk
  have htask : ∀ k', k' ≠ k →
      (Function.update s.taskAt k (⟨true, false, none⟩ : Task) k') = s.taskAt k' :=
    fun k' hk' => by simp [Function.update, hk']
  simp only [Node.setTask]
  refine
    { setNodup := by
        simp only []
        rw [List.nodup_append]
        refine ⟨h.setNodup, List.nodup_singleton k, ?_⟩
        intro a ha hb
        have : a = k := by simpa using hb
        exact hk (this ▸ ha)
      placed := fun k' => ?_
      ownerNone := fun k' hk' => by
        simp only [] at hk' ⊢
        rcases List.mem_append.mp hk' with hk' | hk'
        · have : k' ≠ k := fun e => hq (e ▸ hk')
          rw [htask k' this]; exact h.ownerNone k' hk'
        · have : k' = k := by simpa using hk'
          subst this; simp
      ownerSome := fun q hq' k' hk' => by
        simp only [] at hk' hq' ⊢
        have : k' ≠ k := fun e => hps q hq' (e ▸ hk')
        rw [htask k' this]; exact h.ownerSome q hq' k' hk'
      peersNodup := h.peersNodup
      unlisted := h.unlisted
      packQueue := fun k' hk' => by
        simp only [] at hk' ⊢
        rcases List.mem_append.mp hk' with hk' | hk'
        · have : k' ≠ k := fun e => hq (e ▸ hk')
          rw [htask k' this]; exact h.packQueue k' hk'
        · have : k' = k := by simpa using hk'
          subst this; simp
      packBlock := fun k' hk' hb => by
        simp only [] at hk' ⊢
        rcases List.mem_append.mp hk' with hk' | hk'
        · have : k' ≠ k := fun e => hk (e ▸ hk')
          rw [htask k' this]; exact h.packBlock k' hk' hb
        · have : k' = k := by simpa using hk'
          subst this; simp
      packHdr := by
        simp only []
        rw [List.filter_append, List.length_append, h.packHdr]
        have h1 : [k].filter (fun k' =>
            (Function.update s.taskAt k (⟨true, false, none⟩ : Task) k').m_bPack) = [] := by
          simp
        rw [h1]
        simp only [List.length_nil, Nat.add_zero]
        congr 1
        apply List.filter_congr
        intro k' hk'
        have : k' ≠ k := fun e => hk (e ▸ hk')
        rw [htask k' this]
      packHdrLe := h.packHdrLe
      packBody := h.packBody
      auth := h.auth
      live := h.live
      subsNodup := h.subsNodup
      subsPeer := h.subsPeer }
  have h1 := h.placed k'
  unfold placedCount at h1 ⊢
  simp only [List.count_append]
  omega

theorem takeLoop_inv (E : Env) (p : PeerRef) :
    ∀ (ts : List TaskKey) (s : Node), Inv s → p ∈ s.m_lstPeers → ts.Nodup →
      (∀ t ∈ ts, t ∈ s.m_lstTasksUnassigned) →
      (takeLoop E p ts s).Sat (fun s' =>
        Post (fun k => k ∈ ts) (fun _ => False) s s' ∧ s'.m_lstPeers = s.m_lstPeers) := by
  intro ts
  induction ts with
  | nil => intro s h _ _ _; exact ⟨Post.refl h _ _, rfl⟩
  | cons t ts ih =>
    intro s h hp hnd hall
    rw [List.nodup_cons] at hnd
    rw [takeLoop]
    split
    · rename_i hsa
      have hpi := ((ShouldAssignTask_iff E s t p).mp hsa).2.1
      cases ha : AssignTask E s t p with
      | out => exact absurd ha AssignTask_ne_out
      | exc e s1 =>
        have := AssignTask_exc ha
        subst this
        exact ⟨Post.refl h _ _, rfl⟩
      | ok s1 =>
        simp only [Res.bind]
        have e := AssignTask_ok ha
        have h1 := Post.post_assign h e (hall t (List.mem_cons_self _ _)) hp hpi
        have h2 := ih s1 h1.inv (by rw [e.peers]; exact hp) hnd.2 (fun t' ht' => by
          rw [e.un]
          refine (List.mem_erase_of_ne ?_).mpr (hall t' (List.mem_cons_of_mem _ ht'))
          intro hEq
          exact hnd.1 (hEq ▸ ht'))
        refine h2.mono (fun s2 hs2 => ⟨?_, hs2.2.trans e.peers⟩)
        exact (h1.trans hs2.1).post_mono
          (fun k hk => hk.elim (fun hx => hx ▸ List.mem_cons_self _ _)
            (fun hx => List.mem_cons_of_mem _ hx))
          (fun _ hy => hy.elim id id)
    · have h2 := ih s h hp hnd.2 (fun t' ht' => hall t' (List.mem_cons_of_mem _ ht'))
      refine h2.mono (fun s2 hs2 => ⟨?_, hs2.2⟩)
      exact hs2.1.post_mono (fun k hk => List.mem_cons_of_mem _ hk) (fun _ hy => hy)

theorem TakeTasks_inv {E : Env} {s : Node} {p : PeerRef} (h : Inv s) (hp : p ∈ s.m_lstPeers) :
    (TakeTasks E s p).Sat (fun s' =>
      Post (fun k => k ∈ s.m_lstTasksUnassigned) (fun _ => False) s s' ∧
        s'.m_lstPeers = s.m_lstPeers) :=
  takeLoop_inv E p _ s h hp h.queueNodup (fun _ ht => ht)

theorem deleteIrrelevant_inv :
    ∀ (ts : List TaskKey) (s : Node), Inv s → ts.Nodup →
      (∀ t ∈ ts, t ∈ s.m_lstTasksUnassigned) →
      Post (fun k => k ∈ ts) (fun _ => False) s (deleteIrrelevant ts s) := by
  intro ts
  induction ts with
  | nil => intro s h _ _; exact Post.refl h _ _
  | cons t ts ih =>
    intro s h hnd hall
    rw [List.nodup_cons] at hnd
    rw [deleteIrrelevant]
    split
    · exact (ih s h hnd.2 (fun t' ht' => hall t' (List.mem_cons_of_mem _ ht'))).post_mono
        (fun k hk => List.mem_cons_of_mem _ hk) (fun _ hy => hy)
    · have h1 := Post.post_deleteUnassigned h (hall t (List.mem_cons_self _ _))
      have h2 := ih (DeleteUnassignedTask s t) h1.inv hnd.2 (fun t' ht' => by
        refine (List.mem_erase_of_ne ?_).mpr (hall t' (List.mem_cons_of_mem _ ht'))
        intro hEq
        exact hnd.1 (hEq ▸ ht'))
      exact (h1.trans h2).post_mono
        (fun k hk => hk.elim (fun hx => hx ▸ List.mem_cons_self _ _)
          (fun hx => List.mem_cons_of_mem _ hx))
        (fun _ hy => hy.elim id id)

/-- Changes that touch neither lists nor owners nor links: relevance flags, tips,
rejected sets, timers, ratings, the cursor, the sync controller, the record of calls. -/
theorem Inv.of_same {s s' : Node} (h : Inv s)
    (hset : s'.m_setTasks = s.m_setTasks)
    (hun : s'.m_lstTasksUnassigned = s.m_lstTasksUnassigned)
    (hT : ∀ k, (s'.taskAt k).m_pOwner = (s.taskAt k).m_pOwner ∧
      (s'.taskAt k).m_bPack = (s.taskAt k).m_bPack)
    (hph : s'.m_nTasksPackHdr = s.m_nTasksPackHdr)
    (hpb : s'.m_nTasksPackBody = s.m_nTasksPackBody)
    (hpeers : s'.m_lstPeers = s.m_lstPeers)
    (hP : ∀ q, (s'.peerAt q).m_lstTasks = (s.peerAt q).m_lstTasks ∧
      (s'.peerAt q).m_Subscriptions = (s.peerAt q).m_Subscriptions ∧
      (s'.peerAt q).m_pInfo = (s.peerAt q).m_pInfo ∧
      ((s.peerAt q).m_Flags.PiRcvd = true → (s'.peerAt q).m_Flags.PiRcvd = true))
    (hinfos : s'.m_Infos = s.m_Infos)
    (hI : ∀ i, (s'.infoAt i).m_pLive = (s.infoAt i).m_pLive)
    (hsub : s'.m_Subscribed = s.m_Subscribed) : Inv s' :=
  h.congr hset hun hT hph hpb hpeers
    (fun q => ⟨(hP q).1, (hP q).2.1, (hP q).2.2.1, fun hf => by
      cases hpi : (s.peerAt q).m_Flags.PiRcvd
      · rfl
      · rw [(hP q).2.2.2 hpi] at hf; cases hf⟩)
    (fun i hi p hl => ⟨hinfos ▸ hi, (hI i) ▸ hl⟩) hsub

theorem Inv.setPeer {s : Node} (h : Inv s) (p : PeerRef) (f : Peer → Peer)
    (hf : ∀ x, (f x).m_lstTasks = x.m_lstTasks ∧ (f x).m_Subscriptions = x.m_Subscriptions ∧
      (f x).m_pInfo = x.m_pInfo ∧ (x.m_Flags.PiRcvd = true → (f x).m_Flags.PiRcvd = true)) :
    Inv (s.setPeer p f) := by
  refine h.of_same rfl rfl (fun _ => ⟨rfl, rfl⟩) rfl rfl rfl (fun q => ?_) rfl (fun _ => rfl) rfl
  by_cases hq : q = p
  · subst hq; simp only [Node.setPeer, Function.update_same]; exact hf _
  · simp [Node.setPeer, Function.update, hq]

theorem Inv.setInfo {s : Node} (h : Inv s) (i : InfoRef) (g : PeerInfoPlus → PeerInfoPlus)
    (hg : ∀ x, (g x).m_pLive = x.m_pLive) : Inv (s.setInfo i g) := by
  refine h.of_same rfl rfl (fun _ => ⟨rfl, rfl⟩) rfl rfl rfl (fun q => ⟨rfl, rfl, rfl, fun h => h⟩)
    rfl (fun j => ?_) rfl
  by_cases hj : j = i
  · subst hj; simp only [Node.setInfo, Function.update_same]; exact hg _
  · simp only [Node.setInfo, Function.update, hj, dite_false]

theorem Inv.log {s : Node} (h : Inv s) (e : Event) : Inv (s.log e) :=
  h.of_same rfl rfl (fun _ => ⟨rfl, rfl⟩) rfl rfl rfl (fun _ => ⟨rfl, rfl, rfl, fun h => h⟩)
    rfl (fun _ => rfl) rfl

theorem Inv.setRelevant {s : Node} (h : Inv s) (t : TaskKey) (b : Bool) :
    Inv (s.setTask t (fun x => { x with m_bRelevant := b })) := by
  refine h.of_same rfl rfl (fun k => ?_) rfl rfl rfl (fun _ => ⟨rfl, rfl, rfl, fun h => h⟩)
    rfl (fun _ => rfl) rfl
  by_cases hk : k = t
  · subst hk; simp [Node.setTask]
  · simp [Node.setTask, Function.update, hk]

theorem Inv.clearRelevant {s : Node} (h : Inv s) : Inv (clearRelevant s) := by
  refine h.of_same rfl rfl (fun k => ?_) rfl rfl rfl (fun _ => ⟨rfl, rfl, rfl, fun h => h⟩)
    rfl (fun _ => rfl) rfl
  simp only [Beam.clearRelevant]
  split <;> exact ⟨rfl, rfl⟩

theorem Inv.setTimer {E : Env} {s : Node} (h : Inv s) (p : PeerRef) :
    Inv (SetTimerWrtFirstTask E s p) := by
  unfold SetTimerWrtFirstTask
  split <;> exact h.setPeer p _ (fun _ => ⟨rfl, rfl, rfl, fun h => h⟩)

theorem Inv.modifyRating {E : Env} {s : Node} (h : Inv s) (i : InfoRef) (d : Nat) (up : Bool) :
    Inv (ModifyRating E s i d up) := by
  unfold ModifyRating
  apply Inv.log
  apply Inv.setInfo h
  intro x; rfl

theorem Inv.onActive {s : Node} (h : Inv s) (i : InfoRef) (b : Bool) : Inv (OnActive s i b) := by
  unfold OnActive
  apply Inv.log
  apply Inv.setInfo h
  intro x; rfl

theorem Inv.ban {s : Node} (h : Inv s) (i : InfoRef) : Inv (Ban s i) := by
  unfold Ban
  apply Inv.setInfo h
  intro x; rfl

theorem Inv.rewardPeer {E : Env} {s : Node} (h : Inv s) (p : PeerRef) (d : Nat) :
    Inv (rewardPeer E s p d) := by
  unfold Beam.rewardPeer
  split
  · exact h.modifyRating _ _ _
  · exact h

theorem Inv.neutral_sat {s : Node} {r : Res} (h : Inv s) (hr : r.Sat (Neutral s)) : r.Sat Inv :=
  hr.mono (fun _ n => n.inv h)

theorem Post.sat_inv {X : TaskKey → Prop} {Y : PeerRef → Prop} {s : Node} {r : Res}
    (hr : r.Sat (Post X Y s)) : r.Sat Inv :=
  hr.mono (fun _ n => n.inv)

theorem DeleteSelf_inv {E : Env} {s : Node} (h : Inv s) (n : Nat) (p : PeerRef) (b : Bool)
    (r : Option ByeReason) : (DeleteSelf E n s p b r).Sat Inv :=
  Post.sat_inv ((sched_post E n).2.2.2 s p b r h).1

theorem RequestData_inv {E : Env} {s : Node} (h : Inv s) (n : Nat) (id : StateID) (b : Bool)
    (pref : Option PeerID) : (RequestData E n s id b pref).Sat Inv := by
  unfold RequestData
  split
  · exact h.setRelevant _ _
  · rename_i hk
    exact Post.sat_inv ((sched_post E n).1 _ ⟨id, b⟩ pref (h.newTask hk) (by simp))

theorem OnPeerInsane_inv {E : Env} {s : Node} (h : Inv s) (n : Nat) (id : PeerID) :
    (OnPeerInsane E n s id).Sat Inv := by
  unfold OnPeerInsane
  split
  · exact h
  · split
    · exact DeleteSelf_inv h _ _ _ _
    · exact h.ban _

theorem EnumCongestions_inv (E : Env) (n : Nat) :
    ∀ (walk : List ProcCall) (s : Node), Inv s → (EnumCongestions E n walk s).Sat Inv := by
  intro walk
  induction walk with
  | nil => intro s h; exact h
  | cons c cs ih =>
    intro s h
    cases c with
    | RequestData id b pref =>
      rw [EnumCongestions]
      exact (RequestData_inv h n id b pref).bind (fun _ h1 => h1) (fun s1 _ h1 => ih s1 h1)
    | OnPeerInsane id =>
      rw [EnumCongestions]
      exact (OnPeerInsane_inv h n id).bind (fun _ h1 => h1) (fun s1 _ h1 => ih s1 h1)

theorem RefreshCongestions_inv {E : Env} {s : Node} (h : Inv s) (n : Nat) (walk : List ProcCall) :
    (RefreshCongestions E n s walk).Sat Inv := by
  unfold RefreshCongestions
  split
  · exact h
  · refine (EnumCongestions_inv E n walk _ h.clearRelevant).bind (fun _ h1 => h1) ?_
    intro s1 _ h1
    exact (deleteIrrelevant_inv _ s1 h1 h1.queueNodup (fun _ ht => ht)).inv

theorem OnFirstTaskDone_inv {E : Env} {s : Node} (h : Inv s) (n : Nat) (p : PeerRef) :
    (OnFirstTaskDone E n s p).Sat Inv := by
  unfold OnFirstTaskDone
  split
  · exact h
  · rename_i t rest hl
    refine (Post.sat_inv ((sched_post E n).2.1 s p t rest h hl)).bind (fun _ h1 => h1) ?_
    intro s1 _ h1
    split
    · exact h1.setTimer p
    · exact h1

theorem OnFirstTaskDoneStatus_inv {E : Env} {s : Node} (h : Inv s) (n : Nat) (p : PeerRef)
    (st : DataStatus) (walk : List ProcCall) : (OnFirstTaskDoneStatus E n s p st walk).Sat Inv := by
  unfold OnFirstTaskDoneStatus
  split
  · exact h
  · split
    · exact h
    · refine (OnFirstTaskDone_inv (h.setRelevant _ _) n p).bind (fun _ h1 => h1) ?_
      intro s1 _ h1
      split
      · exact RefreshCongestions_inv h1 n walk
      · exact h1

theorem OnMsg_Hdr_inv {E : Env} {s : Node} (h : Inv s) (n : Nat) (p : PeerRef) (d : Full)
    (st : DataStatus) (walk : List ProcCall) : (OnMsg_Hdr E n s p d st walk).Sat Inv := by
  unfold OnMsg_Hdr
  split
  · exact h
  · split
    · exact h
    · split
      · exact h
      · exact OnFirstTaskDoneStatus_inv ((h.rewardPeer p _).log _) n p st walk

theorem OnMsg_Body_inv {E : Env} {s : Node} (h : Inv s) (n : Nat) (p : PeerRef)
    (st : DataStatus) (walk : List ProcCall) : (OnMsg_Body E n s p st walk).Sat Inv := by
  unfold OnMsg_Body
  split
  · exact h
  · split
    · exact h
    · exact OnFirstTaskDoneStatus_inv ((h.rewardPeer p _).log _) n p st walk

theorem Inv.logStates {s : Node} (h : Inv s) (src : PeerID) :
    ∀ (l : List (Full × DataStatus)), Inv (logStates src l s) := by
  intro l
  induction l generalizing s with
  | nil => exact h
  | cons a l ih =>
    obtain ⟨d, st⟩ := a
    rw [Beam.logStates]
    exact ih (h.log _)

theorem OnMsg_HdrPack_inv {E : Env} {s : Node} (h : Inv s) (n : Nat) (p : PeerRef)
    (pack : List (Full × DataStatus)) (walk : List ProcCall) :
    (OnMsg_HdrPack E n s p pack walk).Sat Inv := by
  unfold OnMsg_HdrPack
  split
  · exact h
  · split
    · exact h
    · split
      · exact h
      · split
        · exact h
        · refine (OnFirstTaskDone_inv (h.logStates _ _) n p).bind (fun _ h1 => h1) ?_
          intro s1 _ h1
          split
          · exact RefreshCongestions_inv (h1.rewardPeer p _) n walk
          · split
            · exact h1
            · exact h1

theorem OnMsg_DataMissing_inv {E : Env} {s : Node} (h : Inv s) (n : Nat) (p : PeerRef) :
    (OnMsg_DataMissing E n s p).Sat Inv := by
  unfold OnMsg_DataMissing
  split
  · exact h
  · rename_i t rest hl
    exact OnFirstTaskDone_inv (h.setPeer p (fun x =>
      { x with m_setRejected := if t ∈ x.m_setRejected then x.m_setRejected
                                else x.m_setRejected ++ [t] })
      (fun _ => ⟨rfl, rfl, rfl, fun h => h⟩)) n p

theorem le_foldr_max (l : List Nat) (x : Nat) (hx : x ∈ l) : x ≤ l.foldr max 0 := by
  induction l with
  | nil => cases hx
  | cons a l ih =>
    simp only [List.foldr_cons]
    rcases List.mem_cons.mp hx with h | h
    · subst h; exact Nat.le_max_left _ _
    · exact Nat.le_trans (ih h) (Nat.le_max_right _ _)

theorem freshPeer_not_mem (s : Node) : freshPeer s ∉ s.m_lstPeers := by
  intro h
  have := le_foldr_max s.m_lstPeers (freshPeer s) h
  unfold freshPeer at this
  omega

theorem freshInfo_not_mem (s : Node) : freshInfo s ∉ s.m_Infos := by
  intro h
  have := le_foldr_max s.m_Infos (freshInfo s) h
  unfold freshInfo at this
  omega

theorem Inv.allocPeer {s : Node} (h : Inv s) (addr : Nat) : Inv (AllocPeer s addr).1 := by
  have hf := freshPeer_not_mem s
  have hpe : ∀ q, q ≠ freshPeer s → (AllocPeer s addr).1.peerAt q = s.peerAt q := by
    intro q hq; simp [AllocPeer, Function.update, hq]
  have hpf : (AllocPeer s addr).1.peerAt (freshPeer s) =
      ⟨Full.zero, Flags.zero, 0, addr, ⟨false, false, false⟩, none, [], [], [], none⟩ := by
    simp [AllocPeer]
  have hmem : ∀ q, q ∈ (AllocPeer s addr).1.m_lstPeers ↔ q ∈ s.m_lstPeers ∨ q = freshPeer s := by
    intro q; simp [AllocPeer]
  have hne : ∀ q, q ∈ s.m_lstPeers → q ≠ freshPeer s := fun q hq e => hf (e ▸ hq)
  refine
    { setNodup := h.setNodup
      placed := fun k => ?_
      ownerNone := h.ownerNone
      ownerSome := fun q hq k hk => by
        rcases (hmem q).mp hq with hq | hq
        · rw [hpe q (hne q hq)] at hk; exact h.ownerSome q hq k hk
        · subst hq; rw [hpf] at hk; cases hk
      peersNodup := by
        show (s.m_lstPeers ++ [freshPeer s]).Nodup
        rw [List.nodup_append]
        refine ⟨h.peersNodup, List.nodup_singleton _, ?_⟩
        intro a ha hb
        have : a = freshPeer s := by simpa using hb
        exact hf (this ▸ ha)
      unlisted := fun q hq => by
        have h1 : q ∉ s.m_lstPeers := fun hin => hq ((hmem q).mpr (Or.inl hin))
        have h2 : q ≠ freshPeer s := fun e => hq ((hmem q).mpr (Or.inr e))
        rw [hpe q h2]; exact h.unlisted q h1
      packQueue := h.packQueue
      packBlock := h.packBlock
      packHdr := h.packHdr
      packHdrLe := h.packHdrLe
      packBody := h.packBody
      auth := fun q hq hfl => by
        rcases (hmem q).mp hq with hq | hq
        · rw [hpe q (hne q hq)] at hfl ⊢; exact h.auth q hq hfl
        · subst hq; rw [hpf]
      live := fun i hi q hl => by
        obtain ⟨h1, h2⟩ := h.live i hi q hl
        exact ⟨(hmem q).mpr (Or.inl h1), by rw [hpe q (hne q h1)]; exact h2⟩
      subsNodup := h.subsNodup
      subsPeer := fun c q hc => by
        obtain ⟨h1, h2⟩ := h.subsPeer c q hc
        exact ⟨(hmem q).mpr (Or.inl h1), by rw [hpe q (hne q h1)]; exact h2⟩ }
  have h1 := h.placed k
  unfold placedCount at h1 ⊢
  show List.count k s.m_lstTasksUnassigned +
    (List.map (fun q => List.count k ((AllocPeer s addr).1.peerAt q).m_lstTasks)
      (s.m_lstPeers ++ [freshPeer s])).sum = List.count k s.m_setTasks
  rw [List.map_append, List.sum_append, ← h1]
  simp only [List.map_cons, List.map_nil, List.sum_cons, List.sum_nil, hpf, List.count_nil]
  congr 1
  simp only [Nat.add_zero]
  congr 1
  apply List.map_congr_left
  intro q hq
  rw [hpe q (hne q hq)]

theorem AllocPeer_fields (s : Node) (addr : Nat) :
    (AllocPeer s addr).2 = freshPeer s ∧
      (AllocPeer s addr).1.m_lstPeers = s.m_lstPeers ++ [freshPeer s] ∧
      (AllocPeer s addr).1.infoAt = s.infoAt ∧ (AllocPeer s addr).1.m_Infos = s.m_Infos ∧
      ((AllocPeer s addr).1.peerAt (freshPeer s)).m_pInfo = none :=
  ⟨rfl, rfl, rfl, rfl, by simp [AllocPeer]⟩

/-- Attaching a session to a `PeerInfo`: `pPi->m_pLive = this; m_pInfo = pPi`. -/
theorem Inv.attach {s : Node} (h : Inv s) {p : PeerRef} {i : InfoRef} (hp : p ∈ s.m_lstPeers)
    (hnone : (s.peerAt p).m_pInfo = none) (f : Peer → Peer)
    (hf : ∀ x, (f x).m_lstTasks = x.m_lstTasks ∧ (f x).m_Subscriptions = x.m_Subscriptions ∧
      (f x).m_pInfo = some i ∧ (f x).m_Flags = x.m_Flags) :
    Inv ((s.setInfo i (fun x => { x with m_pLive := some p })).setPeer p f) := by
  have hpe : ∀ q, ((s.setInfo i (fun x => { x with m_pLive := some p })).setPeer p f).peerAt q =
      if q = p then f (s.peerAt p) else s.peerAt q := by
    intro q
    by_cases hq : q = p
    · subst hq; simp [Node.setPeer, Node.setInfo]
    · simp [Node.setPeer, Node.setInfo, Function.update, hq]
  have hie : ∀ j, (((s.setInfo i (fun x => { x with m_pLive := some p })).setPeer p f).infoAt j).m_pLive =
      if j = i then some p else (s.infoAt j).m_pLive := by
    intro j
    by_cases hj : j = i
    · subst hj; simp [Node.setPeer, Node.setInfo]
    · simp [Node.setPeer, Node.setInfo, Function.update, hj]
  have hlists : ∀ q, (((s.setInfo i (fun x => { x with m_pLive := some p })).setPeer p f).peerAt q).m_lstTasks
      = (s.peerAt q).m_lstTasks := by
    intro q; rw [hpe]; split
    · rename_i e; subst e; exact (hf _).1
    · rfl
  have hsubs : ∀ q, (((s.setInfo i (fun x => { x with m_pLive := some p })).setPeer p f).peerAt q).m_Subscriptions
      = (s.peerAt q).m_Subscriptions := by
    intro q; rw [hpe]; split
    · rename_i e; subst e; exact (hf _).2.1
    · rfl
  have hflags : ∀ q, (((s.setInfo i (fun x => { x with m_pLive := some p })).setPeer p f).peerAt q).m_Flags
      = (s.peerAt q).m_Flags := by
    intro q; rw [hpe]; split
    · rename_i e; subst e; exact (hf _).2.2.2
    · rfl
  refine
    { setNodup := h.setNodup
      placed := fun k => by
        have h1 := h.placed k
        unfold placedCount at h1 ⊢
        show List.count k s.m_lstTasksUnassigned + (List.map (fun q => List.count k
          (((s.setInfo i (fun x => { x with m_pLive := some p })).setPeer p f).peerAt q).m_lstTasks)
            s.m_lstPeers).sum = List.count k s.m_setTasks
        rw [← h1]
        congr 2
        apply List.map_congr_left
        intro q _
        rw [hlists]
      ownerNone := h.ownerNone
      ownerSome := fun q hq k hk => h.ownerSome q hq k (by rw [← hlists]; exact hk)
      peersNodup := h.peersNodup
      unlisted := fun q hq => by rw [hlists, hsubs]; exact h.unlisted q hq
      packQueue := h.packQueue
      packBlock := h.packBlock
      packHdr := h.packHdr
      packHdrLe := h.packHdrLe
      packBody := h.packBody
      auth := fun q hq hfl => by rw [hlists]; rw [hflags] at hfl; exact h.auth q hq hfl
      live := fun j hj q hl => by
        rw [hie] at hl
        split at hl
        · rename_i e
          subst e
          cases hl
          exact ⟨hp, by rw [hpe]; simp [(hf _).2.2.1]⟩
        · obtain ⟨h1, h2⟩ := h.live j hj q hl
          refine ⟨h1, ?_⟩
          have hqp : q ≠ p := by
            intro e
            subst e
            rw [hnone] at h2; cases h2
          rw [hpe, if_neg hqp]; exact h2
      subsNodup := h.subsNodup
      subsPeer := fun c q hc => by
        obtain ⟨h1, h2⟩ := h.subsPeer c q hc
        exact ⟨h1, by rw [hsubs]; exact h2⟩ }

theorem Inv.no_live_of_none {s : Node} (h : Inv s) {p : PeerRef}
    (hnone : (s.peerAt p).m_pInfo = none) : ∀ i ∈ s.m_Infos, (s.infoAt i).m_pLive ≠ some p := by
  intro i hi hl
  have := (h.live i hi p hl).2
  rw [hnone] at this; cases this

theorem ActivatePeer_inv {s : Node} (h : Inv s) (i : InfoRef) (port : Nat) :
    Inv (ActivatePeer s i port) := by
  unfold ActivatePeer
  split
  · exact h
  · have ha := h.allocPeer (s.infoAt i).m_Addr
    obtain ⟨f1, f2, f3, f4, f5⟩ := AllocPeer_fields s (s.infoAt i).m_Addr
    have hp : freshPeer s ∈ (AllocPeer s (s.infoAt i).m_Addr).1.m_lstPeers := by
      rw [f2]; simp
    have h1 := ha.attach (i := i) hp f5 (fun x => { x with m_pInfo := some i, m_Port := port })
      (fun _ => ⟨rfl, rfl, rfl, rfl⟩)
    refine h1.of_same rfl rfl (fun _ => ⟨rfl, rfl⟩) rfl rfl rfl (fun q => ?_) rfl (fun j => ?_) rfl
    · by_cases hq : q = freshPeer s
      · subst hq
        simp [Node.setPeer, Node.setInfo, AllocPeer]
      · simp [Node.setPeer, Node.setInfo, AllocPeer, Function.update, hq]
    · by_cases hj : j = i
      · subst hj; simp [Node.setPeer, Node.setInfo, AllocPeer]
      · simp [Node.setPeer, Node.setInfo, AllocPeer, Function.update, hj]

theorem Inv.clearInfo {s : Node} (h : Inv s) (p : PeerRef)
    (hl : ∀ j ∈ s.m_Infos, (s.infoAt j).m_pLive ≠ some p) :
    Inv (s.setPeer p (fun x => { x with m_pInfo := none })) := by
  have hpe : ∀ q, (s.setPeer p (fun x => { x with m_pInfo := none })).peerAt q =
      if q = p then { s.peerAt q with m_pInfo := none } else s.peerAt q := by
    intro q
    by_cases hq : q = p
    · subst hq; simp [Node.setPeer]
    · simp [Node.setPeer, Function.update, hq]
  have hlists : ∀ q, ((s.setPeer p (fun x => { x with m_pInfo := none })).peerAt q).m_lstTasks =
      (s.peerAt q).m_lstTasks := by
    intro q; rw [hpe]; split <;> rfl
  have hsubs : ∀ q, ((s.setPeer p (fun x => { x with m_pInfo := none })).peerAt q).m_Subscriptions =
      (s.peerAt q).m_Subscriptions := by
    intro q; rw [hpe]; split <;> rfl
  have hflags : ∀ q, ((s.setPeer p (fun x => { x with m_pInfo := none })).peerAt q).m_Flags =
      (s.peerAt q).m_Flags := by
    intro q; rw [hpe]; split <;> rfl
  refine
    { setNodup := h.setNodup
      placed := fun k => by
        have h1 := h.placed k
        unfold placedCount at h1 ⊢
        show List.count k s.m_lstTasksUnassigned + (List.map (fun q => List.count k
          ((s.setPeer p (fun x => { x with m_pInfo := none })).peerAt q).m_lstTasks)
            s.m_lstPeers).sum = List.count k s.m_setTasks
        rw [← h1]
        congr 2
        apply List.map_congr_left
        intro q _
        rw [hlists]
      ownerNone := h.ownerNone
      ownerSome := fun q hq k hk => h.ownerSome q hq k (by rw [← hlists]; exact hk)
      peersNodup := h.peersNodup
      unlisted := fun q hq => by rw [hlists, hsubs]; exact h.unlisted q hq
      packQueue := h.packQueue
      packBlock := h.packBlock
      packHdr := h.packHdr
      packHdrLe := h.packHdrLe
      packBody := h.packBody
      auth := fun q hq hfl => by rw [hlists]; rw [hflags] at hfl; exact h.auth q hq hfl
      live := fun j hj q hlv => by
        obtain ⟨h1, h2⟩ := h.live j hj q hlv
        refine ⟨h1, ?_⟩
        have hqp : q ≠ p := fun e => hl j hj (e ▸ hlv)
        rw [hpe, if_neg hqp]; exact h2
      subsNodup := h.subsNodup
      subsPeer := fun c q hc => by
        obtain ⟨h1, h2⟩ := h.subsPeer c q hc
        exact ⟨h1, by rw [hsubs]; exact h2⟩ }

/-- Changes inside the peer database that set no `m_pLive`. -/
theorem Inv.infos {s s' : Node} (h : Inv s)
    (hset : s'.m_setTasks = s.m_setTasks)
    (hun : s'.m_lstTasksUnassigned = s.m_lstTasksUnassigned)
    (hT : s'.taskAt = s.taskAt)
    (hph : s'.m_nTasksPackHdr = s.m_nTasksPackHdr)
    (hpb : s'.m_nTasksPackBody = s.m_nTasksPackBody)
    (hpeers : s'.m_lstPeers = s.m_lstPeers)
    (hP : s'.peerAt = s.peerAt)
    (hI : ∀ i ∈ s'.m_Infos, ∀ p, (s'.infoAt i).m_pLive = some p →
      i ∈ s.m_Infos ∧ (s.infoAt i).m_pLive = some p)
    (hsub : s'.m_Subscribed = s.m_Subscribed) : Inv s' :=
  h.congr hset hun (fun k => by rw [hT]; exact ⟨rfl, rfl⟩) hph hpb hpeers
    (fun q => by rw [hP]; exact ⟨rfl, rfl, rfl, fun h => h⟩) hI hsub

theorem OnPeer_spec {E : Env} {s : Node} (h : Inv s) (id : PeerID) (addr : Nat) (v : Bool) :
    Inv (OnPeer E s id addr v).1 ∧ (OnPeer E s id addr v).1.peerAt = s.peerAt ∧
      (OnPeer E s id addr v).1.m_lstPeers = s.m_lstPeers ∧
      (OnPeer E s id addr v).2 ∈ (OnPeer E s id addr v).1.m_Infos ∧
      (OnPeer E s id addr v).1.m_MyPublicID = s.m_MyPublicID := by
  unfold OnPeer
  simp only []
  cases hfind : Find s id with
  | some i =>
    simp only []
    have hi : i ∈ s.m_Infos := (find?_mem hfind).1
    split
    · refine ⟨?_, rfl, rfl, hi, rfl⟩
      refine h.infos rfl rfl rfl rfl rfl rfl rfl (fun j hj q hl => ⟨hj, ?_⟩) rfl
      by_cases hji : j = i
      · subst hji
        simpa [Node.setInfo] using hl
      · simp only [Node.setInfo, Function.update, hji, dite_false] at hl
        split at hl
        · exact hl
        · exact hl
    · exact ⟨h, rfl, rfl, hi, rfl⟩
  | none =>
    simp only []
    have hfresh := freshInfo_not_mem s
    refine ⟨?_, ?_, ?_, ?_, ?_⟩
    · cases v
      · refine h.infos rfl rfl rfl rfl rfl rfl rfl (fun j hj q hl => ?_) rfl
        simp only [Bool.false_eq_true, if_false] at hj hl
        rcases List.mem_append.mp hj with hj | hj
        · have hne : j ≠ freshInfo s := fun e => hfresh (e ▸ hj)
          simp only [Function.update, hne, dite_false] at hl
          exact ⟨hj, hl⟩
        · have : j = freshInfo s := by simpa using hj
          subst this
          simp at hl
      · refine h.infos rfl rfl rfl rfl rfl rfl rfl (fun j hj q hl => ?_) rfl
        simp only [if_true] at hj hl
        rcases List.mem_append.mp hj with hj | hj
        · have hne : j ≠ freshInfo s := fun e => hfresh (e ▸ hj)
          simp only [Function.update, hne, dite_false] at hl
          refine ⟨hj, ?_⟩
          split at hl
          · exact hl
          · exact hl
        · have : j = freshInfo s := by simpa using hj
          subst this
          simp at hl
    · cases v <;> rfl
    · cases v <;> rfl
    · cases v <;> simp
    · cases v <;> rfl

theorem authAttach_inv {E : Env} {s : Node} (h : Inv s) (n : Nat) {p : PeerRef} (i : InfoRef)
    (hp : p ∈ s.m_lstPeers) (hnone : (s.peerAt p).m_pInfo = none) :
    (authAttach E n s p i).Sat Inv := by
  unfold authAttach
  split
  · exact DeleteSelf_inv h _ _ _ _
  · have h1 := h.attach (i := i) hp hnone (fun x => { x with m_pInfo := some i })
      (fun _ => ⟨rfl, rfl, rfl, rfl⟩)
    exact Inv.log (h1.onActive i true) _

theorem authResolve_inv {E : Env} {s : Node} (h : Inv s) (n : Nat) {p : PeerRef} (id : PeerID)
    (hp : p ∈ s.m_lstPeers) (hnone : (s.peerAt p).m_pInfo = none) :
    (authResolve E n s p id).Sat Inv := by
  unfold authResolve
  split
  · exact DeleteSelf_inv h _ _ _ _
  · simp only []
    generalize hop : OnPeer E s id
      (if decide ((s.peerAt p).m_Port > 0) = true then
        E.withPort (s.peerAt p).m_RemoteAddr (s.peerAt p).m_Port else 0)
      (decide ((s.peerAt p).m_Port > 0)) = res
    obtain ⟨o1, o2, o3, o4, _⟩ := OnPeer_spec (E := E) h id
      (if decide ((s.peerAt p).m_Port > 0) = true then
        E.withPort (s.peerAt p).m_RemoteAddr (s.peerAt p).m_Port else 0)
      (decide ((s.peerAt p).m_Port > 0))
    rw [hop] at o1 o2 o3 o4
    obtain ⟨s1, i⟩ := res
    simp only [] at o1 o2 o3 o4 ⊢
    have hp1 : p ∈ s1.m_lstPeers := by rw [o3]; exact hp
    have hnone1 : (s1.peerAt p).m_pInfo = none := by rw [o2]; exact hnone
    split
    · rename_i old hlive
      split
      · have hd := ((sched_post E n).2.2.2 s1 old false (some .Duplicate) o1).1
        refine hd.bind (fun _ hx => hx.inv) ?_
        intro s2 _ hs2
        have hold : old ≠ p := by
          intro e
          subst e
          have := (o1.live i o4 _ hlive).2
          rw [hnone1] at this; cases this
        exact authAttach_inv hs2.inv n i (hs2.keep p (fun e => hold e.symm) hp1 hnone1)
          (by rw [(hs2.frame.peer p).2.2.1]; exact hnone1)
      · exact DeleteSelf_inv o1 _ _ _ _
    · exact authAttach_inv o1 n i hp1 hnone1

theorem authDetach_inv {s : Node} (h : Inv s) {p : PeerRef} {i : InfoRef}
    (hp : p ∈ s.m_lstPeers) (hsome : (s.peerAt p).m_pInfo = some i) :
    Inv (authDetach s p i) ∧ p ∈ (authDetach s p i).m_lstPeers ∧
      ((authDetach s p i).peerAt p).m_pInfo = none := by
  have hlive3 : ∀ j, ((s.setInfo i (fun x => { x with m_pLive := none })).infoAt j).m_pLive
      = if j = i then none else (s.infoAt j).m_pLive := by
    intro j
    by_cases hj : j = i
    · subst hj; simp [Node.setInfo]
    · simp [Node.setInfo, Function.update, hj]
  have h3 : Inv (s.setInfo i (fun x => { x with m_pLive := none })) := by
    refine h.infos rfl rfl rfl rfl rfl rfl rfl (fun j hj q hl => ⟨hj, ?_⟩) rfl
    rw [hlive3] at hl
    split at hl
    · cases hl
    · exact hl
  have hno3 : ∀ j ∈ (s.setInfo i (fun x => { x with m_pLive := none })).m_Infos,
      ((s.setInfo i (fun x => { x with m_pLive := none })).infoAt j).m_pLive ≠ some p := by
    intro j hj hl
    rw [hlive3] at hl
    split at hl
    · cases hl
    · rename_i hji
      have := (h.live j hj p hl).2
      rw [hsome] at this
      exact hji (Option.some.inj this).symm
  unfold authDetach
  simp only []
  generalize hs3 : s.setInfo i (fun x => { x with m_pLive := none }) = s3 at h3 hno3 ⊢
  have hp3 : p ∈ s3.m_lstPeers := by rw [← hs3]; exact hp
  have h4 : ∀ s4 : Node, Inv s4 → p ∈ s4.m_lstPeers →
      (∀ j ∈ s4.m_Infos, (s4.infoAt j).m_pLive ≠ some p) →
      Inv (s4.setPeer p (fun x => { x with m_pInfo := none })) ∧
        p ∈ (s4.setPeer p (fun x => { x with m_pInfo := none })).m_lstPeers ∧
        ((s4.setPeer p (fun x => { x with m_pInfo := none })).peerAt p).m_pInfo = none := by
    intro s4 i4 p4 n4
    exact ⟨i4.clearInfo p n4, p4, by simp [Node.setPeer]⟩
  split
  · refine h4 _ ?_ hp3 ?_
    · exact h3.infos rfl rfl rfl rfl rfl rfl rfl
        (fun j hj q hl => ⟨List.mem_of_mem_erase hj, hl⟩) rfl
    · intro j hj
      exact hno3 j (List.mem_of_mem_erase hj)
  · have hk := fun j => setInfo_keeps (OnActive s3 i false) i
      (fun x => { x with m_Addr := 0 }) (fun _ => ⟨rfl, rfl⟩) j
    have hk2 := fun j => OnActive_keeps s3 i false j
    refine h4 _ ?_ hp3 ?_
    · unfold RemoveAddr
      apply Inv.setInfo (h3.onActive i false)
      intro x; rfl
    · intro j hj hl
      have e1 : ((RemoveAddr (OnActive s3 i false) i).infoAt j).m_pLive =
          (s3.infoAt j).m_pLive := (hk j).2.trans (hk2 j).2
      rw [e1] at hl
      exact hno3 j hj hl

theorem authNode_inv {E : Env} {s : Node} (h : Inv s) (n : Nat) {p : PeerRef} (id : PeerID)
    (hp : p ∈ s.m_lstPeers) : (authNode E n s p id).Sat Inv := by
  unfold authNode
  split
  · exact h
  · have h2 : Inv (s.setPeer p (fun x =>
        { x with m_Flags := { x.m_Flags with PiRcvd := true } })) :=
      h.setPeer p _ (fun _ => ⟨rfl, rfl, rfl, fun _ => rfl⟩)
    simp only []
    generalize hs2 : s.setPeer p (fun x =>
        { x with m_Flags := { x.m_Flags with PiRcvd := true } }) = s2 at h2 ⊢
    have hp2 : p ∈ s2.m_lstPeers := by rw [← hs2]; exact hp
    split
    · rename_i hnone
      exact authResolve_inv h2 n id hp2 hnone
    · rename_i i hsome
      split
      · exact h2.log _
      · obtain ⟨d1, d2, d3⟩ := authDetach_inv h2 hp2 hsome
        exact authResolve_inv d1 n id d2 d3

theorem OnMsg_Authentication_inv {E : Env} {s : Node} (h : Inv s) (n : Nat) {p : PeerRef}
    (id : PeerID) (ty : IDType) (hp : p ∈ s.m_lstPeers) :
    (OnMsg_Authentication E n s p id ty).Sat Inv := by
  unfold OnMsg_Authentication
  simp only []
  have key : ∀ s1 : Node, Inv s1 → p ∈ s1.m_lstPeers →
      (if ty ≠ .Node then Res.ok s1 else authNode E n s1 p id).Sat Inv := by
    intro s1 h1 hp1
    split
    · exact h1
    · exact authNode_inv h1 n id hp1
  by_cases hc : ty = .Owner ∧ id = s.m_MyOwnerID
  · rw [if_pos hc]
    exact key _ (h.setPeer p (fun x => { x with m_Flags := { x.m_Flags with Owner := true } })
      (fun _ => ⟨rfl, rfl, rfl, fun h => h⟩)) hp
  · rw [if_neg hc]
    exact key s h hp

theorem Inv.setSyncAny {s : Node} (h : Inv s) (y : Option FirstTimeSync) :
    Inv { s with m_pSync := y } :=
  h.of_same rfl rfl (fun _ => ⟨rfl, rfl⟩) rfl rfl rfl (fun _ => ⟨rfl, rfl, rfl, fun h => h⟩)
    rfl (fun _ => rfl) rfl

theorem Inv.setSyncCursor {s : Node} (h : Inv s) (y : Option FirstTimeSync) (c : Nat) :
    Inv { s with m_pSync := y, m_CursorHeight := c } :=
  h.of_same rfl rfl (fun _ => ⟨rfl, rfl⟩) rfl rfl rfl (fun _ => ⟨rfl, rfl, rfl, fun h => h⟩)
    rfl (fun _ => rfl) rfl

theorem Inv.setCursor {s : Node} (h : Inv s) (c : Nat) : Inv { s with m_CursorHeight := c } :=
  h.of_same rfl rfl (fun _ => ⟨rfl, rfl⟩) rfl rfl rfl (fun _ => ⟨rfl, rfl, rfl, fun h => h⟩)
    rfl (fun _ => rfl) rfl

theorem Send_inv {E : Env} {s : Node} (h : Inv s) (p : PeerRef) (m : Msg) :
    (Send E s p m).Sat Inv :=
  h.neutral_sat Neutral.of_Send

theorem SyncCyclePeer_inv {E : Env} {s : Node} (h : Inv s) (p : PeerRef) :
    (SyncCyclePeer E s p).1.Sat Inv :=
  h.neutral_sat (SyncCyclePeer_neutral E s p).1

theorem SyncCycle_inv {E : Env} {s : Node} (h : Inv s) : (SyncCycle E s).Sat Inv :=
  h.neutral_sat (SyncCycle_neutral E s).1

theorem newTipTail_inv {E : Env} {s : Node} (h : Inv s) {p : PeerRef} (hp : p ∈ s.m_lstPeers)
    (b : Bool) : (newTipTail E s p b).Sat Inv := by
  unfold newTipTail
  cases b with
  | false => exact (TakeTasks_inv h hp).mono (fun _ hx => hx.1.inv)
  | true =>
    simp only [Bool.not_true, Bool.false_eq_true, if_false]
    cases hpw : (s.peerAt p).m_Flags.ProvenWorkReq with
    | false =>
      simp only [Bool.not_false, if_true]
      have hs : (Send E (s.setPeer p (fun x =>
          { x with m_Flags := { x.m_Flags with ProvenWorkReq := true } })) p
            .GetProofChainWork).Sat Inv := by
        apply Send_inv
        apply Inv.setPeer h
        intro x; exact ⟨rfl, rfl, rfl, fun h => h⟩
      refine hs.bind (fun _ hx => hx) ?_
      intro s1 _ h1
      split
      · exact h1
      · split
        · apply Send_inv
          apply Inv.setPeer h1
          intro x; exact ⟨rfl, rfl, rfl, fun h => h⟩
        · exact SyncCyclePeer_inv h1 p
    | true =>
      simp only [Bool.not_true, Bool.false_eq_true, if_false, Res.bind]
      split
      · exact h
      · split
        · exact h
        · exact SyncCyclePeer_inv h p

theorem OnMsg_NewTip_inv {E : Env} {s : Node} (h : Inv s) (n : Nat) {p : PeerRef}
    (hp : p ∈ s.m_lstPeers) (d : Full) (bNeeded : Bool) (st : DataStatus)
    (walk : List ProcCall) : (OnMsg_NewTip E n s p d bNeeded st walk).Sat Inv := by
  unfold OnMsg_NewTip
  split
  · exact h
  · have h1 : Inv (s.setPeer p (fun x => { x with m_Tip := d, m_setRejected := [] })) := by
      apply Inv.setPeer h
      intro x; exact ⟨rfl, rfl, rfl, fun h => h⟩
    have hp1 : p ∈ (s.setPeer p (fun x => { x with m_Tip := d, m_setRejected := [] })).m_lstPeers :=
      hp
    simp only []
    generalize s.setPeer p (fun x => { x with m_Tip := d, m_setRejected := [] }) = s1 at h1 hp1 ⊢
    split
    · exact h1
    · rename_i i _
      split
      · cases st with
        | Invalid => exact h1.log _
        | Accepted =>
          simp only []
          have h3 : Inv (ModifyRating E (s1.log (.onState d (s1.infoAt i).m_ID)) i
              E.RewardHeader true) := (h1.log _).modifyRating _ _ _
          split
          · exact newTipTail_inv h3 hp1 _
          · exact RefreshCongestions_inv h3 n walk
        | Rejected => exact newTipTail_inv (h1.log _) hp1 _
        | Unreachable => exact newTipTail_inv (h1.log _) hp1 _
      · exact newTipTail_inv h1 hp1 _

theorem sendAll_neutral (E : Env) (p : PeerRef) :
    ∀ (ms : List Msg) (s : Node), (sendAll E p ms s).Sat (Neutral s) := by
  intro ms
  induction ms with
  | nil => intro s; exact Neutral.neutral_refl s
  | cons m ms ih =>
    intro s
    rw [sendAll]
    cases hs : Send E s p m with
    | ok s1 =>
      obtain ⟨_, rfl⟩ := Send_ok hs
      exact (ih _).mono (fun _ hx => (Neutral.log_sent s p m).neutral_trans hx)
    | exc e s1 =>
      obtain ⟨rfl, _⟩ := Send_exc hs
      exact Neutral.neutral_refl _
    | out => trivial

theorem UnsubscribeOne_inv {s : Node} (h : Inv s) (p : PeerRef) (c : Channel) :
    Inv (UnsubscribeOne s p c) := by
  have hpe : ∀ q, ((UnsubscribeOne s p c).peerAt q) =
      if q = p then { s.peerAt q with m_Subscriptions := (s.peerAt q).m_Subscriptions.erase c }
      else s.peerAt q := by
    intro q
    by_cases hq : q = p
    · subst hq; simp [UnsubscribeOne, Node.setPeer]
    · simp [UnsubscribeOne, Node.setPeer, Function.update, hq]
  have hlists : ∀ q, ((UnsubscribeOne s p c).peerAt q).m_lstTasks = (s.peerAt q).m_lstTasks := by
    intro q; rw [hpe]; split <;> rfl
  have hinfo : ∀ q, ((UnsubscribeOne s p c).peerAt q).m_pInfo = (s.peerAt q).m_pInfo := by
    intro q; rw [hpe]; split <;> rfl
  have hflags : ∀ q, ((UnsubscribeOne s p c).peerAt q).m_Flags = (s.peerAt q).m_Flags := by
    intro q; rw [hpe]; split <;> rfl
  refine
    { setNodup := h.setNodup
      placed := fun k => by
        have := h.placed k
        unfold placedCount at this ⊢
        show List.count k s.m_lstTasksUnassigned +
          (List.map (fun q => List.count k ((UnsubscribeOne s p c).peerAt q).m_lstTasks)
            s.m_lstPeers).sum = List.count k s.m_setTasks
        rw [← this]
        congr 2
        apply List.map_congr_left
        intro q _
        rw [hlists]
      ownerNone := h.ownerNone
      ownerSome := fun q hq k hk => h.ownerSome q hq k (by rw [← hlists]; exact hk)
      peersNodup := h.peersNodup
      unlisted := fun q hq => by
        rw [hlists, hpe]
        split
        · have := h.unlisted q hq
          simp [this.1, this.2]
        · exact h.unlisted q hq
      packQueue := h.packQueue
      packBlock := h.packBlock
      packHdr := h.packHdr
      packHdrLe := h.packHdrLe
      packBody := h.packBody
      auth := fun q hq hf => by
        rw [hlists]; rw [hflags] at hf; exact h.auth q hq hf
      live := fun i hi q hl => by
        obtain ⟨h1, h2⟩ := h.live i hi q hl
        exact ⟨h1, by rw [hinfo]; exact h2⟩
      subsNodup := h.subsNodup.erase _
      subsPeer := fun c' q hc => by
        have hmem : (⟨c', q⟩ : Subscription) ∈ s.m_Subscribed.erase ⟨c, p⟩ := hc
        rw [h.subsNodup.mem_erase_iff] at hmem
        obtain ⟨h1, h2⟩ := h.subsPeer c' q hmem.2
        refine ⟨h1, ?_⟩
        rw [hpe]
        split
        · rename_i hqp
          subst hqp
          have hne : c' ≠ c := fun e => hmem.1 (by rw [e])
          exact (List.mem_erase_of_ne hne).mpr h2
        · exact h2 }

theorem SubscribeOne_inv {s : Node} (h : Inv s) {p : PeerRef} (hp : p ∈ s.m_lstPeers)
    {c : Channel} (hc : c ∉ (s.peerAt p).m_Subscriptions) : Inv (SubscribeOne s p c) := by
  have hnew : (⟨c, p⟩ : Subscription) ∉ s.m_Subscribed :=
    fun hin => hc (h.subsPeer c p hin).2
  have hne : ∀ q, q ≠ p → (SubscribeOne s p c).peerAt q = s.peerAt q := by
    intro q hq
    simp [SubscribeOne, Node.setPeer, Function.update, hq]
  have hlists : ∀ q, ((SubscribeOne s p c).peerAt q).m_lstTasks = (s.peerAt q).m_lstTasks := by
    intro q
    by_cases hq : q = p
    · subst hq; simp [SubscribeOne, Node.setPeer]
    · rw [hne q hq]
  have hinfo : ∀ q, ((SubscribeOne s p c).peerAt q).m_pInfo = (s.peerAt q).m_pInfo := by
    intro q
    by_cases hq : q = p
    · subst hq; simp [SubscribeOne, Node.setPeer]
    · rw [hne q hq]
  have hflags : ∀ q, ((SubscribeOne s p c).peerAt q).m_Flags = (s.peerAt q).m_Flags := by
    intro q
    by_cases hq : q = p
    · subst hq; simp [SubscribeOne, Node.setPeer]
    · rw [hne q hq]
  have hsubs : ∀ q x, x ∈ (s.peerAt q).m_Subscriptions →
      x ∈ ((SubscribeOne s p c).peerAt q).m_Subscriptions := by
    intro q x hx
    by_cases hq : q = p
    · subst hq; simp [SubscribeOne, Node.setPeer, List.mem_orderedInsert, hx]
    · rw [hne q hq]; exact hx
  have hsubp : c ∈ ((SubscribeOne s p c).peerAt p).m_Subscriptions := by
    simp [SubscribeOne, Node.setPeer, List.mem_orderedInsert]
  generalize hs' : SubscribeOne s p c = s' at hne hlists hinfo hflags hsubs hsubp ⊢
  have e1 : s'.m_setTasks = s.m_setTasks := by rw [← hs']; rfl
  have e2 : s'.m_lstTasksUnassigned = s.m_lstTasksUnassigned := by rw [← hs']; rfl
  have e3 : s'.taskAt = s.taskAt := by rw [← hs']; rfl
  have e4 : s'.m_lstPeers = s.m_lstPeers := by rw [← hs']; rfl
  have e5 : s'.infoAt = s.infoAt := by rw [← hs']; rfl
  have e6 : s'.m_Infos = s.m_Infos := by rw [← hs']; rfl
  have e7 : s'.m_Subscribed = s.m_Subscribed ++ [Subscription.mk c p] := by rw [← hs']; rfl
  have e8 : s'.m_nTasksPackHdr = s.m_nTasksPackHdr := by rw [← hs']; rfl
  have e9 : s'.m_nTasksPackBody = s.m_nTasksPackBody := by rw [← hs']; rfl
  refine
    { setNodup := e1 ▸ h.setNodup
      placed := fun k => by
        have := h.placed k
        unfold placedCount at this ⊢
        rw [e1, e2, e4, ← this]
        congr 2
        apply List.map_congr_left
        intro q _
        rw [hlists]
      ownerNone := fun k hk => by rw [e3]; exact h.ownerNone k (e2 ▸ hk)
      ownerSome := fun q hq k hk => by
        rw [e3]; exact h.ownerSome q (e4 ▸ hq) k (by rw [← hlists]; exact hk)
      peersNodup := e4 ▸ h.peersNodup
      unlisted := fun q hq => by
        rw [e4] at hq
        have hqp : q ≠ p := fun e => hq (e ▸ hp)
        rw [hne q hqp]; exact h.unlisted q hq
      packQueue := fun k hk => by rw [e3]; exact h.packQueue k (e2 ▸ hk)
      packBlock := fun k hk => by rw [e3]; exact h.packBlock k (e1 ▸ hk)
      packHdr := by rw [e8, e1, e3]; exact h.packHdr
      packHdrLe := e8 ▸ h.packHdrLe
      packBody := e9 ▸ h.packBody
      auth := fun q hq hf => by
        rw [hlists]; rw [hflags] at hf; exact h.auth q (e4 ▸ hq) hf
      live := fun i hi q hl => by
        rw [e5] at hl
        obtain ⟨h1, h2⟩ := h.live i (e6 ▸ hi) q hl
        exact ⟨e4 ▸ h1, by rw [hinfo]; exact h2⟩
      subsNodup := by
        rw [e7, List.nodup_append]
        refine ⟨h.subsNodup, List.nodup_singleton _, ?_⟩
        intro a ha hb
        have : a = ⟨c, p⟩ := by simpa using hb
        exact hnew (this ▸ ha)
      subsPeer := fun c' q hc' => by
        rw [e7] at hc'
        rw [e4]
        rcases List.mem_append.mp hc' with hc' | hc'
        · obtain ⟨h1, h2⟩ := h.subsPeer c' q hc'
          exact ⟨h1, hsubs q c' h2⟩
        · have : (⟨c', q⟩ : Subscription) = ⟨c, p⟩ := by simpa using hc'
          cases this
          exact ⟨hp, hsubp⟩ }

theorem OnMsg_BbsSubscribe_inv {E : Env} {s : Node} (h : Inv s) {p : PeerRef}
    (hp : p ∈ s.m_lstPeers) (c : Channel) (bOn : Bool) (stored : List (Nat × Nat)) :
    (OnMsg_BbsSubscribe E s p c bOn stored).Sat Inv := by
  unfold OnMsg_BbsSubscribe
  split
  · exact h
  · rename_i hcond
    split
    · rename_i hon
      subst hon
      have hc : c ∉ (s.peerAt p).m_Subscriptions := by
        by_contra hin
        exact hcond (by simp [hin])
      exact Inv.neutral_sat (SubscribeOne_inv h hp hc) (sendAll_neutral E p _ _)
    · exact UnsubscribeOne_inv h p c

theorem OnSyncTimer_inv {E : Env} {s : Node} (h : Inv s) (n : Nat) (walk : List ProcCall) :
    (OnSyncTimer E n s walk).Sat Inv := by
  unfold OnSyncTimer
  split
  · exact h
  · split
    · exact SyncCycle_inv (h.setSyncAny _)
    · exact RefreshCongestions_inv (h.setSyncAny _) n walk

theorem SyncCyclePortion_inv {E : Env} {s : Node} (h : Inv s) (n : Nat) (p : PeerRef)
    (b1 b2 : Bool) (c : Nat) (walk : List ProcCall) :
    (SyncCyclePortion E n s p b1 b2 c walk).Sat Inv := by
  unfold SyncCyclePortion
  split
  · exact h
  · split
    · split
      · split
        · exact RefreshCongestions_inv (h.setSyncCursor _ _) n walk
        · exact h.setSyncAny _
      · exact SyncCyclePeer_inv (h.setSyncAny _) p
    · exact SyncCyclePeer_inv h p

theorem Inv.inv_setFlags {s : Node} (h : Inv s) (p : PeerRef) (g : Flags → Flags)
    (hg : ∀ f, f.PiRcvd = true → (g f).PiRcvd = true) :
    Inv (s.setPeer p (fun x => { x with m_Flags := g x.m_Flags })) :=
  h.setPeer p _ (fun x => ⟨rfl, rfl, rfl, hg x.m_Flags⟩)

theorem OnMsg_Macroblock_inv {E : Env} {s : Node} (h : Inv s) (n : Nat) (p : PeerRef)
    (id : StateID) (b1 b2 : Bool) (c : Nat) (walk : List ProcCall) :
    (OnMsg_Macroblock E n s p id b1 b2 c walk).Sat Inv := by
  unfold OnMsg_Macroblock
  split
  · exact h
  · rename_i y hy
    split
    · exact h
    · split
      · have h1 : Inv (s.setPeer p
            (fun x => { x with m_Flags := { x.m_Flags with SyncPending := false } })) :=
          h.setPeer p _ (fun x => ⟨rfl, rfl, rfl, fun hx => hx⟩)
        simp only []
        split
        · exact SyncCyclePortion_inv (h1.setSyncAny _) n p b1 b2 c walk
        · exact SyncCycle_inv
            ((h1.setSyncAny _).setPeer p _ (fun x => ⟨rfl, rfl, rfl, fun hx => hx⟩))
      · have h1 : Inv (s.setPeer p
            (fun x => { x with m_Flags := { x.m_Flags with DontSync := false } })) :=
          h.setPeer p _ (fun x => ⟨rfl, rfl, rfl, fun hx => hx⟩)
        have key : ∀ (c : Prop) [Decidable c] (y2 : FirstTimeSync), (if c then
            OnSyncTimer E n { (s.setPeer p
              (fun x => { x with m_Flags := { x.m_Flags with DontSync := false } })) with
                m_pSync := some y2 } walk
            else .ok { (s.setPeer p
              (fun x => { x with m_Flags := { x.m_Flags with DontSync := false } })) with
                m_pSync := some y2 }).Sat Inv := by
          intro c _ y2
          split
          · exact OnSyncTimer_inv (h1.setSyncAny _) n walk
          · exact h1.setSyncAny _
        simp only []
        by_cases hd : (!y.m_bDetecting) = true
        · rw [if_pos hd]; exact h1
        · rw [if_neg hd]; exact key _ _

theorem OnMsg_ProofChainWork_inv {E : Env} {s : Node} (h : Inv s) (p : PeerRef)
    (b : Bool) (cw : Nat) : (OnMsg_ProofChainWork E s p b cw).Sat Inv := by
  unfold OnMsg_ProofChainWork
  split
  · exact h
  · split
    · exact h
    · have h1 : Inv (s.setPeer p
          (fun x => { x with m_Flags := { x.m_Flags with ProvenWork := true } })) :=
        h.setPeer p _ (fun x => ⟨rfl, rfl, rfl, fun hx => hx⟩)
      simp only []
      split
      · exact SyncCycle_inv h1
      · exact h1

theorem OnTimer_inv {E : Env} {s : Node} (h : Inv s) (n : Nat) (p : PeerRef) :
    (OnTimer E n s p).Sat Inv := by
  unfold OnTimer
  split
  · simp only []
    split
    · exact DeleteSelf_inv (h.modifyRating _ _ _) n p _ _
    · exact DeleteSelf_inv h n p _ _
  · exact DeleteSelf_inv h n p _ _

theorem OnDisconnect_inv {E : Env} {s : Node} (h : Inv s) (n : Nat) (p : PeerRef)
    (dr : DisconnectType) : (OnDisconnect E n s p dr).Sat Inv := by
  unfold OnDisconnect
  cases dr <;> exact DeleteSelf_inv h n p _ _

theorem DeactivatePeer_inv {E : Env} {s : Node} (h : Inv s) (n : Nat) (i : InfoRef) :
    (DeactivatePeer E n s i).Sat Inv := by
  unfold DeactivatePeer
  split
  · exact h
  · exact DeleteSelf_inv h n _ _ _

theorem OnConnectedSecure_inv {s : Node} (h : Inv s) (p : PeerRef) :
    Inv (OnConnectedSecure s p) :=
  h.setPeer p _ (fun x => ⟨rfl, rfl, rfl, fun hx => hx⟩)

theorem exec_inv {E : Env} {s : Node} (h : Inv s) (n : Nat) (op : Op)
    (hp : ∀ p, op.peer? = some p → p ∈ s.m_lstPeers) : (exec E n s op).Sat Inv := by
  cases op with
  | accept addr => exact h.allocPeer addr
  | activatePeer i port => exact ActivatePeer_inv h i port
  | deactivatePeer i => exact DeactivatePeer_inv h n i
  | connectedSecure p => exact OnConnectedSecure_inv h p
  | authentication p id ty => exact OnMsg_Authentication_inv h n id ty (hp p rfl)
  | newTip p d b st walk => exact OnMsg_NewTip_inv h n (hp p rfl) d b st walk
  | hdr p d st walk => exact OnMsg_Hdr_inv h n p d st walk
  | hdrPack p pack walk => exact OnMsg_HdrPack_inv h n p pack walk
  | body p st walk => exact OnMsg_Body_inv h n p st walk
  | dataMissing p => exact OnMsg_DataMissing_inv h n p
  | bbsSubscribe p c b stored => exact OnMsg_BbsSubscribe_inv h (hp p rfl) c b stored
  | takeTasks p => exact (TakeTasks_inv h (hp p rfl)).mono (fun _ hx => hx.1.inv)
  | disconnect p dr => exact OnDisconnect_inv h n p dr
  | timer p => exact OnTimer_inv h n p
  | deleteSelf p b r => exact DeleteSelf_inv h n p b r
  | requestData id b pref => exact RequestData_inv h n id b pref
  | peerInsane id => exact OnPeerInsane_inv h n id
  | refreshCongestions walk => exact RefreshCongestions_inv h n walk
  | newCursor c => exact h.setCursor c
  | macroblock p id b1 b2 c walk => exact OnMsg_Macroblock_inv h n p id b1 b2 c walk
  | proofChainWork p b cw => exact OnMsg_ProofChainWork_inv h p b cw
  | syncTimer walk => exact OnSyncTimer_inv h n walk

theorem init_inv (a b : PeerID) (y : Option FirstTimeSync) : Inv (Node.init a b y) where
  setNodup := List.nodup_nil
  placed := fun _ => rfl
  ownerNone := fun _ hk => by cases hk
  ownerSome := fun _ hp => by cases hp
  peersNodup := List.nodup_nil
  unlisted := fun _ _ => ⟨rfl, rfl⟩
  packQueue := fun _ hk => by cases hk
  packBlock := fun _ hk => by cases hk
  packHdr := rfl
  packHdrLe := Nat.zero_le _
  packBody := rfl
  auth := fun _ hp => by cases hp
  live := fun _ hi => by cases hi
  subsNodup := List.nodup_nil
  subsPeer := fun _ _ hc => by cases hc

theorem Res.Sat.of_node {P : Node → Prop} {r : Res} (h : r.Sat P) {s' : Node}
    (hs : r.node? = some s') : P s' := by
  cases r with
  | ok s => cases hs; exact h
  | exc e s => cases hs; exact h
  | out => cases hs

theorem reachable_inv {E : Env} {s : Node} (h : Reachable E s) : Inv s := by
  induction h with
  | init a b y => exact init_inv a b y
  | step fuel op _ hp hs ih => exact (exec_inv ih fuel op hp).of_node hs

theorem SameTasks.same_refl (s : Node) : SameTasks s s :=
  ⟨fun _ => rfl, rfl, rfl, rfl⟩

theorem SameTasks.same_trans {a b c : Node} (h1 : SameTasks a b) (h2 : SameTasks b c) :
    SameTasks a c :=
  ⟨fun q => (h2.lists q).trans (h1.lists q), h2.set.trans h1.set, h2.un.trans h1.un,
    h2.taskAt.trans h1.taskAt⟩

theorem Neutral.same {s s' : Node} (n : Neutral s s') : SameTasks s s' :=
  ⟨fun q => by obtain ⟨f, e, _⟩ := n.peer q; rw [e], n.set, n.un, n.taskAt⟩

theorem Res.Sat.and {P Q : Node → Prop} {r : Res} (h1 : r.Sat P) (h2 : r.Sat Q) :
    r.Sat (fun s => P s ∧ Q s) := by
  cases r with
  | ok s => exact ⟨h1, h2⟩
  | exc e s => exact ⟨h1, h2⟩
  | out => trivial

theorem SameTasks.same_setPeer (s : Node) (p : PeerRef) (f : Peer → Peer)
    (hf : ∀ x, (f x).m_lstTasks = x.m_lstTasks) : SameTasks s (s.setPeer p f) :=
  ⟨fun q => by
    by_cases hq : q = p
    · subst hq; simp [Node.setPeer, hf]
    · simp [Node.setPeer, Function.update, hq], rfl, rfl, rfl⟩

theorem startDelete_same (E : Env) (s : Node) (p : PeerRef) (r : Option ByeReason) :
    (startDelete E s p r).Sat (SameTasks s) := by
  unfold startDelete
  have key : ∀ r0 : Res, r0.Sat (Neutral s) →
      (r0.bind fun s1 => .ok (s1.setPeer p (fun x => { x with m_Tip := Full.zero }))).Sat
        (SameTasks s) := by
    intro r0 h0
    refine Res.Sat.bind h0 (fun _ h => h.same) (fun s1 _ h => ?_)
    exact h.same.same_trans (SameTasks.same_setPeer s1 p _ (fun _ => rfl))
  apply key
  split
  · split
    · exact Neutral.of_Send
    · exact Neutral.neutral_refl s
  · exact Neutral.neutral_refl s

theorem UnsubscribeOne_same (s : Node) (p : PeerRef) (c : Channel) :
    SameTasks s (UnsubscribeOne s p c) :=
  ⟨fun q => by
    by_cases hq : q = p
    · subst hq; simp [UnsubscribeOne, Node.setPeer]
    · simp [UnsubscribeOne, Node.setPeer, Function.update, hq], rfl, rfl, rfl⟩

theorem unsubscribeLoop_same (p : PeerRef) :
    ∀ (L : List Channel) (s : Node), SameTasks s (unsubscribeLoop p L s) := by
  intro L
  induction L with
  | nil => intro s; exact SameTasks.same_refl s
  | cons c L ih =>
    intro s
    rw [unsubscribeLoop]
    exact (UnsubscribeOne_same s p c).same_trans (ih _)

theorem detachInfo_same (E : Env) (s : Node) (p : PeerRef) (b : Bool) (r : Option ByeReason) :
    SameTasks s (detachInfo E s p b r) := by
  obtain ⟨F, T, e, _⟩ := detachInfo_shape E s p b r
  rw [e]
  exact ⟨fun _ => rfl, rfl, rfl, rfl⟩

theorem finishDelete_same (E : Env) (s : Node) (p : PeerRef) (b : Bool) (r : Option ByeReason) :
    (finishDelete E s p b r).Sat (SameTasks s) := by
  unfold finishDelete
  have h0 : SameTasks s (detachInfo E (Unsubscribe s p) p b r) :=
    (unsubscribeLoop_same p _ s).same_trans (detachInfo_same E _ p b r)
  refine Res.Sat.bind ((releaseSyncSlot_neutral E _ p).1.mono (fun _ n => h0.same_trans n.same))
    (fun _ h => h) (fun s1 _ h => ?_)
  exact h.same_trans ⟨fun _ => rfl, rfl, rfl, rfl⟩

theorem selectPeer_none {E : Env} {s : Node} {t : TaskKey} :
    selectPeer E s t none = s.m_lstPeers.find? (fun q => ShouldAssignTask E s t q) := rfl

/-- A relation between the state before and after that every step of the
release and re-assignment code (without a preferred peer) respects is respected
by the four functions. -/
theorem sched_rel (E : Env) (G : Node → Prop) (Z : Node → PeerRef → Prop)
    (R : Node → Node → Prop)
    (hrefl : ∀ s, R s s) (htrans : ∀ a b c, R a b → R b c → R a c)
    (hGI : ∀ s, G s → Inv s)
    (hG : ∀ s s', G s → Inv s' → Frame s s' → G s')
    (hZ : ∀ s s' p, Z s p → Frame s s' → Z s' p)
    (hZ0 : ∀ s p, (s.peerAt p).m_Tip = Full.zero → Z s p)
    (hassign : ∀ s s1 t p, G s → t ∈ s.m_lstTasksUnassigned →
      s.m_lstPeers.find? (fun q => ShouldAssignTask E s t q) = some p →
      AssignEff E s s1 t p → R s s1)
    (hrelq : ∀ s p t rest, G s → Z s p → (s.peerAt p).m_lstTasks = t :: rest →
      R s (releaseToQueue s p t))
    (hdel : ∀ s t, G s → t ∈ s.m_lstTasksUnassigned → (s.taskAt t).m_bRelevant = false →
      R s (DeleteUnassignedTask s t))
    (hquiet : ∀ s s', G s → Inv s' → Frame s s' → SameTasks s s' → R s s') :
    ∀ n : Nat,
      (∀ s t, G s → t ∈ s.m_lstTasksUnassigned → (TryAssignTask E n s t none).Sat (R s)) ∧
      (∀ s p t rest, G s → Z s p → (s.peerAt p).m_lstTasks = t :: rest →
        (ReleaseTask E n s p t).Sat (R s)) ∧
      (∀ s p, G s → Z s p → (ReleaseTasks E n s p).Sat (R s)) ∧
      (∀ s p b r, G s → (DeleteSelf E n s p b r).Sat (R s)) := by
  intro n
  induction n with
  | zero =>
    refine ⟨?_, ?_, ?_, ?_⟩
    · intro s t _ _; simp [TryAssignTask, Res.Sat]
    · intro s p t rest _ _ _; simp [ReleaseTask, Res.Sat]
    · intro s p _ _; simp [ReleaseTasks, Res.Sat]
    · intro s p b r _; simp [DeleteSelf, Res.Sat]
  | succ n ih =>
    obtain ⟨ihT, ihR, ihRs, ihD⟩ := ih
    refine ⟨?_, ?_, ?_, ?_⟩
    · intro s t hg ht
      rw [TryAssignTask]
      cases hsel : selectPeer E s t none with
      | none => exact hrefl s
      | some p =>
        simp only []
        have hfind : s.m_lstPeers.find? (fun q => ShouldAssignTask E s t q) = some p := hsel
        cases ha : AssignTask E s t p with
        | ok s1 => exact hassign s s1 t p hg ht hfind (AssignTask_ok ha)
        | out => exact absurd ha AssignTask_ne_out
        | exc e s1 =>
          simp only []
          have := AssignTask_exc ha
          subst this
          have hd := ((sched_post E n).2.2.2 s1 p true (some .Ban) (hGI _ hg)).1.and
            (ihD s1 p true (some .Ban) hg)
          refine Res.Sat.bind hd (fun _ h => h.2) (fun s2 _ h2 => ?_)
          have hg2 := hG _ _ hg h2.1.inv h2.1.frame
          exact (ihT s2 t hg2 (h2.1.queue t (fun hf => hf) ht)).mono
            (fun s3 h3 => htrans _ _ _ h2.2 h3)
    · intro s p t rest hg hz hl
      rw [ReleaseTask]
      have h1 := Post.post_release (hGI _ hg) hl
      have hg1 := hG _ _ hg h1.inv h1.frame
      have hr1 := hrelq s p t rest hg hz hl
      have ht1 : t ∈ (releaseToQueue s p t).m_lstTasksUnassigned := by
        rw [(releaseToQueue_eff s p t).un]; simp
      split
      · exact (ihT _ t hg1 ht1).mono (fun s2 h2 => htrans _ _ _ hr1 h2)
      · rename_i hrel
        exact htrans _ _ _ hr1 (hdel _ t hg1 ht1 (by simpa using hrel))
    · intro s p hg hz
      rw [ReleaseTasks]
      cases hl : (s.peerAt p).m_lstTasks with
      | nil => exact hrefl s
      | cons t rest =>
        simp only []
        have hd := ((sched_post E n).2.1 s p t rest (hGI _ hg) hl).and (ihR s p t rest hg hz hl)
        refine Res.Sat.bind hd (fun _ h => h.2) (fun s1 _ h1 => ?_)
        have hg1 := hG _ _ hg h1.1.inv h1.1.frame
        exact (ihRs s1 p hg1 (hZ _ _ _ hz h1.1.frame)).mono (fun s2 h2 => htrans _ _ _ h1.2 h2)
    · intro s p b r hg
      rw [DeleteSelf]
      have hd := (startDelete_post (E := E) (hGI _ hg) p r).1.and (startDelete_same E s p r)
      have hq : ∀ s1, Post (fun _ => False) (fun _ => False) s s1 ∧ SameTasks s s1 → R s s1 :=
        fun s1 h1 => hquiet _ _ hg h1.1.inv h1.1.frame h1.2
      refine Res.Sat.bind hd hq (fun s1 hs1 h1 => ?_)
      have hg1 := hG _ _ hg h1.1.inv h1.1.frame
      have hz1 : Z s1 p := hZ0 _ _ (startDelete_tip hs1).1
      have hp2 := (sched_post E n).2.2.1 s1 p (hGI _ hg1)
      have hd2 := hp2.1.and (ihRs s1 p hg1 hz1)
      refine Res.Sat.bind hd2 (fun s2 h2 => htrans _ _ _ (hq _ h1) h2.2) (fun s2 hs2 h2 => ?_)
      have hg2 := hG _ _ hg1 h2.1.inv h2.1.frame
      have hd3 := (finishDelete_post (E := E) (hGI _ hg2) p b r (hp2.2 s2 hs2)).1.and
        (finishDelete_same E s2 p b r)
      refine hd3.mono (fun s3 h3 => ?_)
      exact htrans _ _ _ (htrans _ _ _ (hq _ h1) h2.2) (hquiet _ _ hg2 h3.1.inv h3.1.frame h3.2)

theorem ShouldAssignTask_congr {E : Env} {s s' : Node} {q : PeerRef}
    (h : s'.peerAt q = s.peerAt q) (k : TaskKey) :
    ShouldAssignTask E s' k q = ShouldAssignTask E s k q := by
  unfold ShouldAssignTask
  rw [h]

theorem ShouldAssignTask_tip {E : Env} {s : Node} {k : TaskKey} {q : PeerRef}
    (h : ShouldAssignTask E s k q = true) : k.first.m_Height ≤ (s.peerAt q).m_Tip.m_Height := by
  rcases ((ShouldAssignTask_iff E s k q).mp h).1 with h1 | h1
  · exact Nat.le_of_lt h1
  · exact Nat.le_of_eq h1.1.symm

theorem ShouldAssignTask_zero {E : Env} {s : Node} {k : TaskKey} {q : PeerRef}
    (hk : 1 ≤ k.first.m_Height) (hz : (s.peerAt q).m_Tip.m_Height = 0) :
    ShouldAssignTask E s k q = false := by
  cases h : ShouldAssignTask E s k q with
  | false => rfl
  | true =>
    have := ShouldAssignTask_tip h
    omega

theorem eq_false_of_imp {a b : Bool} (h : b = true → a = true) (ha : a = false) : b = false := by
  cases b with
  | false => rfl
  | true => rw [h rfl] at ha; cases ha

/-! ### The rejected keys stay out -/

theorem sched_keepRel (E : Env) (n : Nat) :
    (∀ s t, Inv s → t ∈ s.m_lstTasksUnassigned → (TryAssignTask E n s t none).Sat (KeepRel s)) ∧
    (∀ s p t rest, Inv s → True → (s.peerAt p).m_lstTasks = t :: rest →
      (ReleaseTask E n s p t).Sat (KeepRel s)) ∧
    (∀ s p, Inv s → True → (ReleaseTasks E n s p).Sat (KeepRel s)) ∧
    (∀ s p b r, Inv s → (DeleteSelf E n s p b r).Sat (KeepRel s)) := by
  refine sched_rel E Inv (fun _ _ => True) KeepRel ?_ ?_ (fun _ h => h) (fun _ _ _ h _ => h)
    (fun _ _ _ _ _ => trivial) (fun _ _ _ => trivial) ?_ ?_ ?_ ?_ n
  · intro s k; exact ⟨rfl, fun _ h => h⟩
  · intro a b c h1 h2 k
    obtain ⟨e1, f1⟩ := h1 k
    obtain ⟨e2, f2⟩ := h2 k
    exact ⟨e2.trans e1, fun hr hk => f2 (e1.trans hr) (f1 hr hk)⟩
  · intro s s1 t p _ _ _ e k
    refine ⟨?_, fun _ hk => by rw [e.set]; exact hk⟩
    by_cases hk : k = t
    · subst hk; exact e.rel
    · rw [e.tasks k hk]
  · intro s p t rest _ _ _ k
    have e := releaseToQueue_eff s p t
    refine ⟨?_, fun _ hk => by rw [e.set]; exact hk⟩
    by_cases hk : k = t
    · subst hk; rw [e.task]
    · rw [e.tasks k hk]
  · intro s t _ _ hrel k
    refine ⟨rfl, fun hr hk => ?_⟩
    have hne : k ≠ t := fun e => by rw [e, hrel] at hr; cases hr
    exact (List.mem_erase_of_ne hne).mpr hk
  · intro s s' _ _ _ hs k
    exact ⟨by rw [hs.taskAt], fun _ hk => by rw [hs.set]; exact hk⟩

/-! ### Eligibility only shrinks -/

theorem sched_shrink (E : Env) (n : Nat) :
    (∀ s t, Inv s → t ∈ s.m_lstTasksUnassigned → (TryAssignTask E n s t none).Sat (Shrink E s)) ∧
    (∀ s p t rest, Inv s → (s.peerAt p).m_Tip = Full.zero → (s.peerAt p).m_lstTasks = t :: rest →
      (ReleaseTask E n s p t).Sat (Shrink E s)) ∧
    (∀ s p, Inv s → (s.peerAt p).m_Tip = Full.zero → (ReleaseTasks E n s p).Sat (Shrink E s)) ∧
    (∀ s p b r, Inv s → (DeleteSelf E n s p b r).Sat (Shrink E s)) := by
  refine sched_rel E Inv (fun s p => (s.peerAt p).m_Tip = Full.zero) (Shrink E) ?_ ?_
    (fun _ h => h) (fun _ _ _ h _ => h) ?_ (fun _ _ h => h) ?_ ?_ ?_ ?_ n
  · intro s k q _ h; exact h
  · intro a b c h1 h2 k q hk h; exact h2 k q hk (h1 k q hk h)
  · intro s s' p hz hf
    rcases (hf.peer p).2.2.2.2.2 with h | h
    · rw [h, hz]
    · exact h
  · intro s s1 t p _ _ _ e k q _ hns
    by_cases hq : q = p
    · subst hq
      refine eq_false_of_imp (fun h1 => ?_) hns
      obtain ⟨tm, hpe⟩ := e.peer
      rw [ShouldAssignTask_iff] at h1 ⊢
      rw [hpe] at h1
      obtain ⟨a1, a2, a3, a4, a5⟩ := h1
      exact ⟨a1, a2, a3, fun x hx => a4 x (List.mem_append_left _ hx), a5⟩
    · rw [ShouldAssignTask_congr (e.other q hq)]; exact hns
  · intro s p t rest _ hz _ k q hk hns
    have e := releaseToQueue_eff s p t
    by_cases hq : q = p
    · subst hq
      apply ShouldAssignTask_zero hk
      rw [e.peer]
      show (s.peerAt q).m_Tip.m_Height = 0
      rw [hz]; rfl
    · rw [ShouldAssignTask_congr (e.other q hq)]; exact hns
  · intro s t _ _ _ k q _ hns
    exact hns
  · intro s s' _ _ hf hs k q hk hns
    refine eq_false_of_imp (fun h1 => ?_) hns
    have htip := ShouldAssignTask_tip h1
    obtain ⟨f1, _, f3, f4, _, f6⟩ := hf.peer q
    have ht : (s'.peerAt q).m_Tip = (s.peerAt q).m_Tip := by
      rcases f6 with h | h
      · exact h
      · rw [h] at htip
        have : (Full.zero).m_Height = 0 := rfl
        omega
    rw [ShouldAssignTask_iff] at h1 ⊢
    rw [ht, f1, f3, f4, hs.lists q] at h1
    exact h1

/-! ### Peers with a zeroed tip get nothing -/

theorem HeightsPos.heights_frame {s s' : Node} (h : HeightsPos s) (hf : Frame s s') : HeightsPos s' :=
  fun k hk => h k (hf.set.subset hk)

theorem sched_zkeep (E : Env) (n : Nat) :
    (∀ s t, Inv s ∧ HeightsPos s → t ∈ s.m_lstTasksUnassigned →
      (TryAssignTask E n s t none).Sat (ZKeep s)) ∧
    (∀ s p t rest, Inv s ∧ HeightsPos s → True → (s.peerAt p).m_lstTasks = t :: rest →
      (ReleaseTask E n s p t).Sat (ZKeep s)) ∧
    (∀ s p, Inv s ∧ HeightsPos s → True → (ReleaseTasks E n s p).Sat (ZKeep s)) ∧
    (∀ s p b r, Inv s ∧ HeightsPos s → (DeleteSelf E n s p b r).Sat (ZKeep s)) := by
  refine sched_rel E (fun s => Inv s ∧ HeightsPos s) (fun _ _ => True) ZKeep ?_ ?_
    (fun _ h => h.1) (fun _ _ h hi hf => ⟨hi, h.2.heights_frame hf⟩)
    (fun _ _ _ _ _ => trivial) (fun _ _ _ => trivial) ?_ ?_ ?_ ?_ n
  · intro s q hq; exact ⟨hq, Nat.le_refl _⟩
  · intro a b c h1 h2 q hq
    obtain ⟨e1, f1⟩ := h1 q hq
    obtain ⟨e2, f2⟩ := h2 q e1
    exact ⟨e2, Nat.le_trans f2 f1⟩
  · intro s s1 t p hg ht hfind e q hq
    have hpt := ShouldAssignTask_tip (find?_mem hfind).2
    have hth := hg.2 t (hg.1.of_mem_queue ht).2.1
    have hne : q ≠ p := fun e => by subst e; omega
    rw [e.other q hne]; exact ⟨hq, Nat.le_refl _⟩
  · intro s p t rest _ _ _ q hq
    have e := releaseToQueue_eff s p t
    by_cases hqp : q = p
    · subst hqp
      rw [e.peer]
      exact ⟨hq, (List.erase_sublist t _).length_le⟩
    · rw [e.other q hqp]; exact ⟨hq, Nat.le_refl _⟩
  · intro s t _ _ _ q hq
    exact ⟨hq, Nat.le_refl _⟩
  · intro s s' _ _ hf hs q hq
    refine ⟨?_, by rw [hs.lists q]⟩
    rcases (hf.peer q).2.2.2.2.2 with h | h
    · rw [h]; exact hq
    · rw [h]; rfl

theorem Res.bind_ne_out {r : Res} {f : Node → Res} (h : r ≠ .out)
    (hf : ∀ s, r = .ok s → f s ≠ .out) : r.bind f ≠ .out := by
  cases r with
  | ok s => exact hf s rfl
  | exc e s => simp [Res.bind]
  | out => exact absurd rfl h

theorem Res.Sat.of_ok {P : Node → Prop} {r : Res} {s : Node} (h : r.Sat P) (hr : r = .ok s) :
    P s := by
  subst hr; exact h

theorem countP_lt_of_mem {α : Type} (f g : α → Bool) (hfg : ∀ a, f a = true → g a = true) :
    ∀ (l : List α) (p : α), p ∈ l → g p = true → f p = false → l.countP f < l.countP g := by
  intro l
  induction l with
  | nil => intro p hp; cases hp
  | cons a l ih =>
    intro p hp hg hf
    have hle : l.countP f ≤ l.countP g := List.countP_mono_left (fun x _ hx => hfg x hx)
    rcases List.mem_cons.mp hp with h | h
    · subst h
      rw [List.countP_cons_of_pos _ _ hg, List.countP_cons_of_neg _ _ (by simp [hf])]
      omega
    · have := ih p h hg hf
      by_cases ha : f a = true
      · rw [List.countP_cons_of_pos _ _ ha, List.countP_cons_of_pos _ _ (hfg a ha)]
        omega
      · rw [List.countP_cons_of_neg _ _ ha]
        by_cases hga : g a = true
        · rw [List.countP_cons_of_pos _ _ hga]; omega
        · rw [List.countP_cons_of_neg _ _ hga]; exact this

theorem Frame.tip_height {s s' : Node} (hf : Frame s s') (q : PeerRef)
    (h : (s'.peerAt q).m_Tip.m_Height ≠ 0) : (s.peerAt q).m_Tip.m_Height ≠ 0 := by
  rcases (hf.peer q).2.2.2.2.2 with e | e
  · rw [← e]; exact h
  · rw [e] at h; exact absurd rfl h

theorem Frame.liveCount_le {s s' : Node} (hf : Frame s s') : liveCount s' ≤ liveCount s := by
  unfold liveCount
  refine Nat.le_trans (List.countP_mono_left (fun q _ hq => ?_)) (hf.peers.countP_le _)
  simp only [decide_eq_true_eq] at hq ⊢
  exact hf.tip_height q hq

theorem Frame.liveCount_lt {s s' : Node} (hf : Frame s s') {p : PeerRef} (hp : p ∈ s.m_lstPeers)
    (h0 : (s.peerAt p).m_Tip.m_Height ≠ 0) (h1 : (s'.peerAt p).m_Tip.m_Height = 0) :
    liveCount s' < liveCount s := by
  unfold liveCount
  refine Nat.lt_of_le_of_lt (hf.peers.countP_le _) ?_
  refine countP_lt_of_mem _ _ (fun q hq => ?_) _ p hp (by simpa using h0) (by simpa using h1)
  simp only [decide_eq_true_eq] at hq ⊢
  exact hf.tip_height q hq

theorem Inv.list_length_le {s : Node} (h : Inv s) (p : PeerRef) :
    (s.peerAt p).m_lstTasks.length ≤ s.m_setTasks.length := by
  by_cases hp : p ∈ s.m_lstPeers
  · have hnd : (s.peerAt p).m_lstTasks.Nodup := by
      rw [List.nodup_iff_count_le_one]
      intro k
      by_cases hk : k ∈ (s.peerAt p).m_lstTasks
      · rw [(h.of_mem_peer hp hk).1]
      · rw [List.count_eq_zero_of_not_mem hk]; omega
    have hsub : (s.peerAt p).m_lstTasks ⊆ s.m_setTasks := fun k hk => (h.of_mem_peer hp hk).2.1
    exact (List.subperm_of_subset hnd hsub).length_le
  · rw [(h.unlisted p hp).1]; exact Nat.zero_le _

/-- The hypothesis of the termination argument: `TryAssignTask` returns when at
most `φ` peers have a tip above 0 and the budget is `φ * (N + 4) + 1`. -/
theorem release_term {E : Env} {N φ : Nat}
    (hT : ∀ n s t, Inv s → HeightsPos s → s.m_setTasks.length ≤ N → liveCount s ≤ φ →
      t ∈ s.m_lstTasksUnassigned → φ * (N + 4) + 1 ≤ n → TryAssignTask E n s t none ≠ .out)
    (n : Nat) (s : Node) (p : PeerRef) (t : TaskKey) (rest : List TaskKey)
    (h : Inv s) (hp : HeightsPos s) (hN : s.m_setTasks.length ≤ N) (hφ : liveCount s ≤ φ)
    (hl : (s.peerAt p).m_lstTasks = t :: rest) (hn : φ * (N + 4) + 2 ≤ n) :
    ReleaseTask E n s p t ≠ .out := by
  obtain ⟨m, rfl⟩ : ∃ m, n = m + 1 := ⟨n - 1, by omega⟩
  rw [ReleaseTask]
  have h1 := Post.post_release h hl
  have ht1 : t ∈ (releaseToQueue s p t).m_lstTasksUnassigned := by
    rw [(releaseToQueue_eff s p t).un]; simp
  split
  · refine hT m _ t h1.inv (hp.heights_frame h1.frame) ?_ ?_ ht1 (by omega)
    · exact Nat.le_trans h1.frame.set.length_le hN
    · exact Nat.le_trans h1.frame.liveCount_le hφ
  · simp

theorem releases_term {E : Env} {N φ : Nat}
    (hT : ∀ n s t, Inv s → HeightsPos s → s.m_setTasks.length ≤ N → liveCount s ≤ φ →
      t ∈ s.m_lstTasksUnassigned → φ * (N + 4) + 1 ≤ n → TryAssignTask E n s t none ≠ .out)
    (p : PeerRef) :
    ∀ (L n : Nat) (s : Node), Inv s → HeightsPos s → s.m_setTasks.length ≤ N → liveCount s ≤ φ →
      (s.peerAt p).m_Tip.m_Height = 0 → (s.peerAt p).m_lstTasks.length ≤ L →
      L + φ * (N + 4) + 3 ≤ n → ReleaseTasks E n s p ≠ .out := by
  intro L
  induction L with
  | zero =>
    intro n s h hp hN hφ hz hL hn
    obtain ⟨m, rfl⟩ : ∃ m, n = m + 1 := ⟨n - 1, by omega⟩
    rw [ReleaseTasks]
    have : (s.peerAt p).m_lstTasks = [] := List.length_eq_zero.mp (Nat.le_zero.mp hL)
    rw [this]
    simp
  | succ L ih =>
    intro n s h hp hN hφ hz hL hn
    obtain ⟨m, rfl⟩ : ∃ m, n = m + 1 := ⟨n - 1, by omega⟩
    rw [ReleaseTasks]
    cases hl : (s.peerAt p).m_lstTasks with
    | nil => simp
    | cons t rest =>
      simp only []
      refine Res.bind_ne_out (release_term hT m s p t rest h hp hN hφ hl (by omega)) ?_
      intro s2 hs2
      have hpost := ((sched_post E m).2.1 s p t rest h hl).of_ok hs2
      have hzk := ((sched_zkeep E m).2.1 s p t rest ⟨h, hp⟩ trivial hl).of_ok hs2
      obtain ⟨hz2, _⟩ := hzk p hz
      -- the list of `p` is shorter: the release step took `t` out and nothing came in
      have hlen : (s2.peerAt p).m_lstTasks.length ≤ L := by
        obtain ⟨m', rfl⟩ : ∃ m', m = m' + 1 := ⟨m - 1, by omega⟩
        rw [ReleaseTask] at hs2
        have e := releaseToQueue_eff s p t
        have h1 := Post.post_release h hl
        have hz1 : ((releaseToQueue s p t).peerAt p).m_Tip.m_Height = 0 := by
          rw [e.peer]; exact hz
        have hlen1 : ((releaseToQueue s p t).peerAt p).m_lstTasks.length ≤ L := by
          rw [e.peer]
          show ((s.peerAt p).m_lstTasks.erase t).length ≤ L
          rw [hl, List.erase_cons_head]
          rw [hl] at hL
          simpa using hL
        have ht1 : t ∈ (releaseToQueue s p t).m_lstTasksUnassigned := by
          rw [e.un]; simp
        split at hs2
        · have := ((sched_zkeep E m').1 _ t ⟨h1.inv, hp.heights_frame h1.frame⟩ ht1).of_ok hs2
          exact Nat.le_trans (this p hz1).2 hlen1
        · cases hs2
          exact hlen1
      exact ih m s2 hpost.inv (hp.heights_frame hpost.frame)
        (Nat.le_trans hpost.frame.set.length_le hN)
        (Nat.le_trans hpost.frame.liveCount_le hφ) hz2 hlen (by omega)

theorem delete_term {E : Env} {N φ : Nat}
    (hT : ∀ n s t, Inv s → HeightsPos s → s.m_setTasks.length ≤ N → liveCount s ≤ φ →
      t ∈ s.m_lstTasksUnassigned → φ * (N + 4) + 1 ≤ n → TryAssignTask E n s t none ≠ .out)
    (n : Nat) (s : Node) (p : PeerRef) (b : Bool) (r : Option ByeReason)
    (h : Inv s) (hp : HeightsPos s) (hN : s.m_setTasks.length ≤ N)
    (hφ : ∀ s1, startDelete E s p r = .ok s1 → liveCount s1 ≤ φ)
    (hn : N + φ * (N + 4) + 4 ≤ n) : DeleteSelf E n s p b r ≠ .out := by
  obtain ⟨m, rfl⟩ : ∃ m, n = m + 1 := ⟨n - 1, by omega⟩
  rw [DeleteSelf]
  obtain ⟨hsp, hsne⟩ := startDelete_post (E := E) h p r
  refine Res.bind_ne_out hsne (fun s1 hs1 => ?_)
  have h1 : Post (fun _ => False) (fun _ => False) s s1 := hsp.of_ok hs1
  have hp1 := hp.heights_frame h1.frame
  have hN1 := Nat.le_trans h1.frame.set.length_le hN
  have hz1 : (s1.peerAt p).m_Tip.m_Height = 0 := by rw [(startDelete_tip hs1).1]; rfl
  have hrs := (sched_post E m).2.2.1 s1 p h1.inv
  refine Res.bind_ne_out (releases_term hT p N m s1 h1.inv hp1 hN1 (hφ s1 hs1) hz1
    (Nat.le_trans (h1.inv.list_length_le p) hN1) (by omega)) (fun s2 hs2 => ?_)
  have h2 : Post (fun _ => False) (fun _ => False) s1 s2 := hrs.1.of_ok hs2
  exact (finishDelete_post (E := E) h2.inv p b r (hrs.2 s2 hs2)).2.1

theorem sched_term (E : Env) (N : Nat) : ∀ φ n s t, Inv s → HeightsPos s →
    s.m_setTasks.length ≤ N → liveCount s ≤ φ → t ∈ s.m_lstTasksUnassigned →
    φ * (N + 4) + 1 ≤ n → TryAssignTask E n s t none ≠ .out := by
  intro φ
  induction φ with
  | zero =>
    intro n s t h hp hN hφ ht hn
    obtain ⟨m, rfl⟩ : ∃ m, n = m + 1 := ⟨n - 1, by omega⟩
    rw [TryAssignTask]
    cases hsel : selectPeer E s t none with
    | none => simp
    | some p =>
      exfalso
      have hfind : s.m_lstPeers.find? (fun q => ShouldAssignTask E s t q) = some p := hsel
      obtain ⟨hmem, hsa⟩ := find?_mem hfind
      have htip := ShouldAssignTask_tip hsa
      have hth := hp t (h.of_mem_queue ht).2.1
      have hpos : 0 < liveCount s := by
        unfold liveCount
        rw [List.countP_pos_iff]
        exact ⟨p, hmem, by simp; omega⟩
      omega
  | succ φ ih =>
    intro n s t h hp hN hφ ht hn
    obtain ⟨m, rfl⟩ : ∃ m, n = m + 1 := ⟨n - 1, by omega⟩
    rw [TryAssignTask]
    cases hsel : selectPeer E s t none with
    | none => simp
    | some p =>
      simp only []
      have hfind : s.m_lstPeers.find? (fun q => ShouldAssignTask E s t q) = some p := hsel
      obtain ⟨hmem, hsa⟩ := find?_mem hfind
      have htip := ShouldAssignTask_tip hsa
      have hth := hp t (h.of_mem_queue ht).2.1
      cases ha : AssignTask E s t p with
      | ok s1 => simp
      | out => exact absurd ha AssignTask_ne_out
      | exc e s1 =>
        simp only []
        have := AssignTask_exc ha
        subst this
        have hmul : (φ + 1) * (N + 4) = φ * (N + 4) + N + 4 := by ring
        have hφ1 : ∀ s2, startDelete E s1 p (some .Ban) = .ok s2 → liveCount s2 ≤ φ := by
          intro s2 hs2
          have hf : Frame s1 s2 := ((startDelete_post (E := E) h p (some .Ban)).1.of_ok hs2).frame
          have hz : (s2.peerAt p).m_Tip.m_Height = 0 := by rw [(startDelete_tip hs2).1]; rfl
          have := hf.liveCount_lt hmem (by omega) hz
          omega
        refine Res.bind_ne_out (delete_term ih m s1 p true (some .Ban) h hp hN hφ1 (by omega)) ?_
        intro s2 hs2
        have hpost := ((sched_post E m).2.2.2 s1 p true (some .Ban) h).1.of_ok hs2
        have hφ2 : liveCount s2 ≤ φ := by
          -- the deleted peer had a tip above 0 and is gone
          obtain ⟨m', rfl⟩ : ∃ m', m = m' + 1 := ⟨m - 1, by omega⟩
          rw [DeleteSelf] at hs2
          cases hst : startDelete E s1 p (some .Ban) with
          | out => rw [hst] at hs2; simp [Res.bind] at hs2
          | exc e0 s0 => rw [hst] at hs2; simp [Res.bind] at hs2
          | ok s0 =>
            rw [hst] at hs2
            simp only [Res.bind] at hs2
            have h0 : Post (fun _ => False) (fun _ => False) s1 s0 :=
              (startDelete_post (E := E) h p (some .Ban)).1.of_ok hst
            have hrs := (sched_post E m').2.2.1 s0 p h0.inv
            cases hr : ReleaseTasks E m' s0 p with
            | out => rw [hr] at hs2; simp at hs2
            | exc e3 s3 => rw [hr] at hs2; simp at hs2
            | ok s3 =>
              rw [hr] at hs2
              simp only [] at hs2
              have h3 : Post (fun _ => False) (fun _ => False) s0 s3 := hrs.1.of_ok hr
              have h4 := (finishDelete_post (E := E) h3.inv p true (some .Ban)
                (hrs.2 s3 hr)).1.of_ok hs2
              exact Nat.le_trans (Nat.le_trans h4.frame.liveCount_le h3.frame.liveCount_le)
                (hφ1 s0 hst)
        exact ih m s2 t hpost.inv (hp.heights_frame hpost.frame)
          (Nat.le_trans hpost.frame.set.length_le hN) hφ2
          (hpost.queue t (fun hf => hf) ht) (by omega)

theorem DeleteSelf_term (E : Env) (s : Node) (p : PeerRef) (b : Bool) (r : Option ByeReason)
    (h : Inv s) (hp : HeightsPos s) (n : Nat)
    (hn : (liveCount s + 1) * (s.m_setTasks.length + 4) ≤ n) : DeleteSelf E n s p b r ≠ .out := by
  refine delete_term (N := s.m_setTasks.length) (φ := liveCount s)
    (sched_term E s.m_setTasks.length (liveCount s)) n s p b r h hp (Nat.le_refl _) ?_ ?_
  · intro s1 hs1
    exact ((startDelete_post (E := E) h p r).1.of_ok hs1).frame.liveCount_le
  · have : (liveCount s + 1) * (s.m_setTasks.length + 4) =
        s.m_setTasks.length + liveCount s * (s.m_setTasks.length + 4) + 4 := by ring
    omega

theorem Res.bind_eq_ok {r : Res} {f : Node → Res} {s' : Node} (h : r.bind f = .ok s') :
    ∃ s1, r = .ok s1 ∧ f s1 = .ok s' := by
  cases r with
  | ok s1 => exact ⟨s1, rfl, h⟩
  | exc e s1 => simp [Res.bind] at h
  | out => simp [Res.bind] at h

/-- The same as `sched_rel` for the calls that return, with a relation of its
own for `TryAssignTask`, which may depend on the task, and with the release of a
task that is not relevant taken together with its deletion. -/
theorem sched_rel2 (E : Env) (W : Node → TaskKey → Prop) (Z : Node → PeerRef → Prop)
    (R : Node → Node → Prop) (RT : TaskKey → Node → Node → Prop)
    (hrefl : ∀ s, Inv s → R s s)
    (htrans : ∀ a b c, Inv a → Inv b → Inv c → Frame a b → Frame b c → R a b → R b c → R a c)
    (hW : ∀ s s' t, W s t → Frame s s' → W s' t)
    (hZ : ∀ s s' p, Z s p → Frame s s' → Z s' p)
    (hZ0 : ∀ s p, (s.peerAt p).m_Tip = Full.zero → Z s p)
    (hnone : ∀ s t, Inv s → W s t → t ∈ s.m_lstTasksUnassigned →
      s.m_lstPeers.find? (fun q => ShouldAssignTask E s t q) = none → RT t s s)
    (hassign : ∀ s s1 t p, Inv s → W s t → t ∈ s.m_lstTasksUnassigned →
      s.m_lstPeers.find? (fun q => ShouldAssignTask E s t q) = some p →
      AssignEff E s s1 t p → RT t s s1)
    (hretry : ∀ t a b c, Inv a → Inv b → Inv c → Frame a b → Frame b c →
      t ∈ a.m_lstTasksUnassigned → t ∈ b.m_lstTasksUnassigned → R a b → RT t b c → RT t a c)
    (hrel : ∀ s p t rest s', Inv s → Z s p → (s.peerAt p).m_lstTasks = t :: rest →
      (s.taskAt t).m_bRelevant = true → Inv s' → Frame (releaseToQueue s p t) s' →
      RT t (releaseToQueue s p t) s' → R s s')
    (hWrel : ∀ s p t, (s.taskAt t).m_bRelevant = true → W (releaseToQueue s p t) t)
    (hdel : ∀ s p t rest, Inv s → Z s p → (s.peerAt p).m_lstTasks = t :: rest →
      (s.taskAt t).m_bRelevant = false →
      R s (DeleteUnassignedTask (releaseToQueue s p t) t))
    (hquiet : ∀ s s', Inv s → Inv s' → Frame s s' → SameTasks s s' → R s s') :
    ∀ n : Nat,
      (∀ s t s', Inv s → W s t → t ∈ s.m_lstTasksUnassigned →
        TryAssignTask E n s t none = .ok s' → RT t s s') ∧
      (∀ s p t rest s', Inv s → Z s p → (s.peerAt p).m_lstTasks = t :: rest →
        ReleaseTask E n s p t = .ok s' → R s s') ∧
      (∀ s p s', Inv s → Z s p → ReleaseTasks E n s p = .ok s' → R s s') ∧
      (∀ s p b r s', Inv s → DeleteSelf E n s p b r = .ok s' → R s s') := by
  intro n
  induction n with
  | zero =>
    refine ⟨?_, ?_, ?_, ?_⟩
    · intro s t s' _ _ _ h; simp [TryAssignTask] at h
    · intro s p t rest s' _ _ _ h; simp [ReleaseTask] at h
    · intro s p s' _ _ h; simp [ReleaseTasks] at h
    · intro s p b r s' _ h; simp [DeleteSelf] at h
  | succ n ih =>
    obtain ⟨ihT, ihR, ihRs, ihD⟩ := ih
    refine ⟨?_, ?_, ?_, ?_⟩
    · intro s t s' hi hw ht hr
      rw [TryAssignTask] at hr
      cases hsel : selectPeer E s t none with
      | none =>
        rw [hsel] at hr
        cases hr
        exact hnone s t hi hw ht hsel
      | some p =>
        rw [hsel] at hr
        simp only [] at hr
        have hfind : s.m_lstPeers.find? (fun q => ShouldAssignTask E s t q) = some p := hsel
        cases ha : AssignTask E s t p with
        | ok s1 =>
          rw [ha] at hr
          cases hr
          exact hassign s s' t p hi hw ht hfind (AssignTask_ok ha)
        | out => exact absurd ha AssignTask_ne_out
        | exc e s1 =>
          rw [ha] at hr
          simp only [] at hr
          have := AssignTask_exc ha
          subst this
          obtain ⟨s2, hd, hr2⟩ := Res.bind_eq_ok hr
          have hp2 := ((sched_post E n).2.2.2 s1 p true (some .Ban) hi).1.of_ok hd
          have ht2 := hp2.queue t (fun hf => hf) ht
          have hp3 := ((sched_post E n).1 s2 t none hp2.inv ht2).of_ok hr2
          exact hretry t s1 s2 s' hi hp2.inv hp3.inv hp2.frame hp3.frame ht ht2
            (ihD s1 p true (some .Ban) s2 hi hd)
            (ihT s2 t s' hp2.inv (hW _ _ _ hw hp2.frame) ht2 hr2)
    · intro s p t rest s' hi hz hl hr
      rw [ReleaseTask] at hr
      have e := releaseToQueue_eff s p t
      have h1 := Post.post_release hi hl
      have ht1 : t ∈ (releaseToQueue s p t).m_lstTasksUnassigned := by rw [e.un]; simp
      have hrl : ((releaseToQueue s p t).taskAt t).m_bRelevant = (s.taskAt t).m_bRelevant := by
        rw [e.task]
      rw [hrl] at hr
      split at hr
      · rename_i hb
        have hp3 := ((sched_post E n).1 _ t none h1.inv ht1).of_ok hr
        exact hrel s p t rest s' hi hz hl hb hp3.inv hp3.frame
          (ihT _ t s' h1.inv (hWrel s p t hb) ht1 hr)
      · rename_i hb
        cases hr
        exact hdel s p t rest hi hz hl (by simpa using hb)
    · intro s p s' hi hz hr
      rw [ReleaseTasks] at hr
      cases hl : (s.peerAt p).m_lstTasks with
      | nil => rw [hl] at hr; cases hr; exact hrefl s hi
      | cons t rest =>
        rw [hl] at hr
        simp only [] at hr
        obtain ⟨s1, h1, h2⟩ := Res.bind_eq_ok hr
        have hp1 := ((sched_post E n).2.1 s p t rest hi hl).of_ok h1
        have hp2 := ((sched_post E n).2.2.1 s1 p hp1.inv).1.of_ok h2
        exact htrans s s1 s' hi hp1.inv hp2.inv hp1.frame hp2.frame
          (ihR s p t rest s1 hi hz hl h1) (ihRs s1 p s' hp1.inv (hZ _ _ _ hz hp1.frame) h2)
    · intro s p b r s' hi hr
      rw [DeleteSelf] at hr
      obtain ⟨s1, h1, hr1⟩ := Res.bind_eq_ok hr
      obtain ⟨s2, h2, h3⟩ := Res.bind_eq_ok hr1
      have hp1 : Post (fun _ => False) (fun _ => False) s s1 :=
        (startDelete_post (E := E) hi p r).1.of_ok h1
      have hs1 := (startDelete_same E s p r).of_ok h1
      have hrs := (sched_post E n).2.2.1 s1 p hp1.inv
      have hp2 : Post (fun _ => False) (fun _ => False) s1 s2 := hrs.1.of_ok h2
      have hp3 := (finishDelete_post (E := E) hp2.inv p b r (hrs.2 s2 h2)).1.of_ok h3
      have hs3 := (finishDelete_same E s2 p b r).of_ok h3
      have r1 := hquiet s s1 hi hp1.inv hp1.frame hs1
      have r2 := ihRs s1 p s2 hp1.inv (hZ0 _ _ (startDelete_tip h1).1) h2
      have r3 := hquiet s2 s' hp2.inv hp3.inv hp3.frame hs3
      exact htrans s s2 s' hi hp2.inv hp3.inv (hp1.frame.frame_trans hp2.frame) hp3.frame
        (htrans s s1 s2 hi hp1.inv hp2.inv hp1.frame hp2.frame r1 r2) r3

theorem Shrink.shrink_refl (E : Env) (s : Node) : Shrink E s s := fun _ _ _ h => h

theorem Shrink.shrink_trans {E : Env} {a b c : Node} (h1 : Shrink E a b) (h2 : Shrink E b c) :
    Shrink E a c := fun k q hk h => h2 k q hk (h1 k q hk h)

theorem Shrink.of_peerAt {E : Env} {s s' : Node} (h : s'.peerAt = s.peerAt) : Shrink E s s' :=
  fun k q _ hns => by
    have hc : ShouldAssignTask E s' k q = ShouldAssignTask E s k q :=
      ShouldAssignTask_congr (by rw [h]) k
    rw [hc]; exact hns

theorem Shrink.shrink_assign {E : Env} {s s1 : Node} {t : TaskKey} {p : PeerRef}
    (e : AssignEff E s s1 t p) : Shrink E s s1 := by
  intro k q _ hns
  by_cases hq : q = p
  · subst hq
    refine eq_false_of_imp (fun h1 => ?_) hns
    obtain ⟨tm, hpe⟩ := e.peer
    rw [ShouldAssignTask_iff] at h1 ⊢
    rw [hpe] at h1
    obtain ⟨a1, a2, a3, a4, a5⟩ := h1
    exact ⟨a1, a2, a3, fun x hx => a4 x (List.mem_append_left _ hx), a5⟩
  · rw [ShouldAssignTask_congr (e.other q hq)]; exact hns

theorem Shrink.shrink_release {E : Env} {s : Node} {p : PeerRef} {t : TaskKey}
    (hz : (s.peerAt p).m_Tip = Full.zero) : Shrink E s (releaseToQueue s p t) := by
  intro k q hk hns
  have e := releaseToQueue_eff s p t
  by_cases hq : q = p
  · subst hq
    apply ShouldAssignTask_zero hk
    rw [e.peer]
    show (s.peerAt q).m_Tip.m_Height = 0
    rw [hz]; rfl
  · rw [ShouldAssignTask_congr (e.other q hq)]; exact hns

theorem Shrink.still {E : Env} {s s' : Node} (hf : Frame s s') (hs : SameTasks s s') :
    Shrink E s s' := by
  intro k q hk hns
  refine eq_false_of_imp (fun h1 => ?_) hns
  have htip := ShouldAssignTask_tip h1
  obtain ⟨f1, _, f3, f4, _, f6⟩ := hf.peer q
  have ht : (s'.peerAt q).m_Tip = (s.peerAt q).m_Tip := by
    rcases f6 with h | h
    · exact h
    · rw [h] at htip
      have : (Full.zero).m_Height = 0 := rfl
      omega
  rw [ShouldAssignTask_iff] at h1 ⊢
  rw [ht, f1, f3, f4, hs.lists q] at h1
  exact h1

theorem Before.of_sublist {a b : PeerRef} {l' l : List PeerRef} (h : Before a b l')
    (hs : l'.Sublist l) : Before a b l := by
  obtain ⟨l1, l2, rfl, ha⟩ := h
  obtain ⟨r1, r2, rfl, h1, h2⟩ := List.append_sublist_iff.mp hs
  have hb : b ∈ r2 := h2.subset (List.mem_cons_self _ _)
  obtain ⟨x, y, rfl⟩ := List.append_of_mem hb
  exact ⟨r1 ++ x, y, by simp, List.mem_append_left _ (h1.subset ha)⟩

theorem find?_before {f : PeerRef → Bool} {p : PeerRef} :
    ∀ (l1 l2 : List PeerRef), (l1 ++ p :: l2).find? f = some p → p ∉ l1 →
      ∀ q ∈ l1, f q = false := by
  intro l1
  induction l1 with
  | nil => intro _ _ _ q hq; cases hq
  | cons a l1 ih =>
    intro l2 hf hp q hq
    rw [List.cons_append, List.find?_cons] at hf
    cases ha : f a with
    | true =>
      rw [ha] at hf
      simp only [Option.some.injEq] at hf
      exact absurd (hf ▸ List.mem_cons_self a l1) hp
    | false =>
      rw [ha] at hf
      simp only [] at hf
      rcases List.mem_cons.mp hq with h | h
      · rw [h]; exact ha
      · exact ih l2 hf (fun hm => hp (List.mem_cons_of_mem _ hm)) q h

theorem find?_first {f : PeerRef → Bool} {p : PeerRef} {l : List PeerRef} (hnd : l.Nodup)
    (hf : l.find? f = some p) {q : PeerRef} (hb : Before q p l) : f q = false := by
  obtain ⟨l1, l2, rfl, hq⟩ := hb
  have hp : p ∉ l1 := by
    intro hm
    have := List.nodup_append.mp hnd
    exact this.2.2 hm (List.mem_cons_self _ _)
  exact find?_before l1 l2 hf hp q hq

theorem NoElig.noElig_mono {E : Env} {s s' : Node} {k : TaskKey} (h : NoElig E s k)
    (hk : 1 ≤ k.first.m_Height) (hs : Shrink E s s') (hp : s'.m_lstPeers.Sublist s.m_lstPeers) :
    NoElig E s' k :=
  fun q hq => hs k q hk (h q (hp.subset hq))

theorem Handover.handover_refl (E : Env) (s : Node) : Handover E s s :=
  { shrink := Shrink.shrink_refl E s, peers := List.Sublist.refl _
    fresh := fun _ _ _ h => Or.inl h, irr := fun _ _ _ h => h, queueIrr := fun _ h => Or.inl h }

theorem Handover.handover_trans {E : Env} {a b c : Node} (hf : Frame a b) (h1 : Handover E a b)
    (h2 : Handover E b c) : Handover E a c :=
  { shrink := h1.shrink.shrink_trans h2.shrink
    peers := h2.peers.trans h1.peers
    fresh := fun k q hk hc => by
      rcases h2.fresh k q hk hc with hb | ⟨hb, hfirst⟩
      · rcases h1.fresh k q hk hb with ha | ⟨ha, hfirst⟩
        · exact Or.inl ha
        · exact Or.inr ⟨ha, fun q' hq' =>
            h2.shrink k q' hk (hfirst q' (hq'.of_sublist h2.peers))⟩
      · refine Or.inr ⟨?_, hfirst⟩
        cases ha : ShouldAssignTask E a k q with
        | true => rfl
        | false => rw [h1.shrink k q hk ha] at hb; cases hb
    irr := fun k q hk hc => h1.irr k q hk (h2.irr k q (by rw [hf.rel k]; exact hk) hc)
    queueIrr := fun k hc => by
      rcases h2.queueIrr k hc with hb | hb
      · exact h1.queueIrr k hb
      · exact Or.inr (by rw [← hf.rel k]; exact hb) }

theorem QuietNew.quiet_trans {E : Env} {X X' : TaskKey → Prop} {a b c : Node}
    (hab : Handover E a b) (hbc : Handover E b c)
    (h1 : QuietNew E X a b) (h2 : QuietNew E X' b c) :
    QuietNew E (fun k => X k ∨ X' k) a c := by
  intro k hk hc hx
  by_cases hb : k ∈ b.m_lstTasksUnassigned
  · by_cases hx' : X' k
    · exact h2 k hk hc (Or.inr hx')
    · have hx1 : k ∉ a.m_lstTasksUnassigned ∨ X k := by
        rcases hx with h | h | h
        · exact Or.inl h
        · exact Or.inr h
        · exact absurd h hx'
      exact (h1 k hk hb hx1).noElig_mono hk hbc.shrink hbc.peers
  · exact h2 k hk hc (Or.inl hb)

theorem Handover.handover_assign {E : Env} {s s1 : Node} {t : TaskKey} {p : PeerRef} (hi : Inv s)
    (hrel : (s.taskAt t).m_bRelevant = true)
    (hfind : s.m_lstPeers.find? (fun q => ShouldAssignTask E s t q) = some p)
    (e : AssignEff E s s1 t p) : Handover E s s1 :=
  { shrink := Shrink.shrink_assign e
    peers := by rw [e.peers]
    fresh := fun k q hk hc => by
      by_cases hq : q = p
      · subst hq
        obtain ⟨tm, hpe⟩ := e.peer
        rw [hpe] at hc
        rcases List.mem_append.mp hc with h | h
        · exact Or.inl h
        · have hkt : k = t := by simpa using h
          subst hkt
          refine Or.inr ⟨(find?_mem hfind).2, fun q' hq' => ?_⟩
          rw [e.peers] at hq'
          exact Shrink.shrink_assign e k q' hk (find?_first hi.peersNodup hfind hq')
      · rw [e.other q hq] at hc; exact Or.inl hc
    irr := fun k q hk hc => by
      by_cases hq : q = p
      · subst hq
        obtain ⟨tm, hpe⟩ := e.peer
        rw [hpe] at hc
        rcases List.mem_append.mp hc with h | h
        · exact h
        · have hkt : k = t := by simpa using h
          subst hkt
          rw [hrel] at hk; cases hk
      · rw [e.other q hq] at hc; exact hc
    queueIrr := fun k hc => by
      rw [e.un] at hc
      exact Or.inl (List.mem_of_mem_erase hc) }

theorem Handover.handover_release {E : Env} {s : Node} {p : PeerRef} {t : TaskKey}
    (hz : (s.peerAt p).m_Tip = Full.zero) (hrel : (s.taskAt t).m_bRelevant = true) :
    Handover E s (releaseToQueue s p t) := by
  have e := releaseToQueue_eff s p t
  have hl : ∀ k q, k ∈ ((releaseToQueue s p t).peerAt q).m_lstTasks →
      k ∈ (s.peerAt q).m_lstTasks := by
    intro k q hc
    by_cases hq : q = p
    · subst hq
      rw [e.peer] at hc
      exact List.mem_of_mem_erase hc
    · rw [e.other q hq] at hc; exact hc
  exact
    { shrink := Shrink.shrink_release hz
      peers := by rw [e.peers]
      fresh := fun k q _ hc => Or.inl (hl k q hc)
      irr := fun k q _ hc => hl k q hc
      queueIrr := fun k hc => by
        rw [e.un] at hc
        rcases List.mem_append.mp hc with h | h
        · exact Or.inl h
        · have hkt : k = t := by simpa using h
          subst hkt
          exact Or.inr hrel }

theorem Handover.releaseDelete {E : Env} {s : Node} {p : PeerRef} {t : TaskKey} (hi : Inv s)
    (hz : (s.peerAt p).m_Tip = Full.zero) (ht : t ∈ (s.peerAt p).m_lstTasks) :
    Handover E s (DeleteUnassignedTask (releaseToQueue s p t) t) ∧
      (DeleteUnassignedTask (releaseToQueue s p t) t).m_lstTasksUnassigned =
        s.m_lstTasksUnassigned := by
  have e := releaseToQueue_eff s p t
  have hp : p ∈ s.m_lstPeers := hi.listed_of_mem ht
  have htq : t ∉ s.m_lstTasksUnassigned := (hi.of_mem_peer hp ht).2.2
  have hq : (DeleteUnassignedTask (releaseToQueue s p t) t).m_lstTasksUnassigned =
      s.m_lstTasksUnassigned := by
    show (releaseToQueue s p t).m_lstTasksUnassigned.erase t = _
    rw [e.un, List.erase_append_right _ htq]
    simp
  have hl : ∀ k q, k ∈ ((DeleteUnassignedTask (releaseToQueue s p t) t).peerAt q).m_lstTasks →
      k ∈ (s.peerAt q).m_lstTasks := by
    intro k q hc
    have hc' : k ∈ ((releaseToQueue s p t).peerAt q).m_lstTasks := hc
    by_cases hq : q = p
    · subst hq
      rw [e.peer] at hc'
      exact List.mem_of_mem_erase hc'
    · rw [e.other q hq] at hc'; exact hc'
  refine ⟨?_, hq⟩
  exact
    { shrink := (Shrink.shrink_release hz).shrink_trans (Shrink.of_peerAt rfl)
      peers := by
        show (releaseToQueue s p t).m_lstPeers.Sublist _
        rw [e.peers]
      fresh := fun k q _ hc => Or.inl (hl k q hc)
      irr := fun k q _ hc => hl k q hc
      queueIrr := fun k hc => by rw [hq] at hc; exact Or.inl hc }

theorem Handover.handover_still {E : Env} {s s' : Node} (hf : Frame s s') (hs : SameTasks s s') :
    Handover E s s' :=
  { shrink := Shrink.still hf hs
    peers := hf.peers
    fresh := fun k q _ hc => Or.inl (by rw [← hs.lists q]; exact hc)
    irr := fun k q _ hc => by rw [← hs.lists q]; exact hc
    queueIrr := fun k hc => Or.inl (by rw [← hs.un]; exact hc) }

theorem sched_handover (E : Env) (n : Nat) :
    (∀ s t s', Inv s → (s.taskAt t).m_bRelevant = true → t ∈ s.m_lstTasksUnassigned →
      TryAssignTask E n s t none = .ok s' →
        Handover E s s' ∧ QuietNew E (fun k => k = t) s s') ∧
    (∀ s p t rest s', Inv s → (s.peerAt p).m_Tip = Full.zero →
      (s.peerAt p).m_lstTasks = t :: rest → ReleaseTask E n s p t = .ok s' →
        Handover E s s' ∧ QuietNew E (fun _ => False) s s') ∧
    (∀ s p s', Inv s → (s.peerAt p).m_Tip = Full.zero → ReleaseTasks E n s p = .ok s' →
      Handover E s s' ∧ QuietNew E (fun _ => False) s s') ∧
    (∀ s p b r s', Inv s → DeleteSelf E n s p b r = .ok s' →
      Handover E s s' ∧ QuietNew E (fun _ => False) s s') := by
  refine sched_rel2 E (fun s t => (s.taskAt t).m_bRelevant = true)
    (fun s p => (s.peerAt p).m_Tip = Full.zero)
    (fun s s' => Handover E s s' ∧ QuietNew E (fun _ => False) s s')
    (fun t s s' => Handover E s s' ∧ QuietNew E (fun k => k = t) s s')
    ?_ ?_ ?_ ?_ (fun _ _ h => h) ?_ ?_ ?_ ?_ ?_ ?_ ?_ n
  · intro s _
    exact ⟨Handover.handover_refl E s, fun k _ hk hx => by
      rcases hx with h | h
      · exact absurd hk h
      · exact h.elim⟩
  · intro a b c _ _ _ hf _ h1 h2
    refine ⟨h1.1.handover_trans hf h2.1, fun k hk hc hx => ?_⟩
    exact QuietNew.quiet_trans h1.1 h2.1 h1.2 h2.2 k hk hc
      (hx.elim Or.inl (fun h => h.elim))
  · intro s s' t hw hf
    rw [hf.rel t]; exact hw
  · intro s s' p hz hf
    rcases (hf.peer p).2.2.2.2.2 with h | h
    · rw [h, hz]
    · exact h
  · intro s t _ _ _ hnone
    refine ⟨Handover.handover_refl E s, fun k _ hk hx => ?_⟩
    rcases hx with h | h
    · exact absurd hk h
    · subst h
      intro q hq
      have := List.find?_eq_none.mp hnone q hq
      simpa using this
  · intro s s1 t p hi hw ht hfind e
    refine ⟨Handover.handover_assign hi hw hfind e, fun k _ hk hx => ?_⟩
    rw [e.un] at hk
    rcases hx with h | h
    · exact absurd (List.mem_of_mem_erase hk) h
    · subst h
      exact absurd hk (List.Nodup.not_mem_erase hi.queueNodup)
  · intro t a b c _ _ _ hf _ _ _ h1 h2
    refine ⟨h1.1.handover_trans hf h2.1, fun k hk hc hx => ?_⟩
    exact QuietNew.quiet_trans h1.1 h2.1 h1.2 h2.2 k hk hc
      (hx.elim Or.inl (fun h => Or.inr (Or.inr h)))
  · intro s p t rest s' hi hz hl hrel _ _ h2
    have e := releaseToQueue_eff s p t
    have h1 : Handover E s (releaseToQueue s p t) := Handover.handover_release hz hrel
    have hf1 : Frame s (releaseToQueue s p t) := (Post.post_release hi hl).frame
    refine ⟨h1.handover_trans hf1 h2.1, fun k hk hc hx => ?_⟩
    rcases hx with hx | hx
    · by_cases hkt : k = t
      · exact h2.2 k hk hc (Or.inr hkt)
      · refine h2.2 k hk hc (Or.inl ?_)
        rw [e.un]
        simp only [List.mem_append, List.mem_singleton, not_or]
        exact ⟨hx, hkt⟩
    · exact hx.elim
  · intro s p t hrel
    show ((releaseToQueue s p t).taskAt t).m_bRelevant = true
    rw [(releaseToQueue_eff s p t).task]; exact hrel
  · intro s p t rest hi hz hl _
    have ht : t ∈ (s.peerAt p).m_lstTasks := by rw [hl]; simp
    obtain ⟨h1, hq⟩ := Handover.releaseDelete (E := E) hi hz ht
    refine ⟨h1, fun k _ hk hx => ?_⟩
    rw [hq] at hk
    rcases hx with h | h
    · exact absurd hk h
    · exact h.elim
  · intro s s' _ _ hf hs
    refine ⟨Handover.handover_still hf hs, fun k _ hk hx => ?_⟩
    rw [hs.un] at hk
    rcases hx with h | h
    · exact absurd hk h
    · exact h.elim

theorem reachable_runOps {E : Env} (fuel : Nat) :
    ∀ (ops : List Op) (s s' : Node), Reachable E s → runOps E fuel s ops = some s' →
      Reachable E s' := by
  intro ops
  induction ops with
  | nil =>
    intro s s' h hr
    simp only [runOps, Option.some.injEq] at hr
    exact hr ▸ h
  | cons op ops ih =>
    intro s s' h hr
    rw [runOps] at hr
    split at hr
    · rename_i hg
      cases hn : (exec E fuel s op).node? with
      | none => rw [hn] at hr; cases hr
      | some s1 =>
        rw [hn] at hr
        refine ih s1 s' (Reachable.step fuel op h ?_ hn) hr
        intro p hp
        rw [hp] at hg
        exact of_decide_eq_true hg
    · cases hr

theorem demoPeer_reachable : Reachable Env.demo demoPeer :=
  reachable_runOps 4 demoConnect _ _ (Reachable.init 100 200 none) rfl

theorem demoTwoBlocks_reachable : Reachable Env.demo demoTwoBlocks :=
  reachable_runOps 4 demoBlocks _ _ demoPeer_reachable rfl

theorem demoHalfAuth_reachable : Reachable Env.noBye demoHalfAuth :=
  reachable_runOps 4 demoLoopback _ _ (Reachable.init 100 200 none) rfl

theorem count_eq_one_of_mem_nodup {α : Type} [DecidableEq α] {l : List α} (h : l.Nodup)
    {a : α} (ha : a ∈ l) : l.count a = 1 :=
  List.count_eq_one_of_mem h ha

/-- C1: in every reachable state each task of `m_setTasks` occurs there exactly
once and in exactly one place among the unassigned queue and the task lists of
the peers of `m_lstPeers`; nothing else is placed anywhere; a task in the queue
has no owner and a task in the list of peer `p` has owner `p`. -/
theorem task_placement_invariant (E : Env) (s : Node) (h : Reachable E s) :
    (∀ k ∈ s.m_setTasks, s.m_setTasks.count k = 1) ∧
    (∀ k ∈ s.m_setTasks, placedCount s k = 1) ∧
    (∀ k, k ∉ s.m_setTasks → placedCount s k = 0) ∧
    (∀ p, p ∉ s.m_lstPeers → (s.peerAt p).m_lstTasks = []) ∧
    (∀ k ∈ s.m_lstTasksUnassigned, (s.taskAt k).m_pOwner = none) ∧
    (∀ p ∈ s.m_lstPeers, ∀ k ∈ (s.peerAt p).m_lstTasks, (s.taskAt k).m_pOwner = some p) := by
  have hi := reachable_inv h
  refine ⟨fun k hk => count_eq_one_of_mem_nodup hi.setNodup hk, fun k hk => ?_, fun k hk => ?_,
    fun p hp => (hi.unlisted p hp).1, hi.ownerNone, hi.ownerSome⟩
  · rw [hi.placed k]; exact count_eq_one_of_mem_nodup hi.setNodup hk
  · rw [hi.placed k]; exact List.count_eq_zero_of_not_mem hk

theorem task_placement_invariant_witness :
    Reachable Env.demo demoTwoBlocks ∧
      placedCount demoTwoBlocks ⟨⟨3, 33⟩, true⟩ = 1 ∧
      (demoTwoBlocks.taskAt ⟨⟨3, 33⟩, true⟩).m_pOwner = some 1 :=
  ⟨demoTwoBlocks_reachable,
    (task_placement_invariant Env.demo demoTwoBlocks demoTwoBlocks_reachable).2.1 _ (by decide),
    (task_placement_invariant Env.demo demoTwoBlocks demoTwoBlocks_reachable).2.2.2.2.2 1
      (by decide) _ (by decide)⟩

/-- C2: the code run on a concrete input.  One authenticated peer; the
processor asks for two blocks and prefers that peer both times.  The state is
reachable and the peer's task list holds two block tasks: `TryAssignTask` takes
the preferred peer without asking `ShouldAssignTask`. -/
theorem preferred_peer_two_blocks :
    Reachable Env.demo demoTwoBlocks ∧
      1 ∈ demoTwoBlocks.m_lstPeers ∧
      (demoTwoBlocks.peerAt 1).m_lstTasks = [⟨⟨3, 33⟩, true⟩, ⟨⟨4, 44⟩, true⟩] ∧
      ((demoTwoBlocks.peerAt 1).m_lstTasks.filter (fun k => k.second)).length = 2 ∧
      ShouldAssignTask Env.demo
        ((runOps Env.demo 4 demoPeer [.requestData ⟨3, 33⟩ true (some 5)]).getD demoPeer)
        ⟨⟨4, 44⟩, true⟩ 1 = false :=
  ⟨demoTwoBlocks_reachable, by decide, by decide, by decide, by decide⟩

theorem demoPack_reachable : Reachable Env.demo demoPack :=
  reachable_runOps 4 [.requestData ⟨10, 0⟩ false none] _ _ demoPeer_reachable rfl

theorem demoFresh_reachable : Reachable Env.demo demoFresh :=
  reachable_runOps 4 [.accept 7] _ _ (Reachable.init 100 200 none) rfl

theorem dec32_one : dec32 1 = 0 := by decide

/-- C3: in every reachable state both pack counters are at most 1 and each
equals the number of tasks of its kind marked `m_bPack`; an `AssignTask` that
marks its task as a pack found the header counter at zero and leaves it at one;
the release step of `ReleaseTask` clears the mark, takes one off the counter
when the released task was a pack and leaves the counters alone when it was
not. -/
theorem pack_counters_invariant (E : Env) (s : Node) (h : Reachable E s) :
    s.m_nTasksPackHdr ≤ 1 ∧ s.m_nTasksPackBody ≤ 1 ∧
    s.m_nTasksPackHdr =
      (s.m_setTasks.filter (fun k => !k.second && (s.taskAt k).m_bPack)).length ∧
    s.m_nTasksPackBody =
      (s.m_setTasks.filter (fun k => k.second && (s.taskAt k).m_bPack)).length ∧
    (∀ t p s1, t ∈ s.m_lstTasksUnassigned → AssignTask E s t p = .ok s1 →
      ((s1.taskAt t).m_bPack = true →
        t.second = false ∧ s.m_nTasksPackHdr = 0 ∧ s1.m_nTasksPackHdr = 1) ∧
      ((s1.taskAt t).m_bPack = false → s1.m_nTasksPackHdr = s.m_nTasksPackHdr) ∧
      s1.m_nTasksPackBody = s.m_nTasksPackBody) ∧
    (∀ p ∈ s.m_lstPeers, ∀ t ∈ (s.peerAt p).m_lstTasks,
      ((releaseToQueue s p t).taskAt t).m_bPack = false ∧
      ((s.taskAt t).m_bPack = true →
        (releaseToQueue s p t).m_nTasksPackHdr + (releaseToQueue s p t).m_nTasksPackBody + 1 =
          s.m_nTasksPackHdr + s.m_nTasksPackBody) ∧
      ((s.taskAt t).m_bPack = false →
        (releaseToQueue s p t).m_nTasksPackHdr = s.m_nTasksPackHdr ∧
        (releaseToQueue s p t).m_nTasksPackBody = s.m_nTasksPackBody)) := by
  have hi := reachable_inv h
  have hf1 : s.m_setTasks.filter (fun k => !k.second && (s.taskAt k).m_bPack) =
      s.m_setTasks.filter (fun k => (s.taskAt k).m_bPack) := by
    apply List.filter_congr
    intro k hk
    cases hb : k.second
    · simp
    · simp [hi.packBlock k hk hb]
  have hf2 : s.m_setTasks.filter (fun k => k.second && (s.taskAt k).m_bPack) = [] := by
    rw [List.filter_eq_nil_iff]
    intro k hk
    cases hb : k.second
    · simp
    · simp [hi.packBlock k hk hb]
  refine ⟨hi.packHdrLe, by rw [hi.packBody]; exact Nat.zero_le _, by rw [hf1]; exact hi.packHdr,
    by rw [hf2]; exact hi.packBody, ?_, ?_⟩
  · intro t p s1 ht ha
    have e := AssignTask_ok ha
    have hq := hi.packQueue t ht
    refine ⟨fun hp => ?_, fun hp => ?_, e.body⟩
    · rcases e.pack with ⟨h1, _⟩ | ⟨h1, h2, _, h4⟩
      · rw [h1, hq] at hp; cases hp
      · exact ⟨h1, h2, h4⟩
    · rcases e.pack with ⟨_, h2⟩ | ⟨_, _, h3, _⟩
      · exact h2
      · rw [h3] at hp; cases hp
  · intro p hp t ht
    have e := releaseToQueue_eff s p t
    have hset := (hi.of_mem_peer hp ht).2.1
    refine ⟨by rw [e.task], fun hpk => ?_, fun hpk => ?_⟩
    · have hs : t.second = false := by
        cases hb : t.second
        · rfl
        · rw [hi.packBlock t hset hb] at hpk; cases hpk
      have h1 := (filter_pack_single hi hset hpk).1
      rw [e.hdr, e.body, if_pos ⟨hpk, hs⟩, if_neg (by simp [hs]), h1, dec32_one]
      omega
    · rw [e.hdr, e.body, if_neg (by simp [hpk]), if_neg (by simp [hpk])]
      exact ⟨rfl, rfl⟩

theorem pack_counters_invariant_witness :
    Reachable Env.demo demoPack ∧ demoPack.m_nTasksPackHdr ≤ 1 ∧
      demoPack.m_nTasksPackHdr =
        (demoPack.m_setTasks.filter
          (fun k => !k.second && (demoPack.taskAt k).m_bPack)).length :=
  ⟨demoPack_reachable, (pack_counters_invariant Env.demo demoPack demoPack_reachable).1,
    (pack_counters_invariant Env.demo demoPack demoPack_reachable).2.2.1⟩

/-- C4: in every reachable state a peer without the `PiRcvd` flag has an empty
task list, and every way of choosing a peer for `AssignTask` (the preferred
peer or the scan of `TryAssignTask`, and `ShouldAssignTask` as `TakeTasks` and
the scan use it) yields only peers that have the flag. -/
theorem unauthenticated_peer_has_no_tasks (E : Env) (s : Node) (h : Reachable E s) :
    (∀ p, (s.peerAt p).m_Flags.PiRcvd = false → (s.peerAt p).m_lstTasks = []) ∧
    (∀ t pref p, selectPeer E s t pref = some p → (s.peerAt p).m_Flags.PiRcvd = true) ∧
    (∀ t p, ShouldAssignTask E s t p = true → (s.peerAt p).m_Flags.PiRcvd = true) := by
  have hi := reachable_inv h
  refine ⟨fun p hp => ?_, fun t pref p hs => (selectPeer_spec hi hs).2.1,
    fun t p hs => ((ShouldAssignTask_iff E s t p).mp hs).2.1⟩
  by_cases hl : p ∈ s.m_lstPeers
  · exact hi.auth p hl hp
  · exact (hi.unlisted p hl).1

theorem unauthenticated_peer_has_no_tasks_witness :
    Reachable Env.demo demoFresh ∧ (demoFresh.peerAt 1).m_Flags.PiRcvd = false ∧
      (demoFresh.peerAt 1).m_lstTasks = [] :=
  ⟨demoFresh_reachable, by decide,
    (unauthenticated_peer_has_no_tasks Env.demo demoFresh demoFresh_reachable).1 1 (by decide)⟩

/-- C5 fails as stated: a reachable state in which peer 1 has a tip above the
task, has `PiRcvd`, holds no block task and has rejected nothing, and
`ShouldAssignTask` is false, because the peer has no `m_pInfo`. -/
theorem ShouldAssignTask_needs_info :
    Reachable Env.noBye demoHalfAuth ∧
      (demoHalfAuth.peerAt 1).m_Tip.m_Height > 3 ∧
      (demoHalfAuth.peerAt 1).m_Flags.PiRcvd = true ∧
      (∀ k ∈ (demoHalfAuth.peerAt 1).m_lstTasks, k.second = false) ∧
      (⟨⟨3, 33⟩, false⟩ : TaskKey) ∉ (demoHalfAuth.peerAt 1).m_setRejected ∧
      ShouldAssignTask Env.noBye demoHalfAuth ⟨⟨3, 33⟩, false⟩ 1 = false :=
  ⟨demoHalfAuth_reachable, by decide, by decide, by decide, by decide, by decide⟩

/-- C5, amended: `ShouldAssignTask(t, p)` is true if and only if (1) the tip of
`p` is above the task, or at its height with the task's hash, (2) `p` has the
`PiRcvd` flag and a `m_pInfo`, (3) no task in the list of `p` is a block task,
(4) the key of `t` is not in the rejected set of `p`. -/
theorem ShouldAssignTask_true_iff (E : Env) (s : Node) (t : TaskKey) (p : PeerRef) :
    ShouldAssignTask E s t p = true ↔
      (((s.peerAt p).m_Tip.m_Height > t.first.m_Height ∨
          ((s.peerAt p).m_Tip.m_Height = t.first.m_Height ∧
            E.get_Hash (s.peerAt p).m_Tip = t.first.m_Hash)) ∧
        ((s.peerAt p).m_Flags.PiRcvd = true ∧ (s.peerAt p).m_pInfo ≠ none) ∧
        (∀ k ∈ (s.peerAt p).m_lstTasks, k.second = false) ∧
        t ∉ (s.peerAt p).m_setRejected) := by
  rw [ShouldAssignTask_iff]
  constructor
  · rintro ⟨h1, h2, h3, h4, h5⟩; exact ⟨h1, ⟨h2, h3⟩, h4, h5⟩
  · rintro ⟨h1, ⟨h2, h3⟩, h4, h5⟩; exact ⟨h1, h2, h3, h4, h5⟩

theorem Inv.placed_cases {s : Node} (h : Inv s) {k : TaskKey} (hk : k ∈ s.m_setTasks) :
    k ∈ s.m_lstTasksUnassigned ∨ ∃ q ∈ s.m_lstPeers, k ∈ (s.peerAt q).m_lstTasks := by
  by_cases hq : k ∈ s.m_lstTasksUnassigned
  · exact Or.inl hq
  · right
    by_contra hno
    have h1 := h.placed k
    rw [count_eq_one_of_mem_nodup h.setNodup hk] at h1
    unfold placedCount at h1
    rw [List.count_eq_zero_of_not_mem hq] at h1
    have hz : (s.m_lstPeers.map (fun p => (s.peerAt p).m_lstTasks.count k)).sum = 0 := by
      apply List.sum_eq_zero
      intro x hx
      obtain ⟨q, hq1, rfl⟩ := List.mem_map.mp hx
      exact List.count_eq_zero_of_not_mem (fun hm => hno ⟨q, hq1, hm⟩)
    omega

theorem Inv.owner_ne_of_not_listed {s : Node} (h : Inv s) {P : PeerRef} (hP : P ∉ s.m_lstPeers)
    {k : TaskKey} (hk : k ∈ s.m_setTasks) : (s.taskAt k).m_pOwner ≠ some P := by
  rcases h.placed_cases hk with hq | ⟨q, hq, hm⟩
  · rw [h.ownerNone k hq]; simp
  · rw [h.ownerSome q hq k hm]
    intro e
    cases e
    exact hP hq

theorem demoTwoPeers_reachable : Reachable Env.demo demoTwoPeers :=
  reachable_runOps 4 demoTwoPeersOps _ _ (Reachable.init 100 200 none) rfl

theorem demoHandover_eq : DeleteSelf Env.demo 6 demoTwoPeers 1 false none = .ok demoHandover :=
  rfl

/-- C6 (amended): task release on peer death.  `T` is a task of height at
least 1 in the list of peer `P` in a reachable state, and `DeleteSelf` on `P`
returns.  If `T` was not relevant it is no longer in `m_setTasks`.  If it was
relevant, either it is in the list of, and owned by, a peer `Q` other than `P`
that satisfied `ShouldAssignTask(T, Q)` before the call, no peer before `Q` in
`m_lstPeers` being eligible for `T` after it (the peers whose send failed are
gone from the list), or `T` is in the unassigned queue with no owner and no
peer is eligible for it in the state after the call: eligibility is read when
`T` is offered, after the tasks of `P` before it were handed on.  `P` is gone,
`T` is not in its list and not owned by it.  The release step gives back the
pack slot `T` held.  With all tasks at height at least 1, `DeleteSelf` does
return or throw once the budget reaches the bound. -/
theorem task_release_on_peer_death (E : Env) (s : Node) (P : PeerRef) (T : TaskKey) (b : Bool)
    (r : Option ByeReason) (h : Reachable E s) (hT : T ∈ (s.peerAt P).m_lstTasks)
    (hh : 1 ≤ T.first.m_Height) :
    (∀ n s', DeleteSelf E n s P b r = .ok s' →
      ((s.taskAt T).m_bRelevant = false → T ∉ s'.m_setTasks) ∧
      ((s.taskAt T).m_bRelevant = true →
        (∃ Q, Q ≠ P ∧ Q ∈ s'.m_lstPeers ∧ ShouldAssignTask E s T Q = true ∧
            (∀ Q', Before Q' Q s'.m_lstPeers → ShouldAssignTask E s' T Q' = false) ∧
            T ∈ (s'.peerAt Q).m_lstTasks ∧ (s'.taskAt T).m_pOwner = some Q) ∨
        (NoElig E s' T ∧ T ∈ s'.m_lstTasksUnassigned ∧ (s'.taskAt T).m_pOwner = none)) ∧
      P ∉ s'.m_lstPeers ∧ T ∉ (s'.peerAt P).m_lstTasks ∧
      (T ∈ s'.m_setTasks → (s'.taskAt T).m_pOwner ≠ some P)) ∧
    ((s.taskAt T).m_bPack = true →
      ((releaseToQueue s P T).taskAt T).m_bPack = false ∧
      (releaseToQueue s P T).m_nTasksPackHdr + (releaseToQueue s P T).m_nTasksPackBody + 1 =
        s.m_nTasksPackHdr + s.m_nTasksPackBody) ∧
    (HeightsPos s → ∀ n, (liveCount s + 1) * (s.m_setTasks.length + 4) ≤ n →
      DeleteSelf E n s P b r ≠ .out) := by
  have hi := reachable_inv h
  have hP : P ∈ s.m_lstPeers := hi.listed_of_mem hT
  obtain ⟨_, hTset, hTq⟩ := hi.of_mem_peer hP hT
  refine ⟨fun n s' hd => ?_, fun hpk => ?_, fun hp n hn => DeleteSelf_term E s P b r hi hp n hn⟩
  · obtain ⟨hpost, hgone⟩ := (sched_post E n).2.2.2 s P b r hi
    have hpost := hpost.of_ok hd
    have hgone := hgone s' hd
    obtain ⟨hho, hqn⟩ := (sched_handover E n).2.2.2 s P b r s' hi hd
    have hkr := ((sched_keepRel E n).2.2.2 s P b r hi).of_ok hd
    have hi' := hpost.inv
    have hlist : ∀ Q, T ∈ (s.peerAt Q).m_lstTasks → Q = P := fun Q hQ =>
      hi.two_peers (hi.listed_of_mem hQ) hP hQ hT
    refine ⟨fun hirr hset => ?_, fun hrel => ?_, hgone, ?_,
      fun hset => hi'.owner_ne_of_not_listed hgone hset⟩
    · rcases hi'.placed_cases hset with hq | ⟨Q, hQ, hm⟩
      · rcases hho.queueIrr T hq with h1 | h1
        · exact hTq h1
        · rw [hirr] at h1; cases h1
      · have := hlist Q (hho.irr T Q hirr hm)
        exact hgone (this ▸ hQ)
    · have hset : T ∈ s'.m_setTasks := (hkr T).2 hrel hTset
      rcases hi'.placed_cases hset with hq | ⟨Q, hQ, hm⟩
      · exact Or.inr ⟨hqn T hh hq (Or.inl hTq), hq, hi'.ownerNone T hq⟩
      · left
        have hQP : Q ≠ P := fun e => hgone (e ▸ hQ)
        rcases hho.fresh T Q hh hm with h1 | ⟨h1, h2⟩
        · exact absurd (hlist Q h1) hQP
        · exact ⟨Q, hQP, hQ, h1, h2, hm, hi'.ownerSome Q hQ T hm⟩
    · rw [(hi'.unlisted P hgone).1]; simp
  · have e := releaseToQueue_eff s P T
    have hs : T.second = false := by
      cases hb : T.second
      · rfl
      · rw [hi.packBlock T hTset hb] at hpk; cases hpk
    have h1 := (filter_pack_single hi hTset hpk).1
    refine ⟨by rw [e.task], ?_⟩
    rw [e.hdr, e.body, if_pos ⟨hpk, hs⟩, if_neg (by simp [hs]), h1, dec32_one]
    omega

theorem task_release_on_peer_death_witness :
    Reachable Env.demo demoTwoPeers ∧
      (⟨⟨3, 33⟩, true⟩ : TaskKey) ∈ (demoTwoPeers.peerAt 1).m_lstTasks ∧
      1 ∉ demoHandover.m_lstPeers ∧
      (⟨⟨3, 33⟩, true⟩ : TaskKey) ∉ (demoHandover.peerAt 1).m_lstTasks :=
  ⟨demoTwoPeers_reachable, by decide,
    ((task_release_on_peer_death Env.demo demoTwoPeers 1 ⟨⟨3, 33⟩, true⟩ false none
      demoTwoPeers_reachable (by decide) (by decide)).1 6 demoHandover demoHandover_eq).2.2.1,
    ((task_release_on_peer_death Env.demo demoTwoPeers 1 ⟨⟨3, 33⟩, true⟩ false none
      demoTwoPeers_reachable (by decide) (by decide)).1 6 demoHandover demoHandover_eq).2.2.2.1⟩

/-- C7: when `DeleteSelf` on peer `P` returns, `P` is not in `m_lstPeers`, no
task of `m_setTasks` has owner `P`, the task list and the subscription set of
`P` are empty, the index `m_Subscribed` holds no subscription of `P`, and no
entry of the peer manager has `m_pLive = P`.  With all tasks at height at
least 1, `DeleteSelf` does return or throw once the budget reaches the
bound. -/
theorem DeleteSelf_leaves_no_reference (E : Env) (s : Node) (P : PeerRef) (b : Bool)
    (r : Option ByeReason) (h : Reachable E s) :
    (∀ n s', DeleteSelf E n s P b r = .ok s' →
      P ∉ s'.m_lstPeers ∧
      (∀ k ∈ s'.m_setTasks, (s'.taskAt k).m_pOwner ≠ some P) ∧
      (s'.peerAt P).m_lstTasks = [] ∧
      (s'.peerAt P).m_Subscriptions = [] ∧
      (∀ c, (⟨c, P⟩ : Subscription) ∉ s'.m_Subscribed) ∧
      (∀ i ∈ s'.m_Infos, (s'.infoAt i).m_pLive ≠ some P)) ∧
    (HeightsPos s → ∀ n, (liveCount s + 1) * (s.m_setTasks.length + 4) ≤ n →
      DeleteSelf E n s P b r ≠ .out) := by
  have hi := reachable_inv h
  refine ⟨fun n s' hd => ?_, fun hp n hn => DeleteSelf_term E s P b r hi hp n hn⟩
  obtain ⟨hpost, hgone⟩ := (sched_post E n).2.2.2 s P b r hi
  have hi' := (hpost.of_ok hd).inv
  have hgone := hgone s' hd
  exact ⟨hgone, fun k hk => hi'.owner_ne_of_not_listed hgone hk, (hi'.unlisted P hgone).1,
    (hi'.unlisted P hgone).2, fun c hc => hgone (hi'.subsPeer c P hc).1,
    fun i hi2 hl => hgone (hi'.live i hi2 P hl).1⟩

theorem DeleteSelf_leaves_no_reference_witness :
    Reachable Env.demo demoTwoPeers ∧ 1 ∉ demoHandover.m_lstPeers ∧
      (∀ i ∈ demoHandover.m_Infos, (demoHandover.infoAt i).m_pLive ≠ some 1) :=
  ⟨demoTwoPeers_reachable,
    ((DeleteSelf_leaves_no_reference Env.demo demoTwoPeers 1 false none
      demoTwoPeers_reachable).1 6 demoHandover demoHandover_eq).1,
    ((DeleteSelf_leaves_no_reference Env.demo demoTwoPeers 1 false none
      demoTwoPeers_reachable).1 6 demoHandover demoHandover_eq).2.2.2.2.2⟩

theorem Res.node?_exc {e : Exc} {s s' : Node} (h : (Res.exc e s).node? = some s') : s' = s := by
  simp only [Res.node?, Option.some.injEq] at h
  exact h.symm

/-- C9: chain-response validation.  If the task list of the peer is empty, or
its front task is not a header task that is not a pack with the ID of the
header, `OnMsg(Hdr)` throws a protocol violation and leaves the state as it
was; the same for `OnMsg(HdrPack)` unless the front task is a header task
marked as a pack, and for `OnMsg(Body)` unless the front task is a block task
that is not a pack.  Hence whenever a handler leaves a state with another
record of processor calls, its condition held; and when the condition of `Hdr`
or `Body` holds the handler records the call and goes on. -/
theorem chain_response_validation (E : Env) (fuel : Nat) (s : Node) (p : PeerRef) (d : Full)
    (pack : List (Full × DataStatus)) (st : DataStatus) (walk : List ProcCall) :
    ((¬ ∃ t rest, (s.peerAt p).m_lstTasks = t :: rest ∧ t.second = false ∧
          (s.taskAt t).m_bPack = false ∧ get_ID E d = t.first) →
        OnMsg_Hdr E fuel s p d st walk = .exc .unexpected s) ∧
    ((¬ ∃ t rest, (s.peerAt p).m_lstTasks = t :: rest ∧ t.second = false ∧
          (s.taskAt t).m_bPack = true) →
        OnMsg_HdrPack E fuel s p pack walk = .exc .unexpected s) ∧
    ((¬ ∃ t rest, (s.peerAt p).m_lstTasks = t :: rest ∧ t.second = true ∧
          (s.taskAt t).m_bPack = false) →
        OnMsg_Body E fuel s p st walk = .exc .unexpected s) ∧
    (∀ s', (OnMsg_Hdr E fuel s p d st walk).node? = some s' → procCalls s' ≠ procCalls s →
      ∃ t rest, (s.peerAt p).m_lstTasks = t :: rest ∧ t.second = false ∧
        (s.taskAt t).m_bPack = false ∧ get_ID E d = t.first) ∧
    (∀ s', (OnMsg_HdrPack E fuel s p pack walk).node? = some s' → procCalls s' ≠ procCalls s →
      ∃ t rest, (s.peerAt p).m_lstTasks = t :: rest ∧ t.second = false ∧
        (s.taskAt t).m_bPack = true) ∧
    (∀ s', (OnMsg_Body E fuel s p st walk).node? = some s' → procCalls s' ≠ procCalls s →
      ∃ t rest, (s.peerAt p).m_lstTasks = t :: rest ∧ t.second = true ∧
        (s.taskAt t).m_bPack = false) ∧
    (∀ t rest, (s.peerAt p).m_lstTasks = t :: rest → t.second = false →
      (s.taskAt t).m_bPack = false → get_ID E d = t.first →
      OnMsg_Hdr E fuel s p d st walk =
        OnFirstTaskDoneStatus E fuel
          ((rewardPeer E s p E.RewardHeader).log
            (.onState d (peerKey (rewardPeer E s p E.RewardHeader) p))) p st walk) ∧
    (∀ t rest, (s.peerAt p).m_lstTasks = t :: rest → t.second = true →
      (s.taskAt t).m_bPack = false →
      OnMsg_Body E fuel s p st walk =
        OnFirstTaskDoneStatus E fuel
          ((rewardPeer E s p E.RewardBlock).log
            (.onBlock t.first (peerKey (rewardPeer E s p E.RewardBlock) p))) p st walk) := by
  have hH : (¬ ∃ t rest, (s.peerAt p).m_lstTasks = t :: rest ∧ t.second = false ∧
        (s.taskAt t).m_bPack = false ∧ get_ID E d = t.first) →
      OnMsg_Hdr E fuel s p d st walk = .exc .unexpected s := by
    intro hg
    unfold OnMsg_Hdr
    cases hl : (s.peerAt p).m_lstTasks with
    | nil => rfl
    | cons t rest =>
      simp only []
      by_cases h1 : t.second = true ∨ (s.taskAt t).m_bPack = true
      · rw [if_pos h1]
      · rw [if_neg h1]
        by_cases h2 : get_ID E d ≠ t.first
        · rw [if_pos h2]
        · exfalso
          apply hg
          refine ⟨t, rest, hl, ?_, ?_, not_not.mp h2⟩
          · cases hb : t.second
            · rfl
            · exact absurd (Or.inl hb) h1
          · cases hb : (s.taskAt t).m_bPack
            · rfl
            · exact absurd (Or.inr hb) h1
  have hP : (¬ ∃ t rest, (s.peerAt p).m_lstTasks = t :: rest ∧ t.second = false ∧
        (s.taskAt t).m_bPack = true) →
      OnMsg_HdrPack E fuel s p pack walk = .exc .unexpected s := by
    intro hg
    unfold OnMsg_HdrPack
    cases hl : (s.peerAt p).m_lstTasks with
    | nil => rfl
    | cons t rest =>
      simp only []
      by_cases h1 : t.second = true ∨ (!(s.taskAt t).m_bPack) = true
      · rw [if_pos h1]
      · exfalso
        apply hg
        refine ⟨t, rest, hl, ?_, ?_⟩
        · cases hb : t.second
          · rfl
          · exact absurd (Or.inl hb) h1
        · cases hb : (s.taskAt t).m_bPack
          · exact absurd (Or.inr (by rw [hb]; rfl)) h1
          · rfl
  have hB : (¬ ∃ t rest, (s.peerAt p).m_lstTasks = t :: rest ∧ t.second = true ∧
        (s.taskAt t).m_bPack = false) →
      OnMsg_Body E fuel s p st walk = .exc .unexpected s := by
    intro hg
    unfold OnMsg_Body
    cases hl : (s.peerAt p).m_lstTasks with
    | nil => rfl
    | cons t rest =>
      simp only []
      by_cases h1 : (!t.second) = true ∨ (s.taskAt t).m_bPack = true
      · rw [if_pos h1]
      · exfalso
        apply hg
        refine ⟨t, rest, hl, ?_, ?_⟩
        · cases hb : t.second
          · exact absurd (Or.inl (by rw [hb]; rfl)) h1
          · rfl
        · cases hb : (s.taskAt t).m_bPack
          · rfl
          · exact absurd (Or.inr hb) h1
  refine ⟨hH, hP, hB, fun s' hs' hne => ?_, fun s' hs' hne => ?_, fun s' hs' hne => ?_,
    fun t rest hl h1 h2 h3 => ?_, fun t rest hl h1 h2 => ?_⟩
  · by_contra hg
    rw [hH hg] at hs'
    exact hne (by rw [Res.node?_exc hs'])
  · by_contra hg
    rw [hP hg] at hs'
    exact hne (by rw [Res.node?_exc hs'])
  · by_contra hg
    rw [hB hg] at hs'
    exact hne (by rw [Res.node?_exc hs'])
  · unfold OnMsg_Hdr
    rw [hl]
    simp only []
    rw [if_neg (by simp [h1, h2]), if_neg (by simp [h3])]
  · unfold OnMsg_Body
    rw [hl]
    simp only []
    rw [if_neg (by simp [h1, h2])]

theorem SetTimer_fields (E : Env) (s : Node) (p : PeerRef) :
    (SetTimerWrtFirstTask E s p).taskAt = s.taskAt ∧
    (SetTimerWrtFirstTask E s p).m_setTasks = s.m_setTasks ∧
    (SetTimerWrtFirstTask E s p).m_lstTasksUnassigned = s.m_lstTasksUnassigned ∧
    (SetTimerWrtFirstTask E s p).m_lstPeers = s.m_lstPeers ∧
    ∀ q, ((SetTimerWrtFirstTask E s p).peerAt q).m_lstTasks = (s.peerAt q).m_lstTasks ∧
      ((SetTimerWrtFirstTask E s p).peerAt q).m_setRejected = (s.peerAt q).m_setRejected := by
  have key : ∀ tm : Option Nat,
      ∀ q, ((s.setPeer p (fun x => { x with m_Timer := tm })).peerAt q).m_lstTasks =
          (s.peerAt q).m_lstTasks ∧
        ((s.setPeer p (fun x => { x with m_Timer := tm })).peerAt q).m_setRejected =
          (s.peerAt q).m_setRejected := by
    intro tm q
    by_cases hq : q = p
    · subst hq; simp [Node.setPeer]
    · simp [Node.setPeer, Function.update, hq]
  unfold SetTimerWrtFirstTask
  split
  · exact ⟨rfl, rfl, rfl, rfl, key _⟩
  · exact ⟨rfl, rfl, rfl, rfl, key _⟩

theorem errorsOf_append {s s' : Node} {l : List Event} (j : InfoRef)
    (ht : s'.trace = s.trace ++ l) (hl : ∀ e ∈ l, e.isErrorOf j = false) :
    errorsOf j s' = errorsOf j s := by
  unfold errorsOf
  rw [ht, List.filter_append]
  have : l.filter (Event.isErrorOf j) = [] := by
    rw [List.filter_eq_nil_iff]
    intro e he
    rw [hl e he]; simp
  rw [this, List.append_nil]

theorem untouched_refl (s : Node) (j : InfoRef) : Untouched s s j := ⟨rfl, rfl⟩

theorem untouched_trans {a b c : Node} {j : InfoRef} (h1 : Untouched a b j)
    (h2 : Untouched b c j) : Untouched a c j :=
  ⟨h2.1.trans h1.1, h2.2.trans h1.2⟩

theorem untouched_of {s s' : Node} {j : InfoRef} {l : List Event}
    (hi : s'.infoAt j = s.infoAt j) (ht : s'.trace = s.trace ++ l)
    (hl : ∀ e ∈ l, e.isErrorOf j = false) : Untouched s s' j :=
  ⟨by rw [hi], errorsOf_append j ht hl⟩

theorem untouched_of_neutral {s s' : Node} (n : Neutral s s') (j : InfoRef) :
    Untouched s s' j := by
  obtain ⟨l, hl, hs⟩ := n.trace
  refine untouched_of (by rw [n.infoAt]) hl (fun e he => ?_)
  obtain ⟨q, m, rfl⟩ := hs e he
  rfl

theorem startDelete_info {E : Env} {s s1 : Node} {p : PeerRef} {r : Option ByeReason}
    (h : startDelete E s p r = .ok s1) :
    s1.infoAt = s.infoAt ∧ s1.m_lstPeers = s.m_lstPeers ∧ s1.m_Infos = s.m_Infos ∧
      (∀ q, q ≠ p → s1.peerAt q = s.peerAt q) ∧
      ∃ l, s1.trace = s.trace ++ l ∧ (∀ e ∈ l, ∃ q m, e = Event.sent q m) ∧
        ∀ reason, r = some reason → (s.peerAt p).m_Flags.Connected = true →
          Event.sent p (.Bye reason) ∈ l := by
  unfold startDelete at h
  have key : ∀ (s0 : Node) (l : List Event), s0.infoAt = s.infoAt → s0.m_lstPeers = s.m_lstPeers →
      s0.m_Infos = s.m_Infos → s0.peerAt = s.peerAt → s0.trace = s.trace ++ l →
      s1 = s0.setPeer p (fun x => { x with m_Tip := Full.zero }) →
      s1.infoAt = s.infoAt ∧ s1.m_lstPeers = s.m_lstPeers ∧ s1.m_Infos = s.m_Infos ∧
        (∀ q, q ≠ p → s1.peerAt q = s.peerAt q) ∧ s1.trace = s.trace ++ l := by
    intro s0 l h1 h2 h3 h4 h5 h6
    subst h6
    refine ⟨h1, h2, h3, fun q hq => ?_, h5⟩
    simp [Node.setPeer, Function.update, hq, h4]
  cases r with
  | none =>
    simp only [Res.bind] at h
    cases h
    obtain ⟨a, b, c, d, e⟩ := key s [] rfl rfl rfl rfl (by simp) rfl
    exact ⟨a, b, c, d, [], e, by simp, fun reason hr => by cases hr⟩
  | some reason =>
    simp only [] at h
    by_cases hc : (s.peerAt p).m_Flags.Connected = true
    · rw [if_pos hc] at h
      obtain ⟨s0, h0, h1⟩ := Res.bind_eq_ok h
      obtain ⟨_, rfl⟩ := Send_ok h0
      cases h1
      obtain ⟨a, b, c, d, e⟩ := key (s.log (.sent p (.Bye reason))) [.sent p (.Bye reason)]
        rfl rfl rfl rfl rfl rfl
      refine ⟨a, b, c, d, [.sent p (.Bye reason)], e, ?_, ?_⟩
      · intro e he
        simp only [List.mem_singleton] at he
        exact ⟨p, .Bye reason, he⟩
      · intro reason' hr _
        cases hr
        simp
    · rw [if_neg hc] at h
      simp only [Res.bind] at h
      cases h
      obtain ⟨a, b, c, d, e⟩ := key s [] rfl rfl rfl rfl (by simp) rfl
      exact ⟨a, b, c, d, [], e, by simp, fun _ _ hcc => absurd hcc hc⟩

theorem unsubscribeLoop_info (p : PeerRef) :
    ∀ (L : List Channel) (s : Node),
      (unsubscribeLoop p L s).infoAt = s.infoAt ∧ (unsubscribeLoop p L s).trace = s.trace ∧
      (unsubscribeLoop p L s).m_lstPeers = s.m_lstPeers ∧
      ∀ q, ((unsubscribeLoop p L s).peerAt q).m_pInfo = (s.peerAt q).m_pInfo := by
  intro L
  induction L with
  | nil => intro s; exact ⟨rfl, rfl, rfl, fun _ => rfl⟩
  | cons c L ih =>
    intro s
    rw [unsubscribeLoop]
    obtain ⟨a, b, c', d⟩ := ih (UnsubscribeOne s p c)
    refine ⟨a, b, c', fun q => (d q).trans ?_⟩
    by_cases hq : q = p
    · subst hq; simp [UnsubscribeOne, Node.setPeer]
    · simp [UnsubscribeOne, Node.setPeer, Function.update, hq]

theorem detachInfo_info (E : Env) (s : Node) (p : PeerRef) (b : Bool) (r : Option ByeReason) :
    (detachInfo E s p b r).peerAt = s.peerAt ∧
    (detachInfo E s p b r).m_lstPeers = s.m_lstPeers ∧
    (∀ j, (s.peerAt p).m_pInfo ≠ some j → (detachInfo E s p b r).infoAt j = s.infoAt j) ∧
    (b = false → ∀ j, ((detachInfo E s p b r).infoAt j).m_RawRating = (s.infoAt j).m_RawRating) ∧
    ∃ l, (detachInfo E s p b r).trace = s.trace ++ l ∧
      ∀ e ∈ l, ∀ j, e.isErrorOf j = true → b = true ∧ (s.peerAt p).m_pInfo = some j := by
  unfold detachInfo
  cases hsome : (s.peerAt p).m_pInfo with
  | none =>
    exact ⟨rfl, rfl, fun _ _ => rfl, fun _ _ => rfl, [], by simp, by simp⟩
  | some i =>
    simp only []
    by_cases hb : b = true
    · rw [if_pos hb]
      refine ⟨rfl, rfl, fun j hj => ?_, fun hb' => (by rw [hb] at hb'; cases hb'),
        [.onActive i false, .onRemoteError i (r == some .Ban)], ?_, ?_⟩
      · have hji : j ≠ i := fun e => hj (by rw [e])
        simp [OnRemoteError, OnActive, Node.setInfo, Node.log, Function.update, hji]
      · simp [OnRemoteError, OnActive, Node.setInfo, Node.log]
      · intro e he j hje
        simp only [List.mem_cons, List.mem_singleton, List.not_mem_nil, or_false] at he
        rcases he with he | he
        · subst he; simp [Event.isErrorOf] at hje
        · subst he
          simp only [Event.isErrorOf, beq_iff_eq] at hje
          exact ⟨hb, by rw [hje]⟩
    · rw [if_neg hb]
      refine ⟨rfl, rfl, fun j hj => ?_, fun _ j => ?_, [.onActive i false], rfl, ?_⟩
      · have hji : j ≠ i := fun e => hj (by rw [e])
        simp [OnActive, Node.setInfo, Node.log, Function.update, hji]
      · by_cases hji : j = i
        · subst hji; simp [OnActive, Node.setInfo, Node.log]
        · simp [OnActive, Node.setInfo, Node.log, Function.update, hji]
      · intro e he j hje
        simp only [List.mem_singleton] at he
        subst he
        simp [Event.isErrorOf] at hje

theorem finishDelete_info {E : Env} {s s3 : Node} {p : PeerRef} {b : Bool}
    {r : Option ByeReason} (h : finishDelete E s p b r = .ok s3) :
    s3.m_lstPeers = s.m_lstPeers.erase p ∧
    (∀ j, (s.peerAt p).m_pInfo ≠ some j → s3.infoAt j = s.infoAt j) ∧
    (∀ j, (s.peerAt p).m_pInfo ≠ some j → Untouched s s3 j) ∧
    (b = false → ∀ j, Untouched s s3 j) := by
  unfold finishDelete at h
  obtain ⟨s2, h2, h3⟩ := Res.bind_eq_ok h
  cases h3
  have hn : Neutral (detachInfo E (Unsubscribe s p) p b r) s2 :=
    ((releaseSyncSlot_neutral E _ p).1).of_ok h2
  obtain ⟨u1, u2, u3, u4⟩ := unsubscribeLoop_info p (s.peerAt p).m_Subscriptions s
  obtain ⟨d1, d2, d3, d4, l, d5, d6⟩ := detachInfo_info E (Unsubscribe s p) p b r
  have hpi : ((Unsubscribe s p).peerAt p).m_pInfo = (s.peerAt p).m_pInfo := u4 p
  obtain ⟨l2, hl2, hs2⟩ := hn.trace
  have htr : s2.trace = s.trace ++ (l ++ l2) := by
    rw [hl2, d5]
    show (unsubscribeLoop p (s.peerAt p).m_Subscriptions s).trace ++ l ++ l2 = _
    rw [u2, List.append_assoc]
  have hinfo : ∀ j, (s.peerAt p).m_pInfo ≠ some j → s2.infoAt j = s.infoAt j := by
    intro j hj
    rw [hn.infoAt, d3 j (by rw [hpi]; exact hj)]
    show (unsubscribeLoop p (s.peerAt p).m_Subscriptions s).infoAt j = _
    rw [u1]
  refine ⟨?_, hinfo, fun j hj => ?_, fun hb j => ?_⟩
  · show s2.m_lstPeers.erase p = _
    rw [hn.peers, d2]
    show (unsubscribeLoop p (s.peerAt p).m_Subscriptions s).m_lstPeers.erase p = _
    rw [u3]
  · refine untouched_of (l := l ++ l2) (hinfo j hj) htr (fun e he => ?_)
    rcases List.mem_append.mp he with he | he
    · cases hx : e.isErrorOf j with
      | false => rfl
      | true => exact absurd (by rw [← hpi]; exact (d6 e he j hx).2) hj
    · obtain ⟨q, m, rfl⟩ := hs2 e he
      rfl
  · refine ⟨?_, errorsOf_append (l := l ++ l2) j htr (fun e he => ?_)⟩
    · show (s2.infoAt j).m_RawRating = _
      rw [hn.infoAt, d4 hb j]
      show ((unsubscribeLoop p (s.peerAt p).m_Subscriptions s).infoAt j).m_RawRating = _
      rw [u1]
    · rcases List.mem_append.mp he with he | he
      · cases hx : e.isErrorOf j with
        | false => rfl
        | true => rw [hb] at d6; exact absurd (d6 e he j hx).1 (by simp)
      · obtain ⟨q, m, rfl⟩ := hs2 e he
        rfl

/-- The same as `sched_rel2` with the whole of `DeleteSelf` left to one
hypothesis, for a peer of `m_lstPeers` with a tip above 0. -/
theorem sched_rel4 (E : Env) (G : Node → Prop) (R : Node → Node → Prop)
    (hGI : ∀ s, G s → Inv s)
    (hG : ∀ s s', G s → Inv s' → Frame s s' → G s')
    (hrefl : ∀ s, R s s)
    (htrans : ∀ a b c, Frame a b → Frame b c → R a b → R b c → R a c)
    (hassign : ∀ s s1 t p, G s → AssignEff E s s1 t p → R s s1)
    (hrelq : ∀ s p t, R s (releaseToQueue s p t))
    (hdel : ∀ s t, R s (DeleteUnassignedTask s t))
    (hdelete : ∀ s s1 s2 s3 p b r, G s → p ∈ s.m_lstPeers → (s.peerAt p).m_Tip.m_Height ≠ 0 →
      startDelete E s p r = .ok s1 → Frame s s1 → Frame s1 s2 → R s1 s2 →
      finishDelete E s2 p b r = .ok s3 → Frame s2 s3 → R s s3)
    (hsel : ∀ s t p, G s → t ∈ s.m_lstTasksUnassigned →
      s.m_lstPeers.find? (fun q => ShouldAssignTask E s t q) = some p →
      (s.peerAt p).m_Tip.m_Height ≠ 0) :
    ∀ n : Nat,
      (∀ s t s', G s → t ∈ s.m_lstTasksUnassigned →
        TryAssignTask E n s t none = .ok s' → R s s') ∧
      (∀ s p t rest s', G s → (s.peerAt p).m_lstTasks = t :: rest →
        ReleaseTask E n s p t = .ok s' → R s s') ∧
      (∀ s p s', G s → ReleaseTasks E n s p = .ok s' → R s s') ∧
      (∀ s p b r s', G s → p ∈ s.m_lstPeers → (s.peerAt p).m_Tip.m_Height ≠ 0 →
        DeleteSelf E n s p b r = .ok s' → R s s') := by
  intro n
  induction n with
  | zero =>
    refine ⟨?_, ?_, ?_, ?_⟩
    · intro s t s' _ _ h; simp [TryAssignTask] at h
    · intro s p t rest s' _ _ h; simp [ReleaseTask] at h
    · intro s p s' _ h; simp [ReleaseTasks] at h
    · intro s p b r s' _ _ _ h; simp [DeleteSelf] at h
  | succ n ih =>
    obtain ⟨ihT, ihR, ihRs, ihD⟩ := ih
    refine ⟨?_, ?_, ?_, ?_⟩
    · intro s t s' hg ht hr
      have hi := hGI s hg
      rw [TryAssignTask] at hr
      cases hsel' : selectPeer E s t none with
      | none =>
        rw [hsel'] at hr
        cases hr
        exact hrefl s
      | some p =>
        rw [hsel'] at hr
        simp only [] at hr
        have hfind : s.m_lstPeers.find? (fun q => ShouldAssignTask E s t q) = some p := hsel'
        cases ha : AssignTask E s t p with
        | ok s1 =>
          rw [ha] at hr
          cases hr
          exact hassign s s' t p hg (AssignTask_ok ha)
        | out => exact absurd ha AssignTask_ne_out
        | exc e s1 =>
          rw [ha] at hr
          simp only [] at hr
          have := AssignTask_exc ha
          subst this
          obtain ⟨s2, hd, hr2⟩ := Res.bind_eq_ok hr
          have hp2 := ((sched_post E n).2.2.2 s1 p true (some .Ban) hi).1.of_ok hd
          have ht2 := hp2.queue t (fun hf => hf) ht
          have hp3 := ((sched_post E n).1 s2 t none hp2.inv ht2).of_ok hr2
          exact htrans s1 s2 s' hp2.frame hp3.frame
            (ihD s1 p true (some .Ban) s2 hg (find?_mem hfind).1 (hsel s1 t p hg ht hfind) hd)
            (ihT s2 t s' (hG _ _ hg hp2.inv hp2.frame) ht2 hr2)
    · intro s p t rest s' hg hl hr
      have hi := hGI s hg
      rw [ReleaseTask] at hr
      have e := releaseToQueue_eff s p t
      have h1 := Post.post_release hi hl
      have ht1 : t ∈ (releaseToQueue s p t).m_lstTasksUnassigned := by rw [e.un]; simp
      split at hr
      · have hp3 := ((sched_post E n).1 _ t none h1.inv ht1).of_ok hr
        exact htrans _ _ _ h1.frame hp3.frame (hrelq s p t)
          (ihT _ t s' (hG _ _ hg h1.inv h1.frame) ht1 hr)
      · cases hr
        exact htrans _ _ _ h1.frame (Frame.frame_deleteUnassigned _ t) (hrelq s p t) (hdel _ t)
    · intro s p s' hg hr
      have hi := hGI s hg
      rw [ReleaseTasks] at hr
      cases hl : (s.peerAt p).m_lstTasks with
      | nil => rw [hl] at hr; cases hr; exact hrefl s
      | cons t rest =>
        rw [hl] at hr
        simp only [] at hr
        obtain ⟨s1, h1, h2⟩ := Res.bind_eq_ok hr
        have hp1 := ((sched_post E n).2.1 s p t rest hi hl).of_ok h1
        have hp2 := ((sched_post E n).2.2.1 s1 p hp1.inv).1.of_ok h2
        exact htrans s s1 s' hp1.frame hp2.frame (ihR s p t rest s1 hg hl h1)
          (ihRs s1 p s' (hG _ _ hg hp1.inv hp1.frame) h2)
    · intro s p b r s' hg hp htip hr
      have hi := hGI s hg
      rw [DeleteSelf] at hr
      obtain ⟨s1, h1, hr1⟩ := Res.bind_eq_ok hr
      obtain ⟨s2, h2, h3⟩ := Res.bind_eq_ok hr1
      have hp1 : Post (fun _ => False) (fun _ => False) s s1 :=
        (startDelete_post (E := E) hi p r).1.of_ok h1
      have hrs := (sched_post E n).2.2.1 s1 p hp1.inv
      have hp2 : Post (fun _ => False) (fun _ => False) s1 s2 := hrs.1.of_ok h2
      have hp3 := (finishDelete_post (E := E) hp2.inv p b r (hrs.2 s2 h2)).1.of_ok h3
      exact hdelete s s1 s2 s' p b r hg hp htip h1 hp1.frame hp2.frame
        (ihRs s1 p s2 (hG _ _ hg hp1.inv hp1.frame) h2) h3 hp3.frame

theorem Frame.tip_zero {s s' : Node} (hf : Frame s s') {q : PeerRef}
    (h : (s.peerAt q).m_Tip.m_Height = 0) : (s'.peerAt q).m_Tip.m_Height = 0 := by
  by_contra hne
  exact hf.tip_height q hne h

theorem Frame.tip_same {s s' : Node} (hf : Frame s s') {q : PeerRef}
    (h : (s'.peerAt q).m_Tip.m_Height ≠ 0) : (s.peerAt q).m_Tip = (s'.peerAt q).m_Tip := by
  rcases (hf.peer q).2.2.2.2.2 with e | e
  · exact e.symm
  · rw [e] at h; exact absurd rfl h

theorem infoRel_trans {a b c : Node} (hab : Frame a b) (hbc : Frame b c) (h1 : InfoRel a b)
    (h2 : InfoRel b c) : InfoRel a c := by
  intro j
  rcases h1 j with u1 | ⟨q, hq, hi, ht, hz⟩
  · rcases h2 j with u2 | ⟨q, hq, hi, ht, hz⟩
    · exact Or.inl (untouched_trans u1 u2)
    · refine Or.inr ⟨q, hab.peers.subset hq, ?_, ?_, hz⟩
      · rw [← (hab.peer q).2.2.1]; exact hi
      · rw [hab.tip_same ht]; exact ht
  · exact Or.inr ⟨q, hq, hi, ht, hbc.tip_zero hz⟩

theorem sched_info (E : Env) (n : Nat) :
    (∀ s t s', Inv s ∧ HeightsPos s → t ∈ s.m_lstTasksUnassigned →
      TryAssignTask E n s t none = .ok s' → InfoRel s s') ∧
    (∀ s p t rest s', Inv s ∧ HeightsPos s → (s.peerAt p).m_lstTasks = t :: rest →
      ReleaseTask E n s p t = .ok s' → InfoRel s s') ∧
    (∀ s p s', Inv s ∧ HeightsPos s → ReleaseTasks E n s p = .ok s' → InfoRel s s') ∧
    (∀ s p b r s', Inv s ∧ HeightsPos s → p ∈ s.m_lstPeers →
      (s.peerAt p).m_Tip.m_Height ≠ 0 → DeleteSelf E n s p b r = .ok s' → InfoRel s s') := by
  refine sched_rel4 E (fun s => Inv s ∧ HeightsPos s) InfoRel (fun _ h => h.1)
    (fun _ _ h hi hf => ⟨hi, h.2.heights_frame hf⟩) (fun s j => Or.inl (untouched_refl s j))
    (fun a b c hab hbc h1 h2 => infoRel_trans hab hbc h1 h2) ?_ ?_ ?_ ?_ ?_ n
  · intro s s1 t p _ e j
    obtain ⟨m, _, hm⟩ := e.trace
    exact Or.inl (untouched_of (by rw [e.infoAt]) hm (fun x hx => by
      simp only [List.mem_singleton] at hx
      subst hx; rfl))
  · intro s p t j
    have e := releaseToQueue_eff s p t
    exact Or.inl ⟨by rw [e.infoAt], by unfold errorsOf; rw [e.trace]⟩
  · intro s t j
    exact Or.inl ⟨rfl, rfl⟩
  · intro s s1 s2 s3 p b r _ hp htip h1 hf1 hf2 hr h3 hf3 j
    obtain ⟨a1, a2, _, a4, l, a5, a6, _⟩ := startDelete_info h1
    have u1 : Untouched s s1 j := untouched_of (by rw [a1]) a5 (fun x hx => by
      obtain ⟨q, m, rfl⟩ := a6 x hx; rfl)
    obtain ⟨_, _, f3, _⟩ := finishDelete_info h3
    have hz1 : (s1.peerAt p).m_Tip.m_Height = 0 := by rw [(startDelete_tip h1).1]; rfl
    have hpi : (s2.peerAt p).m_pInfo = (s.peerAt p).m_pInfo := by
      rw [(hf2.peer p).2.2.1, (hf1.peer p).2.2.1]
    rcases hr j with u2 | ⟨q, hq, hi, ht, hz⟩
    · by_cases hj : (s.peerAt p).m_pInfo = some j
      · exact Or.inr ⟨p, hp, hj, htip, hf3.tip_zero (hf2.tip_zero hz1)⟩
      · exact Or.inl (untouched_trans (untouched_trans u1 u2) (f3 j (by rw [hpi]; exact hj)))
    · have hqp : q ≠ p := fun e => ht (e ▸ hz1)
      refine Or.inr ⟨q, a2 ▸ hq, ?_, ?_, hf3.tip_zero hz⟩
      · rw [← a4 q hqp]; exact hi
      · rw [← a4 q hqp]; exact ht
  · intro s t p hg ht hfind
    have htip := ShouldAssignTask_tip (find?_mem hfind).2
    have hth := hg.2 t (hg.1.of_mem_queue ht).2.1
    omega

theorem OnPeer_set (E : Env) (s : Node) (id : PeerID) (addr : Nat) (v : Bool) :
    (OnPeer E s id addr v).1.m_setTasks = s.m_setTasks := by
  unfold OnPeer
  simp only []
  cases Find s id with
  | some i =>
    simp only []
    split <;> rfl
  | none =>
    simp only []
    split <;> rfl

theorem authDetach_set (s : Node) (p : PeerRef) (i : InfoRef) :
    (authDetach s p i).m_setTasks = s.m_setTasks ∧
      (authDetach s p i).m_MyPublicID = s.m_MyPublicID ∧
      ((authDetach s p i).peerAt p).m_lstTasks = (s.peerAt p).m_lstTasks := by
  unfold authDetach
  simp only []
  split
  · exact ⟨rfl, rfl, by simp [Node.setPeer, PeerManDelete, Node.setInfo]⟩
  · exact ⟨rfl, rfl, by simp [Node.setPeer, RemoveAddr, OnActive, Node.setInfo, Node.log]⟩

theorem authBegin_spec {E : Env} {s sA : Node} {p : PeerRef} {id : PeerID} (h : Inv s)
    (hp : p ∈ s.m_lstPeers) (hA : authBegin s p id = some sA) :
    Inv sA ∧ p ∈ sA.m_lstPeers ∧ (sA.peerAt p).m_pInfo = none ∧
      sA.m_setTasks = s.m_setTasks ∧ sA.m_MyPublicID = s.m_MyPublicID ∧
      (sA.peerAt p).m_lstTasks = [] ∧
      ∀ n, OnMsg_Authentication E n s p id .Node = authResolve E n sA p id := by
  unfold authBegin at hA
  by_cases hc : (s.peerAt p).m_Flags.PiRcvd = true ∨ id = 0
  · rw [if_pos hc] at hA; cases hA
  · rw [if_neg hc] at hA
    simp only [] at hA
    have hpi : (s.peerAt p).m_Flags.PiRcvd = false := by
      cases hx : (s.peerAt p).m_Flags.PiRcvd
      · rfl
      · exact absurd (Or.inl hx) hc
    have hl0 : (s.peerAt p).m_lstTasks = [] := h.auth p hp hpi
    have h1 : Inv (s.setPeer p (fun x =>
        { x with m_Flags := { x.m_Flags with PiRcvd := true } })) :=
      h.setPeer p _ (fun _ => ⟨rfl, rfl, rfl, fun _ => rfl⟩)
    have hl1 : ((s.setPeer p (fun x =>
        { x with m_Flags := { x.m_Flags with PiRcvd := true } })).peerAt p).m_lstTasks = [] := by
      simp [Node.setPeer, hl0]
    have hlink : ∀ n, OnMsg_Authentication E n s p id .Node = authNode E n s p id := by
      intro n
      unfold OnMsg_Authentication
      simp
    cases hm : ((s.setPeer p (fun x =>
        { x with m_Flags := { x.m_Flags with PiRcvd := true } })).peerAt p).m_pInfo with
    | none =>
      rw [hm] at hA
      simp only [Option.some.injEq] at hA
      subst hA
      refine ⟨h1, hp, hm, rfl, rfl, hl1, fun n => ?_⟩
      rw [hlink]
      unfold authNode
      rw [if_neg hc]
      simp only []
      rw [hm]
    | some i0 =>
      rw [hm] at hA
      simp only [] at hA
      by_cases hid : ((s.setPeer p (fun x =>
          { x with m_Flags := { x.m_Flags with PiRcvd := true } })).infoAt i0).m_ID = id
      · rw [if_pos hid] at hA; cases hA
      · rw [if_neg hid] at hA
        simp only [Option.some.injEq] at hA
        subst hA
        obtain ⟨d1, d2, d3⟩ := authDetach_inv h1 (p := p) (i := i0) hp hm
        obtain ⟨e1, e2, e3⟩ := authDetach_set (s.setPeer p (fun x =>
          { x with m_Flags := { x.m_Flags with PiRcvd := true } })) p i0
        refine ⟨d1, d2, d3, e1, e2, by rw [e3]; exact hl1, fun n => ?_⟩
        rw [hlink]
        unfold authNode
        rw [if_neg hc]
        simp only []
        rw [hm]
        simp only []
        rw [if_neg hid]

theorem authOnPeer_spec {E : Env} {sA s2 : Node} {p : PeerRef} {id : PeerID} {i : InfoRef}
    (h : Inv sA) (hO : authOnPeer E sA p id = (s2, i)) :
    Inv s2 ∧ s2.peerAt = sA.peerAt ∧ s2.m_lstPeers = sA.m_lstPeers ∧ i ∈ s2.m_Infos ∧
      s2.m_MyPublicID = sA.m_MyPublicID ∧ s2.m_setTasks = sA.m_setTasks := by
  unfold authOnPeer at hO
  simp only [] at hO
  have hs := OnPeer_spec (E := E) h id
    (if decide ((sA.peerAt p).m_Port > 0) = true then
      E.withPort (sA.peerAt p).m_RemoteAddr (sA.peerAt p).m_Port else 0)
    (decide ((sA.peerAt p).m_Port > 0))
  have hset := OnPeer_set E sA id
    (if decide ((sA.peerAt p).m_Port > 0) = true then
      E.withPort (sA.peerAt p).m_RemoteAddr (sA.peerAt p).m_Port else 0)
    (decide ((sA.peerAt p).m_Port > 0))
  rw [hO] at hs hset
  exact ⟨hs.1, hs.2.1, hs.2.2.1, hs.2.2.2.1, hs.2.2.2.2, hset⟩

theorem authResolve_eq {E : Env} {sA s2 : Node} {p : PeerRef} {id : PeerID} {i : InfoRef}
    (hloop : id ≠ sA.m_MyPublicID) (hO : authOnPeer E sA p id = (s2, i)) (n : Nat) :
    authResolve E n sA p id =
      match (s2.infoAt i).m_pLive with
      | some old =>
        if s2.m_MyPublicID > id then
          (DeleteSelf E n s2 old false (some .Duplicate)).bind fun s3 => authAttach E n s3 p i
        else DeleteSelf E n s2 p false (some .Duplicate)
      | none => authAttach E n s2 p i := by
  unfold authResolve
  rw [if_neg hloop]
  unfold authOnPeer at hO
  simp only [] at hO ⊢
  rw [hO]

theorem Frame.trace_mem {s s' : Node} (hf : Frame s s') {e : Event} (he : e ∈ s.trace) :
    e ∈ s'.trace := by
  obtain ⟨l, hl, _⟩ := hf.trace
  rw [hl]
  exact List.mem_append_left _ he

/-- The old session of a peer-database entry is deleted as a duplicate. -/
theorem duplicate_old_deleted {E : Env} {s2 s3 : Node} {p old : PeerRef} {i : InfoRef} {n : Nat}
    (h : Inv s2) (hpos : HeightsPos s2) (hp : p ∈ s2.m_lstPeers)
    (hnone : (s2.peerAt p).m_pInfo = none) (hi : i ∈ s2.m_Infos)
    (hlive : (s2.infoAt i).m_pLive = some old)
    (honly : ∀ q ∈ s2.m_lstPeers, (s2.peerAt q).m_pInfo = some i → q = old)
    (hd : DeleteSelf E n s2 old false (some .Duplicate) = .ok s3) :
    Inv s3 ∧ old ∉ s3.m_lstPeers ∧ p ∈ s3.m_lstPeers ∧ (s3.peerAt p).m_pInfo = none ∧
      (s3.infoAt i).m_pLive = none ∧ Untouched s2 s3 i ∧
      ((s2.peerAt old).m_Flags.Connected = true →
        Event.sent old (.Bye .Duplicate) ∈ s3.trace) := by
  obtain ⟨hold, hback⟩ := h.live i hi old hlive
  have hpost := ((sched_post E n).2.2.2 s2 old false (some .Duplicate) h).1.of_ok hd
  have hgone := ((sched_post E n).2.2.2 s2 old false (some .Duplicate) h).2 s3 hd
  have hpo : p ≠ old := fun e => by rw [e, hback] at hnone; cases hnone
  have hp3 : p ∈ s3.m_lstPeers := hpost.keep p hpo hp hnone
  have hn3 : (s3.peerAt p).m_pInfo = none := by rw [(hpost.frame.peer p).2.2.1]; exact hnone
  have hl3 : (s3.infoAt i).m_pLive = none := by
    rcases (hpost.frame.info i).2 with e | e
    · exfalso
      rw [hlive] at e
      exact hgone (hpost.inv.live i (hpost.frame.infos ▸ hi) old e).1
    · exact e
  -- the three parts of the deletion
  obtain ⟨m, rfl⟩ : ∃ m, n = m + 1 := by
    cases n with
    | zero => simp [DeleteSelf] at hd
    | succ m => exact ⟨m, rfl⟩
  rw [DeleteSelf] at hd
  obtain ⟨s2a, h1, hr1⟩ := Res.bind_eq_ok hd
  obtain ⟨s2b, h2, h3⟩ := Res.bind_eq_ok hr1
  have hp1 : Post (fun _ => False) (fun _ => False) s2 s2a :=
    (startDelete_post (E := E) h old (some .Duplicate)).1.of_ok h1
  have hrs := (sched_post E m).2.2.1 s2a old hp1.inv
  have hp2 : Post (fun _ => False) (fun _ => False) s2a s2b := hrs.1.of_ok h2
  have hp3' := (finishDelete_post (E := E) hp2.inv old false (some .Duplicate)
    (hrs.2 s2b h2)).1.of_ok h3
  obtain ⟨a1, a2, _, a4, l, a5, a6, a7⟩ := startDelete_info h1
  have u1 : Untouched s2 s2a i := untouched_of (by rw [a1]) a5 (fun x hx => by
    obtain ⟨q, mm, rfl⟩ := a6 x hx; rfl)
  have hz1 : (s2a.peerAt old).m_Tip.m_Height = 0 := by rw [(startDelete_tip h1).1]; rfl
  have u2 : Untouched s2a s2b i := by
    rcases (sched_info E m).2.2.1 s2a old s2b ⟨hp1.inv, hpos.heights_frame hp1.frame⟩ h2 i
      with u | ⟨q, hq, hqi, ht, _⟩
    · exact u
    · exfalso
      have hq2 : q ∈ s2.m_lstPeers := a2 ▸ hq
      have hqi2 : (s2.peerAt q).m_pInfo = some i := by
        rw [← (hp1.frame.peer q).2.2.1]; exact hqi
      have := honly q hq2 hqi2
      subst this
      exact ht hz1
  have u3 : Untouched s2b s3 i := (finishDelete_info h3).2.2.2 rfl i
  refine ⟨hpost.inv, hgone, hp3, hn3, hl3, untouched_trans (untouched_trans u1 u2) u3,
    fun hc => ?_⟩
  have hm : Event.sent old (.Bye .Duplicate) ∈ s2a.trace := by
    rw [a5]; exact List.mem_append_right _ (a7 .Duplicate rfl hc)
  exact hp3'.frame.trace_mem (hp2.frame.trace_mem hm)

/-- The new session is deleted as a duplicate. -/
theorem duplicate_new_deleted {E : Env} {s2 s3 : Node} {p old : PeerRef} {i : InfoRef} {n : Nat}
    (h : Inv s2) (hp : p ∈ s2.m_lstPeers) (hnone : (s2.peerAt p).m_pInfo = none)
    (hl : (s2.peerAt p).m_lstTasks = []) (hi : i ∈ s2.m_Infos)
    (hlive : (s2.infoAt i).m_pLive = some old)
    (hd : DeleteSelf E n s2 p false (some .Duplicate) = .ok s3) :
    p ∉ s3.m_lstPeers ∧ old ∈ s3.m_lstPeers ∧ (s3.peerAt old).m_pInfo = some i ∧
      (s3.infoAt i).m_pLive = some old ∧ Untouched s2 s3 i ∧
      ((s2.peerAt p).m_Flags.Connected = true →
        Event.sent p (.Bye .Duplicate) ∈ s3.trace) := by
  obtain ⟨hold, hback⟩ := h.live i hi old hlive
  have hpost := ((sched_post E n).2.2.2 s2 p false (some .Duplicate) h).1.of_ok hd
  have hgone := ((sched_post E n).2.2.2 s2 p false (some .Duplicate) h).2 s3 hd
  have hpo : old ≠ p := fun e => by rw [← e, hback] at hnone; cases hnone
  obtain ⟨m, rfl⟩ : ∃ m, n = m + 1 := by
    cases n with
    | zero => simp [DeleteSelf] at hd
    | succ m => exact ⟨m, rfl⟩
  rw [DeleteSelf] at hd
  obtain ⟨s2a, h1, hr1⟩ := Res.bind_eq_ok hd
  obtain ⟨s2b, h2, h3⟩ := Res.bind_eq_ok hr1
  obtain ⟨a1, a2, _, a4, l, a5, a6, a7⟩ := startDelete_info h1
  have hl2a : (s2a.peerAt p).m_lstTasks = [] := by rw [(startDelete_tip h1).2 p]; exact hl
  have hsame : s2b = s2a := by
    cases m with
    | zero => simp [ReleaseTasks] at h2
    | succ k =>
      rw [ReleaseTasks, hl2a] at h2
      simp only [Res.ok.injEq] at h2
      exact h2.symm
  subst hsame
  have hp1 : Post (fun _ => False) (fun _ => False) s2 s2b :=
    (startDelete_post (E := E) h p (some .Duplicate)).1.of_ok h1
  have hp3' := (finishDelete_post (E := E) hp1.inv p false (some .Duplicate) hl2a).1.of_ok h3
  obtain ⟨f1, f2, _, f4⟩ := finishDelete_info h3
  have hinfo : s3.infoAt i = s2.infoAt i := by
    rw [f2 i (by rw [(hp1.frame.peer p).2.2.1, hnone]; simp), a1]
  have hl3 : (s3.infoAt i).m_pLive = some old := by rw [hinfo]; exact hlive
  have hold3 : old ∈ s3.m_lstPeers := by
    rw [f1, a2]
    exact (List.mem_erase_of_ne hpo).mpr hold
  have u1 : Untouched s2 s2b i := untouched_of (by rw [a1]) a5 (fun x hx => by
    obtain ⟨q, mm, rfl⟩ := a6 x hx; rfl)
  refine ⟨hgone, hold3, (hpost.inv.live i (hpost.frame.infos ▸ hi) old hl3).2, hl3,
    untouched_trans u1 (f4 rfl i), fun hc => ?_⟩
  have hm : Event.sent p (.Bye .Duplicate) ∈ s2b.trace := by
    rw [a5]; exact List.mem_append_right _ (a7 .Duplicate rfl hc)
  exact hp3'.frame.trace_mem hm

theorem authAttach_ok {E : Env} {s : Node} {p : PeerRef} {i : InfoRef} (n : Nat)
    (hr : (s.infoAt i).m_RawRating ≠ 0) :
    ∃ s', authAttach E n s p i = .ok s' ∧ s'.m_lstPeers = s.m_lstPeers ∧
      (s'.infoAt i).m_pLive = some p ∧ (s'.peerAt p).m_pInfo = some i ∧
      (s'.infoAt i).m_RawRating = (s.infoAt i).m_RawRating ∧
      s'.trace = s.trace ++ [.onActive i true, .onSeen i] := by
  unfold authAttach
  rw [if_neg hr]
  refine ⟨_, rfl, rfl, ?_, ?_, ?_, ?_⟩
  · simp [OnSeen, OnActive, Node.log, Node.setInfo, Node.setPeer]
  · simp [OnSeen, OnActive, Node.log, Node.setInfo, Node.setPeer]
  · simp [OnSeen, OnActive, Node.log, Node.setInfo, Node.setPeer]
  · simp [OnSeen, OnActive, Node.log, Node.setInfo, Node.setPeer]

theorem demoDup_reachable : Reachable Env.demo demoDup :=
  reachable_runOps 4 demoDupOps _ _ (Reachable.init 100 200 none) rfl

theorem demoDupDone_eq : OnMsg_Authentication Env.demo 6 demoDup 2 5 .Node = .ok demoDupDone :=
  rfl

theorem demoBanned_reachable : Reachable Env.demo demoBanned :=
  reachable_runOps 4 demoBannedOps _ _ (Reachable.init 100 200 none) rfl

theorem noSessionLeft_spec {r : Res} (h : noSessionLeft r = true) :
    ∃ s', r = .ok s' ∧ (s'.infoAt 1).m_pLive = none ∧ s'.m_lstPeers = [] := by
  cases r with
  | ok s' =>
    simp only [noSessionLeft, Bool.and_eq_true, decide_eq_true_eq] at h
    exact ⟨s', rfl, h.1, h.2⟩
  | exc e s' => simp [noSessionLeft] at h
  | out => simp [noSessionLeft] at h

set_option maxHeartbeats 4000000 in
theorem demoBanned_noSessionLeft :
    noSessionLeft (OnMsg_Authentication Env.demo 3 demoBanned 2 5 .Node) = true := by
  decide

/-- C8 fails as stated: a reachable state in which the entry of node 5 is
banned and has the live session 1 (the peer was banned and the peer manager
activated its entry).  Peer 2 authenticates as node 5 and the local ID 100 is
the greater: the old session is deleted as a duplicate, and then the new one
is deleted as banned, so no session is attached to the entry. -/
theorem duplicate_of_banned_entry :
    Reachable Env.demo demoBanned ∧ 2 ∈ demoBanned.m_lstPeers ∧
      authBegin demoBanned 2 5 = some demoBannedA ∧ 5 ≠ demoBannedA.m_MyPublicID ∧
      (authOnPeer Env.demo demoBannedA 2 5).2 = 1 ∧
      ((authOnPeer Env.demo demoBannedA 2 5).1.infoAt 1).m_pLive = some 1 ∧
      ((authOnPeer Env.demo demoBannedA 2 5).1.infoAt 1).m_RawRating = 0 ∧
      demoBanned.m_MyPublicID > 5 ∧
      ∃ s', OnMsg_Authentication Env.demo 3 demoBanned 2 5 .Node = .ok s' ∧
        (s'.infoAt 1).m_pLive = none ∧ s'.m_lstPeers = [] :=
  ⟨demoBanned_reachable, by decide, rfl, by decide, by decide, by decide, by decide, by decide,
    noSessionLeft_spec demoBanned_noSessionLeft⟩

/-- C8, amended: duplicate-connection arbitration.  A Node-type
`Authentication` with remote ID `id` from session `p` resolves to the entry `i`
that is not banned and has the live session `old`, the only session of
`m_lstPeers` that points to it; all tasks are for heights of at least 1.  When
the handler returns: if the local public ID is greater than `id`, `old` is
deleted (the `Bye` with reason `Duplicate` is sent if it is connected) and `p`
is the attached live session; otherwise `p` is deleted with reason
`Duplicate` and `old` stays attached.  In both cases the entry has one live
session, which points back to it, the other session is gone, and the entry has
the rating it had and no new `OnRemoteError`.  The handler does return or
throw once the budget reaches the bound. -/
theorem duplicate_connection_arbitration (E : Env) (s sA s2 : Node) (p old : PeerRef)
    (id : PeerID) (i : InfoRef) (h : Reachable E s) (hp : p ∈ s.m_lstPeers)
    (hA : authBegin s p id = some sA) (hloop : id ≠ sA.m_MyPublicID)
    (hO : authOnPeer E sA p id = (s2, i)) (hlive : (s2.infoAt i).m_pLive = some old)
    (hban : (s2.infoAt i).m_RawRating ≠ 0)
    (honly : ∀ q ∈ s2.m_lstPeers, (s2.peerAt q).m_pInfo = some i → q = old)
    (hpos : HeightsPos s) :
    (∀ n s', OnMsg_Authentication E n s p id .Node = .ok s' →
      (s'.infoAt i).m_RawRating = (s2.infoAt i).m_RawRating ∧ errorsOf i s' = errorsOf i s2 ∧
      (s.m_MyPublicID > id →
        old ∉ s'.m_lstPeers ∧
        ((s2.peerAt old).m_Flags.Connected = true →
          Event.sent old (.Bye .Duplicate) ∈ s'.trace) ∧
        p ∈ s'.m_lstPeers ∧ (s'.infoAt i).m_pLive = some p ∧ (s'.peerAt p).m_pInfo = some i) ∧
      (¬ s.m_MyPublicID > id →
        p ∉ s'.m_lstPeers ∧
        ((s2.peerAt p).m_Flags.Connected = true →
          Event.sent p (.Bye .Duplicate) ∈ s'.trace) ∧
        old ∈ s'.m_lstPeers ∧ (s'.infoAt i).m_pLive = some old ∧
        (s'.peerAt old).m_pInfo = some i)) ∧
    (∀ n, (liveCount s2 + 1) * (s2.m_setTasks.length + 4) ≤ n →
      OnMsg_Authentication E n s p id .Node ≠ .out) := by
  have hi := reachable_inv h
  obtain ⟨hiA, hpA, hnA, hsetA, hidA, hlA, hlink⟩ := authBegin_spec (E := E) hi hp hA
  obtain ⟨hi2, hpe2, hpl2, hin2, hid2, hset2⟩ := authOnPeer_spec hiA hO
  have hmy : s2.m_MyPublicID = s.m_MyPublicID := hid2.trans hidA
  have hpos2 : HeightsPos s2 := fun k hk => hpos k (by rw [← hsetA, ← hset2]; exact hk)
  have hp2 : p ∈ s2.m_lstPeers := by rw [hpl2]; exact hpA
  have hn2 : (s2.peerAt p).m_pInfo = none := by rw [hpe2]; exact hnA
  have hl2 : (s2.peerAt p).m_lstTasks = [] := by rw [hpe2]; exact hlA
  have heq : ∀ n, OnMsg_Authentication E n s p id .Node =
      if s2.m_MyPublicID > id then
        (DeleteSelf E n s2 old false (some .Duplicate)).bind fun s3 => authAttach E n s3 p i
      else DeleteSelf E n s2 p false (some .Duplicate) := by
    intro n
    rw [hlink, authResolve_eq hloop hO, hlive]
  refine ⟨fun n s' hr => ?_, fun n hn => ?_⟩
  · rw [heq] at hr
    by_cases hgt : s2.m_MyPublicID > id
    · rw [if_pos hgt] at hr
      obtain ⟨s3, hd, ha⟩ := Res.bind_eq_ok hr
      obtain ⟨_, d2, d3, _, _, d6, d7⟩ :=
        duplicate_old_deleted hi2 hpos2 hp2 hn2 hin2 hlive honly hd
      obtain ⟨s4, a0, a1, a2, a3, a4, a5⟩ := authAttach_ok (E := E) (p := p) n
        (show (s3.infoAt i).m_RawRating ≠ 0 by rw [d6.1]; exact hban)
      rw [a0] at ha
      cases ha
      refine ⟨a4.trans d6.1, ?_, fun _ => ⟨by rw [a1]; exact d2, fun hc => ?_,
        by rw [a1]; exact d3, a2, a3⟩, fun hle => absurd (hmy ▸ hgt) hle⟩
      · rw [← d6.2]
        exact errorsOf_append i a5 (fun e he => by
          simp only [List.mem_cons, List.mem_singleton, List.not_mem_nil, or_false] at he
          rcases he with he | he <;> subst he <;> rfl)
      · rw [a5]
        exact List.mem_append_left _ (d7 hc)
    · rw [if_neg hgt] at hr
      obtain ⟨e1, e2, e3, e4, e5, e6⟩ := duplicate_new_deleted hi2 hp2 hn2 hl2 hin2 hlive hr
      exact ⟨e5.1, e5.2, fun hg => absurd (hmy ▸ hg) hgt, fun _ => ⟨e1, e6, e2, e4, e3⟩⟩
  · rw [heq]
    split
    · refine Res.bind_ne_out (DeleteSelf_term E s2 old false _ hi2 hpos2 n hn) (fun s3 hd => ?_)
      obtain ⟨_, _, _, _, _, d6, _⟩ :=
        duplicate_old_deleted hi2 hpos2 hp2 hn2 hin2 hlive honly hd
      obtain ⟨s4, a0, _⟩ := authAttach_ok (E := E) (p := p) n
        (show (s3.infoAt i).m_RawRating ≠ 0 by rw [d6.1]; exact hban)
      rw [a0]; simp
    · exact DeleteSelf_term E s2 p false _ hi2 hpos2 n hn

theorem duplicate_connection_arbitration_witness :
    Reachable Env.demo demoDup ∧ authOnPeer Env.demo demoDupA 2 5 = (demoDup2, 1) ∧
      (demoDup2.infoAt 1).m_pLive = some 1 ∧ demoDup.m_MyPublicID > 5 ∧
      1 ∉ demoDupDone.m_lstPeers ∧ 2 ∈ demoDupDone.m_lstPeers ∧
      (demoDupDone.infoAt 1).m_pLive = some 2 ∧ (demoDupDone.peerAt 2).m_pInfo = some 1 :=
  ⟨demoDup_reachable, rfl, by decide, by decide,
    ((((duplicate_connection_arbitration Env.demo demoDup demoDupA demoDup2 2 1 5 1
      demoDup_reachable (by decide) rfl (by decide) rfl (by decide) (by decide) (by decide)
      (by unfold HeightsPos; decide)).1 6 demoDupDone demoDupDone_eq).2.2.1) (by decide)).1,
    ((((duplicate_connection_arbitration Env.demo demoDup demoDupA demoDup2 2 1 5 1
      demoDup_reachable (by decide) rfl (by decide) rfl (by decide) (by decide) (by decide)
      (by unfold HeightsPos; decide)).1 6 demoDupDone demoDupDone_eq).2.2.1) (by decide)).2.2⟩

/-! ## The registry of requested items -/

theorem sub32_of_le {a b : Nat} (ha : a < 2 ^ 32) (hb : b ≤ a) : sub32 a b = a - b := by
  unfold sub32
  rw [Nat.mod_eq_of_lt ha, Nat.mod_eq_of_lt (lt_of_le_of_lt hb ha)]
  have h : a + (2 ^ 32 - b) = (a - b) + 2 ^ 32 := by omega
  rw [h, Nat.add_mod_right]
  exact Nat.mod_eq_of_lt (by omega)

/-- C11: `Wanted::Add(key)` returns false and leaves the registry as it is if
the key is in the set; otherwise it returns true, appends the one item (key,
time of the call) at the tail of the list, keeps the items that were there in
their order, reports nothing as expired, and starts the timer exactly when the
list was empty before the call (with the timeout less the time since the item
was advertised); with a list that was not empty the timer is left alone. -/
theorem Wanted_Add_contract (clk : Nat → Nat) (timeout_ms : Nat) (w : Wanted) (key : Nat) :
    ((∃ n ∈ w.m_set, n.m_Key = key) → w.Add clk timeout_ms key = (false, w)) ∧
    ((∀ n ∈ w.m_set, n.m_Key ≠ key) →
      (w.Add clk timeout_ms key).1 = true ∧
      (w.Add clk timeout_ms key).2.m_lst = w.m_lst ++ [⟨key, clk w.reads % 2 ^ 32⟩] ∧
      (w.Add clk timeout_ms key).2.m_set = w.m_set ++ [⟨key, clk w.reads % 2 ^ 32⟩] ∧
      (w.Add clk timeout_ms key).2.expired = w.expired ∧
      (w.m_lst = [] → (w.Add clk timeout_ms key).2.m_pTimer =
        some (some (wantedDelay timeout_ms (clk (w.reads + 1)) (clk w.reads % 2 ^ 32)))) ∧
      (w.m_lst ≠ [] → (w.Add clk timeout_ms key).2.m_pTimer = w.m_pTimer)) := by
  constructor
  · rintro ⟨n, hn, hk⟩
    unfold Wanted.Add
    cases hf : w.m_set.find? (fun n => n.m_Key == key) with
    | some _ => rfl
    | none =>
      have := List.find?_eq_none.1 hf n hn
      simp [hk] at this
  · intro h
    have hf : w.m_set.find? (fun n => n.m_Key == key) = none := by
      rw [List.find?_eq_none]
      intro n hn
      simpa using h n hn
    unfold Wanted.Add
    rw [hf]
    cases hl : w.m_lst with
    | nil => simp [Wanted.SetTimer, wantedDelay]
    | cons a l => simp

/-- Deleting the front item: the rest stays, and the timer is started for the
next item, or stopped if there is none. -/
theorem Delete_front (now timeout_ms : Nat) (w : Wanted) (n : WantedItem) (rest : List WantedItem)
    (hl : w.m_lst = n :: rest) :
    (Wanted.Delete (fun _ => now) timeout_ms w n).m_lst = rest ∧
      (Wanted.Delete (fun _ => now) timeout_ms w n).expired = w.expired ∧
      (Wanted.Delete (fun _ => now) timeout_ms w n).m_set = w.m_set.erase n ∧
      (match rest with
       | [] => ∀ ms, (Wanted.Delete (fun _ => now) timeout_ms w n).m_pTimer ≠ some (some ms)
       | m :: _ => (Wanted.Delete (fun _ => now) timeout_ms w n).m_pTimer =
          some (some (wantedDelay timeout_ms now m.m_Advertised_ms))) := by
  unfold Wanted.Delete Wanted.DeleteInternal Wanted.SetTimer
  simp only [hl, List.head?_cons, decide_True, if_true, List.erase_cons_head]
  cases rest with
  | nil =>
    cases hpt : w.m_pTimer with
    | none => simp [hpt]
    | some x => simp [hpt]
  | cons m r => simp [wantedDelay]

/-- In a list in the order of advertisement, the front item is due as soon
as some item is. -/
theorem due_head (now timeout_ms : Nat) (n : WantedItem) (rest : List WantedItem)
    (hs : (n :: rest).Pairwise (fun a b => a.m_Advertised_ms ≤ b.m_Advertised_ms))
    (hne : (n :: rest).filter (fun n => decide (timeout_ms ≤ now - n.m_Advertised_ms)) ≠ []) :
    timeout_ms ≤ now - n.m_Advertised_ms := by
  by_contra hd
  apply hne
  rw [List.filter_eq_nil_iff]
  intro m hm
  simp only [decide_eq_true_eq]
  rcases List.mem_cons.1 hm with rfl | hm
  · exact hd
  · have := List.rel_of_pairwise_cons hs hm
    omega

/-- The loop of `OnTimer` under a clock that stands at `now`, on a list in the
order of advertisement, when every call of `OnExpired` it makes returns. -/
theorem expireLoop_spec (now timeout_ms : Nat) (ok : Nat → Bool) (hnow : now < 2 ^ 32) :
    ∀ (l : List WantedItem) (fuel : Nat) (w : Wanted), w.m_lst = l → l.length ≤ fuel →
      l.Pairwise (fun a b => a.m_Advertised_ms ≤ b.m_Advertised_ms) →
      (∀ n ∈ l, n.m_Advertised_ms ≤ now) →
      (∀ k, k < (l.filter (fun n => decide (timeout_ms ≤ now - n.m_Advertised_ms))).length →
        ok (w.expired.length + k) = true) →
      ∃ w', Wanted.expireLoop (fun _ => now) ok timeout_ms now fuel w = .ok w' ∧
        w'.m_lst = l.filter (fun n => decide (now - n.m_Advertised_ms < timeout_ms)) ∧
        w'.expired =
          w.expired ++
            (l.filter (fun n => decide (timeout_ms ≤ now - n.m_Advertised_ms))).map
              (fun n => n.m_Key) ∧
        w'.m_set =
          (l.filter (fun n => decide (timeout_ms ≤ now - n.m_Advertised_ms))).foldl
            List.erase w.m_set ∧
        (l.filter (fun n => decide (timeout_ms ≤ now - n.m_Advertised_ms)) = [] →
          w'.m_pTimer = w.m_pTimer) ∧
        (l.filter (fun n => decide (timeout_ms ≤ now - n.m_Advertised_ms)) ≠ [] →
          match w'.m_lst with
          | [] => ∀ ms, w'.m_pTimer ≠ some (some ms)
          | n :: _ => w'.m_pTimer = some (some (timeout_ms - (now - n.m_Advertised_ms)))) := by
  intro l
  induction l with
  | nil =>
    intro fuel w hl _ _ _ _
    have h : Wanted.expireLoop (fun _ => now) ok timeout_ms now fuel w = .ok w := by
      cases fuel with
      | zero => rfl
      | succ k => rw [Wanted.expireLoop, hl]
    refine ⟨w, h, ?_⟩
    simp [hl]
  | cons n rest ih =>
    intro fuel w hl hlen hs hle hok
    cases fuel with
    | zero => simp at hlen
    | succ k =>
      have hn := hle n (List.mem_cons_self _ _)
      have hsub : sub32 now n.m_Advertised_ms = now - n.m_Advertised_ms := sub32_of_le hnow hn
      rw [Wanted.expireLoop, hl]
      simp only [hsub]
      by_cases hd : now - n.m_Advertised_ms < timeout_ms
      · -- the front item is not due, and none behind it is
        rw [if_pos hd]
        have hall : ∀ m ∈ n :: rest, now - m.m_Advertised_ms < timeout_ms := by
          intro m hm
          rcases List.mem_cons.1 hm with rfl | hm
          · exact hd
          · have := List.rel_of_pairwise_cons hs hm
            omega
        have hk : (n :: rest).filter (fun n => decide (now - n.m_Advertised_ms < timeout_ms)) =
            n :: rest := List.filter_eq_self.2 (fun m hm => by simpa using hall m hm)
        have hx : (n :: rest).filter (fun n => decide (timeout_ms ≤ now - n.m_Advertised_ms)) =
            [] := List.filter_eq_nil_iff.2 (fun m hm => by
              have := hall m hm
              simp only [decide_eq_true_eq]; omega)
        refine ⟨w, rfl, ?_⟩
        rw [hk, hx]
        simp [hl]
      · rw [if_neg hd]
        have hd' : timeout_ms ≤ now - n.m_Advertised_ms := by omega
        have hk : (n :: rest).filter (fun n => decide (now - n.m_Advertised_ms < timeout_ms)) =
            rest.filter (fun n => decide (now - n.m_Advertised_ms < timeout_ms)) := by
          rw [List.filter_cons_of_neg (by simpa using hd')]
        have hx : (n :: rest).filter (fun n => decide (timeout_ms ≤ now - n.m_Advertised_ms)) =
            n :: rest.filter (fun n => decide (timeout_ms ≤ now - n.m_Advertised_ms)) := by
          rw [List.filter_cons_of_pos (by simpa using hd')]
        rw [hx] at hok
        have hok0 : ok w.expired.length = true := by simpa using hok 0 (Nat.succ_pos _)
        rw [if_pos hok0]
        -- the state after `OnExpired` and `Delete` of the front item
        have hdel := Delete_front now timeout_ms
          ⟨n :: rest, w.m_set, w.m_pTimer, w.expired ++ [n.m_Key], w.reads⟩ n rest rfl
        generalize hw1 : Wanted.Delete (fun _ => now) timeout_ms
          ⟨n :: rest, w.m_set, w.m_pTimer, w.expired ++ [n.m_Key], w.reads⟩ n = w1 at hdel ⊢
        obtain ⟨h1l, h1e, h1s, h1t⟩ := hdel
        simp only [] at h1e h1s
        have hok1 : ∀ k', k' <
            (rest.filter (fun n => decide (timeout_ms ≤ now - n.m_Advertised_ms))).length →
            ok (w1.expired.length + k') = true := by
          intro k' hk'
          have := hok (k' + 1) (Nat.succ_lt_succ hk')
          rw [h1e, List.length_append]
          rw [show w.expired.length + [n.m_Key].length + k' = w.expired.length + (k' + 1) by
            simp only [List.length_singleton]; omega]
          exact this
        obtain ⟨w', hres, i1, i2, i3, i4, i5⟩ := ih k w1 h1l (by simpa using hlen)
          (List.Pairwise.of_cons hs) (fun m hm => hle m (List.mem_cons_of_mem _ hm)) hok1
        refine ⟨w', hres, ?_⟩
        rw [hk, hx]
        refine ⟨i1, ?_, ?_, ?_, ?_⟩
        · rw [i2, h1e]; simp
        · rw [i3, h1s]; rfl
        · intro h; simp at h
        · intro _
          by_cases hr : rest.filter (fun n => decide (timeout_ms ≤ now - n.m_Advertised_ms)) = []
          · -- nothing more is due: the timer is as `Delete` left it
            have hrest : rest.filter (fun n => decide (now - n.m_Advertised_ms < timeout_ms)) =
                rest := by
              rw [List.filter_eq_self]
              intro m hm
              have := List.filter_eq_nil_iff.1 hr m hm
              simp only [decide_eq_true_eq] at this ⊢
              omega
            rw [i1, hrest, i4 hr]
            cases rest with
            | nil => exact h1t
            | cons m r =>
              simp only [] at h1t ⊢
              rw [h1t]
              have hm : now - m.m_Advertised_ms < timeout_ms := by
                have := List.filter_eq_nil_iff.1 hr m (List.mem_cons_self _ _)
                simp only [decide_eq_true_eq] at this
                omega
              have hsm : sub32 now m.m_Advertised_ms = now - m.m_Advertised_ms :=
                sub32_of_le hnow (hle m (by simp))
              simp [wantedDelay, hsm, hm]
          · exact i5 hr

/-- The loop of `OnTimer` when call number `j` of `OnExpired`, counted within
the loop, is the first that throws: the `j` items before it are gone, the item
it was called for and those behind it stay. -/
theorem expireLoop_throw (now timeout_ms : Nat) (ok : Nat → Bool) (hnow : now < 2 ^ 32) :
    ∀ (l : List WantedItem) (fuel : Nat) (w : Wanted) (j : Nat), w.m_lst = l → l.length ≤ fuel →
      l.Pairwise (fun a b => a.m_Advertised_ms ≤ b.m_Advertised_ms) →
      (∀ n ∈ l, n.m_Advertised_ms ≤ now) →
      j < (l.filter (fun n => decide (timeout_ms ≤ now - n.m_Advertised_ms))).length →
      (∀ k, k < j → ok (w.expired.length + k) = true) →
      ok (w.expired.length + j) = false →
      ∃ w', Wanted.expireLoop (fun _ => now) ok timeout_ms now fuel w = .exc w' ∧
        w'.m_lst = l.drop j ∧
        w'.expired =
          w.expired ++
            ((l.filter (fun n => decide (timeout_ms ≤ now - n.m_Advertised_ms))).take
              (j + 1)).map (fun n => n.m_Key) ∧
        w'.m_set =
          ((l.filter (fun n => decide (timeout_ms ≤ now - n.m_Advertised_ms))).take j).foldl
            List.erase w.m_set ∧
        (j = 0 → w'.m_pTimer = w.m_pTimer) ∧
        (0 < j → w'.m_pTimer = some (some 0)) := by
  intro l
  induction l with
  | nil =>
    intro fuel w j _ _ _ _ hj _ _
    simp at hj
  | cons n rest ih =>
    intro fuel w j hl hlen hs hle hj hpre hthrow
    cases fuel with
    | zero => simp at hlen
    | succ k =>
      have hn := hle n (List.mem_cons_self _ _)
      have hsub : sub32 now n.m_Advertised_ms = now - n.m_Advertised_ms := sub32_of_le hnow hn
      have hd' : timeout_ms ≤ now - n.m_Advertised_ms :=
        due_head now timeout_ms n rest hs (fun h0 => by rw [h0] at hj; simp at hj)
      have hx : (n :: rest).filter (fun n => decide (timeout_ms ≤ now - n.m_Advertised_ms)) =
          n :: rest.filter (fun n => decide (timeout_ms ≤ now - n.m_Advertised_ms)) := by
        rw [List.filter_cons_of_pos (by simpa using hd')]
      rw [hx] at hj ⊢
      rw [Wanted.expireLoop, hl]
      simp only [hsub]
      rw [if_neg (by omega)]
      cases j with
      | zero =>
        rw [if_neg (by simpa using hthrow)]
        refine ⟨_, rfl, rfl, ?_, rfl, fun _ => rfl, fun h0 => absurd h0 (Nat.lt_irrefl 0)⟩
        simp
      | succ j' =>
        rw [if_pos (by simpa using hpre 0 (Nat.succ_pos _))]
        have hdel := Delete_front now timeout_ms
          ⟨n :: rest, w.m_set, w.m_pTimer, w.expired ++ [n.m_Key], w.reads⟩ n rest rfl
        generalize hw1 : Wanted.Delete (fun _ => now) timeout_ms
          ⟨n :: rest, w.m_set, w.m_pTimer, w.expired ++ [n.m_Key], w.reads⟩ n = w1 at hdel ⊢
        obtain ⟨h1l, h1e, h1s, h1t⟩ := hdel
        simp only [] at h1e h1s
        have hlen1 : w1.expired.length = w.expired.length + 1 := by
          rw [h1e, List.length_append]; rfl
        have hj' : j' < (rest.filter
            (fun n => decide (timeout_ms ≤ now - n.m_Advertised_ms))).length := by
          simpa using hj
        obtain ⟨w', hres, i1, i2, i3, i4, i5⟩ := ih k w1 j' h1l (by simpa using hlen)
          (List.Pairwise.of_cons hs) (fun m hm => hle m (List.mem_cons_of_mem _ hm)) hj'
          (fun k' hk' => by
            rw [hlen1, show w.expired.length + 1 + k' = w.expired.length + (k' + 1) by omega]
            exact hpre (k' + 1) (Nat.succ_lt_succ hk'))
          (by
            rw [hlen1, show w.expired.length + 1 + j' = w.expired.length + (j' + 1) by omega]
            exact hthrow)
        refine ⟨w', hres, by rw [i1]; rfl, ?_, ?_, fun h0 => absurd h0 (Nat.succ_ne_zero j'),
          fun _ => ?_⟩
        · rw [i2, h1e]; simp
        · rw [i3, h1s]; rfl
        · rcases Nat.eq_zero_or_pos j' with h0 | h0
          · rw [i4 h0]
            cases rest with
            | nil => simp at hj'
            | cons m r =>
              simp only [] at h1t
              rw [h1t]
              have hm : timeout_ms ≤ now - m.m_Advertised_ms :=
                due_head now timeout_ms m r (List.Pairwise.of_cons hs)
                  (fun h0 => by rw [h0] at hj'; simp at hj')
              have hsm : sub32 now m.m_Advertised_ms = now - m.m_Advertised_ms :=
                sub32_of_le hnow (hle m (by simp))
              simp only [wantedDelay, hsm]
              rw [if_neg (by omega)]
          · exact i5 h0

/-- C12 fails as stated: a list in the order of advertisement, all of it
advertised before `now = 150`, whose only item is not yet due under a timeout of
100.  `OnTimer` returns, calls no `OnExpired`, leaves the item in the list and
does not start the timer, which stays as it was, not running. -/
theorem OnTimer_nothing_due :
    (150 : Nat) < 2 ^ 32 ∧
      demoWanted.m_lst.Pairwise (fun a b => a.m_Advertised_ms ≤ b.m_Advertised_ms) ∧
      (∀ n ∈ demoWanted.m_lst, n.m_Advertised_ms ≤ 150) ∧
      demoWanted.m_pTimer = some none ∧
      demoWanted.OnTimer (fun _ => 150) (fun _ => true) 100 =
        .ok ⟨[⟨1, 100⟩], [⟨1, 100⟩], some none, [], 1⟩ :=
  ⟨by decide, by decide, by decide, by decide, by decide⟩

/-- C12, amended: `Wanted::OnTimer` at time `now`, on a list in the order of
advertisement, all of it advertised at or before `now` (a 32-bit clock that has
not wrapped).  When every call of `OnExpired` returns, `OnTimer` returns; it has
called `OnExpired` exactly for the items with `now - advertised >= timeout`, in
list order, removed exactly those items (from the list and from the set), and
left the others, each with `now - advertised < timeout`, in their order; if at
least one item was removed, the timer is then started for the new front item,
to go off when that item is due, or is not running if no item is left; if none
was removed the timer is left as it was.  When call number `j` of `OnExpired`
is the first that throws, `OnTimer` is left by that exception: `OnExpired` was
called for the first `j + 1` due items, the first `j` of them are removed, the
item of the throwing call and all behind it stay in the list; the timer is as
it was before the call if `j = 0`, and started with delay 0 otherwise. -/
theorem Wanted_OnTimer_expires (now timeout_ms : Nat) (ok : Nat → Bool) (w : Wanted)
    (hnow : now < 2 ^ 32)
    (hs : w.m_lst.Pairwise (fun a b => a.m_Advertised_ms ≤ b.m_Advertised_ms))
    (hle : ∀ n ∈ w.m_lst, n.m_Advertised_ms ≤ now) :
    ((∀ k, k < (w.m_lst.filter
          (fun n => decide (timeout_ms ≤ now - n.m_Advertised_ms))).length →
        ok (w.expired.length + k) = true) →
      ∃ w', w.OnTimer (fun _ => now) ok timeout_ms = .ok w' ∧
        w'.expired =
          w.expired ++
            (w.m_lst.filter (fun n => decide (timeout_ms ≤ now - n.m_Advertised_ms))).map
              (fun n => n.m_Key) ∧
        w'.m_lst = w.m_lst.filter (fun n => decide (now - n.m_Advertised_ms < timeout_ms)) ∧
        w'.m_set =
          (w.m_lst.filter (fun n => decide (timeout_ms ≤ now - n.m_Advertised_ms))).foldl
            List.erase w.m_set ∧
        (∀ n ∈ w'.m_lst, n ∈ w.m_lst ∧ now - n.m_Advertised_ms < timeout_ms) ∧
        w'.m_lst.Sublist w.m_lst ∧
        (w.m_lst.filter (fun n => decide (timeout_ms ≤ now - n.m_Advertised_ms)) ≠ [] →
          match w'.m_lst with
          | [] => ∀ ms, w'.m_pTimer ≠ some (some ms)
          | n :: _ => w'.m_pTimer = some (some (timeout_ms - (now - n.m_Advertised_ms)))) ∧
        (w.m_lst.filter (fun n => decide (timeout_ms ≤ now - n.m_Advertised_ms)) = [] →
          w'.m_pTimer = w.m_pTimer)) ∧
    (∀ j, j < (w.m_lst.filter
          (fun n => decide (timeout_ms ≤ now - n.m_Advertised_ms))).length →
      (∀ k, k < j → ok (w.expired.length + k) = true) →
      ok (w.expired.length + j) = false →
      ∃ w', w.OnTimer (fun _ => now) ok timeout_ms = .exc w' ∧
        w'.expired =
          w.expired ++
            ((w.m_lst.filter (fun n => decide (timeout_ms ≤ now - n.m_Advertised_ms))).take
              (j + 1)).map (fun n => n.m_Key) ∧
        w'.m_lst = w.m_lst.drop j ∧
        w'.m_set =
          ((w.m_lst.filter
            (fun n => decide (timeout_ms ≤ now - n.m_Advertised_ms))).take j).foldl
            List.erase w.m_set ∧
        (j = 0 → w'.m_pTimer = w.m_pTimer) ∧
        (0 < j → w'.m_pTimer = some (some 0))) := by
  refine ⟨fun hok => ?_, fun j hj hpre hthrow => ?_⟩
  · obtain ⟨w', hres, h1, h2, h3, h4, h5⟩ :=
      expireLoop_spec now timeout_ms ok hnow w.m_lst w.m_lst.length
        { w with reads := w.reads + 1 } rfl (le_refl _) hs hle hok
    refine ⟨w', hres, h2, h1, h3, ?_, ?_, h5, h4⟩
    · intro n hn
      rw [h1] at hn
      have := List.mem_filter.1 hn
      exact ⟨this.1, by simpa using this.2⟩
    · rw [h1]
      exact List.filter_sublist _
  · obtain ⟨w', hres, h1, h2, h3, h4, h5⟩ :=
      expireLoop_throw now timeout_ms ok hnow w.m_lst w.m_lst.length
        { w with reads := w.reads + 1 } j rfl (le_refl _) hs hle hj hpre hthrow
    exact ⟨w', hres, h2, h1, h3, h4, h5⟩

theorem Wanted_OnTimer_expires_witness :
    (300 : Nat) < 2 ^ 32 ∧
      demoWanted3.m_lst.Pairwise (fun a b => a.m_Advertised_ms ≤ b.m_Advertised_ms) ∧
      (∀ n ∈ demoWanted3.m_lst, n.m_Advertised_ms ≤ 300) ∧
      (∃ w', demoWanted3.OnTimer (fun _ => 300) (fun _ => true) 100 = .ok w' ∧
        w'.expired = [1, 2] ∧ w'.m_lst = [⟨3, 250⟩] ∧ w'.m_pTimer = some (some 50)) ∧
      (∃ w', demoWanted3.OnTimer (fun _ => 300) (fun k => k != 1) 100 = .exc w' ∧
        w'.expired = [1, 2] ∧ w'.m_lst = [⟨2, 150⟩, ⟨3, 250⟩] ∧
        w'.m_pTimer = some (some 0)) := by
  have h := Wanted_OnTimer_expires 300 100 (fun _ => true) demoWanted3 (by decide) (by decide)
    (by decide)
  have h' := Wanted_OnTimer_expires 300 100 (fun k => k != 1) demoWanted3 (by decide)
    (by decide) (by decide)
  refine ⟨by decide, by decide, by decide, ?_, ?_⟩
  · obtain ⟨w', hres, h1, h2, _, _, _, h6, _⟩ := h.1 (fun _ _ => rfl)
    refine ⟨w', hres, ?_, ?_, ?_⟩
    · rw [h1]; decide
    · rw [h2]; decide
    · have h6 := h6 (by decide)
      rw [h2] at h6
      exact h6
  · obtain ⟨w', hres, h1, h2, _, _, h5⟩ := h'.2 1 (by decide) (fun k hk => by
      have : k = 0 := by omega
      subst this
      rfl) rfl
    refine ⟨w', hres, ?_, ?_, h5 (by decide)⟩
    · rw [h1]; decide
    · rw [h2]; decide

/-! ## Bulletin board: the acceptance window -/

theorem sub64_of_le {a b : Nat} (ha : a < 2 ^ 64) (hb : b ≤ a) : sub64 a b = a - b := by
  unfold sub64
  rw [Nat.mod_eq_of_lt ha, Nat.mod_eq_of_lt (lt_of_le_of_lt hb ha)]
  have h : a + (2 ^ 64 - b) = (a - b) + 2 ^ 64 := by omega
  rw [h, Nat.add_mod_right]
  exact Nat.mod_eq_of_lt (by omega)

/-- C16 fails as stated: at local time 1000 with a timeout of 100 s, a message
posted at 900, exactly the timeout ago, is neither before `now - timeout` nor
after `now + max ahead`, and the handler drops it: nothing is stored and
nothing is sent, although peer 2 relays the bulletin board. -/
theorem BbsMsg_posted_timeout_ago :
    ¬ ((900 : Nat) < 1000 - 100) ∧ ¬ ((900 : Nat) > 1000 + 50) ∧
      BbsFind Bbs.empty (BbsEnv.demo.CalcMsgKey 7 3) = false ∧
      (OnMsg_BbsMsg Env.demo BbsEnv.demo demoBbsNode Bbs.empty 1 3 900 7).2.table = [] ∧
      (∃ s', (OnMsg_BbsMsg Env.demo BbsEnv.demo demoBbsNode Bbs.empty 1 3 900 7).1 = .ok s' ∧
        s'.trace = demoBbsNode.trace) ∧
      (OnMsg_BbsMsg Env.demo BbsEnv.demo demoBbsNode Bbs.empty 1 3 901 7).2.table =
        [⟨10, 3, 901, 7⟩] :=
  ⟨by decide, by decide, by decide, by decide, ⟨_, rfl, rfl⟩, by decide⟩

theorem MaybeCleanup_find (B : BbsEnv) (b : Bbs) (key : Nat) (h : BbsFind b key = false) :
    BbsFind (MaybeCleanup B b) key = false := by
  have hsub : ∀ (b1 b2 : Bbs), b2.table.Sublist b1.table → BbsFind b1 key = false →
      BbsFind b2 key = false := by
    intro b1 b2 hs h1
    unfold BbsFind at h1 ⊢
    rw [List.any_eq_false] at h1 ⊢
    exact fun d hd => h1 d (hs.subset hd)
  unfold MaybeCleanup
  split
  · refine hsub b _ ?_ h
    unfold Cleanup FindRecommendedChannel BbsDelOld
    exact List.filter_sublist _
  · exact hsub b _ (List.Sublist.refl _) h

/-- C16, amended: a `BbsMsg` handled at local time `now`, with
`now >= BbsMessageTimeout_s` and `now + BbsMessageMaxAhead_s` within 64 bits, is
rejected by the time check, with nothing stored and nothing relayed, if and only
if `time_posted <= now - BbsMessageTimeout_s` or
`time_posted > now + BbsMessageMaxAhead_s`: a message posted exactly the timeout
ago is rejected, one posted exactly the maximum ahead is not.  A message that
passes the check and is not in the table yet is stored. -/
theorem BbsMsg_acceptance_window (E : Env) (B : BbsEnv) (s : Node) (b : Bbs) (p : PeerRef)
    (channel : Channel) (timePosted message : Nat)
    (hT : B.m_BbsMessageTimeout_s ≤ B.getTimestamp b.nTimestamp)
    (hA : B.getTimestamp b.nTimestamp + B.m_BbsMessageMaxAhead_s < 2 ^ 64) :
    ((timePosted ≤ B.getTimestamp b.nTimestamp - B.m_BbsMessageTimeout_s ∨
        timePosted > B.getTimestamp b.nTimestamp + B.m_BbsMessageMaxAhead_s) →
      OnMsg_BbsMsg E B s b p channel timePosted message =
        (.ok s, { b with nTimestamp := b.nTimestamp + 1 })) ∧
    (¬ (timePosted ≤ B.getTimestamp b.nTimestamp - B.m_BbsMessageTimeout_s ∨
        timePosted > B.getTimestamp b.nTimestamp + B.m_BbsMessageMaxAhead_s) →
      BbsFind b (B.CalcMsgKey message channel) = false →
      (⟨B.CalcMsgKey message channel, channel, timePosted, message⟩ : BbsData) ∈
          (OnMsg_BbsMsg E B s b p channel timePosted message).2.table ∧
        (OnMsg_BbsMsg E B s b p channel timePosted message).2.table ≠ b.table) ∧
    (timePosted = B.getTimestamp b.nTimestamp - B.m_BbsMessageTimeout_s →
      OnMsg_BbsMsg E B s b p channel timePosted message =
        (.ok s, { b with nTimestamp := b.nTimestamp + 1 })) ∧
    (timePosted = B.getTimestamp b.nTimestamp + B.m_BbsMessageMaxAhead_s →
      0 < B.m_BbsMessageTimeout_s + B.m_BbsMessageMaxAhead_s →
      BbsFind b (B.CalcMsgKey message channel) = false →
      (⟨B.CalcMsgKey message channel, channel, timePosted, message⟩ : BbsData) ∈
        (OnMsg_BbsMsg E B s b p channel timePosted message).2.table) := by
  have hlt : B.getTimestamp b.nTimestamp < 2 ^ 64 := by omega
  have h0 : sub64 (B.getTimestamp b.nTimestamp % 2 ^ 64) B.m_BbsMessageTimeout_s =
      B.getTimestamp b.nTimestamp - B.m_BbsMessageTimeout_s := by
    rw [Nat.mod_eq_of_lt hlt]; exact sub64_of_le hlt hT
  have h1 : (B.getTimestamp b.nTimestamp % 2 ^ 64 + B.m_BbsMessageMaxAhead_s) % 2 ^ 64 =
      B.getTimestamp b.nTimestamp + B.m_BbsMessageMaxAhead_s := by
    rw [Nat.mod_eq_of_lt hlt]; exact Nat.mod_eq_of_lt hA
  have hrej : (timePosted ≤ B.getTimestamp b.nTimestamp - B.m_BbsMessageTimeout_s ∨
        timePosted > B.getTimestamp b.nTimestamp + B.m_BbsMessageMaxAhead_s) →
      OnMsg_BbsMsg E B s b p channel timePosted message =
        (.ok s, { b with nTimestamp := b.nTimestamp + 1 }) := by
    intro h
    unfold OnMsg_BbsMsg
    simp only [h0, h1]
    rw [if_pos h]
  have hacc : ¬ (timePosted ≤ B.getTimestamp b.nTimestamp - B.m_BbsMessageTimeout_s ∨
        timePosted > B.getTimestamp b.nTimestamp + B.m_BbsMessageMaxAhead_s) →
      BbsFind b (B.CalcMsgKey message channel) = false →
      (⟨B.CalcMsgKey message channel, channel, timePosted, message⟩ : BbsData) ∈
          (OnMsg_BbsMsg E B s b p channel timePosted message).2.table ∧
        (OnMsg_BbsMsg E B s b p channel timePosted message).2.table ≠ b.table := by
    intro h hf
    have hf0 : BbsFind { b with nTimestamp := b.nTimestamp + 1 }
        (B.CalcMsgKey message channel) = false := hf
    have hmem : (⟨B.CalcMsgKey message channel, channel, timePosted, message⟩ : BbsData) ∈
        (OnMsg_BbsMsg E B s b p channel timePosted message).2.table := by
      unfold OnMsg_BbsMsg
      simp only [h0, h1]
      rw [if_neg h]
      simp only [hf0, Bool.false_eq_true, if_false, BbsIns]
      simp
    refine ⟨hmem, fun heq => ?_⟩
    rw [heq] at hmem
    unfold BbsFind at hf
    rw [List.any_eq_false] at hf
    exact hf _ hmem (by simp)
  refine ⟨hrej, hacc, fun h => hrej (Or.inl (le_of_eq h)), fun h hpos hf => (hacc ?_ hf).1⟩
  rw [h]
  omega

theorem BbsMsg_acceptance_window_witness :
    BbsEnv.demo.m_BbsMessageTimeout_s ≤ BbsEnv.demo.getTimestamp Bbs.empty.nTimestamp ∧
      BbsEnv.demo.getTimestamp Bbs.empty.nTimestamp + BbsEnv.demo.m_BbsMessageMaxAhead_s <
        2 ^ 64 ∧
      OnMsg_BbsMsg Env.demo BbsEnv.demo demoBbsNode Bbs.empty 1 3 900 7 =
        (.ok demoBbsNode, { Bbs.empty with nTimestamp := Bbs.empty.nTimestamp + 1 }) :=
  ⟨by decide, by decide,
    (BbsMsg_acceptance_window Env.demo BbsEnv.demo demoBbsNode Bbs.empty 1 3 900 7
      (by decide) (by decide)).2.2.1 rfl⟩

/-! ## Transaction pipeline -/

theorem DandelionDelete_fields (s : TxNode) (x : StemRef) :
    (DandelionDelete s x).node = s.node ∧ (DandelionDelete s x).m_TxPool = s.m_TxPool ∧
      (DandelionDelete s x).m_Wtx = s.m_Wtx ∧
      (DandelionDelete s x).m_MinerTimer = s.m_MinerTimer ∧
      (DandelionDelete s x).m_bTimerPending = s.m_bTimerPending ∧
      (DandelionDelete s x).stemAt = s.stemAt ∧ (DandelionDelete s x).nNonce = s.nNonce :=
  ⟨rfl, rfl, rfl, rfl, rfl, rfl, rfl⟩

/-- Dropping the overlapping stem elements leaves the node, the fluff pool, the
wanted transactions and the miner's timer alone. -/
theorem dropStem_fields (s : TxNode) (ptx : Transaction) (pElem : Option StemRef) :
    (dropStem s ptx pElem).node = s.node ∧ (dropStem s ptx pElem).m_TxPool = s.m_TxPool ∧
      (dropStem s ptx pElem).m_Wtx = s.m_Wtx ∧
      (dropStem s ptx pElem).m_MinerTimer = s.m_MinerTimer ∧
      (dropStem s ptx pElem).m_bTimerPending = s.m_bTimerPending ∧
      (dropStem s ptx pElem).stemAt = s.stemAt ∧ (dropStem s ptx pElem).nNonce = s.nNonce := by
  unfold dropStem
  cases pElem with
  | some x => exact DandelionDelete_fields s x
  | none =>
    simp only []
    generalize ptx.m_vKernelsOutput = ks
    induction ks generalizing s with
    | nil => exact ⟨rfl, rfl, rfl, rfl, rfl, rfl, rfl⟩
    | cons k ks ih =>
      rw [List.foldl_cons]
      cases hk : findKrn s k with
      | none => exact ih s
      | some x =>
        simp only []
        obtain ⟨a1, a2, a3, a4, a5, a6, a7⟩ := ih (DandelionDelete s x)
        exact ⟨a1, a2, a3, a4, a5, a6, a7⟩

/-- The broadcast of `OnTransactionFluff` only appends `HaveTransaction` sends
to the record of the node, and changes nothing else of it. -/
theorem sendHaveTx_trace (E : Env) (pPeer : Option PeerRef) (key : Nat) :
    ∀ (l : List PeerRef) (s : Node),
      (sendHaveTx E pPeer key l s).Sat (fun s' =>
        s'.m_lstPeers = s.m_lstPeers ∧ s'.peerAt = s.peerAt ∧
        ∃ evs, s'.trace = s.trace ++ evs ∧
          ∀ e ∈ evs, ∃ q, e = Event.sent q (.HaveTransaction key)) ∧
      sendHaveTx E pPeer key l s ≠ .out := by
  intro l
  induction l with
  | nil => intro s; exact ⟨⟨rfl, rfl, [], by simp, by simp⟩, by simp [sendHaveTx]⟩
  | cons q qs ih =>
    intro s
    rw [sendHaveTx]
    split
    · exact ih s
    · split
      · exact ih s
      · unfold Send
        by_cases hs : E.sendOk q (.HaveTransaction key) = true
        · rw [if_pos hs]
          simp only [Res.bind]
          obtain ⟨h1, h2⟩ := ih (s.log (.sent q (.HaveTransaction key)))
          refine ⟨h1.mono (fun s' h => ?_), h2⟩
          obtain ⟨a, b, evs, c, d⟩ := h
          refine ⟨a, b, Event.sent q (.HaveTransaction key) :: evs, ?_, ?_⟩
          · rw [c]; simp [Node.log]
          · intro e he
            rcases List.mem_cons.1 he with rfl | he
            · exact ⟨q, rfl⟩
            · exact d e he
        · rw [if_neg hs]
          exact ⟨⟨rfl, rfl, [], by simp, by simp⟩, by simp [Res.bind]⟩

theorem shrinkLoop_sublist (nCount : Nat) :
    ∀ (fuel : Nat) (l : List FluffElement), (shrinkLoop nCount fuel l).Sublist l := by
  intro fuel
  induction fuel with
  | zero => intro l; exact List.Sublist.refl _
  | succ k ih =>
    intro l
    rw [shrinkLoop]
    split
    · exact List.Sublist.refl _
    · cases worstFluff l with
      | none => exact List.Sublist.refl _
      | some w => exact (ih _).trans (List.erase_sublist _ _)

theorem shrinkLoop_room (nCount : Nat) {l : List FluffElement} (h : l.length ≤ nCount) :
    ∀ fuel, shrinkLoop nCount fuel l = l := by
  intro fuel
  cases fuel with
  | zero => rfl
  | succ k => rw [shrinkLoop, if_pos h]

theorem MinerSetTimer_fields (s : TxNode) (ms : Nat) (b : Bool) :
    (MinerSetTimer s ms b).node = s.node ∧ (MinerSetTimer s ms b).m_TxPool = s.m_TxPool := by
  unfold MinerSetTimer
  cases s.m_MinerTimer with
  | none => exact ⟨rfl, rfl⟩
  | some x =>
    simp only []
    split
    · exact ⟨rfl, rfl⟩
    · exact ⟨rfl, rfl⟩

/-- The keys of the fluff pool stay distinct over a call of `OnTransactionFluff`. -/
theorem OnTransactionFluff_keys (E : Env) (T : TxEnv) (s : TxNode) (ptx : Transaction)
    (pPeer : Option PeerRef) (pElem : Option StemRef) (r : Bool) (s1 : TxNode)
    (hn : (s.m_TxPool.map (fun e => e.m_Key)).Nodup)
    (h : OnTransactionFluff E T s ptx pPeer pElem = .ok r s1) :
    (s1.m_TxPool.map (fun e => e.m_Key)).Nodup := by
  have hd := dropStem_fields s ptx pElem
  unfold OnTransactionFluff at h
  simp only [] at h
  split at h
  · cases h
    rw [hd.2.1]; exact hn
  · rename_i hk
    split at h
    · cases h
      show ((dropStem s ptx pElem).m_TxPool.map _).Nodup
      rw [hd.2.1]; exact hn
    · split at h
      · rename_i n1 _
        cases h
        rw [(MinerSetTimer_fields _ _ _).2]
        unfold ShrinkUpTo AddValidTx
        simp only []
        refine List.Nodup.sublist ((shrinkLoop_sublist _ _ _).map _) ?_
        rw [hd.2.1, List.map_append, List.nodup_append]
        refine ⟨hn, by simp, ?_⟩
        intro a ha hb
        simp only [List.map_cons, List.map_nil, List.mem_singleton] at hb
        subst hb
        rw [hd.2.1] at hk
        obtain ⟨e, he, hek⟩ := List.mem_map.1 ha
        exact hk (List.any_eq_true.2 ⟨e, he, by simpa using hek⟩)
      · cases h
      · cases h

/-- C13 fails as stated: the fluff pool holds one transaction, of fee 3 per
size 1, and `MaxPoolTransactions` is 1.  A valid transaction of fee 1 per size 1
and key 60 is submitted twice.  Each call announces it to peer 1, adds it and
shrinks the pool, which drops it again: after the two calls no entry has key 60,
and the second call has sent `HaveTransaction`. -/
theorem fluff_entry_dropped_by_shrink :
    TxEnv.demo.ValidateTx ⟨[5], [6], [60]⟩ = true ∧
      TxEnv.demo.get_Key ⟨[5], [6], [60]⟩ = 60 ∧
      OnTransactionFluff Env.demo TxEnv.demo demoTxNode ⟨[5], [6], [60]⟩ none none =
        .ok true demoTxOnce ∧
      OnTransactionFluff Env.demo TxEnv.demo demoTxOnce ⟨[5], [6], [60]⟩ none none =
        .ok true demoTxTwice ∧
      (demoTxTwice.m_TxPool.map (fun e => e.m_Key)).count 60 = 0 ∧
      demoTxTwice.node.trace =
        demoTxOnce.node.trace ++ [Event.sent 1 (.HaveTransaction 60)] :=
  ⟨rfl, rfl, rfl, rfl, by decide, by decide⟩

/-- C13, amended: `OnTransactionFluff` called with a transaction whose key is
in the fluff pool returns true without inserting, without sending anything and
without touching the miner's restart timer: it only drops the stem elements the
transaction overlaps.  Hence, when a first call for a transaction returns and
the entry with its key is in the fluff pool afterwards (it was not dropped by
the shrink to `MaxPoolTransactions`), exactly one entry has that key, and a
second call for the same transaction returns true, leaves the pool as it is and
sends nothing. -/
theorem fluff_pool_dedup (E : Env) (T : TxEnv) (s : TxNode) (ptx : Transaction)
    (pPeer : Option PeerRef) (pElem : Option StemRef) :
    ((∃ e ∈ s.m_TxPool, e.m_Key = T.get_Key ptx) →
      OnTransactionFluff E T s ptx pPeer pElem = .ok true (dropStem s ptx pElem) ∧
        (dropStem s ptx pElem).m_TxPool = s.m_TxPool ∧
        (dropStem s ptx pElem).node = s.node ∧
        (dropStem s ptx pElem).m_MinerTimer = s.m_MinerTimer ∧
        (dropStem s ptx pElem).m_bTimerPending = s.m_bTimerPending) ∧
    (∀ (r : Bool) (s1 : TxNode) (pPeer2 : Option PeerRef) (pElem2 : Option StemRef),
      (s.m_TxPool.map (fun e => e.m_Key)).Nodup →
      OnTransactionFluff E T s ptx pPeer pElem = .ok r s1 →
      (∃ e ∈ s1.m_TxPool, e.m_Key = T.get_Key ptx) →
      (s1.m_TxPool.map (fun e => e.m_Key)).count (T.get_Key ptx) = 1 ∧
        ∃ s2, OnTransactionFluff E T s1 ptx pPeer2 pElem2 = .ok true s2 ∧
          s2.m_TxPool = s1.m_TxPool ∧ s2.node = s1.node ∧
          s2.m_MinerTimer = s1.m_MinerTimer ∧ s2.m_bTimerPending = s1.m_bTimerPending) := by
  have dedup : ∀ (s : TxNode) (pPeer : Option PeerRef) (pElem : Option StemRef),
      (∃ e ∈ s.m_TxPool, e.m_Key = T.get_Key ptx) →
      OnTransactionFluff E T s ptx pPeer pElem = .ok true (dropStem s ptx pElem) := by
    intro s pPeer pElem ⟨e, he, hk⟩
    have hd := dropStem_fields s ptx pElem
    unfold OnTransactionFluff
    simp only []
    rw [if_pos]
    rw [hd.2.1]
    exact List.any_eq_true.2 ⟨e, he, by simpa using hk⟩
  refine ⟨fun h => ?_, fun r s1 pPeer2 pElem2 hn h1 hm => ?_⟩
  · have hd := dropStem_fields s ptx pElem
    exact ⟨dedup s pPeer pElem h, hd.2.1, hd.1, hd.2.2.2.1, hd.2.2.2.2.1⟩
  · have hn1 := OnTransactionFluff_keys E T s ptx pPeer pElem r s1 hn h1
    have hd := dropStem_fields s1 ptx pElem2
    refine ⟨?_, _, dedup s1 pPeer2 pElem2 hm, hd.2.1, hd.1, hd.2.2.2.1, hd.2.2.2.2.1⟩
    obtain ⟨e, he, hk⟩ := hm
    exact List.count_eq_one_of_mem hn1 (List.mem_map.2 ⟨e, he, hk⟩)

theorem fluff_pool_dedup_witness :
    (demoTxNode.m_TxPool.map (fun e => e.m_Key)).Nodup ∧
      (∃ s1, OnTransactionFluff Env.demo TxEnv.room demoTxNode ⟨[5], [6], [60]⟩ none none =
          .ok true s1 ∧
        (s1.m_TxPool.map (fun e => e.m_Key)).count 60 = 1 ∧
        ∃ s2, OnTransactionFluff Env.demo TxEnv.room s1 ⟨[5], [6], [60]⟩ none none =
            .ok true s2 ∧ s2.m_TxPool = s1.m_TxPool ∧ s2.node = s1.node) := by
  refine ⟨by decide, _, rfl, ?_⟩
  obtain ⟨h1, s2, h2, h3, h4, _⟩ :=
    (fluff_pool_dedup Env.demo TxEnv.room demoTxNode ⟨[5], [6], [60]⟩ none none).2 true _ none none
      (by decide) rfl ⟨⟨60, ⟨[5], [6], [60]⟩, 1, 1⟩, by decide, rfl⟩
  exact ⟨h1, s2, h2, h3, h4⟩

/-! ### The stem or fluff decision -/

theorem memcmpLt_max {thr : List Nat} (h : ∀ b ∈ thr, b % 256 = 255) :
    ∀ nonce : List Nat, memcmpLt thr nonce = false := by
  induction thr with
  | nil => intro nonce; rfl
  | cons x xs ih =>
    intro nonce
    cases nonce with
    | nil => rfl
    | cons y ys =>
      have hx := h x (List.mem_cons_self _ _)
      have hy : y % 256 < 256 := Nat.mod_lt _ (by decide)
      rw [memcmpLt, hx, if_neg (by omega)]
      split
      · rfl
      · exact ih (fun b hb => h b (List.mem_cons_of_mem _ hb)) ys

theorem memcmpLt_zero {thr : List Nat} (h : ∀ b ∈ thr, b % 256 = 0) :
    ∀ nonce : List Nat,
      memcmpLt thr nonce = true ↔ ∃ b ∈ nonce.take thr.length, b % 256 ≠ 0 := by
  induction thr with
  | nil => intro nonce; simp [memcmpLt]
  | cons x xs ih =>
    intro nonce
    cases nonce with
    | nil => simp [memcmpLt]
    | cons y ys =>
      have hx := h x (List.mem_cons_self _ _)
      rw [memcmpLt, hx]
      simp only [List.length_cons, List.take_succ_cons, List.mem_cons, exists_eq_or_imp]
      by_cases hy : y % 256 = 0
      · rw [hy]
        simp only [lt_self_iff_false, if_false, ne_eq, not_true_eq_false, false_or]
        exact ih (fun b hb => h b (List.mem_cons_of_mem _ hb)) ys
      · have : 0 < y % 256 := Nat.pos_of_ne_zero hy
        simp [this, hy]

theorem selectStem_spec (s : Node) :
    ∀ (l : List PeerRef) (k : Nat),
      k < l.countP (fun q => (s.peerAt q).m_Config.m_SpreadingTransactions) →
      ∃ q, selectStem s l k = some q ∧ q ∈ l ∧
        (s.peerAt q).m_Config.m_SpreadingTransactions = true := by
  intro l
  induction l with
  | nil => intro k hk; simp at hk
  | cons a l ih =>
    intro k hk
    rw [selectStem]
    by_cases ha : (s.peerAt a).m_Config.m_SpreadingTransactions = true
    · rw [if_pos ha]
      by_cases hk0 : k = 0
      · rw [if_pos hk0]
        exact ⟨a, rfl, List.mem_cons_self _ _, ha⟩
      · rw [if_neg hk0]
        rw [List.countP_cons_of_pos (p := fun q => (s.peerAt q).m_Config.m_SpreadingTransactions) l ha] at hk
        obtain ⟨q, h1, h2, h3⟩ := ih (k - 1) (by omega)
        exact ⟨q, h1, List.mem_cons_of_mem _ h2, h3⟩
    · rw [if_neg ha]
      rw [List.countP_cons_of_neg (p := fun q => (s.peerAt q).m_Config.m_SpreadingTransactions) l ha] at hk
      obtain ⟨q, h1, h2, h3⟩ := ih k hk
      exact ⟨q, h1, List.mem_cons_of_mem _ h2, h3⟩

/-- What `OnTransactionFluff` sends is `HaveTransaction` for the key of the
transaction, and it does not run a loop past its list. -/
theorem OnTransactionFluff_trace (E : Env) (T : TxEnv) (s : TxNode) (ptx : Transaction)
    (pPeer : Option PeerRef) (pElem : Option StemRef) :
    (∀ s', (OnTransactionFluff E T s ptx pPeer pElem).state? = some s' →
      ∃ evs, s'.node.trace = s.node.trace ++ evs ∧
        ∀ e ∈ evs, ∃ q, e = Event.sent q (.HaveTransaction (T.get_Key ptx))) ∧
    OnTransactionFluff E T s ptx pPeer pElem ≠ .lost := by
  have hd := dropStem_fields s ptx pElem
  unfold OnTransactionFluff
  simp only []
  split
  · refine ⟨fun s' h => ?_, by simp⟩
    cases h
    exact ⟨[], by rw [hd.1]; simp, by simp⟩
  · split
    · refine ⟨fun s' h => ?_, by simp⟩
      cases h
      exact ⟨[], by show (dropStem s ptx pElem).node.trace = _; rw [hd.1]; simp, by simp⟩
    · have hs := sendHaveTx_trace E pPeer (T.get_Key ptx) (dropStem s ptx pElem).node.m_lstPeers
        (dropStem s ptx pElem).node
      split
      · rename_i n1 hn1
        simp only [hn1, Res.Sat] at hs
        refine ⟨fun s' h => ?_, by simp⟩
        cases h
        rw [(MinerSetTimer_fields _ _ _).1]
        obtain ⟨_, _, evs, h1, h2⟩ := hs.1
        exact ⟨evs, by rw [← hd.1]; exact h1, h2⟩
      · rename_i e n1 hn1
        simp only [hn1, Res.Sat] at hs
        refine ⟨fun s' h => ?_, by simp⟩
        cases h
        obtain ⟨_, _, evs, h1, h2⟩ := hs.1
        exact ⟨evs, by rw [← hd.1]; exact h1, h2⟩
      · rename_i hn1
        exact absurd hn1 hs.2

theorem TxRes.void_state (r : TxRes Bool) : r.void.state? = r.state? := by
  cases r <;> rfl

theorem TxRes.void_ne_lost {r : TxRes Bool} (h : r ≠ .lost) : r.void ≠ .lost := by
  cases r with
  | ok a s => simp [TxRes.void]
  | exc e s => simp [TxRes.void]
  | lost => exact absurd rfl h

/-- C14 fails as stated: `FluffProbability` is 0, peer 1 spreads transactions,
and the nonce drawn is all zero bytes, so that `memcmp` does not find the
threshold below it.  `OnTransactionAggregated` sends no `NewTransaction`: it
fluffs the transaction, announcing it with `HaveTransaction`, and the stem
element is gone with no timer set. -/
theorem zero_draw_is_fluffed :
    (∀ b ∈ TxEnv.demo.m_FluffProbability, b % 256 = 0) ∧
      (1 ∈ demoTxNode.node.m_lstPeers ∧
        (demoTxNode.node.peerAt 1).m_Config.m_SpreadingTransactions = true) ∧
      ∃ s', OnTransactionAggregated Env.demo TxEnv.demo demoTxNode 1 = .ok () s' ∧
        s'.node.trace = demoTxNode.node.trace ++ [Event.sent 1 (.HaveTransaction 60)] ∧
        s'.m_Dandelion = [] ∧ (s'.stemAt 1).m_Time = none ∧
        s'.m_MinerTimer = some (some 100) :=
  ⟨by decide, by decide, _, rfl, by decide, by decide, by decide, by decide⟩

/-- C14, amended: with `FluffProbability = 0`, fewer than 2^32 peers and at
least one peer with `SpreadingTransactions`, for every nonce whose leading
bytes, as many as the threshold has, are not all zero, `OnTransactionAggregated`
sends the transaction as `NewTransaction` with `fluff = false` to a peer with
`SpreadingTransactions` and, if the send goes out, sets the timer of the stem
element anew and returns, with no call of `OnTransactionFluff`: nothing else is
sent, and the fluff pool, the stem pool and the miner's timer are as before.  If
the send throws, so does the call. -/
theorem zero_probability_stems (E : Env) (T : TxEnv) (s : TxNode) (x : StemRef)
    (hthr : ∀ b ∈ T.m_FluffProbability, b % 256 = 0)
    (hpeer : ∃ q ∈ s.node.m_lstPeers, (s.node.peerAt q).m_Config.m_SpreadingTransactions = true)
    (hlen : s.node.m_lstPeers.length < 2 ^ 32)
    (hdraw : ∃ b ∈ (T.NextNonce s.nNonce).take T.m_FluffProbability.length, b % 256 ≠ 0) :
    ∃ q ∈ s.node.m_lstPeers, (s.node.peerAt q).m_Config.m_SpreadingTransactions = true ∧
      (E.sendOk q (.NewTransaction (s.stemAt x).m_pValue false) = true →
        ∃ s', OnTransactionAggregated E T s x = .ok () s' ∧
          s'.node.trace =
            s.node.trace ++ [Event.sent q (.NewTransaction (s.stemAt x).m_pValue false)] ∧
          (s'.stemAt x).m_Time.isSome = true ∧
          s'.m_TxPool = s.m_TxPool ∧ s'.m_Dandelion = s.m_Dandelion ∧
          s'.m_MinerTimer = s.m_MinerTimer ∧ s'.m_bTimerPending = s.m_bTimerPending) ∧
      (E.sendOk q (.NewTransaction (s.stemAt x).m_pValue false) = false →
        ∃ s', OnTransactionAggregated E T s x = .exc .io s' ∧ s'.node = s.node ∧
          s'.stemAt = s.stemAt ∧ s'.m_TxPool = s.m_TxPool ∧ s'.m_Dandelion = s.m_Dandelion) := by
  obtain ⟨q0, hq0, hs0⟩ := hpeer
  have hpos : 0 < s.node.m_lstPeers.countP
      (fun q => (s.node.peerAt q).m_Config.m_SpreadingTransactions) :=
    List.countP_pos_iff.2 ⟨q0, hq0, hs0⟩
  have hle : s.node.m_lstPeers.countP
      (fun q => (s.node.peerAt q).m_Config.m_SpreadingTransactions) ≤ s.node.m_lstPeers.length :=
    List.countP_le_length _
  have hmod : s.node.m_lstPeers.countP
      (fun q => (s.node.peerAt q).m_Config.m_SpreadingTransactions) % 2 ^ 32 =
      s.node.m_lstPeers.countP (fun q => (s.node.peerAt q).m_Config.m_SpreadingTransactions) :=
    Nat.mod_eq_of_lt (by omega)
  have hcmp : memcmpLt T.m_FluffProbability (T.NextNonce s.nNonce) = true :=
    (memcmpLt_zero hthr _).2 hdraw
  have hk : T.random (s.nNonce + 1) %
      s.node.m_lstPeers.countP (fun q => (s.node.peerAt q).m_Config.m_SpreadingTransactions) <
      s.node.m_lstPeers.countP (fun q => (s.node.peerAt q).m_Config.m_SpreadingTransactions) :=
    Nat.mod_lt _ hpos
  obtain ⟨q, hsel, hq, hsp⟩ := selectStem_spec s.node s.node.m_lstPeers _ hk
  refine ⟨q, hq, hsp, fun hok => ?_, fun hno => ?_⟩
  · unfold OnTransactionAggregated
    simp only [hmod, hcmp, RandomUInt32, if_pos (Nat.pos_iff_ne_zero.1 hpos), if_true, hsel, Send,
      hok]
    refine ⟨_, rfl, ?_, ?_, ?_, ?_, ?_, ?_⟩
    · split <;> simp [DandelionSetTimer, Node.log]
    · split <;> simp [DandelionSetTimer]
    · split <;> rfl
    · split <;> rfl
    · split <;> rfl
    · split <;> rfl
  · unfold OnTransactionAggregated
    simp only [hmod, hcmp, RandomUInt32, if_pos (Nat.pos_iff_ne_zero.1 hpos), if_true, hsel, Send,
      hno]
    exact ⟨_, rfl, rfl, rfl, rfl, rfl⟩

theorem zero_probability_stems_witness :
    (∀ b ∈ TxEnv.room.m_FluffProbability, b % 256 = 0) ∧
      (∃ b ∈ (TxEnv.room.NextNonce demoTxNode.nNonce).take TxEnv.room.m_FluffProbability.length,
        b % 256 ≠ 0) ∧
      ∃ s', OnTransactionAggregated Env.demo TxEnv.room demoTxNode 1 = .ok () s' ∧
        s'.node.trace =
          demoTxNode.node.trace ++ [Event.sent 1 (.NewTransaction ⟨[5], [6], [60]⟩ false)] := by
  obtain ⟨q, hq, _, h1, _⟩ := zero_probability_stems Env.demo TxEnv.room demoTxNode 1
    (by decide) ⟨1, by decide, by decide⟩ (by decide) ⟨1, by decide, by decide⟩
  have hq1 : q = 1 := by
    have : demoTxNode.node.m_lstPeers = [1] := by decide
    rw [this] at hq
    simpa using hq
  subst hq1
  obtain ⟨s', h2, h3, _⟩ := h1 rfl
  exact ⟨by decide, ⟨1, by decide, by decide⟩, s', h2, h3⟩

/-- C15: with every bit of `FluffProbability` set, whatever nonce is drawn and
however many peers spread transactions, and likewise with any `FluffProbability`
when no peer has `SpreadingTransactions`, `OnTransactionAggregated` is the call
of `OnTransactionFluff` for the transaction of the stem element (after the one
nonce, if a peer spreads transactions): it sends no `NewTransaction`, all it
sends is the `HaveTransaction` of `OnTransactionFluff`. -/
theorem max_probability_fluffs (E : Env) (T : TxEnv) (s : TxNode) (x : StemRef)
    (h : (∀ b ∈ T.m_FluffProbability, b % 256 = 255) ∨
      (∀ q ∈ s.node.m_lstPeers, (s.node.peerAt q).m_Config.m_SpreadingTransactions = false)) :
    (OnTransactionAggregated E T s x =
        (OnTransactionFluff E T s (s.stemAt x).m_pValue none (some x)).void ∨
      OnTransactionAggregated E T s x =
        (OnTransactionFluff E T { s with nNonce := s.nNonce + 1 } (s.stemAt x).m_pValue none
          (some x)).void) ∧
    (∀ s', (OnTransactionAggregated E T s x).state? = some s' →
      ∃ evs, s'.node.trace = s.node.trace ++ evs ∧
        ∀ e ∈ evs, ∃ q, e = Event.sent q (.HaveTransaction (T.get_Key (s.stemAt x).m_pValue))) ∧
    OnTransactionAggregated E T s x ≠ .lost := by
  have key : OnTransactionAggregated E T s x =
        (OnTransactionFluff E T s (s.stemAt x).m_pValue none (some x)).void ∨
      OnTransactionAggregated E T s x =
        (OnTransactionFluff E T { s with nNonce := s.nNonce + 1 } (s.stemAt x).m_pValue none
          (some x)).void := by
    unfold OnTransactionAggregated
    simp only []
    split
    · split
      · rename_i hc
        rcases h with h | h
        · rw [memcmpLt_max h] at hc
          exact absurd hc (by simp)
        · rename_i hn
          exfalso
          apply hn
          have : s.node.m_lstPeers.countP
              (fun q => (s.node.peerAt q).m_Config.m_SpreadingTransactions) = 0 := by
            rw [List.countP_eq_zero]
            intro q hq
            simp [h q hq]
          rw [this]; rfl
      · exact Or.inr rfl
    · exact Or.inl rfl
  refine ⟨key, ?_, ?_⟩
  · intro s' hs'
    rcases key with k | k
    · rw [k, TxRes.void_state] at hs'
      exact (OnTransactionFluff_trace E T s _ none (some x)).1 s' hs'
    · rw [k, TxRes.void_state] at hs'
      exact (OnTransactionFluff_trace E T { s with nNonce := s.nNonce + 1 } _ none (some x)).1 s' hs'
  · rcases key with k | k
    · rw [k]; exact TxRes.void_ne_lost (OnTransactionFluff_trace E T s _ none (some x)).2
    · rw [k]
      exact TxRes.void_ne_lost
        (OnTransactionFluff_trace E T { s with nNonce := s.nNonce + 1 } _ none (some x)).2

theorem max_probability_fluffs_witness :
    (∀ b ∈ TxEnv.always.m_FluffProbability, b % 256 = 255) ∧
      OnTransactionAggregated Env.demo TxEnv.always demoTxNode 1 ≠ .lost ∧
      ∀ s', (OnTransactionAggregated Env.demo TxEnv.always demoTxNode 1).state? = some s' →
        ∃ evs, s'.node.trace = demoTxNode.node.trace ++ evs ∧
          ∀ e ∈ evs, ∃ q, e = Event.sent q
            (.HaveTransaction (TxEnv.always.get_Key (demoTxNode.stemAt 1).m_pValue)) :=
  ⟨by decide,
    (max_probability_fluffs Env.demo TxEnv.always demoTxNode 1 (Or.inl (by decide))).2.2,
    (max_probability_fluffs Env.demo TxEnv.always demoTxNode 1 (Or.inl (by decide))).2.1⟩

/-! ## Miner: the stop flag -/

theorem stop_same {m m' : Miner} (h1 : m'.nStop = m.nStop)
    (h2 : ∀ c, m.stopAt c = true → m'.stopAt c = true) :
    m.nStop ≤ m'.nStop ∧
      (∀ c, c < m.nStop → m.stopAt c = true → m'.stopAt c = true) ∧
      (∀ c, m.nStop ≤ c → c < m'.nStop → m'.stopAt c = false) :=
  ⟨le_of_eq h1.symm, fun c _ h => h2 c h, fun c h3 h4 => absurd h4 (by omega)⟩

theorem stop_update {m : Miner} (a : StopRef) (c : StopRef) (h : m.stopAt c = true) :
    Function.update m.stopAt a true c = true := by
  simp only [Function.update_apply]
  split
  · rfl
  · exact h

/-- One step of the miner writes `true` to flags that exist, and `false` only to
the flag it makes. -/
theorem Miner.step_stop (m : Miner) (op : MinerOp) :
    m.nStop ≤ (m.step op).nStop ∧
      (∀ c, c < m.nStop → m.stopAt c = true → (m.step op).stopAt c = true) ∧
      (∀ c, m.nStop ≤ c → c < (m.step op).nStop → (m.step op).stopAt c = false) := by
  cases op with
  | restart b dh n gen =>
    simp only [Miner.step, Miner.Restart]
    split
    · exact stop_same rfl (fun _ h => h)
    · split
      · exact stop_same rfl (fun _ h => h)
      · split
        · exact stop_same rfl (fun _ h => h)
        · split
          · split
            · exact stop_same rfl (fun _ h => h)
            · exact stop_same rfl (fun _ h => h)
          · refine ⟨Nat.le_succ _, fun c hlt h => ?_, fun c h1 h2 => ?_⟩
            · have hne : c ≠ m.nStop := by omega
              simp only []
              rw [Function.update_noteq hne]; exact h
            · have : c = m.nStop := by simp only [] at h2; omega
              subst this
              simp
  | takeTask i =>
    simp only [Miner.step, Miner.takeTask]
    split
    · exact stop_same rfl (fun _ h => h)
    · split
      · exact stop_same rfl (fun _ h => h)
      · exact stop_same rfl (fun _ h => h)
  | storeSolution i s =>
    simp only [Miner.step, Miner.storeSolution]
    split
    · exact stop_same rfl (fun _ h => h)
    · split
      · exact stop_same rfl (fun _ h => h)
      · exact stop_same rfl (fun c h => stop_update _ c h)
  | hardAbortSafe =>
    simp only [Miner.step, Miner.HardAbortSafe]
    split
    · exact stop_same rfl (fun _ h => h)
    · exact stop_same rfl (fun c h => stop_update _ c h)
  | onMined =>
    simp only [Miner.step, Miner.OnMined]
    split
    · exact stop_same rfl (fun _ h => h)
    · split
      · exact stop_same rfl (fun _ h => h)
      · exact stop_same rfl (fun _ h => h)

/-- Over any run of steps a flag that is set stays set. -/
theorem Miner.run_stop (ops : List MinerOp) :
    ∀ m : Miner, m.nStop ≤ (ops.foldl Miner.step m).nStop ∧
      ∀ c, c < m.nStop → m.stopAt c = true → (ops.foldl Miner.step m).stopAt c = true := by
  induction ops with
  | nil => intro m; exact ⟨le_refl _, fun _ _ h => h⟩
  | cons op ops ih =>
    intro m
    obtain ⟨h1, h2, _⟩ := Miner.step_stop m op
    obtain ⟨i1, i2⟩ := ih (m.step op)
    rw [List.foldl_cons]
    exact ⟨le_trans h1 i1, fun c hc h => i2 c (lt_of_lt_of_le hc h1) (h2 c hc h)⟩

/-- C19: over the steps of the miner (`Restart`, a thread taking the task or
storing a solution in `OnRefresh`, `HardAbortSafe`, `OnMined`) a stop flag is
false when it is made and, once true, is true after every further step and
run of steps.  `Restart`, having built a block, leaves the miner as it is when
the flag of the current task is true; otherwise it installs the new task with
the flag of the current task, or with a new flag, which is false, when there is
no current task. -/
theorem miner_stop_flag (m : Miner) :
    (∀ op : MinerOp,
      (∀ c, c < m.nStop → m.stopAt c = true → (m.step op).stopAt c = true) ∧
      (∀ c, m.nStop ≤ c → c < (m.step op).nStop → (m.step op).stopAt c = false)) ∧
    (∀ (ops : List MinerOp) (c : StopRef), c < m.nStop → m.stopAt c = true →
      (ops.foldl Miner.step m).stopAt c = true) ∧
    (∀ (b : Bool) (dh n : Nat) (hdr : Full) (body fees : Nat), m.m_vThreads ≠ 0 →
      ¬ (b = true ∧ dh ≥ n) →
      (∀ cur, m.m_pTask = some cur → m.stopAt (m.taskAt cur).m_pStop = true →
        m.Restart b dh n (some (hdr, body, fees)) = (true, m)) ∧
      (∀ cur, m.m_pTask = some cur → m.stopAt (m.taskAt cur).m_pStop = false →
        ∃ t, (m.Restart b dh n (some (hdr, body, fees))).2.m_pTask = some t ∧
          (m.Restart b dh n (some (hdr, body, fees))).2.taskAt t =
            ⟨hdr, body, fees, (m.taskAt cur).m_pStop⟩ ∧
          (m.Restart b dh n (some (hdr, body, fees))).2.stopAt = m.stopAt ∧
          (m.Restart b dh n (some (hdr, body, fees))).2.nStop = m.nStop) ∧
      (m.m_pTask = none →
        ∃ t, (m.Restart b dh n (some (hdr, body, fees))).2.m_pTask = some t ∧
          (m.Restart b dh n (some (hdr, body, fees))).2.taskAt t = ⟨hdr, body, fees, m.nStop⟩ ∧
          (m.Restart b dh n (some (hdr, body, fees))).2.nStop = m.nStop + 1 ∧
          (m.Restart b dh n (some (hdr, body, fees))).2.stopAt m.nStop = false ∧
          ∀ c, c < m.nStop →
            (m.Restart b dh n (some (hdr, body, fees))).2.stopAt c = m.stopAt c)) := by
  refine ⟨fun op => (Miner.step_stop m op).2, fun ops c => (Miner.run_stop ops m).2 c, ?_⟩
  intro b dh n hdr body fees hth htr
  refine ⟨fun cur hc hs => ?_, fun cur hc hs => ?_, fun hc => ?_⟩
  · simp [Miner.Restart, hth, htr, hc, hs]
  · have hr : m.Restart b dh n (some (hdr, body, fees)) =
        (true, { m with
          taskAt := Function.update m.taskAt m.nTasks ⟨hdr, body, fees, (m.taskAt cur).m_pStop⟩
          nTasks := m.nTasks + 1
          m_pTask := some m.nTasks }) := by
      simp [Miner.Restart, hth, htr, hc, hs]
    rw [hr]
    exact ⟨m.nTasks, rfl, by simp, rfl, rfl⟩
  · have hr : m.Restart b dh n (some (hdr, body, fees)) =
        (true, { m with
          taskAt := Function.update m.taskAt m.nTasks ⟨hdr, body, fees, m.nStop⟩
          nTasks := m.nTasks + 1
          stopAt := Function.update m.stopAt m.nStop false
          nStop := m.nStop + 1
          m_pTask := some m.nTasks }) := by
      simp [Miner.Restart, hth, htr, hc]
    rw [hr]
    refine ⟨m.nTasks, rfl, by simp, rfl, by simp, fun c hlt => ?_⟩
    have hne : c ≠ m.nStop := by omega
    simp only []
    rw [Function.update_noteq hne]

/-! ## Refreshing the congestions -/

/-- The last loop of `RefreshCongestions` leaves the task records alone, and
what it leaves in the queue was there and, if the loop came to it, is
relevant. -/
theorem deleteIrrelevant_queue :
    ∀ (ts : List TaskKey) (s : Node), s.m_lstTasksUnassigned.Nodup →
      (deleteIrrelevant ts s).taskAt = s.taskAt ∧
      ∀ k ∈ (deleteIrrelevant ts s).m_lstTasksUnassigned,
        k ∈ s.m_lstTasksUnassigned ∧ (k ∈ ts → (s.taskAt k).m_bRelevant = true) := by
  intro ts
  induction ts with
  | nil => intro s _; exact ⟨rfl, fun k hk => ⟨hk, fun h => absurd h (List.not_mem_nil _)⟩⟩
  | cons t ts ih =>
    intro s hnd
    rw [deleteIrrelevant]
    by_cases hr : (s.taskAt t).m_bRelevant = true
    · rw [if_pos hr]
      obtain ⟨h1, h2⟩ := ih s hnd
      refine ⟨h1, fun k hk => ⟨(h2 k hk).1, fun hmem => ?_⟩⟩
      rcases List.mem_cons.1 hmem with rfl | hmem
      · exact hr
      · exact (h2 k hk).2 hmem
    · rw [if_neg hr]
      have hnd' : (DeleteUnassignedTask s t).m_lstTasksUnassigned.Nodup := hnd.erase t
      obtain ⟨h1, h2⟩ := ih (DeleteUnassignedTask s t) hnd'
      refine ⟨h1, fun k hk => ?_⟩
      have hk' : k ∈ s.m_lstTasksUnassigned.erase t := (h2 k hk).1
      refine ⟨List.mem_of_mem_erase hk', fun hmem => ?_⟩
      rcases List.mem_cons.1 hmem with rfl | hmem
      · exact absurd hk' (hnd.not_mem_erase)
      · exact (h2 k hk).2 hmem

/-- C20 fails as stated: in a reachable state without sync, peer 1 holds the
block task of height 3.  The processor's walk asks for nothing, and after
`RefreshCongestions` has returned the task, which is not relevant, is still in
the global set, in the list of peer 1. -/
theorem assigned_task_outlives_refresh :
    Reachable Env.demo demoTwoBlocks ∧ demoTwoBlocks.m_pSync = none ∧
      ∃ s', RefreshCongestions Env.demo 1 demoTwoBlocks [] = .ok s' ∧
        (⟨⟨3, 33⟩, true⟩ : TaskKey) ∈ s'.m_setTasks ∧
        (s'.taskAt ⟨⟨3, 33⟩, true⟩).m_bRelevant = false ∧
        (⟨⟨3, 33⟩, true⟩ : TaskKey) ∈ (s'.peerAt 1).m_lstTasks :=
  ⟨demoTwoBlocks_reachable, by decide, _, rfl, by decide, by decide, by decide⟩

/-! ### `RefreshCongestions` returns -/

theorem Frame.find_eq {s s' : Node} (hf : Frame s s') (id : PeerID) : Find s' id = Find s id := by
  unfold Find
  rw [hf.infos]
  congr 1
  funext i
  rw [(hf.info i).1]

/-- Once there is no preferred peer to take, there is none later. -/
theorem Frame.preferred_none {s s' : Node} (hf : Frame s s') {pref : Option PeerID}
    (h : preferredPeer s pref = none) : preferredPeer s' pref = none := by
  unfold preferredPeer at h ⊢
  cases pref with
  | none => rfl
  | some id =>
    simp only [] at h ⊢
    rw [hf.find_eq id]
    cases hfi : Find s id with
    | none => rfl
    | some i =>
      rw [hfi] at h
      simp only [] at h ⊢
      rcases (hf.info i).2 with hl | hl
      · rw [hl]
        cases hlive : (s.infoAt i).m_pLive with
        | none => rfl
        | some p =>
          rw [hlive] at h
          simp only [] at h ⊢
          rw [(hf.peer p).1]
          exact h
      · rw [hl]

theorem Res.bind_congr {r : Res} {f g : Node → Res} (h : ∀ s, r = .ok s → f s = g s) :
    r.bind f = r.bind g := by
  cases r with
  | ok s => exact h s rfl
  | exc e s => rfl
  | out => rfl

/-- Without a preferred peer to take, `TryAssignTask` is the scan. -/
theorem TryAssignTask_pref_none (E : Env) :
    ∀ (n : Nat) (s : Node) (t : TaskKey) (pref : Option PeerID), Inv s →
      t ∈ s.m_lstTasksUnassigned → preferredPeer s pref = none →
      TryAssignTask E n s t pref = TryAssignTask E n s t none := by
  intro n
  induction n with
  | zero => intro s t pref _ _ _; rfl
  | succ n ih =>
    intro s t pref h ht hp
    rw [TryAssignTask, TryAssignTask]
    have hsel : selectPeer E s t pref = selectPeer E s t none := by
      unfold selectPeer
      rw [hp]
      rfl
    rw [hsel]
    cases hs : selectPeer E s t none with
    | none => rfl
    | some p =>
      simp only []
      cases ha : AssignTask E s t p with
      | ok s1 => rfl
      | out => rfl
      | exc e s1 =>
        simp only []
        have := AssignTask_exc ha
        subst this
        refine Res.bind_congr (fun s2 hs2 => ?_)
        have hpost := ((sched_post E n).2.2.2 s1 p true (some .Ban) h).1.of_ok hs2
        exact ih s2 t pref hpost.inv (hpost.queue t (fun hf => hf) ht)
          (hpost.frame.preferred_none hp)

theorem preferredPeer_some {s : Node} {pref : Option PeerID} {p : PeerRef}
    (h : preferredPeer s pref = some p) :
    ∃ id i, pref = some id ∧ Find s id = some i ∧ (s.infoAt i).m_pLive = some p := by
  unfold preferredPeer at h
  cases pref with
  | none => cases h
  | some id =>
    simp only [] at h
    cases hfi : Find s id with
    | none => rw [hfi] at h; cases h
    | some i =>
      rw [hfi] at h
      simp only [] at h
      cases hl : (s.infoAt i).m_pLive with
      | none => rw [hl] at h; cases h
      | some q =>
        rw [hl] at h
        simp only [] at h
        split at h
        · cases h; exact ⟨id, i, rfl, hfi, hl⟩
        · cases h

theorem Find_mem {s : Node} {id : PeerID} {i : InfoRef} (h : Find s id = some i) :
    i ∈ s.m_Infos := by
  unfold Find at h
  exact List.mem_of_find?_eq_some h

/-- `TryAssignTask` returns or throws, with or without a preferred peer. -/
theorem TryAssignTask_term (E : Env) (n : Nat) (s : Node) (t : TaskKey) (pref : Option PeerID)
    (h : Inv s) (hp : HeightsPos s) (ht : t ∈ s.m_lstTasksUnassigned)
    (hn : (liveCount s + 1) * (s.m_setTasks.length + 4) + 1 ≤ n) :
    TryAssignTask E n s t pref ≠ .out := by
  have hmul : (liveCount s + 1) * (s.m_setTasks.length + 4) =
      liveCount s * (s.m_setTasks.length + 4) + s.m_setTasks.length + 4 := by ring
  cases hpp : preferredPeer s pref with
  | none =>
    rw [TryAssignTask_pref_none E n s t pref h ht hpp]
    exact sched_term E s.m_setTasks.length (liveCount s) n s t h hp (le_refl _) (le_refl _) ht
      (by omega)
  | some p =>
    obtain ⟨m, rfl⟩ : ∃ m, n = m + 1 := ⟨n - 1, by omega⟩
    rw [TryAssignTask]
    have hsel : selectPeer E s t pref = some p := by
      unfold selectPeer
      rw [hpp]
    rw [hsel]
    simp only []
    cases ha : AssignTask E s t p with
    | ok s1 => simp
    | out => exact absurd ha AssignTask_ne_out
    | exc e s1 =>
      simp only []
      have := AssignTask_exc ha
      subst this
      refine Res.bind_ne_out (DeleteSelf_term E s1 p true (some .Ban) h hp m (by omega)) ?_
      intro s2 hs2
      obtain ⟨hsat, hgone⟩ := (sched_post E m).2.2.2 s1 p true (some .Ban) h
      have hpost := hsat.of_ok hs2
      have hgone := hgone s2 hs2
      obtain ⟨id, i, rfl, hfi, hlive⟩ := preferredPeer_some hpp
      have hnone : preferredPeer s2 (some id) = none := by
        unfold preferredPeer
        simp only []
        rw [hpost.frame.find_eq id, hfi]
        simp only []
        rcases (hpost.frame.info i).2 with hl | hl
        · exfalso
          rw [hlive] at hl
          have hi2 : i ∈ s2.m_Infos := by rw [hpost.frame.infos]; exact Find_mem hfi
          exact hgone (hpost.inv.live i hi2 p hl).1
        · rw [hl]
      rw [TryAssignTask_pref_none E m s2 t (some id) hpost.inv (hpost.queue t (fun hf => hf) ht)
        hnone]
      refine sched_term E s1.m_setTasks.length (liveCount s1) m s2 t hpost.inv
        (hp.heights_frame hpost.frame) hpost.frame.set.length_le hpost.frame.liveCount_le
        (hpost.queue t (fun hf => hf) ht) (by omega)

theorem Bounded.of_frame {N φ : Nat} {s s' : Node} (h : Bounded N φ s) (hi : Inv s')
    (hf : Frame s s') : Bounded N φ s' :=
  ⟨hi, h.pos.heights_frame hf, le_trans hf.set.length_le h.len,
    le_trans hf.liveCount_le h.live⟩

theorem RequestData_bounded (E : Env) (n : Nat) (s : Node) (id : StateID) (b : Bool)
    (pref : Option PeerID) {N φ : Nat} (h : Bounded N φ s) (hid : 1 ≤ id.m_Height)
    (hn : (φ + 1) * (N + 5) + 1 ≤ n) :
    (RequestData E n s id b pref).Sat (Bounded (N + 1) φ) ∧ RequestData E n s id b pref ≠ .out := by
  unfold RequestData
  split
  · refine ⟨⟨h.inv.setRelevant _ _, h.pos, le_trans h.len (Nat.le_succ _), h.live⟩, by simp⟩
  · rename_i hk
    have hi := h.inv.newTask hk (k := ⟨id, b⟩)
    have hb : Bounded (N + 1) φ
        { s.setTask ⟨id, b⟩ (fun _ => ⟨true, false, none⟩) with
          m_setTasks := (s.setTask ⟨id, b⟩ (fun _ => ⟨true, false, none⟩)).m_setTasks ++ [⟨id, b⟩]
          m_lstTasksUnassigned :=
            (s.setTask ⟨id, b⟩ (fun _ => ⟨true, false, none⟩)).m_lstTasksUnassigned ++
              [⟨id, b⟩] } := by
      refine ⟨hi, ?_, ?_, h.live⟩
      · intro k hk'
        rcases List.mem_append.1 hk' with hk' | hk'
        · exact h.pos k hk'
        · rw [List.mem_singleton.1 hk']; exact hid
      · show (s.m_setTasks ++ [_]).length ≤ N + 1
        rw [List.length_append]
        exact Nat.add_le_add h.len (le_refl _)
    have hsat := (sched_post E n).1 _ ⟨id, b⟩ pref hi (by simp)
    refine ⟨hsat.mono (fun s1 h1 => hb.of_frame h1.inv h1.frame), ?_⟩
    refine TryAssignTask_term E n _ ⟨id, b⟩ pref hi hb.pos (by simp) ?_
    have h1 : (liveCount { s.setTask ⟨id, b⟩ (fun _ => ⟨true, false, none⟩) with
          m_setTasks := (s.setTask ⟨id, b⟩ (fun _ => ⟨true, false, none⟩)).m_setTasks ++ [⟨id, b⟩]
          m_lstTasksUnassigned :=
            (s.setTask ⟨id, b⟩ (fun _ => ⟨true, false, none⟩)).m_lstTasksUnassigned ++
              [⟨id, b⟩] } + 1) ≤ φ + 1 := Nat.succ_le_succ hb.live
    have h2 := hb.len
    calc _ ≤ (φ + 1) * (N + 1 + 4) + 1 :=
          Nat.succ_le_succ (Nat.mul_le_mul h1 (Nat.add_le_add_right h2 4))
      _ ≤ n := hn

theorem OnPeerInsane_bounded (E : Env) (n : Nat) (s : Node) (id : PeerID) {N φ : Nat}
    (h : Bounded N φ s) (hn : (φ + 1) * (N + 4) ≤ n) :
    (OnPeerInsane E n s id).Sat (Bounded N φ) ∧ OnPeerInsane E n s id ≠ .out := by
  unfold OnPeerInsane
  split
  · exact ⟨h, by simp⟩
  · split
    · rename_i p _
      have hsat := ((sched_post E n).2.2.2 s p true (some .Ban) h.inv).1
      refine ⟨hsat.mono (fun s1 h1 => h.of_frame h1.inv h1.frame), ?_⟩
      refine DeleteSelf_term E s p true (some .Ban) h.inv h.pos n ?_
      calc _ ≤ (φ + 1) * (N + 4) :=
            Nat.mul_le_mul (Nat.succ_le_succ h.live) (Nat.add_le_add_right h.len 4)
        _ ≤ n := hn
    · exact ⟨⟨h.inv.ban _, h.pos, h.len, h.live⟩, by simp⟩

/-- The processor's walk returns or throws when each request is for a height
of at least 1 and the budget covers the tasks it may add. -/
theorem EnumCongestions_term (E : Env) (n : Nat) :
    ∀ (walk : List ProcCall) (N φ : Nat) (s : Node), Bounded N φ s →
      (∀ id b pref, ProcCall.RequestData id b pref ∈ walk → 1 ≤ id.m_Height) →
      (φ + 1) * (N + walk.length + 5) + 1 ≤ n → EnumCongestions E n walk s ≠ .out := by
  intro walk
  induction walk with
  | nil => intro N φ s _ _ _; simp [EnumCongestions]
  | cons c cs ih =>
    intro N φ s h hw hn
    have hlen : (c :: cs).length = cs.length + 1 := rfl
    rw [hlen] at hn
    have hmono : (φ + 1) * (N + 5) ≤ (φ + 1) * (N + (cs.length + 1) + 5) :=
      Nat.mul_le_mul (le_refl _) (by omega)
    cases c with
    | RequestData id b pref =>
      rw [EnumCongestions]
      obtain ⟨h1, h2⟩ := RequestData_bounded E n s id b pref h
        (hw id b pref (List.mem_cons_self _ _)) (by omega)
      refine Res.bind_ne_out h2 (fun s1 hs1 => ?_)
      refine ih (N + 1) φ s1 (h1.of_ok hs1)
        (fun id b pref hm => hw id b pref (List.mem_cons_of_mem _ hm)) ?_
      have : N + 1 + cs.length + 5 = N + (cs.length + 1) + 5 := by omega
      rw [this]; exact hn
    | OnPeerInsane id =>
      rw [EnumCongestions]
      have hmono2 : (φ + 1) * (N + 4) ≤ (φ + 1) * (N + 5) :=
        Nat.mul_le_mul (le_refl _) (by omega)
      obtain ⟨h1, h2⟩ := OnPeerInsane_bounded E n s id h (by omega)
      refine Res.bind_ne_out h2 (fun s1 hs1 => ?_)
      refine ih N φ s1 (h1.of_ok hs1)
        (fun id b pref hm => hw id b pref (List.mem_cons_of_mem _ hm)) ?_
      have hmono3 : (φ + 1) * (N + cs.length + 5) ≤ (φ + 1) * (N + (cs.length + 1) + 5) :=
        Nat.mul_le_mul (le_refl _) (by omega)
      omega

/-- C20, amended: when sync is not active, after `RefreshCongestions` has
returned no task with `relevant = false` is in the unassigned queue: every task
of the queue that the processor's walk did not ask for again is deleted from the
global task set.  A task with `relevant = false` that is still in the global
set is in the task list of a peer (it is deleted when that peer releases it).
With all tasks and requests at height at least 1, `RefreshCongestions` does
return or throw once the budget reaches the bound. -/
theorem RefreshCongestions_drops_unassigned (E : Env) (s : Node) (walk : List ProcCall)
    (h : Reachable E s) (hsync : s.m_pSync = none) :
    (∀ n s', RefreshCongestions E n s walk = .ok s' →
      (∀ t ∈ s'.m_lstTasksUnassigned, (s'.taskAt t).m_bRelevant = true) ∧
      (∀ t ∈ s'.m_setTasks, (s'.taskAt t).m_bRelevant = false →
        ∃ p ∈ s'.m_lstPeers, t ∈ (s'.peerAt p).m_lstTasks)) ∧
    (HeightsPos s → (∀ id b pref, ProcCall.RequestData id b pref ∈ walk → 1 ≤ id.m_Height) →
      ∀ n, (liveCount s + 1) * (s.m_setTasks.length + walk.length + 5) + 1 ≤ n →
        RefreshCongestions E n s walk ≠ .out) := by
  have hi := reachable_inv h
  refine ⟨fun n s' hr => ?_, fun hp hw n hn => ?_⟩
  · have hinv' : Inv s' := (RefreshCongestions_inv hi n walk).of_ok hr
    unfold RefreshCongestions at hr
    rw [hsync] at hr
    simp only [Option.isSome_none, Bool.false_eq_true, if_false] at hr
    obtain ⟨s1, hs1, hs'⟩ := Res.bind_eq_ok hr
    have hi1 : Inv s1 := (EnumCongestions_inv E n walk _ hi.clearRelevant).of_ok hs1
    cases hs'
    obtain ⟨hta, hq⟩ := deleteIrrelevant_queue s1.m_lstTasksUnassigned s1 hi1.queueNodup
    have hfirst : ∀ t ∈ (deleteIrrelevant s1.m_lstTasksUnassigned s1).m_lstTasksUnassigned,
        ((deleteIrrelevant s1.m_lstTasksUnassigned s1).taskAt t).m_bRelevant = true := by
      intro t ht
      rw [hta]
      exact (hq t ht).2 (hq t ht).1
    refine ⟨hfirst, fun t ht hrel => ?_⟩
    rcases hinv'.placed_cases ht with hq' | hp'
    · rw [hfirst t hq'] at hrel; cases hrel
    · exact hp'
  · unfold RefreshCongestions
    rw [hsync]
    simp only [Option.isSome_none, Bool.false_eq_true, if_false]
    have hb : Bounded s.m_setTasks.length (liveCount s) (clearRelevant s) :=
      ⟨hi.clearRelevant, hp, le_refl _, le_refl _⟩
    refine Res.bind_ne_out (EnumCongestions_term E n walk _ _ _ hb hw hn) (fun s1 _ => by simp)

theorem RefreshCongestions_drops_unassigned_witness :
    Reachable Env.demo demoTwoBlocks ∧ demoTwoBlocks.m_pSync = none ∧
      ∃ s', RefreshCongestions Env.demo 1 demoTwoBlocks [] = .ok s' ∧
        ∀ t ∈ s'.m_lstTasksUnassigned, (s'.taskAt t).m_bRelevant = true :=
  ⟨demoTwoBlocks_reachable, by decide, _, rfl,
    ((RefreshCongestions_drops_unassigned Env.demo demoTwoBlocks [] demoTwoBlocks_reachable
      (by decide)).1 1 _ rfl).1⟩

/-! ## The sync controller and the peers -/

theorem SyncSame.same_sync (s : Node) : SyncSame s s := ⟨rfl, rfl, fun _ => rfl⟩

theorem SyncSame.sync_trans {a b c : Node} (h1 : SyncSame a b) (h2 : SyncSame b c) :
    SyncSame a c :=
  ⟨h2.sync.trans h1.sync, h2.peers.trans h1.peers, fun p => (h2.flags p).trans (h1.flags p)⟩

theorem SyncSame.count_same {s s' : Node} (h : SyncSame s s') :
    pendingCount s' = pendingCount s := by
  unfold Beam.pendingCount
  rw [h.peers]
  congr 1
  funext p
  exact h.flags p

theorem SyncInv.of_syncSame {s s' : Node} (h : SyncInv s) (hs : SyncSame s s') : SyncInv s' := by
  refine ⟨?_, ?_, ?_, ?_⟩
  · rw [hs.peers]; exact h.nodup
  · intro y hy p hp
    rw [hs.peers]
    exact h.listed y (hs.sync ▸ hy) p ((hs.flags p) ▸ hp)
  · intro y hy hd p
    rw [hs.flags p]
    exact h.detecting y (hs.sync ▸ hy) hd p
  · intro y hy hd
    rw [hs.count_same]
    exact h.download y (hs.sync ▸ hy) hd

theorem SyncSame.of_setPeer (s : Node) (p : PeerRef) (f : Peer → Peer)
    (hf : ∀ x, (f x).m_Flags.SyncPending = x.m_Flags.SyncPending) :
    SyncSame s (s.setPeer p f) := by
  refine ⟨rfl, rfl, fun q => ?_⟩
  by_cases hq : q = p
  · subst hq
    have : (s.setPeer q f).peerAt q = f (s.peerAt q) := by simp [Node.setPeer]
    rw [this]
    exact hf _
  · have : (s.setPeer p f).peerAt q = s.peerAt q := by
      simp [Node.setPeer, Function.update_noteq hq]
    rw [this]

theorem SyncSame.of_setTask (s : Node) (t : TaskKey) (f : Task → Task) :
    SyncSame s (s.setTask t f) := ⟨rfl, rfl, fun _ => rfl⟩

theorem SyncSame.of_setInfo (s : Node) (i : InfoRef) (f : PeerInfoPlus → PeerInfoPlus) :
    SyncSame s (s.setInfo i f) := ⟨rfl, rfl, fun _ => rfl⟩

theorem SyncSame.of_log (s : Node) (e : Event) : SyncSame s (s.log e) :=
  ⟨rfl, rfl, fun _ => rfl⟩

theorem Send_same (E : Env) (s : Node) (p : PeerRef) (m : Msg) :
    (Send E s p m).Sat (SyncSame s) ∧ Send E s p m ≠ .out := by
  unfold Send
  split
  · exact ⟨SyncSame.of_log s _, by simp⟩
  · exact ⟨SyncSame.same_sync s, by simp⟩

theorem AssignEff.sync_same {E : Env} {s s' : Node} {t : TaskKey} {p : PeerRef}
    (h : AssignEff E s s' t p) : SyncSame s s' := by
  refine ⟨h.sync, h.peers, fun q => ?_⟩
  by_cases hq : q = p
  · subst hq
    obtain ⟨tm, hp⟩ := h.peer
    rw [hp]
  · rw [h.other q hq]

theorem AssignTask_same (E : Env) (s : Node) (t : TaskKey) (p : PeerRef) :
    (AssignTask E s t p).Sat (SyncSame s) := by
  cases ha : AssignTask E s t p with
  | ok s1 => exact (AssignTask_ok ha).sync_same
  | exc e s1 =>
    have := AssignTask_exc ha
    subst this
    exact SyncSame.same_sync _
  | out => trivial

theorem releaseToQueue_same (s : Node) (p : PeerRef) (t : TaskKey) :
    SyncSame s (releaseToQueue s p t) := by
  have h := releaseToQueue_eff s p t
  refine ⟨h.sync, h.peers, fun q => ?_⟩
  by_cases hq : q = p
  · subst hq
    rw [h.peer]
  · rw [h.other q hq]

theorem DeleteUnassignedTask_same (s : Node) (t : TaskKey) :
    SyncSame s (DeleteUnassignedTask s t) := ⟨rfl, rfl, fun _ => rfl⟩

theorem countP_change {α : Type} [DecidableEq α] (f g : α → Bool) (q : α)
    (h : ∀ x, x ≠ q → g x = f x) :
    ∀ l : List α, l.countP g + (if f q then l.count q else 0) =
      l.countP f + (if g q then l.count q else 0) := by
  intro l
  induction l with
  | nil => simp
  | cons a l ih =>
    by_cases ha : a = q
    · subst ha
      cases hf : f a <;> cases hg : g a <;> simp [List.countP_cons, hf, hg] at ih ⊢ <;> omega
    · have hga := h a ha
      have hc : (a :: l).count q = l.count q := by
        rw [List.count_cons]; simp [ha]
      rw [hc]
      cases hf : f a <;> simp [List.countP_cons, hga, hf] <;> omega

theorem SyncStep.step_refl (s : Node) : SyncStep s s :=
  ⟨rfl, fun _ => rfl, fun _ h => Or.inl h, fun h => h,
    fun y hy => ⟨y, hy, rfl, rfl, rfl, rfl, rfl⟩⟩

theorem SyncStep.step_trans {a b c : Node} (h1 : SyncStep a b) (h2 : SyncStep b c) :
    SyncStep a c := by
  refine ⟨h2.peers.trans h1.peers, fun q => (h2.dont q).trans (h1.dont q), fun q hq => ?_,
    fun h => h2.none (h1.none h), fun y hy => ?_⟩
  · rcases h2.pend q hq with h | h
    · exact h1.pend q h
    · right; rw [← h1.dont q]; exact h
  · obtain ⟨y1, e1, a1, a2, a3, a4, a5⟩ := h1.some y hy
    obtain ⟨y2, e2, b1, b2, b3, b4, b5⟩ := h2.some y1 e1
    exact ⟨y2, e2, b1.trans a1, b2.trans a2, b3.trans a3, b4.trans a4, b5.trans a5⟩

/-- Giving `SyncPending` to a peer of the list and counting the request, when
no request is pending. -/
theorem SyncInv.mark {s s' : Node} {y : FirstTimeSync} {p : PeerRef} (h : SyncInv s)
    (hy : s.m_pSync = some y) (hdet : y.m_bDetecting = false) (hcnt : y.m_RequestsPending = 0)
    (hp : p ∈ s.m_lstPeers) (hdont : (s.peerAt p).m_Flags.DontSync = false)
    (hpeers : s'.m_lstPeers = s.m_lstPeers)
    (hsync : s'.m_pSync = some { y with m_RequestsPending := inc32 y.m_RequestsPending })
    (hother : ∀ q, q ≠ p → (s'.peerAt q).m_Flags = (s.peerAt q).m_Flags)
    (hself : (s'.peerAt p).m_Flags = { (s.peerAt p).m_Flags with SyncPending := true }) :
    SyncInv s' ∧ SyncStep s s' := by
  obtain ⟨d1, d2, d3⟩ := h.download y hy hdet
  have hzero : pendingCount s = 0 := by rw [← d1, hcnt]
  have hall : ∀ q ∈ s.m_lstPeers, (s.peerAt q).m_Flags.SyncPending = false := by
    intro q hq
    unfold pendingCount at hzero
    rw [List.countP_eq_zero] at hzero
    simpa using hzero q hq
  have hone : pendingCount s' = 1 := by
    unfold pendingCount at hzero ⊢
    rw [hpeers]
    have hc := countP_change (fun q => (s.peerAt q).m_Flags.SyncPending)
      (fun q => (s'.peerAt q).m_Flags.SyncPending) p
      (fun q hq => by simp only []; rw [hother q hq]) s.m_lstPeers
    simp only [hself, hall p hp, Bool.false_eq_true, if_false, if_true,
      List.count_eq_one_of_mem h.nodup hp, hzero] at hc
    omega
  refine ⟨⟨by rw [hpeers]; exact h.nodup, ?_, ?_, ?_⟩, ⟨hpeers, ?_, ?_, ?_, ?_⟩⟩
  · intro y' _ q hq
    rw [hpeers]
    by_cases hqp : q = p
    · subst hqp; exact hp
    · rw [hother q hqp] at hq
      exact h.listed y hy q hq
  · intro y' hy' hd'
    rw [hsync] at hy'
    cases hy'
    rw [hdet] at hd'
    cases hd'
  · intro y' hy' _
    rw [hsync] at hy'
    cases hy'
    simp only []
    rw [hcnt, hone]
    exact ⟨rfl, by decide, d3⟩
  · intro q
    by_cases hqp : q = p
    · subst hqp; rw [hself]
    · rw [hother q hqp]
  · intro q hq
    by_cases hqp : q = p
    · subst hqp; exact Or.inr hdont
    · rw [hother q hqp] at hq
      exact Or.inl hq
  · intro hn; rw [hy] at hn; cases hn
  · intro y' hy'
    rw [hy] at hy'
    cases hy'
    exact ⟨_, hsync, rfl, rfl, rfl, rfl, rfl⟩

/-- A sync cycle on a peer of the list keeps the consistency of the controller. -/
theorem SyncCyclePeer_sync (E : Env) (s : Node) (p : PeerRef) (h : SyncInv s)
    (hp : p ∈ s.m_lstPeers) :
    (SyncCyclePeer E s p).1.Sat (fun s' => SyncInv s' ∧ SyncStep s s') ∧
      (SyncCyclePeer E s p).1 ≠ .out := by
  unfold SyncCyclePeer
  split
  · exact ⟨⟨h, SyncStep.step_refl s⟩, by simp⟩
  · rename_i y hy
    split
    · exact ⟨⟨h, SyncStep.step_refl s⟩, by simp⟩
    · rename_i hgo
      split
      · exact ⟨⟨h, SyncStep.step_refl s⟩, by simp⟩
      · rename_i hdont
        split
        · exact ⟨⟨h, SyncStep.step_refl s⟩, by simp⟩
        · split
          · rename_i s1 hs
            obtain ⟨_, rfl⟩ := Send_ok hs
            refine ⟨?_, by simp⟩
            have hdet : y.m_bDetecting = false := by
              cases hd : y.m_bDetecting with
              | false => rfl
              | true => simp [hd] at hgo
            have hcnt : y.m_RequestsPending = 0 := by
              by_contra hne
              apply hgo
              simp [hne]
            refine h.mark hy hdet hcnt hp (by simpa using hdont) rfl rfl ?_ ?_
            · intro q hq
              simp [Node.setPeer, Node.log, Function.update_noteq hq]
            · simp [Node.setPeer, Node.log]
          · rename_i r hr
            cases hs : Send E s p (.MacroblockGet y.m_Trg y.m_iData
                (E.macroblockOffset y.m_Trg.m_Height y.m_iData)) with
            | ok s1 => exact absurd hs (hr s1)
            | exc e s1 =>
              obtain ⟨rfl, _⟩ := Send_exc hs
              exact ⟨⟨h, SyncStep.step_refl _⟩, by simp⟩
            | out => exact absurd hs Send_ne_out

theorem syncCycleLoop_sync (E : Env) (l : List PeerRef) :
    ∀ s : Node, SyncInv s → (∀ q ∈ l, q ∈ s.m_lstPeers) →
      (syncCycleLoop E l s).Sat (fun s' => SyncInv s' ∧ SyncStep s s') := by
  induction l with
  | nil => intro s h _; exact ⟨h, SyncStep.step_refl s⟩
  | cons p ps ih =>
    intro s h hl
    unfold syncCycleLoop
    have hc := (SyncCyclePeer_sync E s p h (hl p (List.mem_cons_self _ _))).1
    rcases hr : SyncCyclePeer E s p with ⟨r, b⟩
    rw [hr] at hc
    cases r with
    | ok s1 =>
      cases b
      · simp only []
        refine (ih s1 hc.1 (fun q hq => ?_)).mono (fun s2 h2 => ⟨h2.1, hc.2.step_trans h2.2⟩)
        rw [hc.2.peers]
        exact hl q (List.mem_cons_of_mem _ hq)
      · exact hc
    | exc e s1 => exact hc
    | out => trivial

theorem SyncCycle_sync (E : Env) (s : Node) (h : SyncInv s) :
    (SyncCycle E s).Sat (fun s' => SyncInv s' ∧ SyncStep s s') := by
  unfold SyncCycle
  split
  · exact ⟨h, SyncStep.step_refl s⟩
  · split
    · exact ⟨h, SyncStep.step_refl s⟩
    · exact syncCycleLoop_sync E _ s h (fun _ hq => hq)

theorem dec32_of_one : dec32 1 = 0 := by decide

/-- Taking `SyncPending` from a peer and counting the request down. -/
theorem SyncInv.unmark {s s' : Node} {y : FirstTimeSync} {p : PeerRef} (h : SyncInv s)
    (hy : s.m_pSync = some y) (hpend : (s.peerAt p).m_Flags.SyncPending = true)
    (hpeers : s'.m_lstPeers = s.m_lstPeers)
    (hsync : s'.m_pSync = some { y with m_RequestsPending := dec32 y.m_RequestsPending })
    (hother : ∀ q, q ≠ p → (s'.peerAt q).m_Flags.SyncPending = (s.peerAt q).m_Flags.SyncPending)
    (hself : (s'.peerAt p).m_Flags.SyncPending = false) :
    SyncInv s' ∧ y.m_bDetecting = false ∧ y.m_RequestsPending = 1 := by
  have hp : p ∈ s.m_lstPeers := h.listed y hy p hpend
  have hdet : y.m_bDetecting = false := by
    cases hd : y.m_bDetecting with
    | false => rfl
    | true =>
      have := h.detecting y hy hd p
      rw [hpend] at this
      cases this
  obtain ⟨d1, d2, d3⟩ := h.download y hy hdet
  have hc := countP_change (fun q => (s.peerAt q).m_Flags.SyncPending)
    (fun q => (s'.peerAt q).m_Flags.SyncPending) p (fun q hq => hother q hq) s.m_lstPeers
  simp only [hself, hpend, Bool.false_eq_true, if_false, if_true,
    List.count_eq_one_of_mem h.nodup hp] at hc
  have hcs : pendingCount s = s.m_lstPeers.countP (fun q => (s.peerAt q).m_Flags.SyncPending) := rfl
  have hcs' : pendingCount s' =
      s.m_lstPeers.countP (fun q => (s'.peerAt q).m_Flags.SyncPending) := by
    unfold pendingCount; rw [hpeers]
  have hone : y.m_RequestsPending = 1 := by omega
  refine ⟨⟨by rw [hpeers]; exact h.nodup, ?_, ?_, ?_⟩, hdet, hone⟩
  · intro y' _ q hq
    rw [hpeers]
    by_cases hqp : q = p
    · subst hqp; exact hp
    · rw [hother q hqp] at hq
      exact h.listed y hy q hq
  · intro y' hy' hd'
    rw [hsync] at hy'
    cases hy'
    rw [hdet] at hd'
    cases hd'
  · intro y' hy' _
    rw [hsync] at hy'
    cases hy'
    simp only []
    rw [hone, dec32_of_one]
    exact ⟨by omega, by decide, d3⟩

theorem UnsubscribeOne_syncSame (s : Node) (p : PeerRef) (c : Channel) :
    SyncSame s (UnsubscribeOne s p c) := by
  unfold UnsubscribeOne
  exact SyncSame.sync_trans (b := { s with
      m_Subscribed := s.m_Subscribed.erase (Subscription.mk c p) })
    ⟨rfl, rfl, fun _ => rfl⟩ (SyncSame.of_setPeer _ p _ (fun _ => rfl))

theorem unsubscribeLoop_syncSame (p : PeerRef) :
    ∀ (L : List Channel) (s : Node), SyncSame s (unsubscribeLoop p L s) := by
  intro L
  induction L with
  | nil => intro s; exact SyncSame.same_sync s
  | cons c L ih =>
    intro s
    rw [unsubscribeLoop]
    exact (UnsubscribeOne_syncSame s p c).sync_trans (ih _)

theorem detachInfo_syncSame (E : Env) (s : Node) (p : PeerRef) (b : Bool)
    (r : Option ByeReason) : SyncSame s (detachInfo E s p b r) := by
  obtain ⟨F, T, e, _⟩ := detachInfo_shape E s p b r
  rw [e]
  exact ⟨rfl, rfl, fun _ => rfl⟩

theorem startDelete_syncSame (E : Env) (s : Node) (p : PeerRef) (r : Option ByeReason) :
    (startDelete E s p r).Sat (SyncSame s) := by
  unfold startDelete
  have key : ∀ r0 : Res, r0.Sat (SyncSame s) →
      (r0.bind fun s1 => .ok (s1.setPeer p (fun x => { x with m_Tip := Full.zero }))).Sat
        (SyncSame s) := by
    intro r0 h0
    refine Res.Sat.bind h0 (fun _ h => h) (fun s1 _ h => ?_)
    exact h.sync_trans (SyncSame.of_setPeer s1 p _ (fun _ => rfl))
  apply key
  split
  · split
    · exact (Send_same E s p _).1
    · exact SyncSame.same_sync s
  · exact SyncSame.same_sync s

/-- The sync block of `DeleteSelf` keeps the consistency of the controller and,
while there is a controller, leaves the peer without `SyncPending`. -/
theorem releaseSyncSlot_sync (E : Env) (s : Node) (p : PeerRef) (h : SyncInv s) :
    (releaseSyncSlot E s p).Sat (fun s' => SyncInv s' ∧
      (s'.m_pSync.isSome = true → (s'.peerAt p).m_Flags.SyncPending = false)) ∧
    ∀ s', releaseSyncSlot E s p = .ok s' → s'.m_lstPeers = s.m_lstPeers := by
  unfold releaseSyncSlot
  split
  · rename_i hy
    exact ⟨⟨h, fun hs => by rw [hy] at hs; cases hs⟩, fun s' hs' => by cases hs'; rfl⟩
  · rename_i y hy
    split
    · rename_i hpend
      have hself : ((s.setPeer p (fun x =>
          { x with m_Flags := { x.m_Flags with SyncPending := false, DontSync := true } })).peerAt
            p).m_Flags = { (s.peerAt p).m_Flags with SyncPending := false, DontSync := true } := by
        simp [Node.setPeer]
      have hoth : ∀ q, q ≠ p → (s.setPeer p (fun x =>
          { x with m_Flags := { x.m_Flags with SyncPending := false, DontSync := true } })).peerAt
            q = s.peerAt q := by
        intro q hq
        simp [Node.setPeer, Function.update_noteq hq]
      have h1 : SyncInv { s.setPeer p (fun x =>
            { x with m_Flags := { x.m_Flags with SyncPending := false, DontSync := true } }) with
          m_pSync := some { y with m_RequestsPending := dec32 y.m_RequestsPending } } ∧
          y.m_bDetecting = false ∧ y.m_RequestsPending = 1 :=
        h.unmark hy hpend rfl rfl (fun q hq => by simp only []; rw [hoth q hq])
          (by simp only []; rw [hself])
      replace h1 := h1.1
      have hc := SyncCycle_sync E _ h1
      refine ⟨hc.mono (fun s' hs' => ⟨hs'.1, fun _ => ?_⟩), fun s' hs' => ?_⟩
      · cases hq : (s'.peerAt p).m_Flags.SyncPending with
        | false => rfl
        | true =>
          rcases hs'.2.pend p hq with hx | hx
          · simp only [] at hx; rw [hself] at hx; cases hx
          · simp only [] at hx; rw [hself] at hx; cases hx
      · exact (hc.of_ok hs').2.peers
    · rename_i hpend
      exact ⟨⟨h, fun _ => by simpa using hpend⟩, fun s' hs' => by cases hs'; rfl⟩

theorem countP_erase_false {α : Type} [DecidableEq α] (f : α → Bool) (a : α) (ha : f a = false) :
    ∀ l : List α, (l.erase a).countP f = l.countP f := by
  intro l
  induction l with
  | nil => rfl
  | cons b l ih =>
    by_cases hb : b = a
    · subst hb
      rw [List.erase_cons_head, List.countP_cons_of_neg _ _ (by simp [ha])]
    · rw [List.erase_cons_tail (by simpa using hb)]
      simp only [List.countP_cons, ih]

/-- The tail of `DeleteSelf` keeps the consistency of the controller. -/
theorem finishDelete_sync (E : Env) (s : Node) (p : PeerRef) (b : Bool) (r : Option ByeReason)
    (h : SyncInv s) : (finishDelete E s p b r).Sat SyncInv := by
  unfold finishDelete
  have h0 : SyncInv (detachInfo E (Unsubscribe s p) p b r) :=
    h.of_syncSame ((unsubscribeLoop_syncSame p _ s).sync_trans (detachInfo_syncSame E _ p b r))
  obtain ⟨hr, _⟩ := releaseSyncSlot_sync E _ p h0
  refine Res.Sat.bind hr (fun _ hx => hx.1) (fun s2 _ h2 => ?_)
  obtain ⟨i2, hp2⟩ := h2
  refine ⟨i2.nodup.erase p, ?_, ?_, ?_⟩
  · intro y hy q hq
    have hqp : q ≠ p := by
      intro heq
      subst heq
      have := hp2 (by simp only [] at hy; rw [hy]; rfl)
      simp only [] at hq
      rw [this] at hq
      cases hq
    exact (List.mem_erase_of_ne hqp).2 (i2.listed y hy q hq)
  · intro y hy hd q
    exact i2.detecting y hy hd q
  · intro y hy hd
    have hpf : (s2.peerAt p).m_Flags.SyncPending = false :=
      hp2 (by simp only [] at hy; rw [hy]; rfl)
    have : pendingCount { s2 with m_lstPeers := s2.m_lstPeers.erase p } = pendingCount s2 := by
      unfold pendingCount
      exact countP_erase_false _ p hpf _
    rw [this]
    exact i2.download y hy hd

/-- Releasing, re-assigning and deleting keep the consistency of the sync
controller with the peers. -/
theorem sched_sync (E : Env) : ∀ n : Nat,
    (∀ s t pref, SyncInv s → (TryAssignTask E n s t pref).Sat SyncInv) ∧
    (∀ s p t, SyncInv s → (ReleaseTask E n s p t).Sat SyncInv) ∧
    (∀ s p, SyncInv s → (ReleaseTasks E n s p).Sat SyncInv) ∧
    (∀ s p b r, SyncInv s → (DeleteSelf E n s p b r).Sat SyncInv) := by
  intro n
  induction n with
  | zero =>
    refine ⟨?_, ?_, ?_, ?_⟩
    · intro s t pref _; simp [TryAssignTask, Res.Sat]
    · intro s p t _; simp [ReleaseTask, Res.Sat]
    · intro s p _; simp [ReleaseTasks, Res.Sat]
    · intro s p b r _; simp [DeleteSelf, Res.Sat]
  | succ n ih =>
    obtain ⟨ihT, ihR, ihRs, ihD⟩ := ih
    refine ⟨?_, ?_, ?_, ?_⟩
    · intro s t pref h
      rw [TryAssignTask]
      cases hsel : selectPeer E s t pref with
      | none => exact h
      | some p =>
        simp only []
        have ha := AssignTask_same E s t p
        cases hr : AssignTask E s t p with
        | ok s1 => rw [hr] at ha; exact h.of_syncSame ha
        | out => trivial
        | exc e s1 =>
          rw [hr] at ha
          simp only []
          exact Res.Sat.bind (ihD s1 p true (some .Ban) (h.of_syncSame ha)) (fun _ hx => hx)
            (fun s2 _ h2 => ihT s2 t pref h2)
    · intro s p t h
      rw [ReleaseTask]
      have h1 := h.of_syncSame (releaseToQueue_same s p t)
      split
      · exact ihT _ t none h1
      · exact h1.of_syncSame (DeleteUnassignedTask_same _ t)
    · intro s p h
      rw [ReleaseTasks]
      cases hl : (s.peerAt p).m_lstTasks with
      | nil => exact h
      | cons t rest =>
        simp only []
        exact Res.Sat.bind (ihR s p t h) (fun _ hx => hx) (fun s1 _ h1 => ihRs s1 p h1)
    · intro s p b r h
      rw [DeleteSelf]
      have hsd := (startDelete_syncSame E s p r).mono (fun _ hx => h.of_syncSame hx)
      refine Res.Sat.bind hsd (fun _ hx => hx) (fun s1 _ h1 => ?_)
      exact Res.Sat.bind (ihRs s1 p h1) (fun _ hx => hx)
        (fun s2 _ h2 => finishDelete_sync E s2 p b r h2)

/-! ### Updates that the request counter does not see -/

theorem OnActive_syncSame (s : Node) (i : InfoRef) (b : Bool) : SyncSame s (OnActive s i b) :=
  ⟨rfl, rfl, fun _ => rfl⟩

theorem OnRemoteError_syncSame (E : Env) (s : Node) (i : InfoRef) (b : Bool) :
    SyncSame s (OnRemoteError E s i b) := ⟨rfl, rfl, fun _ => rfl⟩

theorem ModifyRating_syncSame (E : Env) (s : Node) (i : InfoRef) (d : Nat) (up : Bool) :
    SyncSame s (ModifyRating E s i d up) := ⟨rfl, rfl, fun _ => rfl⟩

theorem OnSeen_syncSame (s : Node) (i : InfoRef) : SyncSame s (OnSeen s i) :=
  ⟨rfl, rfl, fun _ => rfl⟩

theorem PeerManDelete_syncSame (s : Node) (i : InfoRef) : SyncSame s (PeerManDelete s i) :=
  ⟨rfl, rfl, fun _ => rfl⟩

theorem RemoveAddr_syncSame (s : Node) (i : InfoRef) : SyncSame s (RemoveAddr s i) :=
  ⟨rfl, rfl, fun _ => rfl⟩

theorem Ban_syncSame (s : Node) (i : InfoRef) : SyncSame s (Ban s i) :=
  ⟨rfl, rfl, fun _ => rfl⟩

theorem clearRelevant_syncSame (s : Node) : SyncSame s (clearRelevant s) :=
  ⟨rfl, rfl, fun _ => rfl⟩

theorem rewardPeer_syncSame (E : Env) (s : Node) (p : PeerRef) (d : Nat) :
    SyncSame s (rewardPeer E s p d) := by
  unfold rewardPeer
  split
  · exact ModifyRating_syncSame E s _ d true
  · exact SyncSame.same_sync s

theorem SetTimerWrtFirstTask_syncSame (E : Env) (s : Node) (p : PeerRef) :
    SyncSame s (SetTimerWrtFirstTask E s p) := by
  unfold SetTimerWrtFirstTask
  split
  · exact SyncSame.of_setPeer s p _ (fun _ => rfl)
  · exact SyncSame.of_setPeer s p _ (fun _ => rfl)

theorem logStates_syncSame (src : PeerID) :
    ∀ (l : List (Full × DataStatus)) (s : Node), SyncSame s (logStates src l s) := by
  intro l
  induction l with
  | nil => intro s; exact SyncSame.same_sync s
  | cons a l ih =>
    intro s
    obtain ⟨d, st⟩ := a
    rw [logStates]
    exact (SyncSame.of_log s _).sync_trans (ih _)

theorem deleteIrrelevant_syncSame :
    ∀ (l : List TaskKey) (s : Node), SyncSame s (deleteIrrelevant l s) := by
  intro l
  induction l with
  | nil => intro s; exact SyncSame.same_sync s
  | cons t l ih =>
    intro s
    rw [deleteIrrelevant]
    split
    · exact ih s
    · exact (DeleteUnassignedTask_same s t).sync_trans (ih _)

theorem OnPeer_syncSame (E : Env) (s : Node) (id : PeerID) (addr : Nat) (b : Bool) :
    SyncSame s (OnPeer E s id addr b).1 := by
  unfold OnPeer
  simp only []
  split
  · split
    · exact ⟨rfl, rfl, fun _ => rfl⟩
    · exact SyncSame.same_sync s
  · split
    · exact ⟨rfl, rfl, fun _ => rfl⟩
    · exact ⟨rfl, rfl, fun _ => rfl⟩

theorem SubscribeOne_syncSame (s : Node) (p : PeerRef) (c : Channel) :
    SyncSame s (SubscribeOne s p c) := by
  unfold SubscribeOne
  exact SyncSame.sync_trans (b := { s with
      m_Subscribed := s.m_Subscribed ++ [Subscription.mk c p] })
    ⟨rfl, rfl, fun _ => rfl⟩ (SyncSame.of_setPeer _ p _ (fun _ => rfl))

theorem sendAll_syncSame (E : Env) (p : PeerRef) :
    ∀ (l : List Msg) (s : Node), (sendAll E p l s).Sat (SyncSame s) := by
  intro l
  induction l with
  | nil => intro s; exact SyncSame.same_sync s
  | cons m l ih =>
    intro s
    rw [sendAll]
    exact Res.Sat.bind (Send_same E s p m).1 (fun _ hx => hx)
      (fun s1 _ h1 => (ih s1).mono (fun _ hx => h1.sync_trans hx))

theorem takeLoop_syncSame (E : Env) (p : PeerRef) :
    ∀ (l : List TaskKey) (s : Node), (takeLoop E p l s).Sat (SyncSame s) := by
  intro l
  induction l with
  | nil => intro s; exact SyncSame.same_sync s
  | cons t l ih =>
    intro s
    rw [takeLoop]
    split
    · exact Res.Sat.bind (AssignTask_same E s t p) (fun _ hx => hx)
        (fun s1 _ h1 => (ih s1).mono (fun _ hx => h1.sync_trans hx))
    · exact ih s

/-- A change of the controller alone: it is untouched, or dropped, or still
detecting, or has just ended the detection with no request counted and no
timer. -/
theorem SyncInv.of_ctl {s s' : Node} (h : SyncInv s) (hpeers : s'.m_lstPeers = s.m_lstPeers)
    (hflags : ∀ p, (s'.peerAt p).m_Flags.SyncPending = (s.peerAt p).m_Flags.SyncPending)
    (hctl : ∀ y', s'.m_pSync = some y' → ∃ y, s.m_pSync = some y ∧
      ((y'.m_bDetecting = y.m_bDetecting ∧ y'.m_RequestsPending = y.m_RequestsPending ∧
          y'.m_pTimer = y.m_pTimer) ∨
        (y.m_bDetecting = true ∧
          (y'.m_bDetecting = true ∨ (y'.m_RequestsPending = 0 ∧ y'.m_pTimer = false))))) :
    SyncInv s' := by
  have hpc : pendingCount s' = pendingCount s := by
    unfold pendingCount
    rw [hpeers]
    congr 1
    funext p
    exact hflags p
  refine ⟨by rw [hpeers]; exact h.nodup, ?_, ?_, ?_⟩
  · intro y' hy' p hp
    obtain ⟨y, hy, _⟩ := hctl y' hy'
    rw [hpeers]
    exact h.listed y hy p (hflags p ▸ hp)
  · intro y' hy' hd p
    obtain ⟨y, hy, hc⟩ := hctl y' hy'
    rw [hflags p]
    rcases hc with ⟨c1, _, _⟩ | ⟨c1, _⟩
    · exact h.detecting y hy (c1 ▸ hd) p
    · exact h.detecting y hy c1 p
  · intro y' hy' hd
    obtain ⟨y, hy, hc⟩ := hctl y' hy'
    rw [hpc]
    rcases hc with ⟨c1, c2, c3⟩ | ⟨c1, c2⟩
    · rw [c2, c3]
      exact h.download y hy (c1 ▸ hd)
    · rcases c2 with c2 | ⟨c2, c3⟩
      · rw [hd] at c2; cases c2
      · have hz : pendingCount s = 0 := by
          unfold pendingCount
          rw [List.countP_eq_zero]
          intro p _
          simp [h.detecting y hy c1 p]
        rw [c2, c3, hz]
        exact ⟨rfl, by decide, rfl⟩

theorem SyncInv.dropCtl {s s' : Node} (h : SyncInv s) (hpeers : s'.m_lstPeers = s.m_lstPeers)
    (hnone : s'.m_pSync = none) : SyncInv s' :=
  ⟨hpeers ▸ h.nodup, fun y hy => absurd (hnone ▸ hy) (by simp),
    fun y hy => absurd (hnone ▸ hy) (by simp), fun y hy => absurd (hnone ▸ hy) (by simp)⟩

theorem SyncInv.sync_setPeer {s : Node} (h : SyncInv s) (p : PeerRef) (f : Peer → Peer)
    (hf : ∀ x, (f x).m_Flags.SyncPending = x.m_Flags.SyncPending) : SyncInv (s.setPeer p f) :=
  h.of_syncSame (SyncSame.of_setPeer s p f hf)

theorem SyncInv.sync_setTask {s : Node} (h : SyncInv s) (t : TaskKey) (f : Task → Task) :
    SyncInv (s.setTask t f) := h.of_syncSame (SyncSame.of_setTask s t f)

theorem SyncInv.sync_setInfo {s : Node} (h : SyncInv s) (i : InfoRef)
    (f : PeerInfoPlus → PeerInfoPlus) : SyncInv (s.setInfo i f) :=
  h.of_syncSame (SyncSame.of_setInfo s i f)

theorem SyncInv.sync_log {s : Node} (h : SyncInv s) (e : Event) : SyncInv (s.log e) :=
  h.of_syncSame (SyncSame.of_log s e)

theorem SyncInv.sync_rating {E : Env} {s : Node} (h : SyncInv s) (i : InfoRef) (d : Nat)
    (up : Bool) : SyncInv (ModifyRating E s i d up) := h.of_syncSame (ModifyRating_syncSame E s i d up)

theorem SyncInv.sync_reward {E : Env} {s : Node} (h : SyncInv s) (p : PeerRef) (d : Nat) :
    SyncInv (rewardPeer E s p d) := h.of_syncSame (rewardPeer_syncSame E s p d)

theorem Send_sync (E : Env) (s : Node) (p : PeerRef) (m : Msg) (h : SyncInv s) :
    (Send E s p m).Sat (fun s' => SyncInv s' ∧ s'.m_lstPeers = s.m_lstPeers) :=
  (Send_same E s p m).1.mono (fun _ hx => ⟨h.of_syncSame hx, hx.peers⟩)

theorem Send_keeps (E : Env) (s : Node) (p : PeerRef) (m : Msg) (h : SyncInv s) :
    (Send E s p m).Sat SyncInv := (Send_sync E s p m h).mono (fun _ hx => hx.1)

theorem SyncInv.sync_onActive {s : Node} (h : SyncInv s) (i : InfoRef) (b : Bool) :
    SyncInv (OnActive s i b) := h.of_syncSame (OnActive_syncSame s i b)

theorem SyncInv.sync_onSeen {s : Node} (h : SyncInv s) (i : InfoRef) : SyncInv (OnSeen s i) :=
  h.of_syncSame (OnSeen_syncSame s i)

theorem SyncInv.sync_peerManDelete {s : Node} (h : SyncInv s) (i : InfoRef) :
    SyncInv (PeerManDelete s i) := h.of_syncSame (PeerManDelete_syncSame s i)

theorem SyncInv.sync_removeAddr {s : Node} (h : SyncInv s) (i : InfoRef) :
    SyncInv (RemoveAddr s i) := h.of_syncSame (RemoveAddr_syncSame s i)

/-! ### The operations keep the consistency of the sync controller -/

theorem DeleteSelf_sync (E : Env) (n : Nat) (s : Node) (p : PeerRef) (b : Bool)
    (r : Option ByeReason) (h : SyncInv s) : (DeleteSelf E n s p b r).Sat SyncInv :=
  (sched_sync E n).2.2.2 s p b r h

theorem RequestData_sync (E : Env) (n : Nat) (s : Node) (id : StateID) (b : Bool)
    (pref : Option PeerID) (h : SyncInv s) : (RequestData E n s id b pref).Sat SyncInv := by
  unfold RequestData
  split
  · exact h.of_syncSame (SyncSame.of_setTask _ _ _)
  · exact (sched_sync E n).1 _ _ pref (h.of_syncSame ⟨rfl, rfl, fun _ => rfl⟩)

theorem OnPeerInsane_sync (E : Env) (n : Nat) (s : Node) (id : PeerID) (h : SyncInv s) :
    (OnPeerInsane E n s id).Sat SyncInv := by
  unfold OnPeerInsane
  split
  · exact h
  · split
    · exact DeleteSelf_sync E n s _ _ _ h
    · exact h.of_syncSame (Ban_syncSame s _)

theorem EnumCongestions_sync (E : Env) (n : Nat) :
    ∀ (walk : List ProcCall) (s : Node), SyncInv s → (EnumCongestions E n walk s).Sat SyncInv := by
  intro walk
  induction walk with
  | nil => intro s h; exact h
  | cons c cs ih =>
    intro s h
    cases c with
    | RequestData id b pref =>
      rw [EnumCongestions]
      exact (RequestData_sync E n s id b pref h).bind (fun _ h1 => h1) (fun s1 _ h1 => ih s1 h1)
    | OnPeerInsane id =>
      rw [EnumCongestions]
      exact (OnPeerInsane_sync E n s id h).bind (fun _ h1 => h1) (fun s1 _ h1 => ih s1 h1)

theorem RefreshCongestions_sync (E : Env) (n : Nat) (s : Node) (walk : List ProcCall)
    (h : SyncInv s) : (RefreshCongestions E n s walk).Sat SyncInv := by
  unfold RefreshCongestions
  split
  · exact h
  · refine (EnumCongestions_sync E n walk _ (h.of_syncSame (clearRelevant_syncSame s))).bind
      (fun _ h1 => h1) (fun s1 _ h1 => ?_)
    exact h1.of_syncSame (deleteIrrelevant_syncSame _ s1)

theorem OnFirstTaskDone_sync (E : Env) (n : Nat) (s : Node) (p : PeerRef) (h : SyncInv s) :
    (OnFirstTaskDone E n s p).Sat SyncInv := by
  unfold OnFirstTaskDone
  split
  · exact h
  · refine ((sched_sync E n).2.1 s p _ h).bind (fun _ h1 => h1) (fun s1 _ h1 => ?_)
    split
    · exact h1.of_syncSame (SetTimerWrtFirstTask_syncSame E s1 p)
    · exact h1

theorem OnMsg_DataMissing_sync (E : Env) (n : Nat) (s : Node) (p : PeerRef) (h : SyncInv s) :
    (OnMsg_DataMissing E n s p).Sat SyncInv := by
  unfold OnMsg_DataMissing
  split
  · exact h
  · exact OnFirstTaskDone_sync E n _ p (h.sync_setPeer p _ (fun _ => rfl))

theorem OnFirstTaskDoneStatus_sync (E : Env) (n : Nat) (s : Node) (p : PeerRef)
    (st : DataStatus) (walk : List ProcCall) (h : SyncInv s) :
    (OnFirstTaskDoneStatus E n s p st walk).Sat SyncInv := by
  unfold OnFirstTaskDoneStatus
  split
  · exact h
  · split
    · exact h
    · refine (OnFirstTaskDone_sync E n _ p (h.sync_setTask _ _)).bind
        (fun _ h1 => h1) (fun s1 _ h1 => ?_)
      split
      · exact RefreshCongestions_sync E n s1 walk h1
      · exact h1

theorem OnMsg_Hdr_sync (E : Env) (n : Nat) (s : Node) (p : PeerRef) (d : Full)
    (st : DataStatus) (walk : List ProcCall) (h : SyncInv s) :
    (OnMsg_Hdr E n s p d st walk).Sat SyncInv := by
  unfold OnMsg_Hdr
  split
  · exact h
  · split
    · exact h
    · split
      · exact h
      · exact OnFirstTaskDoneStatus_sync E n _ p st walk ((h.sync_reward p _).sync_log _)

theorem OnMsg_Body_sync (E : Env) (n : Nat) (s : Node) (p : PeerRef)
    (st : DataStatus) (walk : List ProcCall) (h : SyncInv s) :
    (OnMsg_Body E n s p st walk).Sat SyncInv := by
  unfold OnMsg_Body
  split
  · exact h
  · split
    · exact h
    · exact OnFirstTaskDoneStatus_sync E n _ p st walk ((h.sync_reward p _).sync_log _)

theorem OnMsg_HdrPack_sync (E : Env) (n : Nat) (s : Node) (p : PeerRef)
    (pack : List (Full × DataStatus)) (walk : List ProcCall) (h : SyncInv s) :
    (OnMsg_HdrPack E n s p pack walk).Sat SyncInv := by
  unfold OnMsg_HdrPack
  split
  · exact h
  · split
    · exact h
    · split
      · exact h
      · split
        · exact h
        · simp only []
          refine (OnFirstTaskDone_sync E n _ p (h.of_syncSame (logStates_syncSame _ pack s))).bind
            (fun _ h1 => h1) (fun s1 _ h1 => ?_)
          split
          · exact RefreshCongestions_sync E n _ walk (h1.sync_reward p _)
          · split
            · exact h1
            · exact h1

theorem TakeTasks_sync (E : Env) (s : Node) (p : PeerRef) (h : SyncInv s) :
    (TakeTasks E s p).Sat SyncInv :=
  (takeLoop_syncSame E p _ s).mono (fun _ hx => h.of_syncSame hx)

theorem newTipTail_sync (E : Env) (s : Node) (p : PeerRef) (bSyncMode : Bool) (h : SyncInv s)
    (hp : p ∈ s.m_lstPeers) : (newTipTail E s p bSyncMode).Sat SyncInv := by
  unfold newTipTail
  split
  · exact TakeTasks_sync E s p h
  · simp only []
    have hr : (if (!(s.peerAt p).m_Flags.ProvenWorkReq) = true then
          Send E (s.setPeer p (fun x =>
            { x with m_Flags := { x.m_Flags with ProvenWorkReq := true } })) p .GetProofChainWork
        else Res.ok s).Sat (fun s' => SyncInv s' ∧ s'.m_lstPeers = s.m_lstPeers) := by
      split
      · exact Send_sync E _ p _ (h.sync_setPeer p _ (fun _ => rfl))
      · exact ⟨h, rfl⟩
    refine Res.Sat.bind hr (fun _ hx => hx.1) (fun s1 _ h1 => ?_)
    obtain ⟨i1, hp1⟩ := h1
    split
    · exact i1
    · split
      · split
        · exact Send_keeps E _ p _ (i1.sync_setPeer p _ (fun _ => rfl))
        · exact i1
      · exact (SyncCyclePeer_sync E s1 p i1 (by rw [hp1]; exact hp)).1.mono (fun _ hx => hx.1)

theorem OnMsg_NewTip_sync (E : Env) (n : Nat) (s : Node) (p : PeerRef) (d : Full)
    (bNeeded : Bool) (st : DataStatus) (walk : List ProcCall) (h : SyncInv s)
    (hp : p ∈ s.m_lstPeers) : (OnMsg_NewTip E n s p d bNeeded st walk).Sat SyncInv := by
  unfold OnMsg_NewTip
  split
  · exact h
  · simp only []
    have h1 : SyncInv (s.setPeer p (fun x => { x with m_Tip := d, m_setRejected := [] })) :=
      h.sync_setPeer p _ (fun _ => rfl)
    split
    · exact h1
    · split
      · split
        · exact h1.sync_log _
        · split
          · exact newTipTail_sync E _ p _ ((h1.sync_log _).sync_rating _ _ _) hp
          · exact RefreshCongestions_sync E n _ walk ((h1.sync_log _).sync_rating _ _ _)
        · exact newTipTail_sync E _ p _ (h1.sync_log _) hp
      · exact newTipTail_sync E _ p _ h1 hp

theorem OnMsg_BbsSubscribe_sync (E : Env) (s : Node) (p : PeerRef) (c : Channel) (bOn : Bool)
    (stored : List (Nat × Nat)) (h : SyncInv s) :
    (OnMsg_BbsSubscribe E s p c bOn stored).Sat SyncInv := by
  unfold OnMsg_BbsSubscribe
  split
  · exact h
  · split
    · exact (sendAll_syncSame E p _ _).mono
        (fun _ hx => h.of_syncSame ((SubscribeOne_syncSame s p c).sync_trans hx))
    · exact h.of_syncSame (UnsubscribeOne_syncSame s p c)

theorem OnDisconnect_sync (E : Env) (n : Nat) (s : Node) (p : PeerRef) (dr : DisconnectType)
    (h : SyncInv s) : (OnDisconnect E n s p dr).Sat SyncInv := by
  cases dr <;> exact DeleteSelf_sync E n s p _ _ h

theorem OnTimer_sync (E : Env) (n : Nat) (s : Node) (p : PeerRef) (h : SyncInv s) :
    (OnTimer E n s p).Sat SyncInv := by
  unfold OnTimer
  split
  · refine DeleteSelf_sync E n _ p _ _ ?_
    split
    · exact h.sync_rating _ _ _
    · exact h
  · exact DeleteSelf_sync E n s p _ _ h

theorem DeactivatePeer_sync (E : Env) (n : Nat) (s : Node) (i : InfoRef) (h : SyncInv s) :
    (DeactivatePeer E n s i).Sat SyncInv := by
  unfold DeactivatePeer
  split
  · exact h
  · exact DeleteSelf_sync E n s _ _ _ h

theorem SyncInv.sync_allocPeer {s : Node} (h : SyncInv s) (addr : Nat) :
    SyncInv (AllocPeer s addr).1 := by
  have hf := freshPeer_not_mem s
  have hpe : ∀ q, q ≠ freshPeer s → (AllocPeer s addr).1.peerAt q = s.peerAt q := by
    intro q hq
    simp [AllocPeer, Function.update_noteq hq]
  have hpf : ((AllocPeer s addr).1.peerAt (freshPeer s)).m_Flags.SyncPending = false := by
    simp [AllocPeer, Flags.zero]
  have hl : (AllocPeer s addr).1.m_lstPeers = s.m_lstPeers ++ [freshPeer s] := rfl
  have hs : (AllocPeer s addr).1.m_pSync = s.m_pSync := rfl
  have hold : ∀ q, ((AllocPeer s addr).1.peerAt q).m_Flags.SyncPending = true →
      q ≠ freshPeer s ∧ (s.peerAt q).m_Flags.SyncPending = true := by
    intro q hq
    have hne : q ≠ freshPeer s := by
      intro he
      rw [he, hpf] at hq
      cases hq
    exact ⟨hne, by rw [← hpe q hne]; exact hq⟩
  have hpc : pendingCount (AllocPeer s addr).1 = pendingCount s := by
    unfold pendingCount
    rw [hl, List.countP_append]
    have h1 : [freshPeer s].countP
        (fun p => ((AllocPeer s addr).1.peerAt p).m_Flags.SyncPending) = 0 := by
      simp [hpf]
    rw [h1, Nat.add_zero]
    apply List.countP_congr
    intro q hq
    have hne : q ≠ freshPeer s := fun he => hf (he ▸ hq)
    rw [hpe q hne]
  refine ⟨?_, ?_, ?_, ?_⟩
  · rw [hl]
    rw [List.nodup_append]
    refine ⟨h.nodup, List.nodup_singleton _, fun a ha hb => ?_⟩
    rw [List.mem_singleton.1 hb] at ha
    exact hf ha
  · intro y hy q hq
    rw [hl]
    exact List.mem_append_left _ (h.listed y (hs ▸ hy) q (hold q hq).2)
  · intro y hy hd q
    by_cases hq : q = freshPeer s
    · rw [hq]; exact hpf
    · rw [hpe q hq]
      exact h.detecting y (hs ▸ hy) hd q
  · intro y hy hd
    rw [hpc]
    exact h.download y (hs ▸ hy) hd

theorem ActivatePeer_sync (s : Node) (i : InfoRef) (port : Nat) (h : SyncInv s) :
    SyncInv (ActivatePeer s i port) := by
  unfold ActivatePeer
  split
  · exact h
  · have ha := h.sync_allocPeer (s.infoAt i).m_Addr
    rcases hA : AllocPeer s (s.infoAt i).m_Addr with ⟨s1, p⟩
    rw [hA] at ha
    simp only [] at ha ⊢
    refine SyncInv.sync_setPeer ?_ p _ ?_
    · refine SyncInv.sync_setInfo ?_ _ _
      refine SyncInv.sync_setPeer ha p _ ?_
      intro x; rfl
    · intro x; rfl

theorem OnConnectedSecure_sync (s : Node) (p : PeerRef) (h : SyncInv s) :
    SyncInv (OnConnectedSecure s p) :=
  h.sync_setPeer p _ (fun _ => rfl)

theorem authAttach_sync (E : Env) (n : Nat) (s : Node) (p : PeerRef) (i : InfoRef)
    (h : SyncInv s) : (authAttach E n s p i).Sat SyncInv := by
  unfold authAttach
  split
  · exact DeleteSelf_sync E n s p _ _ h
  · simp only []
    refine SyncInv.sync_onSeen ?_ _
    refine SyncInv.sync_onActive ?_ _ _
    refine SyncInv.sync_setPeer ?_ p _ ?_
    · exact SyncInv.sync_setInfo h _ _
    · intro x; rfl

theorem authResolve_sync (E : Env) (n : Nat) (s : Node) (p : PeerRef) (id : PeerID)
    (h : SyncInv s) : (authResolve E n s p id).Sat SyncInv := by
  unfold authResolve
  split
  · exact DeleteSelf_sync E n s p _ _ h
  · simp only []
    have h1 := h.of_syncSame (OnPeer_syncSame E s id
      (if decide ((s.peerAt p).m_Port > 0) = true then
        E.withPort (s.peerAt p).m_RemoteAddr (s.peerAt p).m_Port else 0)
      (decide ((s.peerAt p).m_Port > 0)))
    generalize hop : OnPeer E s id
      (if decide ((s.peerAt p).m_Port > 0) = true then
        E.withPort (s.peerAt p).m_RemoteAddr (s.peerAt p).m_Port else 0)
      (decide ((s.peerAt p).m_Port > 0)) = res at h1 ⊢
    obtain ⟨s1, i⟩ := res
    simp only [] at h1 ⊢
    split
    · split
      · exact (DeleteSelf_sync E n _ _ _ _ h1).bind (fun _ hx => hx)
          (fun s2 _ h2 => authAttach_sync E n s2 p _ h2)
      · exact DeleteSelf_sync E n _ p _ _ h1
    · exact authAttach_sync E n _ p _ h1

theorem authDetach_sync (s : Node) (p : PeerRef) (i : InfoRef) (h : SyncInv s) :
    SyncInv (authDetach s p i) := by
  unfold authDetach
  simp only []
  refine SyncInv.sync_setPeer ?_ p _ ?_
  · split
    · exact SyncInv.sync_peerManDelete (SyncInv.sync_setInfo h _ _) _
    · exact SyncInv.sync_removeAddr (SyncInv.sync_onActive (SyncInv.sync_setInfo h _ _) _ _) _
  · intro x; rfl

theorem authNode_sync (E : Env) (n : Nat) (s : Node) (p : PeerRef) (id : PeerID)
    (h : SyncInv s) : (authNode E n s p id).Sat SyncInv := by
  unfold authNode
  split
  · exact h
  · simp only []
    have h1 : SyncInv (s.setPeer p (fun x =>
        { x with m_Flags := { x.m_Flags with PiRcvd := true } })) :=
      h.sync_setPeer p _ (fun _ => rfl)
    split
    · exact authResolve_sync E n _ p id h1
    · split
      · exact SyncInv.sync_onSeen h1 _
      · exact authResolve_sync E n _ p id (authDetach_sync _ p _ h1)

theorem OnMsg_Authentication_sync (E : Env) (n : Nat) (s : Node) (p : PeerRef) (id : PeerID)
    (idType : IDType) (h : SyncInv s) : (OnMsg_Authentication E n s p id idType).Sat SyncInv := by
  unfold OnMsg_Authentication
  simp only []
  have h1 : SyncInv (if idType = .Owner ∧ id = s.m_MyOwnerID then
      s.setPeer p (fun x => { x with m_Flags := { x.m_Flags with Owner := true } }) else s) := by
    split
    · exact h.sync_setPeer p _ (fun _ => rfl)
    · exact h
  split
  · exact h1
  · exact authNode_sync E n _ p id h1

theorem OnMsg_ProofChainWork_sync (E : Env) (s : Node) (p : PeerRef) (bValid : Bool) (cw : Nat)
    (h : SyncInv s) : (OnMsg_ProofChainWork E s p bValid cw).Sat SyncInv := by
  unfold OnMsg_ProofChainWork
  split
  · exact h
  · split
    · exact h
    · simp only []
      have h1 : SyncInv (s.setPeer p (fun x =>
          { x with m_Flags := { x.m_Flags with ProvenWork := true } })) :=
        h.sync_setPeer p _ (fun _ => rfl)
      split
      · exact (SyncCycle_sync E _ h1).mono (fun _ hx => hx.1)
      · exact h1

theorem OnSyncTimer_sync (E : Env) (n : Nat) (s : Node) (walk : List ProcCall) (h : SyncInv s)
    (hdet : ∀ y, s.m_pSync = some y → y.m_bDetecting = true) :
    (OnSyncTimer E n s walk).Sat SyncInv := by
  unfold OnSyncTimer
  split
  · exact h
  · rename_i y hy
    split
    · simp only []
      have h1 : SyncInv { s with m_pSync := some { y with m_pTimer := false, m_bDetecting := false, m_RequestsPending := 0 } } := by
        refine h.of_ctl rfl (fun _ => rfl) ?_
        intro y' hy'
        refine ⟨y, hy, Or.inr ⟨hdet y hy, Or.inr ?_⟩⟩
        simp only [Option.some.injEq] at hy'
        subst hy'
        exact ⟨rfl, rfl⟩
      exact (SyncCycle_sync E _ h1).mono (fun _ hx => hx.1)
    · exact RefreshCongestions_sync E n _ walk (h.dropCtl rfl rfl)

theorem SyncCyclePortion_sync (E : Env) (n : Nat) (s : Node) (p : PeerRef) (bufEmpty : Bool)
    (bImportOk : Bool) (hCursor : Nat) (walk : List ProcCall) (h : SyncInv s)
    (hp : p ∈ s.m_lstPeers) :
    (SyncCyclePortion E n s p bufEmpty bImportOk hCursor walk).Sat SyncInv := by
  unfold SyncCyclePortion
  split
  · exact h
  · rename_i y hy
    split
    · split
      · split
        · exact RefreshCongestions_sync E n _ walk (h.dropCtl rfl rfl)
        · exact h.dropCtl rfl rfl
      · have h1 : SyncInv { s with m_pSync := some { y with m_iData := y.m_iData + 1 } } := by
          refine h.of_ctl rfl (fun _ => rfl) ?_
          intro y' hy'
          refine ⟨y, hy, Or.inl ?_⟩
          simp only [Option.some.injEq] at hy'
          subst hy'
          exact ⟨rfl, rfl, rfl⟩
        exact (SyncCyclePeer_sync E _ p h1 hp).1.mono (fun _ hx => hx.1)
    · exact (SyncCyclePeer_sync E s p h hp).1.mono (fun _ hx => hx.1)

theorem OnMsg_Macroblock_sync (E : Env) (n : Nat) (s : Node) (p : PeerRef) (msgID : StateID)
    (bufEmpty : Bool) (bImportOk : Bool) (hCursor : Nat) (walk : List ProcCall) (h : SyncInv s)
    (hp : p ∈ s.m_lstPeers) :
    (OnMsg_Macroblock E n s p msgID bufEmpty bImportOk hCursor walk).Sat SyncInv := by
  unfold OnMsg_Macroblock
  split
  · exact h
  · rename_i y hy
    split
    · exact h
    · split
      · rename_i hpend
        simp only []
        have h2 : SyncInv { (s.setPeer p (fun x =>
            { x with m_Flags := { x.m_Flags with SyncPending := false } })) with
            m_pSync := some { y with m_RequestsPending := dec32 y.m_RequestsPending } } ∧
            y.m_bDetecting = false ∧ y.m_RequestsPending = 1 :=
          SyncInv.unmark h hy hpend rfl rfl
            (fun q hq => by simp [Node.setPeer, Function.update_noteq hq])
            (by simp [Node.setPeer])
        replace h2 := h2.1
        split
        · exact SyncCyclePortion_sync E n _ p bufEmpty bImportOk hCursor walk h2 hp
        · refine (SyncCycle_sync E _ ?_).mono (fun _ hx => hx.1)
          refine SyncInv.sync_setPeer h2 p _ ?_
          intro x; rfl
      · simp only []
        have h1 : SyncInv (s.setPeer p (fun x =>
            { x with m_Flags := { x.m_Flags with DontSync := false } })) :=
          h.sync_setPeer p _ (fun _ => rfl)
        split
        · exact h1
        · rename_i hdet
          have hd : y.m_bDetecting = true := by simpa using hdet
          have hctl : ∀ (y2 : FirstTimeSync), y2.m_bDetecting = true →
              SyncInv { (s.setPeer p (fun x =>
                { x with m_Flags := { x.m_Flags with DontSync := false } })) with
                m_pSync := some y2 } := by
            intro y2 h2
            refine h1.of_ctl rfl (fun _ => rfl) ?_
            intro y' hy'
            refine ⟨y, hy, Or.inr ⟨hd, Or.inl ?_⟩⟩
            simp only [Option.some.injEq] at hy'
            subst hy'
            exact h2
          split <;> split
          all_goals first
            | exact hctl _ hd
            | exact OnSyncTimer_sync E n _ walk (hctl _ hd) (fun y' hy' => by
                simp only [Option.some.injEq] at hy'
                subst hy'
                exact hd)

theorem exec_sync {E : Env} {s : Node} (h : SyncInv s) (fuel : Nat) (op : Op)
    (hp : ∀ p, op.peer? = some p → p ∈ s.m_lstPeers) (hen : op.enabled s) :
    (exec E fuel s op).Sat SyncInv := by
  cases op with
  | accept addr => exact h.sync_allocPeer addr
  | activatePeer i port => exact ActivatePeer_sync s i port h
  | deactivatePeer i => exact DeactivatePeer_sync E fuel s i h
  | connectedSecure p => exact OnConnectedSecure_sync s p h
  | authentication p id idType => exact OnMsg_Authentication_sync E fuel s p id idType h
  | newTip p d bNeeded eStatus walk =>
    exact OnMsg_NewTip_sync E fuel s p d bNeeded eStatus walk h (hp p rfl)
  | hdr p d eStatus walk => exact OnMsg_Hdr_sync E fuel s p d eStatus walk h
  | hdrPack p pack walk => exact OnMsg_HdrPack_sync E fuel s p pack walk h
  | body p eStatus walk => exact OnMsg_Body_sync E fuel s p eStatus walk h
  | dataMissing p => exact OnMsg_DataMissing_sync E fuel s p h
  | bbsSubscribe p channel bOn stored => exact OnMsg_BbsSubscribe_sync E s p channel bOn stored h
  | takeTasks p => exact TakeTasks_sync E s p h
  | disconnect p dr => exact OnDisconnect_sync E fuel s p dr h
  | timer p => exact OnTimer_sync E fuel s p h
  | deleteSelf p bIsError nByeReason => exact DeleteSelf_sync E fuel s p bIsError nByeReason h
  | requestData id bBlock pref => exact RequestData_sync E fuel s id bBlock pref h
  | peerInsane peerID => exact OnPeerInsane_sync E fuel s peerID h
  | refreshCongestions walk => exact RefreshCongestions_sync E fuel s walk h
  | newCursor c => exact SyncInv.of_syncSame h (SyncSame.mk rfl rfl (fun _ => rfl))
  | macroblock p msgID bufEmpty bImportOk hCursor walk =>
    exact OnMsg_Macroblock_sync E fuel s p msgID bufEmpty bImportOk hCursor walk h (hp p rfl)
  | proofChainWork p bValid cw => exact OnMsg_ProofChainWork_sync E s p bValid cw h
  | syncTimer walk =>
    refine OnSyncTimer_sync E fuel s walk h ?_
    intro y hy
    obtain ⟨y0, hy0, ht⟩ := hen
    rw [hy] at hy0
    cases hy0
    cases hd : y.m_bDetecting with
    | true => rfl
    | false =>
      have := (h.download y hy hd).2.2
      rw [ht] at this
      cases this

theorem init_sync (E : Env) (a b : PeerID) (bTreasury : Bool) (trg : StateID) :
    SyncInv (InitMode E (Node.init a b none) bTreasury trg) := by
  have h0 : SyncInv (Node.init a b none) :=
    ⟨List.nodup_nil, fun y hy => (by cases hy), fun y hy => (by cases hy),
      fun y hy => (by cases hy)⟩
  unfold InitMode
  split
  · exact h0
  · split
    · exact h0
    · split
      · exact h0
      · refine ⟨List.nodup_nil, ?_, ?_, ?_⟩
        · intro y _ p hp
          simp [Node.init, Flags.zero] at hp
        · intro y _ _ p
          simp [Node.init, Flags.zero]
        · intro y hy _
          simp only [Option.some.injEq] at hy
          subst hy
          exact ⟨rfl, Nat.zero_le 1, rfl⟩

theorem syncReachable_inv {E : Env} {s : Node} (h : SyncReachable E s) : SyncInv s := by
  induction h with
  | init a b t trg => exact init_sync E a b t trg
  | step fuel op _ hp hen hs ih => exact (exec_sync ih fuel op hp hen).of_node hs

theorem Op.enabled_of_test {s : Node} {op : Op} (h : op.enabledB s = true) : op.enabled s := by
  cases op
  case syncTimer walk =>
    simp only [Op.enabledB] at h
    split at h
    · rename_i y hy
      exact ⟨y, hy, h⟩
    · cases h
  all_goals trivial

theorem syncReachable_runOps {E : Env} (fuel : Nat) :
    ∀ (ops : List Op) (s s' : Node), SyncReachable E s → syncRunOps E fuel s ops = some s' →
      SyncReachable E s' := by
  intro ops
  induction ops with
  | nil =>
    intro s s' h hr
    simp only [syncRunOps, Option.some.injEq] at hr
    exact hr ▸ h
  | cons op ops ih =>
    intro s s' h hr
    rw [syncRunOps] at hr
    split at hr
    · rename_i hg
      rw [Bool.and_eq_true] at hg
      cases hn : (exec E fuel s op).node? with
      | none => rw [hn] at hr; cases hr
      | some s1 =>
        rw [hn] at hr
        refine ih s1 s' (SyncReachable.step fuel op h ?_ (Op.enabled_of_test hg.2) hn) hr
        intro p hp
        have hg1 := hg.1
        rw [hp] at hg1
        exact of_decide_eq_true hg1
    · cases hr

theorem demoSync_reachable : SyncReachable Env.demo demoSync :=
  syncReachable_runOps 4 demoSyncOps _ _ (SyncReachable.init 100 200 false ⟨5, 55⟩) rfl

/-- A peer with `SyncPending` makes the request counter 1. -/
theorem SyncInv.counter_one {s : Node} {y : FirstTimeSync} {p : PeerRef} (h : SyncInv s)
    (hy : s.m_pSync = some y) (hpend : (s.peerAt p).m_Flags.SyncPending = true) :
    y.m_bDetecting = false ∧ y.m_RequestsPending = 1 := by
  have hdet : y.m_bDetecting = false := by
    cases hd : y.m_bDetecting with
    | false => rfl
    | true =>
      have := h.detecting y hy hd p
      rw [hpend] at this
      cases this
  obtain ⟨d1, d2, _⟩ := h.download y hy hdet
  have hp : p ∈ s.m_lstPeers := h.listed y hy p hpend
  have hpos : 0 < pendingCount s := by
    unfold pendingCount
    rw [List.countP_pos_iff]
    exact ⟨p, hp, hpend⟩
  exact ⟨hdet, by omega⟩

/-- C17: in every state that a node set up by `InitMode` reaches, while the sync
controller is present and not detecting, `m_RequestsPending` is at most 1 and is
the number of peers of `m_lstPeers` with `SyncPending`, and every peer with
`SyncPending` is in `m_lstPeers`; `SyncCycle(Peer&)` with a counter other than 0
returns false and leaves the node as it is, so it sends nothing; and where this
consistency `SyncInv` holds, which is in every reachable state and, inside
`DeleteSelf`, in the state its sync block runs in, a peer with `SyncPending`
means a counter of 1, and both the Macroblock handler and the sync block of
`DeleteSelf` clear the bit and count down once, to 0, before the next cycle
runs. -/
theorem sync_download_single_request (E : Env) :
    (∀ s, SyncReachable E s → SyncInv s ∧ ∀ y, s.m_pSync = some y → y.m_bDetecting = false →
      y.m_RequestsPending ≤ 1 ∧ y.m_RequestsPending = pendingCount s ∧
        ∀ p, (s.peerAt p).m_Flags.SyncPending = true → p ∈ s.m_lstPeers) ∧
    (∀ s p y, s.m_pSync = some y → y.m_RequestsPending ≠ 0 →
      SyncCyclePeer E s p = (.ok s, false)) ∧
    (∀ n s p b r, SyncInv s → (DeleteSelf E n s p b r).Sat SyncInv ∧
      (startDelete E s p r).Sat (fun s1 => (ReleaseTasks E n s1 p).Sat (fun s2 =>
        SyncInv (detachInfo E (Unsubscribe s2 p) p b r)))) ∧
    (∀ s p y, SyncInv s → s.m_pSync = some y → (s.peerAt p).m_Flags.SyncPending = true →
      y.m_RequestsPending = 1 ∧ dec32 y.m_RequestsPending = 0 ∧
      (∀ n msgID bufEmpty bImportOk hCursor walk, (s.peerAt p).m_Flags.ProvenWork = true →
        OnMsg_Macroblock E n s p msgID bufEmpty bImportOk hCursor walk =
          if msgID = y.m_Trg then
            SyncCyclePortion E n { s.setPeer p (fun x => { x with m_Flags := { x.m_Flags with SyncPending := false } }) with m_pSync := some { y with m_RequestsPending := dec32 y.m_RequestsPending } } p bufEmpty bImportOk hCursor walk
          else
            SyncCycle E ({ s.setPeer p (fun x => { x with m_Flags := { x.m_Flags with SyncPending := false } }) with m_pSync := some { y with m_RequestsPending := dec32 y.m_RequestsPending } }.setPeer p (fun x => { x with m_Flags := { x.m_Flags with DontSync := true } }))) ∧
      releaseSyncSlot E s p =
        SyncCycle E { s.setPeer p (fun x => { x with m_Flags := { x.m_Flags with SyncPending := false, DontSync := true } }) with m_pSync := some { y with m_RequestsPending := dec32 y.m_RequestsPending } }) := by
  refine ⟨?_, ?_, ?_, ?_⟩
  · intro s hs
    have h := syncReachable_inv hs
    refine ⟨h, fun y hy hd => ?_⟩
    obtain ⟨d1, d2, _⟩ := h.download y hy hd
    exact ⟨d2, d1, fun p hp => h.listed y hy p hp⟩
  · intro s p y hy hc
    unfold SyncCyclePeer
    rw [hy]
    have : (y.m_bDetecting || y.m_RequestsPending != 0) = true := by simp [hc]
    simp only [this, if_true]
  · intro n s p b r h
    refine ⟨DeleteSelf_sync E n s p b r h, ?_⟩
    refine (startDelete_syncSame E s p r).mono (fun s1 h1 => ?_)
    refine ((sched_sync E n).2.2.1 s1 p (h.of_syncSame h1)).mono (fun s2 h2 => ?_)
    exact h2.of_syncSame
      ((unsubscribeLoop_syncSame p _ s2).sync_trans (detachInfo_syncSame E _ p b r))
  · intro s p y h hy hpend
    obtain ⟨_, h1⟩ := h.counter_one hy hpend
    refine ⟨h1, by rw [h1]; exact dec32_of_one, ?_, ?_⟩
    · intro n msgID bufEmpty bImportOk hCursor walk hprov
      unfold OnMsg_Macroblock
      rw [hy]
      simp only [hprov, hpend, Bool.not_true, Bool.false_eq_true, if_false, if_true]
    · unfold releaseSyncSlot
      rw [hy]
      simp only [hpend, if_true]

theorem sync_download_single_request_witness :
    SyncReachable Env.demo demoSync ∧
      demoSync.m_pSync = some ⟨false, 1, ⟨5, 55⟩, 0, 0, false⟩ ∧
      pendingCount demoSync = 1 ∧ (demoSync.peerAt 1).m_Flags.SyncPending = true ∧
      SyncCyclePeer Env.demo demoSync 1 = (.ok demoSync, false) ∧ dec32 1 = 0 :=
  ⟨demoSync_reachable, rfl,
    (((sync_download_single_request Env.demo).1 demoSync demoSync_reachable).2
      ⟨false, 1, ⟨5, 55⟩, 0, 0, false⟩ rfl rfl).2.1.symm, rfl,
    (sync_download_single_request Env.demo).2.1 demoSync 1 ⟨false, 1, ⟨5, 55⟩, 0, 0, false⟩ rfl
      (by decide),
    ((sync_download_single_request Env.demo).2.2.2 demoSync 1 ⟨false, 1, ⟨5, 55⟩, 0, 0, false⟩
      (syncReachable_inv demoSync_reachable) rfl rfl).2.1⟩

/-! ### Without a sync controller none appears -/

theorem finishDelete_nosync (E : Env) (s : Node) (p : PeerRef) (b : Bool) (r : Option ByeReason)
    (h : s.m_pSync = none) : (finishDelete E s p b r).Sat (fun s' => s'.m_pSync = none) := by
  unfold finishDelete
  have h0 : (detachInfo E (Unsubscribe s p) p b r).m_pSync = none :=
    (((unsubscribeLoop_syncSame p _ s).sync_trans (detachInfo_syncSame E _ p b r)).sync).trans h
  have hr : releaseSyncSlot E (detachInfo E (Unsubscribe s p) p b r) p =
      .ok (detachInfo E (Unsubscribe s p) p b r) := by
    unfold releaseSyncSlot
    rw [h0]
  rw [hr]
  exact h0

theorem sched_nosync (E : Env) : ∀ n : Nat,
    (∀ s t pref, s.m_pSync = none →
      (TryAssignTask E n s t pref).Sat (fun s' => s'.m_pSync = none)) ∧
    (∀ s p t, s.m_pSync = none → (ReleaseTask E n s p t).Sat (fun s' => s'.m_pSync = none)) ∧
    (∀ s p, s.m_pSync = none → (ReleaseTasks E n s p).Sat (fun s' => s'.m_pSync = none)) ∧
    (∀ s p b r, s.m_pSync = none →
      (DeleteSelf E n s p b r).Sat (fun s' => s'.m_pSync = none)) := by
  intro n
  induction n with
  | zero =>
    refine ⟨?_, ?_, ?_, ?_⟩
    · intro s t pref _; simp [TryAssignTask, Res.Sat]
    · intro s p t _; simp [ReleaseTask, Res.Sat]
    · intro s p _; simp [ReleaseTasks, Res.Sat]
    · intro s p b r _; simp [DeleteSelf, Res.Sat]
  | succ n ih =>
    obtain ⟨ihT, ihR, ihRs, ihD⟩ := ih
    refine ⟨?_, ?_, ?_, ?_⟩
    · intro s t pref h
      rw [TryAssignTask]
      cases hsel : selectPeer E s t pref with
      | none => exact h
      | some p =>
        simp only []
        have ha := AssignTask_same E s t p
        cases hr : AssignTask E s t p with
        | ok s1 => rw [hr] at ha; exact ha.sync.trans h
        | out => trivial
        | exc e s1 =>
          rw [hr] at ha
          simp only []
          exact Res.Sat.bind (ihD s1 p true (some .Ban) (ha.sync.trans h)) (fun _ hx => hx)
            (fun s2 _ h2 => ihT s2 t pref h2)
    · intro s p t h
      rw [ReleaseTask]
      have h1 : (releaseToQueue s p t).m_pSync = none := (releaseToQueue_same s p t).sync.trans h
      split
      · exact ihT _ t none h1
      · exact (DeleteUnassignedTask_same _ t).sync.trans h1
    · intro s p h
      rw [ReleaseTasks]
      cases hl : (s.peerAt p).m_lstTasks with
      | nil => exact h
      | cons t rest =>
        simp only []
        exact Res.Sat.bind (ihR s p t h) (fun _ hx => hx) (fun s1 _ h1 => ihRs s1 p h1)
    · intro s p b r h
      rw [DeleteSelf]
      have hsd := (startDelete_syncSame E s p r).mono (fun _ hx => hx.sync.trans h)
      refine Res.Sat.bind hsd (fun _ hx => hx) (fun s1 _ h1 => ?_)
      exact Res.Sat.bind (ihRs s1 p h1) (fun _ hx => hx)
        (fun s2 _ h2 => finishDelete_nosync E s2 p b r h2)

theorem EnumCongestions_nosync (E : Env) (n : Nat) :
    ∀ (walk : List ProcCall) (s : Node), s.m_pSync = none →
      (EnumCongestions E n walk s).Sat (fun s' => s'.m_pSync = none) := by
  intro walk
  induction walk with
  | nil => intro s h; exact h
  | cons c cs ih =>
    intro s h
    cases c with
    | RequestData id b pref =>
      rw [EnumCongestions]
      have h1 : (RequestData E n s id b pref).Sat (fun s' => s'.m_pSync = none) := by
        unfold RequestData
        split
        · exact h
        · exact (sched_nosync E n).1 _ _ pref h
      exact h1.bind (fun _ hx => hx) (fun s1 _ hx => ih s1 hx)
    | OnPeerInsane id =>
      rw [EnumCongestions]
      have h1 : (OnPeerInsane E n s id).Sat (fun s' => s'.m_pSync = none) := by
        unfold OnPeerInsane
        split
        · exact h
        · split
          · exact (sched_nosync E n).2.2.2 s _ _ _ h
          · exact (Ban_syncSame s _).sync.trans h
      exact h1.bind (fun _ hx => hx) (fun s1 _ hx => ih s1 hx)

theorem RefreshCongestions_nosync (E : Env) (n : Nat) (s : Node) (walk : List ProcCall)
    (h : s.m_pSync = none) : (RefreshCongestions E n s walk).Sat (fun s' => s'.m_pSync = none) := by
  unfold RefreshCongestions
  split
  · exact h
  · refine (EnumCongestions_nosync E n walk _ ((clearRelevant_syncSame s).sync.trans h)).bind
      (fun _ h1 => h1) (fun s1 _ h1 => ?_)
    exact (deleteIrrelevant_syncSame _ s1).sync.trans h1

/-! ### The sync cycle and the timer keep the target -/

theorem SyncCyclePeer_target (E : Env) (s : Node) (p : PeerRef) (B : Nat) (T : StateID)
    (h : ∀ y, s.m_pSync = some y → y.m_Best = B ∧ y.m_Trg = T) :
    (SyncCyclePeer E s p).1.Sat
      (fun s' => ∀ y, s'.m_pSync = some y → y.m_Best = B ∧ y.m_Trg = T) := by
  unfold SyncCyclePeer
  split
  · exact h
  · rename_i y hy
    split
    · exact h
    · split
      · exact h
      · split
        · exact h
        · split
          · rename_i s1 hs
            obtain ⟨_, rfl⟩ := Send_ok hs
            intro y' hy'
            simp only [Option.some.injEq] at hy'
            subst hy'
            exact h y hy
          · rename_i r hr
            cases hs : Send E s p (.MacroblockGet y.m_Trg y.m_iData
                (E.macroblockOffset y.m_Trg.m_Height y.m_iData)) with
            | ok s1 => exact absurd hs (hr s1)
            | exc e s1 =>
              obtain ⟨rfl, _⟩ := Send_exc hs
              exact h
            | out => exact absurd hs Send_ne_out

theorem syncCycleLoop_target (E : Env) (B : Nat) (T : StateID) (l : List PeerRef) :
    ∀ s : Node, (∀ y, s.m_pSync = some y → y.m_Best = B ∧ y.m_Trg = T) →
      (syncCycleLoop E l s).Sat
        (fun s' => ∀ y, s'.m_pSync = some y → y.m_Best = B ∧ y.m_Trg = T) := by
  induction l with
  | nil => intro s h; exact h
  | cons p ps ih =>
    intro s h
    unfold syncCycleLoop
    have hc := SyncCyclePeer_target E s p B T h
    rcases hr : SyncCyclePeer E s p with ⟨r, b⟩
    rw [hr] at hc
    cases r with
    | ok s1 =>
      cases b
      · exact ih s1 hc
      · exact hc
    | exc e s1 => exact hc
    | out => trivial

theorem SyncCycle_target (E : Env) (s : Node) (B : Nat) (T : StateID)
    (h : ∀ y, s.m_pSync = some y → y.m_Best = B ∧ y.m_Trg = T) :
    (SyncCycle E s).Sat (fun s' => ∀ y, s'.m_pSync = some y → y.m_Best = B ∧ y.m_Trg = T) := by
  unfold SyncCycle
  split
  · exact h
  · split
    · exact h
    · exact syncCycleLoop_target E B T _ s h

theorem OnSyncTimer_target (E : Env) (n : Nat) (s : Node) (walk : List ProcCall) (B : Nat)
    (T : StateID) (h : ∀ y, s.m_pSync = some y → y.m_Best = B ∧ y.m_Trg = T) :
    (OnSyncTimer E n s walk).Sat
      (fun s' => ∀ y, s'.m_pSync = some y → y.m_Best = B ∧ y.m_Trg = T) := by
  unfold OnSyncTimer
  split
  · exact h
  · rename_i y hy
    split
    · refine SyncCycle_target E _ B T ?_
      intro y' hy'
      simp only [Option.some.injEq] at hy'
      subst hy'
      exact h y hy
    · refine (RefreshCongestions_nosync E n _ walk rfl).mono ?_
      intro s' hs' y' hy'
      rw [hs'] at hy'
      cases hy'

/-! ### Probe responses -/

theorem probeKey_lt (b cw : Nat) (t id : StateID) :
    probeKey b t < probeKey cw id ↔ (b < cw ∨ (b = cw ∧ t.m_Height < id.m_Height)) := by
  unfold probeKey
  exact Prod.Lex.lt_iff _ _

/-- One probe response while detecting: the controller after the comparison
and the count, and what the handler goes on with. -/
theorem probe_step (E : Env) (n : Nat) (s : Node) (y : FirstTimeSync) (p : PeerRef)
    (id : StateID) (b1 b2 : Bool) (c : Nat) (walk : List ProcCall)
    (hy : s.m_pSync = some y) (hdet : y.m_bDetecting = true)
    (hprov : (s.peerAt p).m_Flags.ProvenWork = true)
    (hpend : (s.peerAt p).m_Flags.SyncPending = false) :
    ∃ s2 y2, s2.m_pSync = some y2 ∧ y2.m_bDetecting = true ∧
      y2.m_RequestsPending = inc32 y.m_RequestsPending ∧
      (∀ q, (s2.peerAt q).m_Tip = (s.peerAt q).m_Tip ∧
        (s2.peerAt q).m_Flags.ProvenWork = (s.peerAt q).m_Flags.ProvenWork ∧
        (s2.peerAt q).m_Flags.SyncPending = (s.peerAt q).m_Flags.SyncPending) ∧
      (probeKey y.m_Best y.m_Trg < probeKey (s.peerAt p).m_Tip.m_ChainWork id →
        y2.m_Best = (s.peerAt p).m_Tip.m_ChainWork ∧ y2.m_Trg = id) ∧
      (¬ probeKey y.m_Best y.m_Trg < probeKey (s.peerAt p).m_Tip.m_ChainWork id →
        y2.m_Best = y.m_Best ∧ y2.m_Trg = y.m_Trg) ∧
      OnMsg_Macroblock E n s p id b1 b2 c walk =
        if inc32 y.m_RequestsPending ≥ E.m_SrcPeers then OnSyncTimer E n s2 walk else .ok s2 := by
  have hflags : ∀ (y2 : FirstTimeSync) (q : PeerRef),
      (({ s.setPeer p (fun x => { x with m_Flags := { x.m_Flags with DontSync := false } }) with
          m_pSync := some y2 } : Node).peerAt q).m_Tip = (s.peerAt q).m_Tip ∧
      (({ s.setPeer p (fun x => { x with m_Flags := { x.m_Flags with DontSync := false } }) with
          m_pSync := some y2 } : Node).peerAt q).m_Flags.ProvenWork =
        (s.peerAt q).m_Flags.ProvenWork ∧
      (({ s.setPeer p (fun x => { x with m_Flags := { x.m_Flags with DontSync := false } }) with
          m_pSync := some y2 } : Node).peerAt q).m_Flags.SyncPending =
        (s.peerAt q).m_Flags.SyncPending := by
    intro y2 q
    by_cases hq : q = p
    · subst hq; simp [Node.setPeer]
    · simp [Node.setPeer, Function.update_noteq hq]
  by_cases hc : y.m_Best < (s.peerAt p).m_Tip.m_ChainWork ∨
      (y.m_Best = (s.peerAt p).m_Tip.m_ChainWork ∧ y.m_Trg.m_Height < id.m_Height)
  · refine ⟨_, { m_bDetecting := y.m_bDetecting, m_RequestsPending := inc32 y.m_RequestsPending,
                  m_Trg := id, m_Best := (s.peerAt p).m_Tip.m_ChainWork, m_iData := y.m_iData,
                  m_pTimer := true },
      rfl, hdet, rfl, hflags _, fun _ => ⟨rfl, rfl⟩,
      fun hn => absurd ((probeKey_lt _ _ _ _).2 hc) hn, ?_⟩
    unfold OnMsg_Macroblock
    rw [hy]
    simp only [hprov, hpend, hdet, hc, Bool.not_true, Bool.false_eq_true, if_false, if_true]
  · refine ⟨_, { y with m_RequestsPending := inc32 y.m_RequestsPending }, rfl, hdet, rfl,
      hflags _, fun hlt => absurd ((probeKey_lt _ _ _ _).1 hlt) hc, fun _ => ⟨rfl, rfl⟩, ?_⟩
    unfold OnMsg_Macroblock
    rw [hy]
    simp only [hprov, hpend, hdet, hc, Bool.not_true, Bool.false_eq_true, if_false, if_true]

theorem inc32_of_lt {c N : Nat} (h : c + 1 ≤ N) (hN : N < 2 ^ 32) : inc32 c = c + 1 := by
  unfold inc32
  exact Nat.mod_eq_of_lt (by omega)

/-- A run of probe responses that starts while detecting and counts no more
than `m_SrcPeers` of them: the controller keeps the first of the highest
ranked responses if one ranks above what it had, and what it had otherwise;
`C` gives the chainwork of the responding peer's tip. -/
theorem probe_run (E : Env) (n : Nat) (C : MacroblockIn → Nat) :
    ∀ (rs : List MacroblockIn) (s : Node) (y : FirstTimeSync),
      s.m_pSync = some y → y.m_bDetecting = true →
      (∀ r ∈ rs, (s.peerAt r.p).m_Flags.ProvenWork = true ∧
        (s.peerAt r.p).m_Flags.SyncPending = false ∧ (s.peerAt r.p).m_Tip.m_ChainWork = C r) →
      y.m_RequestsPending + rs.length ≤ E.m_SrcPeers → E.m_SrcPeers < 2 ^ 32 →
      (handleMacroblocks E n rs s).Sat (fun s' => ∀ y', s'.m_pSync = some y' →
        (y'.m_Best = y.m_Best ∧ y'.m_Trg = y.m_Trg ∧
            ∀ r ∈ rs, probeKey (C r) r.m_ID ≤ probeKey y.m_Best y.m_Trg) ∨
        ∃ pre r post, rs = pre ++ r :: post ∧ y'.m_Best = C r ∧ y'.m_Trg = r.m_ID ∧
          probeKey y.m_Best y.m_Trg < probeKey (C r) r.m_ID ∧
          (∀ r' ∈ pre, probeKey (C r') r'.m_ID < probeKey (C r) r.m_ID) ∧
          (∀ r' ∈ post, probeKey (C r') r'.m_ID ≤ probeKey (C r) r.m_ID)) ∧
      (y.m_RequestsPending + rs.length < E.m_SrcPeers →
        ∃ s' y', handleMacroblocks E n rs s = .ok s' ∧ s'.m_pSync = some y' ∧
          y'.m_bDetecting = true) := by
  intro rs
  induction rs with
  | nil =>
    intro s y hy hdet _ _ _
    refine ⟨?_, fun _ => ⟨s, y, rfl, hy, hdet⟩⟩
    intro y' hy'
    rw [hy] at hy'
    cases hy'
    exact Or.inl ⟨rfl, rfl, fun r hr => absurd hr (List.not_mem_nil r)⟩
  | cons r rest ih =>
    intro s y hy hdet hrs hcnt hsrc
    obtain ⟨hprov, hpend, hcw⟩ := hrs r (List.mem_cons_self _ _)
    obtain ⟨s2, y2, hy2, hdet2, hc2, hfl, hrep, hign, heq⟩ :=
      probe_step E n s y r.p r.m_ID r.bufEmpty r.bImportOk r.hCursor r.walk hy hdet hprov hpend
    rw [hcw] at hrep hign
    have hlen : (r :: rest).length = rest.length + 1 := rfl
    rw [hlen] at hcnt
    have hinc : inc32 y.m_RequestsPending = y.m_RequestsPending + 1 :=
      inc32_of_lt (N := E.m_SrcPeers) (by omega) hsrc
    have comb : ∀ y' : FirstTimeSync,
        ((y'.m_Best = y2.m_Best ∧ y'.m_Trg = y2.m_Trg ∧
            ∀ r' ∈ rest, probeKey (C r') r'.m_ID ≤ probeKey y2.m_Best y2.m_Trg) ∨
          ∃ pre r2 post, rest = pre ++ r2 :: post ∧ y'.m_Best = C r2 ∧ y'.m_Trg = r2.m_ID ∧
            probeKey y2.m_Best y2.m_Trg < probeKey (C r2) r2.m_ID ∧
            (∀ r' ∈ pre, probeKey (C r') r'.m_ID < probeKey (C r2) r2.m_ID) ∧
            (∀ r' ∈ post, probeKey (C r') r'.m_ID ≤ probeKey (C r2) r2.m_ID)) →
        ((y'.m_Best = y.m_Best ∧ y'.m_Trg = y.m_Trg ∧
            ∀ r' ∈ r :: rest, probeKey (C r') r'.m_ID ≤ probeKey y.m_Best y.m_Trg) ∨
          ∃ pre r2 post, r :: rest = pre ++ r2 :: post ∧ y'.m_Best = C r2 ∧
            y'.m_Trg = r2.m_ID ∧ probeKey y.m_Best y.m_Trg < probeKey (C r2) r2.m_ID ∧
            (∀ r' ∈ pre, probeKey (C r') r'.m_ID < probeKey (C r2) r2.m_ID) ∧
            (∀ r' ∈ post, probeKey (C r') r'.m_ID ≤ probeKey (C r2) r2.m_ID)) := by
      intro y' hF
      by_cases hlt : probeKey y.m_Best y.m_Trg < probeKey (C r) r.m_ID
      · obtain ⟨e1, e2⟩ := hrep hlt
        rw [e1, e2] at hF
        rcases hF with ⟨f1, f2, f3⟩ | ⟨pre, r2, post, g1, g2, g3, g4, g5, g6⟩
        · exact Or.inr ⟨[], r, rest, rfl, f1, f2, hlt,
            fun r' hr' => absurd hr' (List.not_mem_nil r'), f3⟩
        · refine Or.inr ⟨r :: pre, r2, post, by rw [g1]; rfl, g2, g3, lt_trans hlt g4, ?_, g6⟩
          intro r' hr'
          rcases List.mem_cons.1 hr' with h1 | h1
          · rw [h1]; exact g4
          · exact g5 r' h1
      · obtain ⟨e1, e2⟩ := hign hlt
        rw [e1, e2] at hF
        rcases hF with ⟨f1, f2, f3⟩ | ⟨pre, r2, post, g1, g2, g3, g4, g5, g6⟩
        · refine Or.inl ⟨f1, f2, ?_⟩
          intro r' hr'
          rcases List.mem_cons.1 hr' with h1 | h1
          · rw [h1]; exact not_lt.1 hlt
          · exact f3 r' h1
        · refine Or.inr ⟨r :: pre, r2, post, by rw [g1]; rfl, g2, g3, g4, ?_, g6⟩
          intro r' hr'
          rcases List.mem_cons.1 hr' with h1 | h1
          · rw [h1]; exact lt_of_le_of_lt (not_lt.1 hlt) g4
          · exact g5 r' h1
    rw [handleMacroblocks, heq]
    by_cases hth : inc32 y.m_RequestsPending ≥ E.m_SrcPeers
    · have hrest : rest = [] := List.eq_nil_of_length_eq_zero (by rw [hinc] at hth; omega)
      subst hrest
      rw [if_pos hth]
      refine ⟨?_, fun hlt => ?_⟩
      · have ht := OnSyncTimer_target E n s2 r.walk y2.m_Best y2.m_Trg (fun y3 h3 => by
          rw [hy2] at h3
          cases h3
          exact ⟨rfl, rfl⟩)
        refine Res.Sat.bind ht (fun s1 h1 y' hy' => ?_) (fun s1 _ h1 => ?_)
        · obtain ⟨a1, a2⟩ := h1 y' hy'
          exact comb y' (Or.inl ⟨a1, a2, fun r' hr' => absurd hr' (List.not_mem_nil r')⟩)
        · intro y' hy'
          obtain ⟨a1, a2⟩ := h1 y' hy'
          exact comb y' (Or.inl ⟨a1, a2, fun r' hr' => absurd hr' (List.not_mem_nil r')⟩)
      · rw [hinc] at hth
        rw [hlen] at hlt
        omega
    · rw [if_neg hth]
      have hrs2 : ∀ r' ∈ rest, (s2.peerAt r'.p).m_Flags.ProvenWork = true ∧
          (s2.peerAt r'.p).m_Flags.SyncPending = false ∧
          (s2.peerAt r'.p).m_Tip.m_ChainWork = C r' := by
        intro r' hr'
        obtain ⟨b1, b2, b3⟩ := hrs r' (List.mem_cons_of_mem _ hr')
        obtain ⟨c1, c2, c3⟩ := hfl r'.p
        exact ⟨c2.trans b1, c3.trans b2, by rw [c1]; exact b3⟩
      rw [hinc] at hth
      obtain ⟨ih1, ih2⟩ := ih s2 y2 hy2 hdet2 hrs2 (by rw [hc2, hinc]; omega) hsrc
      refine ⟨?_, fun hlt => ?_⟩
      · exact Res.Sat.mono ih1 (fun s' hs' y' hy' => comb y' (hs' y' hy'))
      · rw [hlen] at hlt
        exact ih2 (by rw [hc2, hinc]; omega)

theorem demoDetect_reachable : SyncReachable Env.demo demoDetect :=
  syncReachable_runOps 4 demoDetectOps _ _ (SyncReachable.init 100 200 false ⟨0, 0⟩) rfl

/-! ### The end of the detection -/

theorem SyncCyclePeer_detecting (E : Env) (s : Node) (p : PeerRef)
    (h : ∀ y, s.m_pSync = some y → y.m_bDetecting = false) :
    (SyncCyclePeer E s p).1.Sat (fun s' => ∀ y, s'.m_pSync = some y → y.m_bDetecting = false) := by
  unfold SyncCyclePeer
  split
  · exact h
  · rename_i y hy
    split
    · exact h
    · split
      · exact h
      · split
        · exact h
        · split
          · rename_i s1 hs
            obtain ⟨_, rfl⟩ := Send_ok hs
            intro y' hy'
            simp only [Option.some.injEq] at hy'
            subst hy'
            exact h y hy
          · rename_i r hr
            cases hs : Send E s p (.MacroblockGet y.m_Trg y.m_iData
                (E.macroblockOffset y.m_Trg.m_Height y.m_iData)) with
            | ok s1 => exact absurd hs (hr s1)
            | exc e s1 =>
              obtain ⟨rfl, _⟩ := Send_exc hs
              exact h
            | out => exact absurd hs Send_ne_out

theorem syncCycleLoop_detecting (E : Env) (l : List PeerRef) :
    ∀ s : Node, (∀ y, s.m_pSync = some y → y.m_bDetecting = false) →
      (syncCycleLoop E l s).Sat
        (fun s' => ∀ y, s'.m_pSync = some y → y.m_bDetecting = false) := by
  induction l with
  | nil => intro s h; exact h
  | cons p ps ih =>
    intro s h
    unfold syncCycleLoop
    have hc := SyncCyclePeer_detecting E s p h
    rcases hr : SyncCyclePeer E s p with ⟨r, b⟩
    rw [hr] at hc
    cases r with
    | ok s1 =>
      cases b
      · exact ih s1 hc
      · exact hc
    | exc e s1 => exact hc
    | out => trivial

theorem SyncCycle_detecting (E : Env) (s : Node)
    (h : ∀ y, s.m_pSync = some y → y.m_bDetecting = false) :
    (SyncCycle E s).Sat (fun s' => ∀ y, s'.m_pSync = some y → y.m_bDetecting = false) := by
  unfold SyncCycle
  split
  · exact h
  · split
    · exact h
    · exact syncCycleLoop_detecting E _ s h

/-- After `OnSyncTimer` the controller is gone or no longer detects. -/
theorem OnSyncTimer_ends (E : Env) (n : Nat) (s : Node) (walk : List ProcCall)
    (hs : s.m_pSync.isSome = true) :
    (OnSyncTimer E n s walk).Sat
      (fun s' => ∀ y, s'.m_pSync = some y → y.m_bDetecting = false) := by
  unfold OnSyncTimer
  split
  · rename_i hnone
    rw [hnone] at hs
    cases hs
  · rename_i y hy
    split
    · refine SyncCycle_detecting E _ ?_
      intro y' hy'
      simp only [Option.some.injEq] at hy'
      subst hy'
      rfl
    · refine (RefreshCongestions_nosync E n _ walk rfl).mono ?_
      intro s' hs' y' hy'
      rw [hs'] at hy'
      cases hy'

/-- C18: while the controller detects, a probe response, which is a Macroblock
message of a peer with `ProvenWork` and without `SyncPending`, replaces the
retained `(m_Best, m_Trg)` by the chainwork of the peer's tip and the id of the
message exactly when `(m_Best, m_Trg.m_Height)` is lexicographically smaller
than that chainwork and the height of the id, and leaves both as they are
otherwise.  Hence after responses handled one after the other while detecting,
a controller that is still there retains the lexicographically greatest pair
among the one it had and all responses, with the target of the first in that
sequence that attains it: the pair and target it had when no response ranks
above them, or else the chainwork and the id of the first response that attains
the greatest pair.  The responses are counted: while the count stays below
`m_SrcPeers` the run returns with the controller still detecting, and the
response that brings the count to `m_SrcPeers` ends the detection, so that the
responses handled while detecting are those the count leaves room for. -/
theorem probe_keeps_first_best (E : Env) (n : Nat) (s : Node) (y : FirstTimeSync)
    (hy : s.m_pSync = some y) (hdet : y.m_bDetecting = true) :
    (∀ p id bufEmpty bImportOk hCursor walk, (s.peerAt p).m_Flags.ProvenWork = true →
      (s.peerAt p).m_Flags.SyncPending = false →
      (OnMsg_Macroblock E n s p id bufEmpty bImportOk hCursor walk).Sat
        (fun s' => ∀ y', s'.m_pSync = some y' →
          (probeKey y.m_Best y.m_Trg < probeKey (s.peerAt p).m_Tip.m_ChainWork id →
            y'.m_Best = (s.peerAt p).m_Tip.m_ChainWork ∧ y'.m_Trg = id) ∧
          (¬ probeKey y.m_Best y.m_Trg < probeKey (s.peerAt p).m_Tip.m_ChainWork id →
            y'.m_Best = y.m_Best ∧ y'.m_Trg = y.m_Trg))) ∧
    (∀ rs : List MacroblockIn,
      (∀ r ∈ rs, (s.peerAt r.p).m_Flags.ProvenWork = true ∧
        (s.peerAt r.p).m_Flags.SyncPending = false) →
      y.m_RequestsPending + rs.length ≤ E.m_SrcPeers → E.m_SrcPeers < 2 ^ 32 →
      (handleMacroblocks E n rs s).Sat (fun s' => ∀ y', s'.m_pSync = some y' →
        (y'.m_Best = y.m_Best ∧ y'.m_Trg = y.m_Trg ∧
            ∀ r ∈ rs, probeKey (s.peerAt r.p).m_Tip.m_ChainWork r.m_ID ≤
              probeKey y.m_Best y.m_Trg) ∨
        ∃ pre r post, rs = pre ++ r :: post ∧
          y'.m_Best = (s.peerAt r.p).m_Tip.m_ChainWork ∧ y'.m_Trg = r.m_ID ∧
          probeKey y.m_Best y.m_Trg < probeKey (s.peerAt r.p).m_Tip.m_ChainWork r.m_ID ∧
          (∀ r' ∈ pre, probeKey (s.peerAt r'.p).m_Tip.m_ChainWork r'.m_ID <
            probeKey (s.peerAt r.p).m_Tip.m_ChainWork r.m_ID) ∧
          (∀ r' ∈ post, probeKey (s.peerAt r'.p).m_Tip.m_ChainWork r'.m_ID ≤
            probeKey (s.peerAt r.p).m_Tip.m_ChainWork r.m_ID)) ∧
      (y.m_RequestsPending + rs.length < E.m_SrcPeers →
        ∃ s' y', handleMacroblocks E n rs s = .ok s' ∧ s'.m_pSync = some y' ∧
          y'.m_bDetecting = true)) ∧
    (∀ p id bufEmpty bImportOk hCursor walk, (s.peerAt p).m_Flags.ProvenWork = true →
      (s.peerAt p).m_Flags.SyncPending = false →
      inc32 y.m_RequestsPending ≥ E.m_SrcPeers →
      (OnMsg_Macroblock E n s p id bufEmpty bImportOk hCursor walk).Sat
        (fun s' => ∀ y', s'.m_pSync = some y' → y'.m_bDetecting = false)) := by
  refine ⟨?_, ?_, ?_⟩
  · intro p id b1 b2 c walk hprov hpend
    obtain ⟨s2, y2, hy2, _, _, _, hrep, hign, heq⟩ :=
      probe_step E n s y p id b1 b2 c walk hy hdet hprov hpend
    rw [heq]
    have hs2 : ∀ y' : FirstTimeSync, s2.m_pSync = some y' →
        y'.m_Best = y2.m_Best ∧ y'.m_Trg = y2.m_Trg := by
      intro y' hy'
      rw [hy2] at hy'
      cases hy'
      exact ⟨rfl, rfl⟩
    have hfin : ∀ s' : Node,
        (∀ y' : FirstTimeSync, s'.m_pSync = some y' →
          y'.m_Best = y2.m_Best ∧ y'.m_Trg = y2.m_Trg) →
        ∀ y' : FirstTimeSync, s'.m_pSync = some y' →
          (probeKey y.m_Best y.m_Trg < probeKey (s.peerAt p).m_Tip.m_ChainWork id →
            y'.m_Best = (s.peerAt p).m_Tip.m_ChainWork ∧ y'.m_Trg = id) ∧
          (¬ probeKey y.m_Best y.m_Trg < probeKey (s.peerAt p).m_Tip.m_ChainWork id →
            y'.m_Best = y.m_Best ∧ y'.m_Trg = y.m_Trg) := by
      intro s' h' y' hy'
      obtain ⟨a1, a2⟩ := h' y' hy'
      rw [a1, a2]
      exact ⟨hrep, hign⟩
    split
    · exact (OnSyncTimer_target E n s2 walk y2.m_Best y2.m_Trg hs2).mono hfin
    · exact hfin s2 hs2
  · intro rs hrs hcnt hsrc
    exact probe_run E n (fun r => (s.peerAt r.p).m_Tip.m_ChainWork) rs s y hy hdet
      (fun r hr => ⟨(hrs r hr).1, (hrs r hr).2, rfl⟩) hcnt hsrc
  · intro p id b1 b2 c walk hprov hpend hfull
    obtain ⟨s2, y2, hy2, _, _, _, _, _, heq⟩ :=
      probe_step E n s y p id b1 b2 c walk hy hdet hprov hpend
    rw [heq, if_pos hfull]
    exact OnSyncTimer_ends E n s2 walk (by rw [hy2]; rfl)

theorem probe_keeps_first_best_witness :
    SyncReachable Env.demo demoDetect ∧
      demoDetect.m_pSync = some ⟨true, 0, ⟨0, 0⟩, 0, 0, false⟩ ∧
      (∀ r ∈ demoReplies, (demoDetect.peerAt r.p).m_Flags.ProvenWork = true ∧
        (demoDetect.peerAt r.p).m_Flags.SyncPending = false) ∧
      (handleMacroblocks Env.demo 1 demoReplies demoDetect).node?.bind (fun s' => s'.m_pSync) =
        some ⟨true, 2, ⟨8, 81⟩, 9, 0, true⟩ ∧
      ∃ s' y', handleMacroblocks Env.demo 1 demoReplies demoDetect = .ok s' ∧
        s'.m_pSync = some y' ∧ y'.m_bDetecting = true :=
  ⟨demoDetect_reachable, rfl, by decide, rfl,
    ((probe_keeps_first_best Env.demo 1 demoDetect ⟨true, 0, ⟨0, 0⟩, 0, 0, false⟩ rfl rfl).2.1
      demoReplies (by decide) (by decide) (by decide)).2 (by decide)⟩

/-! ## The request of `AssignTask` -/

theorem moveToPeer_shape (E : Env) (s0 : Node) (t : TaskKey) (p : PeerRef) :
    ∃ tm, (moveToPeer E s0 t p) =
      { s0 with
        taskAt := Function.update s0.taskAt t { s0.taskAt t with m_pOwner := some p }
        m_lstTasksUnassigned := s0.m_lstTasksUnassigned.erase t
        peerAt := Function.update s0.peerAt p
          { s0.peerAt p with m_lstTasks := (s0.peerAt p).m_lstTasks ++ [t], m_Timer := tm } } := by
  unfold moveToPeer
  simp only []
  split
  · unfold SetTimerWrtFirstTask
    simp only [Node.setPeer, Node.setTask, Function.update_same]
    split
    · exact ⟨none, by simp⟩
    · rename_i t0 _ _
      exact ⟨some (if t0.2 = true then E.m_GetBlock_ms else E.m_GetState_ms), by simp⟩
  · exact ⟨(s0.peerAt p).m_Timer, by simp [Node.setPeer, Node.setTask]⟩

theorem moveToPeer_keeps (E : Env) (s0 : Node) (t : TaskKey) (p : PeerRef) :
    (moveToPeer E s0 t p).trace = s0.trace ∧
      ((moveToPeer E s0 t p).taskAt t).m_bPack = (s0.taskAt t).m_bPack := by
  obtain ⟨tm, h⟩ := moveToPeer_shape E s0 t p
  rw [h]
  exact ⟨rfl, by simp⟩

theorem packSize_eq (E : Env) (s : Node) (t : TaskKey) :
    packSize E s t =
      if s.m_CursorHeight + 5 ≤ t.first.m_Height then
        min E.g_HdrPackMaxSize (t.first.m_Height - s.m_CursorHeight)
      else 0 := by
  unfold packSize
  by_cases h : s.m_CursorHeight + 5 ≤ t.first.m_Height
  · have h1 : t.first.m_Height > s.m_CursorHeight := by omega
    have h2 : t.first.m_Height - s.m_CursorHeight ≥ 5 := by omega
    simp only [h1, h2, h, if_true]
    split
    · rw [Nat.min_eq_right]; omega
    · rw [Nat.min_eq_left]; omega
  · simp only [h, if_false]
    split
    · rw [if_neg]; omega
    · rfl

/-- The request part of `AssignTask` hands `Send` the message of
`chosenRequest`. -/
theorem sendRequest_chosen (E : Env) (s : Node) (t : TaskKey) (p : PeerRef)
    (hg : 5 ≤ E.g_HdrPackMaxSize) :
    sendRequest E s t p =
      (Send E s p (chosenRequest E.g_HdrPackMaxSize s.m_CursorHeight s.m_nTasksPackHdr t)).bind
        fun s1 =>
          if t.second = false ∧ s.m_CursorHeight + 5 ≤ t.first.m_Height ∧ s.m_nTasksPackHdr = 0
          then .ok { s1.setTask t (fun x => { x with m_bPack := true }) with
                     m_nTasksPackHdr := inc32 s1.m_nTasksPackHdr }
          else .ok s1 := by
  have hbind : ∀ r : Res, r = r.bind (fun s1 => .ok s1) := by
    intro r; cases r <;> rfl
  unfold sendRequest chosenRequest
  by_cases hb : t.second = true
  · simp only [hb, if_true, Bool.true_eq_false, false_and, if_false]
    exact hbind _
  · have hb' : t.second = false := by simpa using hb
    simp only [hb', Bool.false_eq_true, if_false, true_and]
    rw [packSize_eq]
    by_cases hh : s.m_CursorHeight + 5 ≤ t.first.m_Height
    · have hne : min E.g_HdrPackMaxSize (t.first.m_Height - s.m_CursorHeight) ≠ 0 := by
        have : 5 ≤ min E.g_HdrPackMaxSize (t.first.m_Height - s.m_CursorHeight) :=
          Nat.le_min.2 ⟨hg, by omega⟩
        omega
      by_cases hz : s.m_nTasksPackHdr = 0
      · simp only [hh, hz, hne, if_true, ne_eq, not_false_eq_true, and_self]
      · simp only [hh, hz, if_true, false_and, and_false, if_false]
        exact hbind _
    · simp only [hh, if_false, ne_eq, not_true_eq_false, and_false, false_and]
      exact hbind _

/-- C21: with `g_HdrPackMaxSize` at least 5, `AssignTask(t, p)` hands `Send`
one message, that of `chosenRequest`: `GetBody{t.id}` for a block task;
`GetHdrPack{top = t.id, count = min(g_HdrPackMaxSize, dh)}` for a header task
with `dh = t.height - cursor height >= 5` while `m_nTasksPackHdr` is 0;
`GetHdr{t.id}` for every other header task.  When the send goes out the call
returns, the trace has grown by exactly that message, and the task is marked
pack in the pack case and has its mark unchanged otherwise; when the send
throws so does the call, with nothing sent.  The count of a pack is between 5
and `g_HdrPackMaxSize`, and is 10 when `dh = 10 <= g_HdrPackMaxSize`. -/
theorem AssignTask_sends_chosen_request (E : Env) (s : Node) (t : TaskKey) (p : PeerRef)
    (hg : 5 ≤ E.g_HdrPackMaxSize) :
    (E.sendOk p (chosenRequest E.g_HdrPackMaxSize s.m_CursorHeight s.m_nTasksPackHdr t) = true →
      ∃ s', AssignTask E s t p = .ok s' ∧
        s'.trace = s.trace ++
          [.sent p (chosenRequest E.g_HdrPackMaxSize s.m_CursorHeight s.m_nTasksPackHdr t)] ∧
        (s'.taskAt t).m_bPack =
          (decide (t.second = false ∧ s.m_CursorHeight + 5 ≤ t.first.m_Height ∧
            s.m_nTasksPackHdr = 0) || (s.taskAt t).m_bPack)) ∧
    (E.sendOk p (chosenRequest E.g_HdrPackMaxSize s.m_CursorHeight s.m_nTasksPackHdr t) = false →
      AssignTask E s t p = .exc .io s) ∧
    (t.second = true →
      chosenRequest E.g_HdrPackMaxSize s.m_CursorHeight s.m_nTasksPackHdr t =
        .GetBody t.first) ∧
    (t.second = false → s.m_CursorHeight + 5 ≤ t.first.m_Height → s.m_nTasksPackHdr = 0 →
      chosenRequest E.g_HdrPackMaxSize s.m_CursorHeight s.m_nTasksPackHdr t =
        .GetHdrPack t.first (min E.g_HdrPackMaxSize (t.first.m_Height - s.m_CursorHeight)) ∧
      5 ≤ min E.g_HdrPackMaxSize (t.first.m_Height - s.m_CursorHeight) ∧
      min E.g_HdrPackMaxSize (t.first.m_Height - s.m_CursorHeight) ≤ E.g_HdrPackMaxSize ∧
      (t.first.m_Height - s.m_CursorHeight = 10 → 10 ≤ E.g_HdrPackMaxSize →
        min E.g_HdrPackMaxSize (t.first.m_Height - s.m_CursorHeight) = 10)) ∧
    (t.second = false → ¬ (s.m_CursorHeight + 5 ≤ t.first.m_Height ∧ s.m_nTasksPackHdr = 0) →
      chosenRequest E.g_HdrPackMaxSize s.m_CursorHeight s.m_nTasksPackHdr t =
        .GetHdr t.first) := by
  refine ⟨fun hok => ?_, fun hno => ?_, fun hb => ?_, fun hb hh hz => ?_, fun hb hn => ?_⟩
  · unfold AssignTask
    rw [sendRequest_chosen E s t p hg]
    unfold Send
    rw [if_pos hok]
    by_cases hc : t.second = false ∧ s.m_CursorHeight + 5 ≤ t.first.m_Height ∧
        s.m_nTasksPackHdr = 0
    · simp only [Res.bind, hc, and_self, if_true]
      refine ⟨_, rfl, ?_, ?_⟩
      · rw [(moveToPeer_keeps E _ t p).1]
        rfl
      · rw [(moveToPeer_keeps E _ t p).2]
        simp [Node.setTask, Node.log]
    · simp only [Res.bind, hc, if_false]
      refine ⟨_, rfl, ?_, ?_⟩
      · rw [(moveToPeer_keeps E _ t p).1]
        rfl
      · rw [(moveToPeer_keeps E _ t p).2]
        simp [Node.log, hc]
  · unfold AssignTask
    rw [sendRequest_chosen E s t p hg]
    unfold Send
    rw [if_neg (by simp [hno])]
    rfl
  · unfold chosenRequest
    rw [if_pos hb]
  · refine ⟨?_, Nat.le_min.2 ⟨hg, by omega⟩, Nat.min_le_left _ _, fun h10 hg10 => ?_⟩
    · unfold chosenRequest
      rw [if_neg (by simp [hb]), if_pos ⟨hh, hz⟩]
    · rw [h10]
      exact Nat.min_eq_right hg10
  · unfold chosenRequest
    rw [if_neg (by simp [hb]), if_neg hn]

theorem AssignTask_sends_chosen_request_witness :
    5 ≤ Env.demo.g_HdrPackMaxSize ∧
      (∃ s', AssignTask Env.demo demoPeer ⟨⟨10, 0⟩, false⟩ 1 = .ok s' ∧
        s'.trace = demoPeer.trace ++ [.sent 1 (.GetHdrPack ⟨10, 0⟩ 10)] ∧
        (s'.taskAt ⟨⟨10, 0⟩, false⟩).m_bPack = true) :=
  ⟨by decide,
    (AssignTask_sends_chosen_request Env.demo demoPeer ⟨⟨10, 0⟩, false⟩ 1 (by decide)).1 rfl⟩

/-! ## The reward of a response -/

/-- C22, the code run on concrete inputs.  Peer 1, entry 1 of the peer manager
with rating 1024, is asked for the header `(3, 33)`; it answers with that header
and the processor returns `Rejected`: the rating is 1088 afterwards, the call
`ModifyRating(RewardHeader = 64)` comes before the call of `OnState`.  Asked
for the block `(3, 33)`, it answers with a body for which the processor returns
`Unreachable`: the rating is 1536 afterwards, 512 being `RewardBlock`. -/
theorem reward_without_acceptance :
    (demoHdrOne.peerAt 1).m_lstTasks = [⟨⟨3, 33⟩, false⟩] ∧
      (demoHdrOne.peerAt 1).m_pInfo = some 1 ∧ (demoHdrOne.infoAt 1).m_RawRating = 1024 ∧
      (OnMsg_Hdr Env.demo 6 demoHdrOne 1 ⟨3, 0, 33⟩ .Rejected []).node?.map
          (fun s => ((s.infoAt 1).m_RawRating, s.trace.drop demoHdrOne.trace.length)) =
        some (1088, [.modifyRating 1 64 true, .onState ⟨3, 0, 33⟩ 5]) ∧
      (demoTwoBlocks.peerAt 1).m_lstTasks.head? = some ⟨⟨3, 33⟩, true⟩ ∧
      (demoTwoBlocks.infoAt 1).m_RawRating = 1024 ∧
      (OnMsg_Body Env.demo 6 demoTwoBlocks 1 .Unreachable []).node?.map
          (fun s => ((s.infoAt 1).m_RawRating, s.trace.drop demoTwoBlocks.trace.length)) =
        some (1536, [.modifyRating 1 512 true, .onBlock ⟨3, 33⟩ 5]) := by
  refine ⟨by decide, by decide, by decide, ?_, by decide, by decide, ?_⟩
  · decide
  · decide

/-! ## What the scheduler throws -/

theorem Res.IoOnly.bind_io {r : Res} {f : Node → Res} (h : r.IoOnly)
    (hf : ∀ s, r = .ok s → (f s).IoOnly) : (r.bind f).IoOnly := by
  cases r with
  | ok s => exact hf s rfl
  | exc e s =>
    intro e' s' he
    simp only [Res.bind] at he
    exact h e' s' he
  | out =>
    intro e' s' he
    simp [Res.bind] at he

theorem Res.IoOnly.ok_state (s : Node) : (Res.ok s).IoOnly := by
  intro e s' he
  cases he

theorem Send_ioOnly (E : Env) (s : Node) (p : PeerRef) (m : Msg) : (Send E s p m).IoOnly := by
  intro e s' he
  exact (Send_exc he).2

theorem SyncCyclePeer_ioOnly (E : Env) (s : Node) (p : PeerRef) :
    (SyncCyclePeer E s p).1.IoOnly := by
  unfold SyncCyclePeer
  split
  · exact Res.IoOnly.ok_state s
  · rename_i y hy
    split
    · exact Res.IoOnly.ok_state s
    · split
      · exact Res.IoOnly.ok_state s
      · split
        · exact Res.IoOnly.ok_state s
        · split
          · exact Res.IoOnly.ok_state _
          · rename_i r hr
            exact Send_ioOnly E s p _

theorem syncCycleLoop_ioOnly (E : Env) (l : List PeerRef) :
    ∀ s : Node, (syncCycleLoop E l s).IoOnly := by
  induction l with
  | nil => intro s; exact Res.IoOnly.ok_state s
  | cons p ps ih =>
    intro s
    unfold syncCycleLoop
    have hc := SyncCyclePeer_ioOnly E s p
    rcases hr : SyncCyclePeer E s p with ⟨r, b⟩
    rw [hr] at hc
    cases r with
    | ok s1 =>
      cases b
      · exact ih s1
      · exact Res.IoOnly.ok_state s1
    | exc e s1 => exact hc
    | out => exact hc

theorem SyncCycle_ioOnly (E : Env) (s : Node) : (SyncCycle E s).IoOnly := by
  unfold SyncCycle
  split
  · exact Res.IoOnly.ok_state s
  · split
    · exact Res.IoOnly.ok_state s
    · exact syncCycleLoop_ioOnly E _ s

theorem finishDelete_ioOnly (E : Env) (s : Node) (p : PeerRef) (b : Bool)
    (r : Option ByeReason) : (finishDelete E s p b r).IoOnly := by
  unfold finishDelete
  refine Res.IoOnly.bind_io ?_ (fun s1 _ => Res.IoOnly.ok_state _)
  unfold releaseSyncSlot
  split
  · exact Res.IoOnly.ok_state _
  · split
    · exact SyncCycle_ioOnly E _
    · exact Res.IoOnly.ok_state _

theorem startDelete_ioOnly (E : Env) (s : Node) (p : PeerRef) (r : Option ByeReason) :
    (startDelete E s p r).IoOnly := by
  unfold startDelete
  refine Res.IoOnly.bind_io ?_ (fun s1 _ => Res.IoOnly.ok_state _)
  split
  · split
    · exact Send_ioOnly E s p _
    · exact Res.IoOnly.ok_state s
  · exact Res.IoOnly.ok_state s

theorem AssignTask_ioOnly (E : Env) (s : Node) (t : TaskKey) (p : PeerRef) :
    (AssignTask E s t p).IoOnly := by
  unfold AssignTask
  refine Res.IoOnly.bind_io ?_ (fun s1 _ => Res.IoOnly.ok_state _)
  unfold sendRequest
  split
  · exact Send_ioOnly E s p _
  · split
    · exact Res.IoOnly.bind_io (Send_ioOnly E s p _) (fun s1 _ => Res.IoOnly.ok_state _)
    · exact Send_ioOnly E s p _

/-- Releasing, re-assigning and deleting throw nothing but what `Send` throws. -/
theorem sched_ioOnly (E : Env) : ∀ n : Nat,
    (∀ s t pref, (TryAssignTask E n s t pref).IoOnly) ∧
    (∀ s p t, (ReleaseTask E n s p t).IoOnly) ∧
    (∀ s p, (ReleaseTasks E n s p).IoOnly) ∧
    (∀ s p b r, (DeleteSelf E n s p b r).IoOnly) := by
  intro n
  induction n with
  | zero =>
    refine ⟨?_, ?_, ?_, ?_⟩
    · intro s t pref e s' he; simp [TryAssignTask] at he
    · intro s p t e s' he; simp [ReleaseTask] at he
    · intro s p e s' he; simp [ReleaseTasks] at he
    · intro s p b r e s' he; simp [DeleteSelf] at he
  | succ n ih =>
    obtain ⟨ihT, ihR, ihRs, ihD⟩ := ih
    refine ⟨?_, ?_, ?_, ?_⟩
    · intro s t pref
      rw [TryAssignTask]
      cases hsel : selectPeer E s t pref with
      | none => exact Res.IoOnly.ok_state s
      | some p =>
        simp only []
        cases hr : AssignTask E s t p with
        | ok s1 => exact Res.IoOnly.ok_state s1
        | out => intro e s' he; cases he
        | exc e s1 =>
          simp only []
          exact Res.IoOnly.bind_io (ihD s1 p true (some .Ban)) (fun s2 _ => ihT s2 t pref)
    · intro s p t
      rw [ReleaseTask]
      split
      · exact ihT _ t none
      · exact Res.IoOnly.ok_state _
    · intro s p
      rw [ReleaseTasks]
      cases hl : (s.peerAt p).m_lstTasks with
      | nil => exact Res.IoOnly.ok_state s
      | cons t rest =>
        simp only []
        exact Res.IoOnly.bind_io (ihR s p t) (fun s1 _ => ihRs s1 p)
    · intro s p b r
      rw [DeleteSelf]
      refine Res.IoOnly.bind_io (startDelete_ioOnly E s p r) (fun s1 _ => ?_)
      exact Res.IoOnly.bind_io (ihRs s1 p) (fun s2 _ => finishDelete_ioOnly E s2 p b r)

theorem EnumCongestions_ioOnly (E : Env) (n : Nat) :
    ∀ (walk : List ProcCall) (s : Node), (EnumCongestions E n walk s).IoOnly := by
  intro walk
  induction walk with
  | nil => intro s; exact Res.IoOnly.ok_state s
  | cons c cs ih =>
    intro s
    cases c with
    | RequestData id b pref =>
      rw [EnumCongestions]
      refine Res.IoOnly.bind_io ?_ (fun s1 _ => ih s1)
      unfold RequestData
      split
      · exact Res.IoOnly.ok_state _
      · exact (sched_ioOnly E n).1 _ _ pref
    | OnPeerInsane id =>
      rw [EnumCongestions]
      refine Res.IoOnly.bind_io ?_ (fun s1 _ => ih s1)
      unfold OnPeerInsane
      split
      · exact Res.IoOnly.ok_state _
      · split
        · exact (sched_ioOnly E n).2.2.2 s _ _ _
        · exact Res.IoOnly.ok_state _

theorem RefreshCongestions_ioOnly (E : Env) (n : Nat) (s : Node) (walk : List ProcCall) :
    (RefreshCongestions E n s walk).IoOnly := by
  unfold RefreshCongestions
  split
  · exact Res.IoOnly.ok_state s
  · exact Res.IoOnly.bind_io (EnumCongestions_ioOnly E n walk _) (fun s1 _ => Res.IoOnly.ok_state _)

/-! ## The top of a header pack -/

theorem logStates_shape (src : PeerID) :
    ∀ (l : List (Full × DataStatus)) (s : Node),
      ∃ tr, logStates src l s = { s with trace := tr } := by
  intro l
  induction l with
  | nil => intro s; exact ⟨s.trace, rfl⟩
  | cons a l ih =>
    intro s
    obtain ⟨d, st⟩ := a
    rw [logStates]
    obtain ⟨tr, h⟩ := ih (s.log (.onState d src))
    exact ⟨tr, by rw [h]; rfl⟩

/-- The handler past its checks, for a pack whose front task is a header task
marked pack. -/
theorem OnMsg_HdrPack_body (E : Env) (n : Nat) (s : Node) (p : PeerRef)
    (pack : List (Full × DataStatus)) (walk : List ProcCall) (t : TaskKey) (rest : List TaskKey)
    (last : Full × DataStatus) (hl : (s.peerAt p).m_lstTasks = t :: rest)
    (hhdr : t.second = false) (hpk : (s.taskAt t).m_bPack = true)
    (hlast : pack.getLast? = some last) (hlen : pack.length ≤ E.g_HdrPackMaxSize) :
    OnMsg_HdrPack E n s p pack walk =
      (OnFirstTaskDone E n (logStates (peerKey s p) pack s) p).bind fun s1 =>
        if (pack.filter (fun x => x.2 = .Accepted)).length % 2 ^ 32 ≠ 0 then
          RefreshCongestions E n
            (rewardPeer E s1 p
              ((E.RewardHeader * ((pack.filter (fun x => x.2 = .Accepted)).length % 2 ^ 32)) %
                2 ^ 32)) walk
        else if (pack.any (fun x => x.2 = .Invalid) || decide (get_ID E last.1 ≠ t.first)) = true
        then .exc .unexpected s1
        else .ok s1 := by
  unfold OnMsg_HdrPack
  rw [hl]
  simp only [hhdr, hpk, hlast, Bool.false_eq_true, Bool.not_true, or_self, if_false,
    Nat.not_lt.2 hlen]

/-- How `OnFirstTaskDone` ends on a peer with a task: it returns with the peer
still in `m_lstPeers`, or it is left by the exception of a send, or the peer
was deleted while its task was offered again. -/
theorem OnFirstTaskDone_cases (E : Env) (n : Nat) (s : Node) (p : PeerRef) (t : TaskKey)
    (rest : List TaskKey) (hl : (s.peerAt p).m_lstTasks = t :: rest) :
    (∀ s', OnFirstTaskDone E n s p = .ok s' →
      p ∈ s'.m_lstPeers ∧
        ∃ s1, ReleaseTask E n s p t = .ok s1 ∧ p ∈ s1.m_lstPeers ∧
          s' = SetTimerWrtFirstTask E s1 p) ∧
    (∀ e s', OnFirstTaskDone E n s p = .exc e s' →
      (e = .io ∧ ReleaseTask E n s p t = .exc .io s') ∨
      (e = .freed ∧ p ∉ s'.m_lstPeers ∧ ReleaseTask E n s p t = .ok s')) ∧
    (OnFirstTaskDone E n s p = .out ↔ ReleaseTask E n s p t = .out) := by
  unfold OnFirstTaskDone
  rw [hl]
  simp only []
  cases hr : ReleaseTask E n s p t with
  | ok s1 =>
    simp only [Res.bind]
    by_cases hp : p ∈ s1.m_lstPeers
    · rw [if_pos hp]
      refine ⟨fun s' h => ?_, fun e s' h => (by cases h), ⟨fun h => (by cases h),
        fun h => (by cases h)⟩⟩
      cases h
      exact ⟨by rw [(SetTimer_fields E s1 p).2.2.2.1]; exact hp, s1, rfl, hp, rfl⟩
    · rw [if_neg hp]
      refine ⟨fun s' h => (by cases h), fun e s' h => ?_, ⟨fun h => (by cases h),
        fun h => (by cases h)⟩⟩
      cases h
      exact Or.inr ⟨rfl, hp, rfl⟩
  | exc e s1 =>
    simp only [Res.bind]
    refine ⟨fun s' h => (by cases h), fun e' s' h => ?_, trivial⟩
    cases h
    have he : e = .io := (sched_ioOnly E n).2.1 s p t e s1 hr
    subst he
    exact Or.inl ⟨rfl, rfl⟩
  | out =>
    simp only [Res.bind]
    exact ⟨fun s' h => (by cases h), fun e s' h => (by cases h), trivial⟩

/-- When every send goes out, `AssignTask` returns. -/
theorem AssignTask_of_sendOk (E : Env) (hok : ∀ q m, E.sendOk q m = true) (s : Node)
    (t : TaskKey) (p : PeerRef) : ∃ s1, AssignTask E s t p = .ok s1 := by
  unfold AssignTask sendRequest Send
  split
  · simp [hok, Res.bind]
  · split <;> simp [hok, Res.bind]

/-- When every send goes out, `ReleaseTask` returns and deletes no peer. -/
theorem ReleaseTask_of_sendOk (E : Env) (hok : ∀ q m, E.sendOk q m = true) (n : Nat)
    (s : Node) (p : PeerRef) (t : TaskKey) :
    ∃ s1, ReleaseTask E (n + 2) s p t = .ok s1 ∧ s1.m_lstPeers = s.m_lstPeers := by
  rw [ReleaseTask]
  split
  · rw [TryAssignTask]
    cases hsel : selectPeer E (releaseToQueue s p t) t none with
    | none => exact ⟨_, rfl, (releaseToQueue_eff s p t).peers⟩
    | some q =>
      obtain ⟨s1, h1⟩ := AssignTask_of_sendOk E hok (releaseToQueue s p t) t q
      simp only [h1]
      exact ⟨s1, rfl, (AssignTask_ok h1).peers.trans (releaseToQueue_eff s p t).peers⟩
  · exact ⟨_, rfl, (releaseToQueue_eff s p t).peers⟩

/-- When every send goes out, `OnFirstTaskDone` returns on a listed peer with a
task. -/
theorem OnFirstTaskDone_of_sendOk (E : Env) (hok : ∀ q m, E.sendOk q m = true) (n : Nat)
    (s : Node) (p : PeerRef) (t : TaskKey) (rest : List TaskKey)
    (hl : (s.peerAt p).m_lstTasks = t :: rest) (hp : p ∈ s.m_lstPeers) :
    ∃ s', OnFirstTaskDone E (n + 2) s p = .ok s' := by
  obtain ⟨s1, h1, h2⟩ := ReleaseTask_of_sendOk E hok n s p t
  unfold OnFirstTaskDone
  rw [hl]
  simp only [h1, Res.bind]
  rw [if_pos (by rw [h2]; exact hp)]
  exact ⟨_, rfl⟩

/-- C23 fails as stated: peer 1 holds the header task `(10, 0)`, marked pack.
Its `HdrPack` has one header, of height 9, which the processor accepts; the ID
of the last state computed, `(9, 99)`, is not the requested `(10, 0)`.  The
handler returns: no protocol violation is raised, and the rating of the peer has
gone from 1024 to 1088. -/
theorem mismatched_pack_is_rewarded :
    Reachable Env.demo demoPack ∧
      (demoPack.peerAt 1).m_lstTasks = [⟨⟨10, 0⟩, false⟩] ∧
      (demoPack.taskAt ⟨⟨10, 0⟩, false⟩).m_bPack = true ∧
      get_ID Env.demo ⟨9, 0, 99⟩ = ⟨9, 99⟩ ∧ (demoPack.infoAt 1).m_RawRating = 1024 ∧
      (match OnMsg_HdrPack Env.demo 6 demoPack 1 [(⟨9, 0, 99⟩, .Accepted)] [] with
        | .ok s' => decide ((s'.infoAt 1).m_RawRating = 1088)
        | _ => false) = true :=
  ⟨demoPack_reachable, by decide, by decide, by decide, by decide, by decide⟩

/-- C23, amended: for a `HdrPack` handled against a pack header task of a peer
in `m_lstPeers`, with at least one and at most `g_HdrPackMaxSize` headers, where
the ID of the last state computed differs from the StateID of the front task.
The front task is released first; the handler goes on only when that returns
with the peer still in `m_lstPeers`, otherwise it is left by the exception of a
send or the peer was deleted meanwhile.  If the processor accepted none of the
headers the handler never returns: from there it raises the protocol violation,
and it does so when every send goes out; it does end once the budget reaches
the bound.  If the processor accepted at least one header no protocol violation
is raised: from there the peer is rewarded `RewardHeader` times the number of
accepted headers and the congestions are refreshed. -/
theorem HdrPack_top_mismatch (E : Env) (s : Node) (p : PeerRef)
    (pack : List (Full × DataStatus)) (walk : List ProcCall) (t : TaskKey) (rest : List TaskKey)
    (last : Full × DataStatus) (hl : (s.peerAt p).m_lstTasks = t :: rest)
    (hhdr : t.second = false) (hpk : (s.taskAt t).m_bPack = true)
    (hlast : pack.getLast? = some last) (hlen : pack.length ≤ E.g_HdrPackMaxSize)
    (hg : E.g_HdrPackMaxSize < 2 ^ 32) (hmis : get_ID E last.1 ≠ t.first)
    (hp : p ∈ s.m_lstPeers) :
    ((∀ x ∈ pack, x.2 ≠ .Accepted) →
      (∀ n s', OnMsg_HdrPack E n s p pack walk ≠ .ok s') ∧
      (∀ n e s', OnMsg_HdrPack E n s p pack walk = .exc e s' →
        (e = .unexpected ∧ p ∈ s'.m_lstPeers) ∨ e = .io ∨ (e = .freed ∧ p ∉ s'.m_lstPeers)) ∧
      ((∀ q m, E.sendOk q m = true) →
        ∀ n, ∃ s', OnMsg_HdrPack E (n + 2) s p pack walk = .exc .unexpected s') ∧
      (Reachable E s → HeightsPos s →
        ∀ n, liveCount s * (s.m_setTasks.length + 4) + 2 ≤ n →
          OnMsg_HdrPack E n s p pack walk ≠ .out)) ∧
    ((∃ x ∈ pack, x.2 = .Accepted) →
      (∀ n s', OnMsg_HdrPack E n s p pack walk ≠ .exc .unexpected s') ∧
      (∀ n s1, OnFirstTaskDone E n (logStates (peerKey s p) pack s) p = .ok s1 →
        p ∈ s1.m_lstPeers ∧
        OnMsg_HdrPack E n s p pack walk =
          RefreshCongestions E n
            (rewardPeer E s1 p
              ((E.RewardHeader * (pack.filter (fun x => x.2 = .Accepted)).length) % 2 ^ 32))
            walk) ∧
      (∀ n e s1, OnFirstTaskDone E n (logStates (peerKey s p) pack s) p = .exc e s1 →
        OnMsg_HdrPack E n s p pack walk = .exc e s1 ∧
          (e = .io ∨ (e = .freed ∧ p ∉ s1.m_lstPeers)))) := by
  have hbody := fun n => OnMsg_HdrPack_body E n s p pack walk t rest last hl hhdr hpk hlast hlen
  have hinv : (pack.any (fun x => x.2 = .Invalid) || decide (get_ID E last.1 ≠ t.first)) = true := by
    simp [hmis]
  obtain ⟨tr, hshape⟩ := logStates_shape (peerKey s p) pack s
  have hl0 : ((logStates (peerKey s p) pack s).peerAt p).m_lstTasks = t :: rest := by
    rw [hshape]; exact hl
  have hp0 : p ∈ (logStates (peerKey s p) pack s).m_lstPeers := by
    rw [hshape]; exact hp
  have hcases := fun n => OnFirstTaskDone_cases E n (logStates (peerKey s p) pack s) p t rest hl0
  refine ⟨fun hnone => ?_, fun hsome => ?_⟩
  · have hz : (pack.filter (fun x => x.2 = .Accepted)).length % 2 ^ 32 = 0 := by
      have : pack.filter (fun x => x.2 = .Accepted) = [] := by
        rw [List.filter_eq_nil_iff]
        intro x hx
        simpa using hnone x hx
      rw [this]
      rfl
    have hb : ∀ n, OnMsg_HdrPack E n s p pack walk =
        (OnFirstTaskDone E n (logStates (peerKey s p) pack s) p).bind fun s1 =>
          .exc .unexpected s1 := by
      intro n
      rw [hbody n]
      congr 1
      funext s1
      rw [if_neg (not_not.2 hz), if_pos hinv]
    refine ⟨fun n s' he => ?_, fun n e s' he => ?_, fun hsend n => ?_, fun hr hpos n hn => ?_⟩
    · rw [hb n] at he
      cases h1 : OnFirstTaskDone E n (logStates (peerKey s p) pack s) p with
      | ok s1 => rw [h1] at he; simp [Res.bind] at he
      | exc e s1 => rw [h1] at he; simp [Res.bind] at he
      | out => rw [h1] at he; simp [Res.bind] at he
    · rw [hb n] at he
      cases h1 : OnFirstTaskDone E n (logStates (peerKey s p) pack s) p with
      | ok s1 =>
        rw [h1] at he
        simp only [Res.bind] at he
        cases he
        exact Or.inl ⟨rfl, ((hcases n).1 _ h1).1⟩
      | exc e1 s1 =>
        rw [h1] at he
        simp only [Res.bind] at he
        cases he
        rcases (hcases n).2.1 _ _ h1 with ⟨h2, _⟩ | ⟨h2, h3, _⟩
        · exact Or.inr (Or.inl h2)
        · exact Or.inr (Or.inr ⟨h2, h3⟩)
      | out => rw [h1] at he; simp [Res.bind] at he
    · obtain ⟨s1, h1⟩ := OnFirstTaskDone_of_sendOk E hsend n _ p t rest hl0 hp0
      exact ⟨s1, by rw [hb, h1]; rfl⟩
    · rw [hb n]
      refine Res.bind_ne_out ?_ (fun _ _ => by simp)
      have hi := reachable_inv hr
      have hi0 : Inv (logStates (peerKey s p) pack s) := hi.logStates _ _
      intro hout
      refine release_term (sched_term E s.m_setTasks.length (liveCount s)) n _ p t rest hi0 ?_ ?_ ?_
        hl0 hn ((hcases n).2.2.1 hout)
      · intro k hk
        rw [hshape] at hk
        exact hpos k hk
      · rw [hshape]
      · rw [hshape]
        exact le_refl _
  · have hpos : 0 < (pack.filter (fun x => x.2 = .Accepted)).length := by
      obtain ⟨x, hx, hacc⟩ := hsome
      exact List.length_pos_of_mem (List.mem_filter.2 ⟨hx, by simpa using hacc⟩)
    have hle : (pack.filter (fun x => x.2 = .Accepted)).length ≤ pack.length :=
      List.length_filter_le _ _
    have hmod : (pack.filter (fun x => x.2 = .Accepted)).length % 2 ^ 32 =
        (pack.filter (fun x => x.2 = .Accepted)).length := Nat.mod_eq_of_lt (by omega)
    have hb : ∀ n, OnMsg_HdrPack E n s p pack walk =
        (OnFirstTaskDone E n (logStates (peerKey s p) pack s) p).bind fun s1 =>
          RefreshCongestions E n
            (rewardPeer E s1 p
              ((E.RewardHeader * (pack.filter (fun x => x.2 = .Accepted)).length) % 2 ^ 32))
            walk := by
      intro n
      rw [hbody n]
      congr 1
      funext s1
      rw [hmod, if_pos (by omega)]
    refine ⟨fun n s' he => ?_, fun n s1 h1 => ⟨((hcases n).1 s1 h1).1, by rw [hb n, h1]; rfl⟩,
      fun n e s1 h1 => ⟨by rw [hb n, h1]; rfl, ?_⟩⟩
    · rw [hb n] at he
      cases h1 : OnFirstTaskDone E n (logStates (peerKey s p) pack s) p with
      | ok s1 =>
        rw [h1] at he
        simp only [Res.bind] at he
        have := RefreshCongestions_ioOnly E n _ walk _ _ he
        cases this
      | exc e1 s1 =>
        rw [h1] at he
        simp only [Res.bind] at he
        cases he
        rcases (hcases n).2.1 _ _ h1 with ⟨h2, _⟩ | ⟨h2, _, _⟩ <;> cases h2
      | out => rw [h1] at he; simp [Res.bind] at he
    · rcases (hcases n).2.1 _ _ h1 with ⟨h2, _⟩ | ⟨h2, h3, _⟩
      · exact Or.inl h2
      · exact Or.inr ⟨h2, h3⟩

theorem HdrPack_top_mismatch_witness :
    (demoPack.peerAt 1).m_lstTasks = [⟨⟨10, 0⟩, false⟩] ∧
      get_ID Env.demo ⟨9, 0, 99⟩ ≠ ⟨10, 0⟩ ∧ 1 ∈ demoPack.m_lstPeers ∧
      (∀ n s', OnMsg_HdrPack Env.demo n demoPack 1 [(⟨9, 0, 99⟩, .Rejected)] [] ≠ .ok s') ∧
      ∃ s', OnMsg_HdrPack Env.demo 2 demoPack 1 [(⟨9, 0, 99⟩, .Rejected)] [] =
        .exc .unexpected s' :=
  ⟨by decide, by decide, by decide,
    ((HdrPack_top_mismatch Env.demo demoPack 1 [(⟨9, 0, 99⟩, .Rejected)] [] ⟨⟨10, 0⟩, false⟩ []
      (⟨9, 0, 99⟩, .Rejected) (by decide) rfl (by decide) rfl (by decide) (by decide)
      (by decide) (by decide)).1 (by decide)).1,
    ((HdrPack_top_mismatch Env.demo demoPack 1 [(⟨9, 0, 99⟩, .Rejected)] [] ⟨⟨10, 0⟩, false⟩ []
      (⟨9, 0, 99⟩, .Rejected) (by decide) rfl (by decide) rfl (by decide) (by decide)
      (by decide) (by decide)).1 (by decide)).2.2.1 (fun _ _ => rfl) 0⟩

/-! ## Peer gossip -/

theorem resendLoop_all (E : Env) (p : PeerRef) (n : Nat) (hn : n ≠ 0)
    (hok : ∀ m, E.sendOk p m = true) :
    ∀ (rs : List InfoRef) (s : Node),
      ∃ s', resendLoop E p n rs s = .ok s' ∧ s'.peerAt = s.peerAt ∧ s'.infoAt = s.infoAt ∧
        s'.trace = s.trace ++
          (rs.filter (fun i =>
            !((s.peerAt p).m_Flags.PiRcvd && decide ((s.peerAt p).m_pInfo = some i)))).map
            (fun i => Event.sent p (.PeerInfo (s.infoAt i).m_ID (s.infoAt i).m_Addr)) := by
  intro rs
  induction rs with
  | nil => intro s; exact ⟨s, rfl, rfl, rfl, by simp⟩
  | cons i rest ih =>
    intro s
    rw [resendLoop, if_neg hn]
    by_cases hself : (s.peerAt p).m_Flags.PiRcvd = true ∧ (s.peerAt p).m_pInfo = some i
    · rw [if_pos hself]
      obtain ⟨s', h1, h2, h3, h4⟩ := ih s
      refine ⟨s', h1, h2, h3, ?_⟩
      rw [h4, List.filter_cons_of_neg (by simp [hself.1, hself.2])]
    · rw [if_neg hself]
      unfold Send
      rw [if_pos (hok _)]
      obtain ⟨s', h1, h2, h3, h4⟩ := ih (s.log (.sent p (.PeerInfo (s.infoAt i).m_ID
        (s.infoAt i).m_Addr)))
      refine ⟨s', h1, h2, h3, ?_⟩
      rw [h4, List.filter_cons_of_pos (by
        rcases not_and_or.1 hself with h | h
        · simp [h]
        · simp [h])]
      simp [Node.log]

/-- C24, the code: while `m_DesiredHighest` is not 0 and the sends go out,
`OnResendPeers` sends a `PeerInfo` for every entry of the rating set but the
peer's own authenticated one, in the order of the set, however many they are:
the local `nRemaining` is tested by the loop and never counted down. -/
theorem OnResendPeers_sends_every_entry (E : Env) (s : Node) (p : PeerRef)
    (nDesiredHighest : Nat) (rs : List InfoRef) (hN : nDesiredHighest % 2 ^ 32 ≠ 0)
    (hok : ∀ m, E.sendOk p m = true) :
    ∃ s', OnResendPeers E s p nDesiredHighest rs = .ok s' ∧
      s'.trace = s.trace ++
        (rs.filter (fun i =>
          !((s.peerAt p).m_Flags.PiRcvd && decide ((s.peerAt p).m_pInfo = some i)))).map
          (fun i => Event.sent p (.PeerInfo (s.infoAt i).m_ID (s.infoAt i).m_Addr)) := by
  obtain ⟨s', h1, _, _, h4⟩ := resendLoop_all E p _ hN hok rs s
  exact ⟨s', h1, h4⟩

theorem OnResendPeers_sends_every_entry_witness :
    (1 : Nat) % 2 ^ 32 ≠ 0 ∧ (demoGossip.peerAt 3).m_pInfo = none ∧
      ∃ s', OnResendPeers Env.demo demoGossip 3 1 [1, 2] = .ok s' ∧
        s'.trace = demoGossip.trace ++
          [Event.sent 3 (.PeerInfo 5 0), Event.sent 3 (.PeerInfo 6 0)] := by
  obtain ⟨s', h1, h2⟩ := OnResendPeers_sends_every_entry Env.demo demoGossip 3 1 [1, 2]
    (by decide) (fun _ => rfl)
  refine ⟨by decide, by decide, s', h1, ?_⟩
  rw [h2]
  decide

/-! ## The peers a macroblock is asked from -/

/-- C25 fails as stated: in a state the node reaches in the download phase,
peer 1 has been sent `MacroblockGet` for the target `(5, 55)` by the `NewTip`
handler and carries `SyncPending`, and it has not the `ProvenWork` flag.  The
same happens when `SyncCycle(p)` is called for a peer that has only announced
its tip. -/
theorem unproven_peer_gets_request :
    SyncReachable Env.demo demoSync ∧
      (demoSync.peerAt 1).m_Flags.ProvenWork = false ∧
      (demoSync.peerAt 1).m_Flags.SyncPending = true ∧
      Event.sent 1 (.MacroblockGet ⟨5, 55⟩ 0 0) ∈ demoSync.trace ∧
      (demoTipOnly.peerAt 1).m_Flags.ProvenWork = false ∧
      (SyncCyclePeer Env.demo demoTipOnly 1).2 = true :=
  ⟨demoSync_reachable, by decide, by decide, by decide, by decide, by decide⟩

/-- C25, amended: `SyncCycle(p)`, whoever calls it, sends `MacroblockGet` to
`p` and gives it `SyncPending` exactly when the controller is present and not
detecting, no request is pending, `p` has not `DontSync`, the height of its tip
is at least that of the target, and the send goes out; the message is
`MacroblockGet{m_Trg, m_iData, offset}`, and it is the only thing sent.  The
flag `ProvenWork` plays no part.  When it returns false the node is as it was. -/
theorem SyncCyclePeer_sends_iff (E : Env) (s : Node) (p : PeerRef) :
    ((SyncCyclePeer E s p).2 = true ↔
      ∃ y, s.m_pSync = some y ∧ y.m_bDetecting = false ∧ y.m_RequestsPending = 0 ∧
        (s.peerAt p).m_Flags.DontSync = false ∧
        y.m_Trg.m_Height ≤ (s.peerAt p).m_Tip.m_Height ∧
        E.sendOk p (.MacroblockGet y.m_Trg y.m_iData
          (E.macroblockOffset y.m_Trg.m_Height y.m_iData)) = true) ∧
    ((SyncCyclePeer E s p).2 = true →
      ∃ y s', s.m_pSync = some y ∧ (SyncCyclePeer E s p).1 = .ok s' ∧
        s'.trace = s.trace ++ [Event.sent p (.MacroblockGet y.m_Trg y.m_iData
          (E.macroblockOffset y.m_Trg.m_Height y.m_iData))] ∧
        (s'.peerAt p).m_Flags.SyncPending = true ∧
        (s'.peerAt p).m_Flags.ProvenWork = (s.peerAt p).m_Flags.ProvenWork) ∧
    ((SyncCyclePeer E s p).2 = false →
      (SyncCyclePeer E s p).1 = .ok s ∨ (SyncCyclePeer E s p).1 = .exc .io s) := by
  unfold SyncCyclePeer
  cases hy : s.m_pSync with
  | none =>
    simp only []
    exact ⟨⟨fun h => (by cases h), fun ⟨y, h, _⟩ => (by cases h)⟩, fun h => (by cases h),
      fun _ => Or.inl trivial⟩
  | some y =>
    simp only []
    by_cases h1 : (y.m_bDetecting || y.m_RequestsPending != 0) = true
    · rw [if_pos h1]
      refine ⟨⟨fun h => (by cases h), fun ⟨y', hy', hd, hc, _⟩ => ?_⟩, fun h => (by cases h),
        fun _ => Or.inl rfl⟩
      cases hy'
      simp [hd, hc] at h1
    · rw [if_neg h1]
      have hd : y.m_bDetecting = false := by
        cases hd : y.m_bDetecting with
        | false => rfl
        | true => simp [hd] at h1
      have hc : y.m_RequestsPending = 0 := by
        by_contra hne
        apply h1
        simp [hne]
      by_cases h2 : (s.peerAt p).m_Flags.DontSync = true
      · rw [if_pos h2]
        refine ⟨⟨fun h => (by cases h), fun ⟨y', _, _, _, hdont, _⟩ => ?_⟩, fun h => (by cases h),
          fun _ => Or.inl rfl⟩
        rw [h2] at hdont
        cases hdont
      · rw [if_neg h2]
        have hdont : (s.peerAt p).m_Flags.DontSync = false := by simpa using h2
        by_cases h3 : (s.peerAt p).m_Tip.m_Height < y.m_Trg.m_Height
        · rw [if_pos h3]
          refine ⟨⟨fun h => (by cases h), fun ⟨y', hy', _, _, _, hh, _⟩ => ?_⟩,
            fun h => (by cases h), fun _ => Or.inl rfl⟩
          cases hy'
          omega
        · rw [if_neg h3]
          unfold Send
          by_cases h4 : E.sendOk p (.MacroblockGet y.m_Trg y.m_iData
              (E.macroblockOffset y.m_Trg.m_Height y.m_iData)) = true
          · rw [if_pos h4]
            simp only []
            refine ⟨⟨fun _ => ⟨y, rfl, hd, hc, hdont, by omega, h4⟩, fun _ => trivial⟩,
              fun _ => ⟨y, _, rfl, rfl, rfl, ?_, ?_⟩, fun h => (by cases h)⟩
            · simp [Node.setPeer]
            · simp [Node.setPeer, Node.log]
          · rw [if_neg h4]
            simp only []
            refine ⟨⟨fun h => (by cases h), fun ⟨y', hy', _, _, _, _, hs⟩ => ?_⟩,
              fun h => (by cases h), fun _ => Or.inr trivial⟩
            cases hy'
            exact absurd hs h4

theorem SyncCyclePeer_sends_iff_witness :
    (∃ y, demoTipOnly.m_pSync = some y ∧ y.m_bDetecting = false ∧ y.m_RequestsPending = 0 ∧
        (demoTipOnly.peerAt 1).m_Flags.DontSync = false ∧
        y.m_Trg.m_Height ≤ (demoTipOnly.peerAt 1).m_Tip.m_Height ∧
        Env.demo.sendOk 1 (.MacroblockGet y.m_Trg y.m_iData
          (Env.demo.macroblockOffset y.m_Trg.m_Height y.m_iData)) = true) ∧
      (SyncCyclePeer Env.demo demoTipOnly 1).2 = true :=
  ⟨⟨⟨false, 0, ⟨5, 55⟩, 0, 0, false⟩, by decide, rfl, rfl, by decide, by decide, rfl⟩,
    (SyncCyclePeer_sends_iff Env.demo demoTipOnly 1).1.2
      ⟨⟨false, 0, ⟨5, 55⟩, 0, 0, false⟩, by decide, rfl, rfl, by decide, by decide, rfl⟩⟩

/-! ## Verification threads -/

theorem toInt32_of_lt {v : Nat} (h : v < 2 ^ 31) : toInt32 v = (v : Int) := by
  unfold toInt32
  have hm : v % 2 ^ 32 = v := Nat.mod_eq_of_lt (by omega)
  rw [hm, if_pos h]

/-- C27 fails as stated: with `VerificationThreads = -1`, 2 mining threads
and 8 cores `Initialize` sets 6, where `max(cores - MiningThreads - 1, 0)` is 5;
with 4 cores it sets 2, where that formula gives 1; with 3 cores it sets 0. -/
theorem auto_threads_not_max :
    Initialize_VerificationThreads (-1) 2 8 = 6 ∧ ((max (8 - 2 - 1) 0 : Nat) : Int) = 5 ∧
      Initialize_VerificationThreads (-1) 2 4 = 2 ∧ ((max (4 - 2 - 1) 0 : Nat) : Int) = 1 ∧
      Initialize_VerificationThreads (-1) 2 3 = 0 := by
  decide

/-- C27 (amended): a `VerificationThreads` that is not negative is left as it
is.  When it is negative, `Initialize` sets it to `cores - MiningThreads` if
`cores > MiningThreads + 1` and to 0 otherwise, sum and difference in unsigned
32-bit arithmetic and the result converted to `int`; so with fewer than 2^31
cores and `MiningThreads + 1` below 2^32 it is the number
`cores - MiningThreads` when more than one core is spare, and 0 when at most
one is. -/
theorem auto_threads_spare_cores (v : Int) (nMining numCores : Nat) :
    (0 ≤ v → Initialize_VerificationThreads v nMining numCores = v) ∧
    (v < 0 →
      Initialize_VerificationThreads v nMining numCores =
        toInt32 (if (nMining + 1) % 2 ^ 32 < numCores % 2 ^ 32 then sub32 numCores nMining
          else 0)) ∧
    (v < 0 → numCores < 2 ^ 31 → nMining + 1 < 2 ^ 32 →
      (nMining + 1 < numCores →
        Initialize_VerificationThreads v nMining numCores = ((numCores - nMining : Nat) : Int)) ∧
      (numCores ≤ nMining + 1 → Initialize_VerificationThreads v nMining numCores = 0)) := by
  refine ⟨fun hv => ?_, fun hv => ?_, fun hv hc hm => ?_⟩
  · unfold Initialize_VerificationThreads
    rw [if_neg (by omega)]
  · unfold Initialize_VerificationThreads
    rw [if_pos hv]
  · unfold Initialize_VerificationThreads
    rw [if_pos hv]
    have hcm : numCores % 2 ^ 32 = numCores := Nat.mod_eq_of_lt (by omega)
    have hmm : (nMining + 1) % 2 ^ 32 = nMining + 1 := Nat.mod_eq_of_lt hm
    rw [hcm, hmm]
    refine ⟨fun h => ?_, fun h => ?_⟩
    · rw [if_pos h]
      have hs : sub32 numCores nMining = numCores - nMining := by
        unfold sub32
        have h1 : nMining % 2 ^ 32 = nMining := Nat.mod_eq_of_lt (by omega)
        rw [hcm, h1]
        have : numCores + (2 ^ 32 - nMining) = (numCores - nMining) + 2 ^ 32 := by omega
        rw [this, Nat.add_mod_right]
        exact Nat.mod_eq_of_lt (by omega)
      rw [hs, toInt32_of_lt (by omega)]
    · rw [if_neg (by omega)]
      rfl

theorem auto_threads_spare_cores_witness :
    ((-1 : Int) < 0) ∧ (8 : Nat) < 2 ^ 31 ∧ 2 + 1 < 2 ^ 32 ∧ 2 + 1 < 8 ∧
      Initialize_VerificationThreads (-1) 2 8 = ((8 - 2 : Nat) : Int) ∧
      Initialize_VerificationThreads 3 2 8 = 3 :=
  ⟨by decide, by decide, by decide, by decide,
    ((auto_threads_spare_cores (-1) 2 8).2.2 (by decide) (by decide) (by decide)).1 (by decide),
    (auto_threads_spare_cores 3 2 8).1 (by decide)⟩

/-! ## The link between a session and its entry -/

theorem demoHalfDeleted_reachable : SyncReachable Env.deaf2 demoHalfDeleted :=
  syncReachable_runOps 4 demoHalfDeletedOps _ _ (SyncReachable.init 100 200 false ⟨5, 55⟩) rfl

theorem demoTwoAttached_reachable : SyncReachable Env.deaf2 demoTwoAttached :=
  syncReachable_runOps 4 [.accept 9, .connectedSecure 3, .authentication 3 5 .Node] _ _
    demoHalfDeleted_reachable rfl

/-- C28, the code run on a concrete input.  During a first-time sync peer 1,
attached to entry 1 of the peer manager, has the macroblock request pending
when `DeleteSelf` is called on it; the sync cycle inside `DeleteSelf` turns to
peer 2, the send to peer 2 throws, and `DeleteSelf` is left after the entry was
detached and before the session was taken out of `m_lstPeers`.  In the state it
leaves session 1 is in `m_lstPeers` with `m_pInfo` the entry 1, whose `m_pLive`
is null.  When node 5 connects again and authenticates, as peer 3, entry 1 gets
`m_pLive = 3`, and two sessions of `m_lstPeers` have `m_pInfo` the entry 1. -/
theorem detached_session_keeps_info :
    SyncReachable Env.deaf2 demoHalfDeleted ∧
      1 ∈ demoHalfDeleted.m_lstPeers ∧ 1 ∈ demoHalfDeleted.m_Infos ∧
      (demoHalfDeleted.peerAt 1).m_pInfo = some 1 ∧
      (demoHalfDeleted.infoAt 1).m_pLive = none ∧
      SyncReachable Env.deaf2 demoTwoAttached ∧
      1 ∈ demoTwoAttached.m_lstPeers ∧ 3 ∈ demoTwoAttached.m_lstPeers ∧
      (demoTwoAttached.peerAt 1).m_pInfo = some 1 ∧
      (demoTwoAttached.peerAt 3).m_pInfo = some 1 ∧
      (demoTwoAttached.infoAt 1).m_pLive = some 3 :=
  ⟨demoHalfDeleted_reachable, by decide, by decide, by decide, by decide,
    demoTwoAttached_reachable, by decide, by decide, by decide, by decide, by decide⟩

/-! ## The stem peer -/

/-- The selection loop stops at the peer with `SpreadingTransactions` that has
exactly `k` such peers before it, when the list has more than `k` of them. -/
theorem selectStem_kth (s : Node) :
    ∀ (l : List PeerRef) (k : Nat),
      k < l.countP (fun q => (s.peerAt q).m_Config.m_SpreadingTransactions) →
      ∃ q pre post, l = pre ++ q :: post ∧
        (s.peerAt q).m_Config.m_SpreadingTransactions = true ∧
        pre.countP (fun q => (s.peerAt q).m_Config.m_SpreadingTransactions) = k ∧
        selectStem s l k = some q := by
  intro l
  induction l with
  | nil => intro k hk; simp at hk
  | cons a l ih =>
    intro k hk
    rw [selectStem]
    by_cases ha : (s.peerAt a).m_Config.m_SpreadingTransactions = true
    · rw [if_pos ha]
      by_cases hk0 : k = 0
      · rw [if_pos hk0]
        exact ⟨a, [], l, rfl, ha, by rw [hk0]; rfl, rfl⟩
      · rw [if_neg hk0]
        rw [List.countP_cons_of_pos (p := fun q => (s.peerAt q).m_Config.m_SpreadingTransactions) l ha] at hk
        obtain ⟨q, pre, post, h1, h2, h3, h4⟩ := ih (k - 1) (by omega)
        refine ⟨q, a :: pre, post, by rw [h1]; rfl, h2, ?_, h4⟩
        rw [List.countP_cons_of_pos (p := fun q => (s.peerAt q).m_Config.m_SpreadingTransactions) pre ha, h3]
        omega
    · rw [if_neg ha]
      rw [List.countP_cons_of_neg (p := fun q => (s.peerAt q).m_Config.m_SpreadingTransactions) l ha] at hk
      obtain ⟨q, pre, post, h1, h2, h3, h4⟩ := ih k hk
      refine ⟨q, a :: pre, post, by rw [h1]; rfl, h2, ?_, h4⟩
      rw [List.countP_cons_of_neg (p := fun q => (s.peerAt q).m_Config.m_SpreadingTransactions) pre ha, h3]

/-- C30: in `OnTransactionAggregated`, when the count `nStemPeers` of the peers
with `SpreadingTransactions` is not 0 and the draw takes the stem branch, what
`RandomUInt32(nStemPeers)` returns is a `k` below `nStemPeers`, and the
selection loop, which has no test for the end of the list, stops inside the
list at the peer `q` with `SpreadingTransactions` that has exactly `k` such
peers before it, the `(k+1)`-th; the stem transaction is sent to `q` and to no
other peer: if the send goes out the call returns with the trace grown by that
one message, if it throws the call throws with the node as it was.  The loop
stops at that peer for any `k` below the number of such peers. -/
theorem stem_peer_selection (E : Env) (T : TxEnv) (s : TxNode) (x : StemRef)
    (hn : s.node.m_lstPeers.countP
      (fun q => (s.node.peerAt q).m_Config.m_SpreadingTransactions) % 2 ^ 32 ≠ 0)
    (hcmp : memcmpLt T.m_FluffProbability (T.NextNonce s.nNonce) = true) :
    (∀ k, k < s.node.m_lstPeers.countP
        (fun q => (s.node.peerAt q).m_Config.m_SpreadingTransactions) →
      ∃ q pre post, s.node.m_lstPeers = pre ++ q :: post ∧
        (s.node.peerAt q).m_Config.m_SpreadingTransactions = true ∧
        pre.countP (fun q => (s.node.peerAt q).m_Config.m_SpreadingTransactions) = k ∧
        selectStem s.node s.node.m_lstPeers k = some q) ∧
    (RandomUInt32 T { s with nNonce := s.nNonce + 1 }
        (s.node.m_lstPeers.countP
          (fun q => (s.node.peerAt q).m_Config.m_SpreadingTransactions) % 2 ^ 32)).1 <
      s.node.m_lstPeers.countP
        (fun q => (s.node.peerAt q).m_Config.m_SpreadingTransactions) % 2 ^ 32 ∧
    ∃ q pre post, s.node.m_lstPeers = pre ++ q :: post ∧
      (s.node.peerAt q).m_Config.m_SpreadingTransactions = true ∧
      pre.countP (fun q => (s.node.peerAt q).m_Config.m_SpreadingTransactions) =
        (RandomUInt32 T { s with nNonce := s.nNonce + 1 }
          (s.node.m_lstPeers.countP
            (fun q => (s.node.peerAt q).m_Config.m_SpreadingTransactions) % 2 ^ 32)).1 ∧
      (E.sendOk q (.NewTransaction (s.stemAt x).m_pValue false) = true →
        ∃ s', OnTransactionAggregated E T s x = .ok () s' ∧
          s'.node.trace =
            s.node.trace ++ [Event.sent q (.NewTransaction (s.stemAt x).m_pValue false)]) ∧
      (E.sendOk q (.NewTransaction (s.stemAt x).m_pValue false) = false →
        ∃ s', OnTransactionAggregated E T s x = .exc .io s' ∧ s'.node = s.node) := by
  have hr : (RandomUInt32 T { s with nNonce := s.nNonce + 1 }
      (s.node.m_lstPeers.countP
        (fun q => (s.node.peerAt q).m_Config.m_SpreadingTransactions) % 2 ^ 32)).1 =
      T.random (s.nNonce + 1) % (s.node.m_lstPeers.countP
        (fun q => (s.node.peerAt q).m_Config.m_SpreadingTransactions) % 2 ^ 32) := by
    unfold RandomUInt32
    rw [if_pos hn]
  have hlt : T.random (s.nNonce + 1) % (s.node.m_lstPeers.countP
        (fun q => (s.node.peerAt q).m_Config.m_SpreadingTransactions) % 2 ^ 32) <
      s.node.m_lstPeers.countP
        (fun q => (s.node.peerAt q).m_Config.m_SpreadingTransactions) % 2 ^ 32 :=
    Nat.mod_lt _ (Nat.pos_of_ne_zero hn)
  have hle : s.node.m_lstPeers.countP
        (fun q => (s.node.peerAt q).m_Config.m_SpreadingTransactions) % 2 ^ 32 ≤
      s.node.m_lstPeers.countP
        (fun q => (s.node.peerAt q).m_Config.m_SpreadingTransactions) := Nat.mod_le _ _
  refine ⟨fun k hk => selectStem_kth s.node _ k hk, by rw [hr]; exact hlt, ?_⟩
  obtain ⟨q, pre, post, h1, h2, h3, hsel⟩ := selectStem_kth s.node s.node.m_lstPeers
    (T.random (s.nNonce + 1) % (s.node.m_lstPeers.countP
      (fun q => (s.node.peerAt q).m_Config.m_SpreadingTransactions) % 2 ^ 32))
    (Nat.lt_of_lt_of_le hlt hle)
  refine ⟨q, pre, post, h1, h2, by rw [hr]; exact h3, fun hok => ?_, fun hno => ?_⟩
  · unfold OnTransactionAggregated
    simp only [hcmp, RandomUInt32, if_pos hn, ne_eq, hn, not_false_eq_true, if_true, hsel, Send,
      hok]
    refine ⟨_, rfl, ?_⟩
    split <;> simp [DandelionSetTimer, Node.log]
  · unfold OnTransactionAggregated
    simp only [hcmp, RandomUInt32, if_pos hn, ne_eq, hn, not_false_eq_true, if_true, hsel, Send,
      hno]
    exact ⟨_, rfl, rfl⟩

theorem stem_peer_selection_witness :
    demoTxTwo.node.m_lstPeers = [1, 2] ∧
      (demoTxTwo.node.peerAt 1).m_Config.m_SpreadingTransactions = false ∧
      (demoTxTwo.node.peerAt 2).m_Config.m_SpreadingTransactions = true ∧
      ∃ s', OnTransactionAggregated Env.demo TxEnv.room demoTxTwo 1 = .ok () s' ∧
        s'.node.trace =
          demoTxTwo.node.trace ++ [Event.sent 2 (.NewTransaction ⟨[5], [6], [60]⟩ false)] := by
  obtain ⟨q, pre, post, h1, h2, _, h4, _⟩ :=
    (stem_peer_selection Env.demo TxEnv.room demoTxTwo 1 (by decide) (by decide)).2.2
  have hl : demoTxTwo.node.m_lstPeers = [1, 2] := by decide
  have hq : q = 2 := by
    have hmem : q ∈ demoTxTwo.node.m_lstPeers := by rw [h1]; simp
    rw [hl] at hmem
    rcases List.mem_cons.1 hmem with h | h
    · rw [h] at h2
      exact absurd h2 (by decide)
    · simpa using h
  subst hq
  exact ⟨hl, by decide, by decide, h4 rfl⟩

/-! ## The registry of requested items -/

theorem Wanted.SetTimer_lists (clk : Nat → Nat) (timeout_ms : Nat) (w : Wanted) :
    (w.SetTimer clk timeout_ms).m_lst = w.m_lst ∧ (w.SetTimer clk timeout_ms).m_set = w.m_set := by
  unfold Wanted.SetTimer
  split
  · split <;> exact ⟨rfl, rfl⟩
  · exact ⟨rfl, rfl⟩

theorem Wanted.Delete_lists (clk : Nat → Nat) (timeout_ms : Nat) (w : Wanted) (n : WantedItem) :
    (w.Delete clk timeout_ms n).m_lst = w.m_lst.erase n ∧
      (w.Delete clk timeout_ms n).m_set = w.m_set.erase n := by
  unfold Wanted.Delete
  simp only []
  split
  · exact ⟨(Wanted.SetTimer_lists clk timeout_ms _).1, (Wanted.SetTimer_lists clk timeout_ms _).2⟩
  · exact ⟨rfl, rfl⟩

theorem Wanted.Consistent.erase {w w' : Wanted} (h : w.Consistent) (n : WantedItem)
    (hl : w'.m_lst = w.m_lst.erase n) (hs : w'.m_set = w.m_set.erase n) : w'.Consistent := by
  refine ⟨by rw [hl, hs, h.1], ?_⟩
  rw [hl]
  exact List.Nodup.sublist (List.Sublist.map _ (List.erase_sublist n w.m_lst)) h.2

theorem Wanted.Consistent.of_lists {w w' : Wanted} (h : w.Consistent)
    (hl : w'.m_lst = w.m_lst) (hs : w'.m_set = w.m_set) : w'.Consistent := by
  refine ⟨by rw [hl, hs, h.1], ?_⟩
  rw [hl]
  exact h.2

theorem Wanted.find_none_iff (l : List WantedItem) (key : Nat) :
    l.find? (fun n => n.m_Key == key) = none ↔ key ∉ l.map fun n => n.m_Key := by
  rw [List.find?_eq_none]
  simp only [List.mem_map, not_exists, not_and, beq_iff_eq, Bool.not_eq_true]

theorem Wanted.Add_lists (clk : Nat → Nat) (timeout_ms : Nat) (w : Wanted) (key : Nat) :
    (key ∈ (w.m_set.map fun n => n.m_Key) →
      (w.Add clk timeout_ms key).1 = false ∧ (w.Add clk timeout_ms key).2 = w) ∧
    (key ∉ (w.m_set.map fun n => n.m_Key) →
      (w.Add clk timeout_ms key).1 = true ∧
        (w.Add clk timeout_ms key).2.m_lst = w.m_lst ++ [⟨key, clk w.reads % 2 ^ 32⟩] ∧
        (w.Add clk timeout_ms key).2.m_set = w.m_set ++ [⟨key, clk w.reads % 2 ^ 32⟩]) := by
  constructor
  · intro hk
    unfold Wanted.Add
    split
    · exact ⟨rfl, rfl⟩
    · rename_i hnone
      exact absurd hk ((Wanted.find_none_iff _ _).1 hnone)
  · intro hk
    unfold Wanted.Add
    rw [(Wanted.find_none_iff _ _).2 hk]
    simp only []
    split
    · exact ⟨trivial, (Wanted.SetTimer_lists clk timeout_ms _).1,
        (Wanted.SetTimer_lists clk timeout_ms _).2⟩
    · exact ⟨trivial, rfl, rfl⟩

theorem Wanted.DeleteKey_lists (clk : Nat → Nat) (timeout_ms : Nat) (w : Wanted) (key : Nat) :
    (key ∉ (w.m_set.map fun n => n.m_Key) →
      (w.DeleteKey clk timeout_ms key).1 = false ∧ (w.DeleteKey clk timeout_ms key).2 = w) ∧
    (key ∈ (w.m_set.map fun n => n.m_Key) →
      (w.DeleteKey clk timeout_ms key).1 = true ∧
        ∃ n, n ∈ w.m_set ∧ n.m_Key = key ∧
          w.m_set.find? (fun n => n.m_Key == key) = some n ∧
          (w.DeleteKey clk timeout_ms key).2.m_lst = w.m_lst.erase n ∧
          (w.DeleteKey clk timeout_ms key).2.m_set = w.m_set.erase n) := by
  constructor
  · intro hk
    unfold Wanted.DeleteKey
    rw [(Wanted.find_none_iff _ _).2 hk]
    exact ⟨rfl, rfl⟩
  · intro hk
    unfold Wanted.DeleteKey
    split
    · rename_i hnone
      exact absurd hk ((Wanted.find_none_iff _ _).1 hnone)
    · rename_i n hsome
      refine ⟨rfl, n, List.mem_of_find?_eq_some hsome, ?_, hsome,
        (Wanted.Delete_lists clk timeout_ms w n).1, (Wanted.Delete_lists clk timeout_ms w n).2⟩
      have := List.find?_some hsome
      simpa using this

theorem Wanted.Consistent.append {w w' : Wanted} (h : w.Consistent) (p : WantedItem)
    (hk : p.m_Key ∉ w.m_lst.map fun n => n.m_Key)
    (hl : w'.m_lst = w.m_lst ++ [p]) (hs : w'.m_set = w.m_set ++ [p]) : w'.Consistent := by
  refine ⟨by rw [hl, hs, h.1], ?_⟩
  rw [hl, List.map_append, List.nodup_append]
  refine ⟨h.2, List.nodup_singleton _, ?_⟩
  intro a ha hb
  simp only [List.map_cons, List.map_nil, List.mem_singleton] at hb
  rw [hb] at ha
  exact hk ha

theorem Wanted.expireLoop_lists (clk : Nat → Nat) (ok : Nat → Bool) (timeout_ms t_ms : Nat) :
    ∀ (fuel : Nat) (w : Wanted), w.Consistent →
      (Wanted.expireLoop clk ok timeout_ms t_ms fuel w).state.Consistent ∧
        (Wanted.expireLoop clk ok timeout_ms t_ms fuel w).state.m_lst.Sublist w.m_lst := by
  intro fuel
  induction fuel with
  | zero => intro w h; exact ⟨h, List.Sublist.refl _⟩
  | succ fuel ih =>
    intro w h
    rw [Wanted.expireLoop]
    split
    · exact ⟨h, List.Sublist.refl _⟩
    · rename_i n rest hlst
      split
      · exact ⟨h, List.Sublist.refl _⟩
      · split
        · have hd := Wanted.Delete_lists clk timeout_ms
            { w with expired := w.expired ++ [n.m_Key] } n
          have hc : (Wanted.Delete clk timeout_ms
              { w with expired := w.expired ++ [n.m_Key] } n).Consistent :=
            Wanted.Consistent.erase h n hd.1 hd.2
          refine ⟨(ih _ hc).1, List.Sublist.trans (ih _ hc).2 ?_⟩
          rw [hd.1]
          exact List.erase_sublist n w.m_lst
        · exact ⟨Wanted.Consistent.of_lists h rfl rfl, List.Sublist.refl _⟩

theorem Wanted.step_onTimer (clk : Nat → Nat) (ok : Nat → Bool) (timeout_ms : Nat) (w : Wanted) :
    (w.step clk ok timeout_ms .onTimer).2 = (w.OnTimer clk ok timeout_ms).state := by
  simp only [Wanted.step]
  cases Wanted.OnTimer clk ok timeout_ms w <;> rfl

theorem Wanted.clearLoop_lists :
    ∀ (fuel : Nat) (w : Wanted), w.Consistent → w.m_lst.length ≤ fuel →
      (Wanted.clearLoop fuel w).Consistent ∧ (Wanted.clearLoop fuel w).m_lst = [] := by
  intro fuel
  induction fuel with
  | zero =>
    intro w h hlen
    exact ⟨h, List.length_eq_zero.1 (Nat.le_zero.1 hlen)⟩
  | succ fuel ih =>
    intro w h hlen
    rw [Wanted.clearLoop]
    split
    · rename_i hnone
      exact ⟨h, List.getLast?_eq_none_iff.1 hnone⟩
    · rename_i n hsome
      have hmem : n ∈ w.m_lst := List.mem_of_getLast?_eq_some hsome
      have hc : (w.DeleteInternal n).Consistent := Wanted.Consistent.erase h n rfl rfl
      refine ih _ hc ?_
      show (w.m_lst.erase n).length ≤ fuel
      rw [List.length_erase_of_mem hmem]
      omega

theorem Wanted.step_lists (clk : Nat → Nat) (ok : Nat → Bool) (timeout_ms : Nat) (w : Wanted) (h : w.Consistent)
    (op : WantedOp) :
    (w.step clk ok timeout_ms op).2.Consistent ∧
      ((w.step clk ok timeout_ms op).2.m_lst.Sublist w.m_lst ∨
        ∃ k, op = .add k ∧ (k ∉ w.m_lst.map fun n => n.m_Key) ∧
          (w.step clk ok timeout_ms op).2.m_lst = w.m_lst ++ [⟨k, clk w.reads % 2 ^ 32⟩]) := by
  cases op with
  | add key =>
    show (w.Add clk timeout_ms key).2.Consistent ∧ _
    by_cases hk : key ∈ (w.m_set.map fun n => n.m_Key)
    · have := (Wanted.Add_lists clk timeout_ms w key).1 hk
      refine ⟨by rw [this.2]; exact h, Or.inl ?_⟩
      show (w.Add clk timeout_ms key).2.m_lst.Sublist w.m_lst
      rw [this.2]
    · have := (Wanted.Add_lists clk timeout_ms w key).2 hk
      have hk' : key ∉ w.m_lst.map fun n => n.m_Key := by rw [← h.1]; exact hk
      exact ⟨Wanted.Consistent.append h ⟨key, clk w.reads % 2 ^ 32⟩ hk' this.2.1 this.2.2,
        Or.inr ⟨key, rfl, hk', this.2.1⟩⟩
  | delete key =>
    show (w.DeleteKey clk timeout_ms key).2.Consistent ∧ _
    by_cases hk : key ∈ (w.m_set.map fun n => n.m_Key)
    · obtain ⟨_, n, _, _, _, hl, hs⟩ := (Wanted.DeleteKey_lists clk timeout_ms w key).2 hk
      refine ⟨Wanted.Consistent.erase h n hl hs, Or.inl ?_⟩
      show (w.DeleteKey clk timeout_ms key).2.m_lst.Sublist w.m_lst
      rw [hl]
      exact List.erase_sublist n w.m_lst
    · have := (Wanted.DeleteKey_lists clk timeout_ms w key).1 hk
      refine ⟨by rw [this.2]; exact h, Or.inl ?_⟩
      show (w.DeleteKey clk timeout_ms key).2.m_lst.Sublist w.m_lst
      rw [this.2]
  | onTimer =>
    have hc : ({ w with reads := w.reads + 1 } : Wanted).Consistent :=
      Wanted.Consistent.of_lists h rfl rfl
    have := Wanted.expireLoop_lists clk ok timeout_ms (clk w.reads) w.m_lst.length _ hc
    rw [Wanted.step_onTimer]
    exact ⟨this.1, Or.inl this.2⟩
  | clear =>
    have := Wanted.clearLoop_lists w.m_lst.length w h (Nat.le_refl _)
    refine ⟨this.1, Or.inl ?_⟩
    show (Wanted.clearLoop w.m_lst.length w).m_lst.Sublist w.m_lst
    rw [this.2]
    exact List.nil_sublist _

theorem Wanted.run_consistent (clk : Nat → Nat) (ok : Nat → Bool) (timeout_ms : Nat) :
    ∀ (ops : List WantedOp) (w : Wanted), w.Consistent →
      (Wanted.run clk ok timeout_ms w ops).Consistent := by
  intro ops
  induction ops with
  | nil => intro w h; exact h
  | cons op ops ih =>
    intro w h
    rw [Wanted.run]
    exact ih _ (Wanted.step_lists clk ok timeout_ms w h op).1

theorem Wanted.empty_consistent : Wanted.empty.Consistent := ⟨rfl, List.nodup_nil⟩

/-- C29: after any sequence of `Add`, `Delete(key)`, `OnTimer` and `Clear` on a
registry that started empty, whichever calls of `OnExpired` throw and leave
`OnTimer` early, the set `m_set` and the list `m_lst` hold the same
items, no key occurs twice, and the list is in insertion order: a further call
leaves in the list a subsequence of what was there, in the same order, or it is
an `Add` of a key that was absent and puts the new item at the back.  So on
such a registry that does not hold `k`, `Add(k)` returns true, the
`Delete(k)` after it returns true, and list and set are then what they were
before; `Delete(k)` returns false exactly when `k` is absent, and then changes
nothing; `Clear` leaves both empty. -/
theorem Wanted_set_consistency (clk : Nat → Nat) (ok : Nat → Bool) (timeout_ms : Nat)
    (ops : List WantedOp) :
    (Wanted.run clk ok timeout_ms Wanted.empty ops).m_set.Perm
        (Wanted.run clk ok timeout_ms Wanted.empty ops).m_lst ∧
    ((Wanted.run clk ok timeout_ms Wanted.empty ops).m_lst.map fun n => n.m_Key).Nodup ∧
    ((Wanted.run clk ok timeout_ms Wanted.empty ops).m_set.map fun n => n.m_Key).Nodup ∧
    (∀ op : WantedOp,
      ((Wanted.run clk ok timeout_ms Wanted.empty ops).step clk ok timeout_ms op).2.m_lst.Sublist
          (Wanted.run clk ok timeout_ms Wanted.empty ops).m_lst ∨
        ∃ k, op = .add k ∧
          (k ∉ (Wanted.run clk ok timeout_ms Wanted.empty ops).m_lst.map fun n => n.m_Key) ∧
          ((Wanted.run clk ok timeout_ms Wanted.empty ops).step clk ok timeout_ms op).2.m_lst =
            (Wanted.run clk ok timeout_ms Wanted.empty ops).m_lst ++
              [⟨k, clk (Wanted.run clk ok timeout_ms Wanted.empty ops).reads % 2 ^ 32⟩]) ∧
    (∀ k, (k ∉ (Wanted.run clk ok timeout_ms Wanted.empty ops).m_lst.map fun n => n.m_Key) →
      ((Wanted.run clk ok timeout_ms Wanted.empty ops).Add clk timeout_ms k).1 = true ∧
      (((Wanted.run clk ok timeout_ms Wanted.empty ops).Add clk timeout_ms k).2.DeleteKey
          clk timeout_ms k).1 = true ∧
      (((Wanted.run clk ok timeout_ms Wanted.empty ops).Add clk timeout_ms k).2.DeleteKey
          clk timeout_ms k).2.m_lst = (Wanted.run clk ok timeout_ms Wanted.empty ops).m_lst ∧
      (((Wanted.run clk ok timeout_ms Wanted.empty ops).Add clk timeout_ms k).2.DeleteKey
          clk timeout_ms k).2.m_set = (Wanted.run clk ok timeout_ms Wanted.empty ops).m_set) ∧
    (∀ k, ((Wanted.run clk ok timeout_ms Wanted.empty ops).DeleteKey clk timeout_ms k).1 = false ↔
      k ∉ (Wanted.run clk ok timeout_ms Wanted.empty ops).m_lst.map fun n => n.m_Key) ∧
    (∀ k, ((Wanted.run clk ok timeout_ms Wanted.empty ops).DeleteKey clk timeout_ms k).1 = false →
      ((Wanted.run clk ok timeout_ms Wanted.empty ops).DeleteKey clk timeout_ms k).2 =
        Wanted.run clk ok timeout_ms Wanted.empty ops) ∧
    (Wanted.run clk ok timeout_ms Wanted.empty ops).Clear.m_lst = [] ∧
    (Wanted.run clk ok timeout_ms Wanted.empty ops).Clear.m_set = [] := by
  have h := Wanted.run_consistent clk ok timeout_ms ops Wanted.empty Wanted.empty_consistent
  generalize Wanted.run clk ok timeout_ms Wanted.empty ops = w at h
  have hset : (w.m_set.map fun n => n.m_Key) = w.m_lst.map fun n => n.m_Key := by rw [h.1]
  refine ⟨by rw [h.1], h.2, by rw [hset]; exact h.2,
    fun op => (Wanted.step_lists clk ok timeout_ms w h op).2, ?_, ?_, ?_, ?_, ?_⟩
  · intro k hk
    have hk' : k ∉ w.m_set.map fun n => n.m_Key := by rw [hset]; exact hk
    obtain ⟨ha1, ha2, ha3⟩ := (Wanted.Add_lists clk timeout_ms w k).2 hk'
    have hin : k ∈ ((w.Add clk timeout_ms k).2.m_set.map fun n => n.m_Key) := by
      rw [ha3]
      simp
    obtain ⟨hd1, n, _, hkey, hfind, hl, hs⟩ :=
      (Wanted.DeleteKey_lists clk timeout_ms (w.Add clk timeout_ms k).2 k).2 hin
    have hn : n = ⟨k, clk w.reads % 2 ^ 32⟩ := by
      rw [ha3, List.find?_append] at hfind
      rw [(Wanted.find_none_iff _ _).2 hk'] at hfind
      simpa using hfind.symm
    have hnot : ∀ l : List WantedItem, (k ∉ l.map fun n => n.m_Key) →
        (l ++ [(⟨k, clk w.reads % 2 ^ 32⟩ : WantedItem)]).erase ⟨k, clk w.reads % 2 ^ 32⟩ = l := by
      intro l hl'
      have hni : (⟨k, clk w.reads % 2 ^ 32⟩ : WantedItem) ∉ l := by
        intro hmem
        exact hl' (List.mem_map.2 ⟨_, hmem, rfl⟩)
      rw [List.erase_append_right _ hni]
      simp
    refine ⟨ha1, hd1, ?_, ?_⟩
    · rw [hl, ha2, hn]
      exact hnot _ hk
    · rw [hs, ha3, hn]
      exact hnot _ hk'
  · intro k
    rw [← hset]
    constructor
    · intro hf hk
      have := ((Wanted.DeleteKey_lists clk timeout_ms w k).2 hk).1
      rw [hf] at this
      cases this
    · intro hk
      exact ((Wanted.DeleteKey_lists clk timeout_ms w k).1 hk).1
  · intro k hf
    by_cases hk : k ∈ (w.m_set.map fun n => n.m_Key)
    · have := ((Wanted.DeleteKey_lists clk timeout_ms w k).2 hk).1
      rw [hf] at this
      cases this
    · exact ((Wanted.DeleteKey_lists clk timeout_ms w k).1 hk).2
  · exact (Wanted.clearLoop_lists w.m_lst.length w h (Nat.le_refl _)).2
  · have hc := Wanted.clearLoop_lists w.m_lst.length w h (Nat.le_refl _)
    show (Wanted.clearLoop w.m_lst.length w).m_set = []
    rw [hc.1.1]
    exact hc.2

/-! ## The recommended channel -/

theorem channelCount_zero {pre : List BbsData} {n : Nat} (h2 : ∀ d ∈ pre, d.m_Channel ≤ n)
    (c : Nat) (hc : n < c) : channelCount pre c = 0 := by
  unfold channelCount
  rw [List.countP_eq_zero]
  intro d hd hh
  have := h2 d hd
  have := of_decide_eq_true hh
  (unfold Channel at *; omega)

theorem channelCount_append (pre : List BbsData) (d : BbsData) (c : Nat) :
    channelCount (pre ++ [d]) c = channelCount pre c + if d.m_Channel = c then 1 else 0 := by
  unfold channelCount
  rw [List.countP_append]
  by_cases h : d.m_Channel = c <;> simp [h, List.countP_cons]

theorem channelCount_pos {pre : List BbsData} {c : Nat} (h : 1 ≤ channelCount pre c) :
    ∃ d, d ∈ pre ∧ d.m_Channel = c := by
  unfold channelCount at h
  obtain ⟨d, hd, hp⟩ := List.countP_pos_iff.1 h
  exact ⟨d, hd, by simpa using hp⟩

theorem populated_le_length (pre : List BbsData) (m : Nat)
    (h : ∀ c, c < m → 1 ≤ channelCount pre c) : m ≤ pre.length := by
  have hsub : List.range m ⊆ pre.map fun d => d.m_Channel := by
    intro c hc
    obtain ⟨d, hd, hdc⟩ := channelCount_pos (h c (List.mem_range.1 hc))
    exact List.mem_map.2 ⟨d, hd, hdc⟩
  have := (List.subperm_of_subset (List.nodup_range m) hsub).length_le
  simpa using this

theorem ChannelScan.close_fires (ideal cur : Nat) (st : ChannelScan)
    (h : st.nCount ≤ ideal ∧ (st.bFound = false ∨ st.nCountFound < st.nCount)) :
    st.close ideal cur =
      { st with bFound := true, nCountFound := st.nCount, m_RecommendedChannel := st.nChannel } := by
  unfold ChannelScan.close
  simp only [if_pos h]
  rw [if_neg]
  simp

theorem ChannelScan.close_gap (ideal cur : Nat) (st : ChannelScan)
    (h : ¬ (st.nCount ≤ ideal ∧ (st.bFound = false ∨ st.nCountFound < st.nCount)))
    (hb : st.bFound = false) (hc : (st.nChannel + 1) % 2 ^ 32 ≠ cur) :
    st.close ideal cur =
      { st with bFound := true, nCountFound := 0,
                m_RecommendedChannel := (st.nChannel + 1) % 2 ^ 32 } := by
  unfold ChannelScan.close
  simp only [if_neg h]
  rw [if_pos ⟨hb, hc⟩]

theorem ChannelScan.close_keeps (ideal cur : Nat) (st : ChannelScan)
    (h : ¬ (st.nCount ≤ ideal ∧ (st.bFound = false ∨ st.nCountFound < st.nCount)))
    (hc : st.bFound = true ∨ (st.nChannel + 1) % 2 ^ 32 = cur) :
    st.close ideal cur = st := by
  unfold ChannelScan.close
  simp only [if_neg h]
  rw [if_neg]
  rintro ⟨hb, hne⟩
  rcases hc with hc | hc
  · rw [hb] at hc
    cases hc
  · exact hne hc

theorem ChannelScan.close_found (ideal cur : Nat) (st : ChannelScan)
    (hx : (st.nChannel + 1) % 2 ^ 32 = cur → ideal < st.nCount → st.bFound = true) :
    (st.close ideal cur).bFound = true := by
  by_cases h : st.nCount ≤ ideal ∧ (st.bFound = false ∨ st.nCountFound < st.nCount)
  · rw [ChannelScan.close_fires ideal cur st h]
  · by_cases hb : st.bFound = true
    · rw [ChannelScan.close_keeps ideal cur st h (Or.inl hb)]
      exact hb
    · have hb' : st.bFound = false := by simpa using hb
      by_cases hc : (st.nChannel + 1) % 2 ^ 32 = cur
      · have hk : ideal < st.nCount := by
          by_contra hk
          exact h ⟨by omega, Or.inl hb'⟩
        exact absurd (hx hc hk) hb
      · rw [ChannelScan.close_gap ideal cur st h hb' hc]

theorem ChannelScan.close_inv (ideal : Nat) (pre : List BbsData) (st : ChannelScan) (cur m : Nat)
    (h1 : st.nCount = channelCount pre st.nChannel)
    (h2 : ∀ d ∈ pre, d.m_Channel ≤ st.nChannel)
    (h3 : st.nChannel = 0 ∨ 1 ≤ st.nCount)
    (hlen : pre.length < 2 ^ 32)
    (hS : ScanInv ideal pre st.nChannel st)
    (hm : st.nChannel < m)
    (hgap : (st.nChannel + 1) % 2 ^ 32 ≠ cur → st.nChannel + 1 < m)
    (hnogap : (st.nChannel + 1) % 2 ^ 32 = cur → ideal < st.nCount → m ≤ st.nChannel + 1) :
    ScanInv ideal pre m (st.close ideal cur) ∧ (st.close ideal cur).nChannel = st.nChannel ∧
      (st.close ideal cur).nCount = st.nCount := by
  obtain ⟨n, k, f, bf, R⟩ := st
  simp only at h1 h2 h3 hm hgap hnogap
  have hz : ∀ c, n < c → channelCount pre c = 0 := fun c hc => channelCount_zero h2 c hc
  by_cases h : k ≤ ideal ∧ (bf = false ∨ f < k)
  · rw [ChannelScan.close_fires ideal cur _ h]
    clear hgap hnogap
    refine ⟨⟨fun hb => (by cases hb), fun _ => Or.inl ⟨hm, ?_, h1.symm, h.1, ?_⟩⟩, rfl, rfl⟩
    · rcases h3 with h3 | h3
      · exact Or.inl h3
      · exact Or.inr (by rw [← h1]; exact h3)
    · intro c hcm hcand hcle
      show channelCount pre c < k ∨ (channelCount pre c = k ∧ n ≤ c)
      rcases Nat.lt_trichotomy c n with hcn | hcn | hcn
      · cases bf with
        | false =>
          have := hS.1 rfl c hcn
          omega
        | true =>
          rcases hS.2 rfl with hA | hB
          · have hA5 := hA.2.2.2.2 c hcn hcand hcle
            have hf : f < k := by
              rcases h.2 with h' | h'
              · cases h'
              · exact h'
            simp only at hA5
            omega
          · have := hB.2.2.2.2 c hcn hcand
            omega
      · subst hcn
        exact Or.inr ⟨h1.symm, Nat.le_refl _⟩
      · have := hz c hcn
        rcases hcand with hcand | hcand <;> omega
  · cases bf with
    | false =>
      have hk : ideal < k := Nat.lt_of_not_le fun hle => h ⟨hle, Or.inl rfl⟩
      have hlow : ∀ c, c < n + 1 → ideal < channelCount pre c := by
        intro c hc
        rcases Nat.lt_or_ge c n with hcn | hcn
        · exact hS.1 rfl c hcn
        · have : c = n := Nat.le_antisymm (Nat.lt_succ_iff.1 hc) hcn
          subst this
          rw [← h1]
          exact hk
      by_cases hc : (n + 1) % 2 ^ 32 = cur
      · rw [ChannelScan.close_keeps ideal cur _ h (Or.inr hc)]
        have hm' := hnogap hc hk
        clear hgap hnogap
        refine ⟨⟨fun _ c hcm => hlow c (by (unfold Channel at *; omega)),
          fun hb => by cases hb⟩, rfl, rfl⟩
      · rw [ChannelScan.close_gap ideal cur _ h rfl hc]
        have hm' := hgap hc
        clear hgap hnogap
        have hn1 : n + 1 ≤ pre.length :=
          populated_le_length pre (n + 1) fun c hc' => by
            have := hlow c hc'
            omega
        have hmod : (n + 1) % 2 ^ 32 = n + 1 := Nat.mod_eq_of_lt (by (unfold Channel at *; omega))
        refine ⟨⟨fun hb => (by cases hb), fun _ => Or.inr ⟨rfl, ?_, ?_, ?_, ?_⟩⟩, rfl, rfl⟩
        · show (n + 1) % 2 ^ 32 < m
          rw [hmod]
          exact hm'
        · show channelCount pre ((n + 1) % 2 ^ 32) = 0
          rw [hmod]
          exact hz _ (Nat.lt_succ_self n)
        · intro c hcR
          have hcR' : c < (n + 1) % 2 ^ 32 := hcR
          rw [hmod] at hcR'
          exact hlow c hcR'
        · intro c _ hcand
          rcases Nat.lt_or_ge c (n + 1) with hcn | hcn
          · exact hlow c hcn
          · have := hz c (by (unfold Channel at *; omega))
            rcases hcand with hcand | hcand <;> omega
    | true =>
      rw [ChannelScan.close_keeps ideal cur _ h (Or.inl rfl)]
      clear hgap hnogap
      have hnf : ideal < k ∨ k ≤ f := by
        by_contra hcon
        exact h ⟨by omega, Or.inr (by omega)⟩
      refine ⟨⟨fun hb => (by cases hb), fun _ => ?_⟩, rfl, rfl⟩
      rcases hS.2 rfl with hA | hB
      · obtain ⟨hA1, hA2, hA3, hA4, hA5⟩ := hA
        simp only at hA1 hA2 hA3 hA4 hA5
        refine Or.inl ⟨Nat.lt_trans hA1 hm, hA2, hA3, hA4, ?_⟩
        intro c _ hcand hcle
        show channelCount pre c < f ∨ (channelCount pre c = f ∧ R ≤ c)
        rcases Nat.lt_trichotomy c n with hcn | hcn | hcn
        · exact hA5 c hcn hcand hcle
        · subst hcn
          rw [← h1] at hcle ⊢
          (unfold Channel at *; omega)
        · have := hz c hcn
          rcases hcand with hcand | hcand <;> omega
      · obtain ⟨hB1, hB2, hB3, hB4, hB5⟩ := hB
        simp only at hB1 hB2 hB3 hB4 hB5
        have hk : ideal < k := by
          rcases hnf with hnf | hnf
          · exact hnf
          · rcases h3 with h3 | h3 <;> (unfold Channel at *; omega)
        refine Or.inr ⟨hB1, Nat.lt_trans hB2 hm, hB3, hB4, ?_⟩
        intro c _ hcand
        rcases Nat.lt_trichotomy c n with hcn | hcn | hcn
        · exact hB5 c hcn hcand
        · subst hcn
          rw [← h1]
          exact hk
        · have := hz c hcn
          rcases hcand with hcand | hcand <;> omega

theorem ScanInv.of_counts {ideal : Nat} {pre pre' : List BbsData} {m : Nat} {st st' : ChannelScan}
    (h : ScanInv ideal pre m st)
    (hc : ∀ c, c < m → channelCount pre' c = channelCount pre c)
    (hb : st'.bFound = st.bFound) (hf : st'.nCountFound = st.nCountFound)
    (hr : st'.m_RecommendedChannel = st.m_RecommendedChannel) : ScanInv ideal pre' m st' := by
  unfold ScanInv at h ⊢
  rw [hb, hf, hr]
  refine ⟨fun hfalse c hcm => by rw [hc c hcm]; exact h.1 hfalse c hcm, fun htrue => ?_⟩
  rcases h.2 htrue with hA | hB
  · obtain ⟨hA1, hA2, hA3, hA4, hA5⟩ := hA
    refine Or.inl ⟨hA1, by rw [hc _ hA1]; exact hA2, by rw [hc _ hA1]; exact hA3, hA4, ?_⟩
    intro c hcm
    rw [hc c hcm]
    exact hA5 c hcm
  · obtain ⟨hB1, hB2, hB3, hB4, hB5⟩ := hB
    refine Or.inr ⟨hB1, hB2, by rw [hc _ hB2]; exact hB3, ?_, ?_⟩
    · intro c hcR
      rw [hc c (Nat.lt_trans hcR hB2)]
      exact hB4 c hcR
    · intro c hcm
      rw [hc c hcm]
      exact hB5 c hcm

theorem channelLoop_inv (ideal : Nat) :
    ∀ (rest pre : List BbsData) (cur : Nat) (st : ChannelScan),
      rest.Pairwise (fun x y => x.m_Channel ≤ y.m_Channel) →
      (∀ x ∈ pre, ∀ e ∈ rest, x.m_Channel ≤ e.m_Channel) →
      (pre ++ rest).length < 2 ^ 32 →
      (∀ d ∈ rest, d.m_Channel < 2 ^ 32) →
      st.nChannel < 2 ^ 32 →
      st.nCount = channelCount pre st.nChannel →
      (∀ d ∈ pre, d.m_Channel ≤ st.nChannel) →
      (st.nChannel = 0 ∨ 1 ≤ st.nCount) →
      ScanInv ideal pre st.nChannel st →
      (pre ≠ [] → cur = st.nChannel) →
      ∃ m, (∀ d ∈ pre ++ rest, d.m_Channel < m) ∧ 0 < m ∧
        (channelLoop ideal rest cur st).bFound = true ∧
        ScanInv ideal (pre ++ rest) m (channelLoop ideal rest cur st) := by
  intro rest
  induction rest with
  | nil =>
    intro pre cur st _ _ hlen _ hn h1 h2 h3 hS hcur
    rw [List.append_nil] at hlen ⊢
    rw [channelLoop]
    have hx : (st.nChannel + 1) % 2 ^ 32 = cur → ideal < st.nCount → False := by
      intro hc hk
      by_cases hpre : pre = []
      · rw [hpre] at h1
        rw [h1] at hk
        simp [channelCount] at hk
      · have := hcur hpre
        omega
    have hci := ChannelScan.close_inv ideal pre st cur (st.nChannel + 2) h1 h2 h3 hlen hS
      (Nat.lt_succ_of_lt (Nat.lt_succ_self _)) (fun _ => Nat.lt_succ_self _)
      (fun hc hk => (hx hc hk).elim)
    refine ⟨st.nChannel + 2, fun d hd => ?_, Nat.succ_pos _,
      ChannelScan.close_found ideal cur st (fun hc hk => (hx hc hk).elim), hci.1⟩
    have := h2 d hd
    clear hx hci
    (unfold Channel at *; omega)
  | cons d rest ih =>
    intro pre cur st hsort hle hlen hch hn h1 h2 h3 hS hcur
    have happ : pre ++ d :: rest = (pre ++ [d]) ++ rest := by simp
    have hsort' := List.pairwise_cons.1 hsort
    have hle' : ∀ x ∈ pre ++ [d], ∀ e ∈ rest, x.m_Channel ≤ e.m_Channel := by
      intro x hx e he
      rcases List.mem_append.1 hx with hx | hx
      · exact hle x hx e (List.mem_cons_of_mem _ he)
      · rw [List.mem_singleton.1 hx]
        exact hsort'.1 e he
    have hlen' : ((pre ++ [d]) ++ rest).length < 2 ^ 32 := by rw [← happ]; exact hlen
    have hch' : ∀ e ∈ rest, e.m_Channel < 2 ^ 32 := fun e he => hch e (List.mem_cons_of_mem _ he)
    have hd32 : d.m_Channel < 2 ^ 32 := hch d (List.mem_cons_self _ _)
    have hplen : (pre ++ [d]).length < 2 ^ 32 := by
      have : ((pre ++ [d]) ++ rest).length = (pre ++ [d]).length + rest.length :=
        List.length_append _ _
      omega
    have hplen0 : pre.length < 2 ^ 32 := by
      have : (pre ++ [d]).length = pre.length + 1 := by simp
      omega
    rw [happ, channelLoop]
    by_cases hdn : d.m_Channel = st.nChannel
    · rw [if_pos hdn]
      have hcnt : channelCount (pre ++ [d]) st.nChannel = st.nCount + 1 := by
        rw [channelCount_append, if_pos hdn, ← h1]
      have hmod : (st.nCount + 1) % 2 ^ 32 = st.nCount + 1 := by
        apply Nat.mod_eq_of_lt
        have : channelCount (pre ++ [d]) st.nChannel ≤ (pre ++ [d]).length :=
          List.countP_le_length _
        omega
      refine ih (pre ++ [d]) d.m_Channel { st with nCount := (st.nCount + 1) % 2 ^ 32 }
        hsort'.2 hle' hlen' hch' hn ?_ ?_ ?_ ?_ ?_
      · show (st.nCount + 1) % 2 ^ 32 = channelCount (pre ++ [d]) st.nChannel
        rw [hmod, hcnt]
      · intro x hx
        rcases List.mem_append.1 hx with hx | hx
        · exact h2 x hx
        · rw [List.mem_singleton.1 hx, hdn]
      · right
        show 1 ≤ (st.nCount + 1) % 2 ^ 32
        rw [hmod]
        omega
      · refine ScanInv.of_counts hS ?_ rfl rfl rfl
        intro c hc
        have hc' : c < st.nChannel := hc
        have hne : ¬ d.m_Channel = c := by rw [hdn]; exact Nat.ne_of_gt hc'
        rw [channelCount_append, if_neg hne, Nat.add_zero]
      · intro _
        exact hdn
    · rw [if_neg hdn]
      have hlt : st.nChannel < d.m_Channel := by
        rcases h3 with h3 | h3
        · (unfold Channel at *; omega)
        · rw [h1] at h3
          obtain ⟨x, hx, hxc⟩ := channelCount_pos h3
          have := hle x hx d (List.mem_cons_self _ _)
          (unfold Channel at *; omega)
      have hci := ChannelScan.close_inv ideal pre st d.m_Channel d.m_Channel h1 h2 h3 hplen0 hS hlt
        (fun hne => by (unfold Channel at *; omega)) (fun he _ => by omega)
      refine ih (pre ++ [d]) d.m_Channel
        { st.close ideal d.m_Channel with nChannel := d.m_Channel, nCount := 1 }
        hsort'.2 hle' hlen' hch' hd32 ?_ ?_ (Or.inr (Nat.le_refl 1)) ?_ (fun _ => rfl)
      · show 1 = channelCount (pre ++ [d]) d.m_Channel
        rw [channelCount_append, if_pos rfl, channelCount_zero h2 _ hlt]
      · intro x hx
        rcases List.mem_append.1 hx with hx | hx
        · have := h2 x hx
          show x.m_Channel ≤ d.m_Channel
          (unfold Channel at *; omega)
        · rw [List.mem_singleton.1 hx]
      · refine ScanInv.of_counts hci.1 ?_ rfl rfl rfl
        intro c hc
        have hc' : c < d.m_Channel := hc
        rw [channelCount_append, if_neg (Nat.ne_of_gt hc'), Nat.add_zero]

theorem channelCount_EnumAllBbs (b : Bbs) (c : Channel) :
    channelCount (EnumAllBbs b) c = b.population c := by
  unfold channelCount EnumAllBbs Bbs.population channelCount
  exact List.Perm.countP_eq _ (List.perm_insertionSort _ _)

/-- C26 (what fails): with one message in channel 0, two in channel 1 and an
ideal population of 100, channel 0 is the smallest channel whose population is
at most the ideal, and `FindRecommendedChannel` recommends channel 1; with two
messages in channel 0, one in channel 2 and an ideal population of 1, channel 1
holds no message, and channel 2 is recommended. -/
theorem recommended_not_smallest :
    BbsEnv.demo.m_BbsIdealChannelPopulation = 100 ∧
      demoBoard3.population 0 = 1 ∧ demoBoard3.population 1 = 2 ∧
      (FindRecommendedChannel BbsEnv.demo demoBoard3).m_RecommendedChannel = 1 ∧
      BbsEnv.tight.m_BbsIdealChannelPopulation = 1 ∧
      demoBoardGap.population 0 = 2 ∧ demoBoardGap.population 1 = 0 ∧
      demoBoardGap.population 2 = 1 ∧
      (FindRecommendedChannel BbsEnv.tight demoBoardGap).m_RecommendedChannel = 2 := by
  decide

/-- C26 (amended): with fewer than `2^32` stored messages, the channels being
32-bit numbers, `FindRecommendedChannel` looks at channel 0 and at the channels
that hold a message.  When one of these has a population of at most the ideal
`P`, it sets `RecommendedChannel` to the one of them that has the greatest
population among those of at most `P`, the smallest channel where several have
that population; when none of them has, it sets it to the smallest channel
number with no stored message. -/
theorem FindRecommendedChannel_greatest (B : BbsEnv) (b : Bbs)
    (hlen : b.table.length < 2 ^ 32) (hch : ∀ d ∈ b.table, d.m_Channel < 2 ^ 32) :
    (∀ c, b.scanned c → b.population c ≤ B.m_BbsIdealChannelPopulation →
      b.scanned (FindRecommendedChannel B b).m_RecommendedChannel ∧
      b.population (FindRecommendedChannel B b).m_RecommendedChannel ≤
        B.m_BbsIdealChannelPopulation ∧
      (b.population c < b.population (FindRecommendedChannel B b).m_RecommendedChannel ∨
        (b.population c = b.population (FindRecommendedChannel B b).m_RecommendedChannel ∧
          (FindRecommendedChannel B b).m_RecommendedChannel ≤ c))) ∧
    ((∀ c, b.scanned c → B.m_BbsIdealChannelPopulation < b.population c) →
      b.population (FindRecommendedChannel B b).m_RecommendedChannel = 0 ∧
      ∀ c, c < (FindRecommendedChannel B b).m_RecommendedChannel → 1 ≤ b.population c) := by
  have hsorted : (EnumAllBbs b).Pairwise (fun x y => x.m_Channel ≤ y.m_Channel) :=
    @List.sorted_insertionSort BbsData (fun x y => x.m_Channel ≤ y.m_Channel) _
      ⟨fun x y => Nat.le_total x.m_Channel y.m_Channel⟩
      ⟨fun _ _ _ hxy hyz => Nat.le_trans hxy hyz⟩ b.table
  have hperm : (EnumAllBbs b).Perm b.table := List.perm_insertionSort _ _
  obtain ⟨m, hm, hm0, hfound, hS⟩ := channelLoop_inv B.m_BbsIdealChannelPopulation (EnumAllBbs b) []
    B.wlkChannel ⟨0, 0, 0, false, b.m_RecommendedChannel⟩ hsorted
    (fun x hx => by cases hx) (by rw [List.nil_append, hperm.length_eq]; exact hlen)
    (fun d hd => hch d (hperm.subset hd)) (show (0 : Nat) < 2 ^ 32 by decide) rfl (fun d hd => by cases hd) (Or.inl rfl)
    ⟨fun _ c hc => absurd hc (Nat.not_lt_zero c), fun hb => by cases hb⟩
    (fun h => absurd rfl h)
  rw [List.nil_append] at hm hS
  have hR : (FindRecommendedChannel B b).m_RecommendedChannel =
      (channelLoop B.m_BbsIdealChannelPopulation (EnumAllBbs b) B.wlkChannel
        ⟨0, 0, 0, false, b.m_RecommendedChannel⟩).m_RecommendedChannel := rfl
  rw [hR]
  generalize channelLoop B.m_BbsIdealChannelPopulation (EnumAllBbs b) B.wlkChannel
    ⟨0, 0, 0, false, b.m_RecommendedChannel⟩ = stf at hfound hS
  have hpop : ∀ c, channelCount (EnumAllBbs b) c = b.population c := channelCount_EnumAllBbs b
  have hhigh : ∀ c, m ≤ c → ¬ b.scanned c := by
    intro c hc hsc
    have hz : channelCount (EnumAllBbs b) c = 0 :=
      channelCount_zero (n := m - 1)
        (fun d hd => by have := hm d hd; (unfold Channel at *; omega)) c
        (by (unfold Channel at *; omega))
    rw [hpop] at hz
    rcases hsc with hsc | hsc <;> (unfold Channel at *; omega)
  unfold ScanInv at hS
  simp only [hpop] at hS
  rcases hS.2 hfound with hA | hB
  · obtain ⟨hA1, hA2, hA3, hA4, hA5⟩ := hA
    refine ⟨fun c hsc hcle => ⟨hA2, by rw [hA3]; exact hA4, ?_⟩, fun hall => ?_⟩
    · rw [hA3]
      exact hA5 c (by by_contra hcm; exact hhigh c (by (unfold Channel at *; omega)) hsc) hsc hcle
    · have := hall _ hA2
      omega
  · obtain ⟨hB1, hB2, hB3, hB4, hB5⟩ := hB
    refine ⟨fun c hsc hcle => ?_, fun _ => ⟨hB3, fun c hc => ?_⟩⟩
    · have := hB5 c (by by_contra hcm; exact hhigh c (by (unfold Channel at *; omega)) hsc) hsc
      omega
    · have := hB4 c hc
      omega

theorem FindRecommendedChannel_greatest_witness :
    (demoBoard3.table.length < 2 ^ 32 ∧ ∀ d ∈ demoBoard3.table, d.m_Channel < 2 ^ 32) ∧
      demoBoard3.scanned 0 ∧ demoBoard3.population 0 = 1 ∧
      (FindRecommendedChannel BbsEnv.demo demoBoard3).m_RecommendedChannel = 1 ∧
      demoBoard3.population (FindRecommendedChannel BbsEnv.demo demoBoard3).m_RecommendedChannel
        ≤ BbsEnv.demo.m_BbsIdealChannelPopulation ∧
      (demoBoard3.population 0 <
          demoBoard3.population
            (FindRecommendedChannel BbsEnv.demo demoBoard3).m_RecommendedChannel ∨
        (demoBoard3.population 0 =
            demoBoard3.population
              (FindRecommendedChannel BbsEnv.demo demoBoard3).m_RecommendedChannel ∧
          (FindRecommendedChannel BbsEnv.demo demoBoard3).m_RecommendedChannel ≤ 0)) :=
  ⟨⟨by decide, by decide⟩, Or.inl rfl, by decide, by decide,
    ((FindRecommendedChannel_greatest BbsEnv.demo demoBoard3 (by decide) (by decide)).1 0
      (Or.inl rfl) (by decide)).2⟩

/-! ## A peer that was eligible before the deletion -/

theorem demoMixed_reachable : Reachable Env.demo demoMixed :=
  reachable_runOps 4 demoMixedOps _ _ demoPeer_reachable rfl

/-- C6 fails as stated: peer 1 holds the block task `(3, 33)` and, taken as the
preferred peer, the header task `(4, 44)`, which is relevant; peer 2 satisfies
`ShouldAssignTask` for the header task.  `DeleteSelf` on peer 1 releases the
block first, which goes to peer 2; the header is offered next, peer 2 now
transfers a block and is not eligible any more, and the header ends in the
unassigned queue with no owner, peer 2 being still there. -/
theorem eligible_peer_left_out :
    Reachable Env.demo demoMixed ∧
      (demoMixed.peerAt 1).m_lstTasks = [⟨⟨3, 33⟩, true⟩, ⟨⟨4, 44⟩, false⟩] ∧
      (demoMixed.taskAt ⟨⟨4, 44⟩, false⟩).m_bRelevant = true ∧
      2 ∈ demoMixed.m_lstPeers ∧
      ShouldAssignTask Env.demo demoMixed ⟨⟨4, 44⟩, false⟩ 2 = true ∧
      (match DeleteSelf Env.demo 6 demoMixed 1 false none with
        | .ok s' =>
          decide ((⟨⟨4, 44⟩, false⟩ : TaskKey) ∈ s'.m_lstTasksUnassigned ∧
            (s'.taskAt ⟨⟨4, 44⟩, false⟩).m_pOwner = none ∧ s'.m_lstPeers = [2] ∧
            (s'.peerAt 2).m_lstTasks = [⟨⟨3, 33⟩, true⟩] ∧
            ShouldAssignTask Env.demo s' ⟨⟨4, 44⟩, false⟩ 2 = false)
        | _ => false) = true :=
  ⟨demoMixed_reachable, by decide, by decide, by decide, by decide, by decide⟩

end Beam
